import Mathlib

/-! Shallow embedding of the TCEC cutechess core.

Three parts of the repository are embedded:

* `KnockoutTournament` (`projects/lib/src/knockouttournament.cpp`): the bracket scheduler;
* `PgnGame` (`projects/lib/src/pgngame.cpp`): the incremental record writer;
* `ChessGame` (`projects/lib/src/chessgame.cpp`): the per-match orchestration.

Conventions of the embedding.

* C++ `int` values are integers.  The counters of the scheduler are bounded by twice the
  number of players, which is far below `2^30` for any roster, and move numbers and line
  lengths are bounded by the length of the game.  Where an `int` value is computed from values
  that a caller chooses freely (a reported score, a configured book depth, the score of an
  evaluation), the arithmetic is that of a 32-bit `int`: the result is `MachineInt.wrap32` of
  the mathematical result.
* A member function becomes a function from the object state to the new state (and the returned
  value).  A call whose behaviour is undefined in C++ (`QList::last()` on an empty list,
  `QList::at` out of range) yields `none`, and so does a failed `Q_ASSERT`.
* Loops become structural recursion on a fuel argument; for each loop it is proved that the
  fuel handed to it is never exhausted.
-/

namespace MachineInt

/-- The value of an `int` expression whose mathematical value is `x`: the representative of
`x` modulo `2 ^ 32` in the range of a 32-bit `int`. -/
def wrap32 (x : Int) : Int :=
  (x + 2 ^ 31) % 2 ^ 32 - 2 ^ 31

end MachineInt

namespace Knockout

/-! ## Data model of `KnockoutTournament` -/

/-- A slot of a pairing: `struct KnockoutPlayer { int index; int score; }`.  The index `-1`
marks the missing opponent of a bye. -/
structure KnockoutPlayer where
  index : Int
  score : Int
deriving DecidableEq, Repr

/-- A pairing: `typedef QPair<KnockoutPlayer, KnockoutPlayer> Pair`. -/
abbrev Pair := KnockoutPlayer × KnockoutPlayer

/-- The state of a `KnockoutTournament`: the two members `m_rounds` and `m_currentPair`
together with the two values of the `Tournament` base class that the scheduler reads or
writes, `playerCount()` and `currentRound()`. -/
structure KnockoutTournament where
  playerCount : Nat
  currentRound : Int
  m_currentPair : Int
  m_rounds : List (List Pair)
deriving DecidableEq, Repr

/-- The loop `while (x < playerCount()) x *= 2;` with at most `fuel` iterations. -/
def doubleLoop (playerCount : Nat) : Nat → Nat → Nat
  | 0, x => x
  | fuel + 1, x => if x < playerCount then doubleLoop playerCount fuel (x * 2) else x

/-- The value of `x` after `int x = 1; while (x < playerCount()) x *= 2;`. -/
def bracketSize (playerCount : Nat) : Nat :=
  doubleLoop playerCount playerCount 1

/-- The bye built in the first loop of `initializePairing`. -/
def byePair (player : Int) : Pair :=
  ({ index := player, score := 0 }, { index := -1, score := 0 })

/-- The pairing built in the second loop of `initializePairing`. -/
def matchPair (i : Int) : Pair :=
  ({ index := i, score := 0 }, { index := i + 1, score := 0 })

/-- The loop `for (int i = 0; i < (x - playerCount()); i++)` of `initializePairing`: each
iteration appends a bye for `player` and increments `player`.  The state of the loop is
`(player, pairs)`. -/
def byeLoop (count : Nat) : Nat × List Pair :=
  (List.range count).foldl
    (fun st _ => (st.1 + 1, st.2 ++ [byePair (st.1 : Int)])) (0, [])

/-- The loop `for (int i = player; i < playerCount(); i += 2)` of `initializePairing`, with at
most `fuel` iterations. -/
def pairLoop (playerCount : Nat) : Nat → Nat → List Pair → List Pair
  | 0, _, pairs => pairs
  | fuel + 1, i, pairs =>
    if i < playerCount then pairLoop playerCount fuel (i + 2) (pairs ++ [matchPair (i : Int)])
    else pairs

/-- The list `pairs` built by `initializePairing`. -/
def firstRound (playerCount : Nat) : List Pair :=
  let x := bracketSize playerCount
  let st := byeLoop (x - playerCount)
  pairLoop playerCount playerCount st.1 st.2

/-- Embeds `KnockoutTournament::initializePairing`.  The statement `m_playerScore.clear()` touches a
member that no embedded function reads. -/
def initializePairing (t : KnockoutTournament) : KnockoutTournament :=
  { t with m_currentPair := 0, m_rounds := [firstRound t.playerCount] }

/-- The loop `while (round >= 2) { round /= 2; total += round; }` of `gamesPerCycle`, with at
most `fuel` iterations; the result is the final `total`. -/
def halveLoop : Nat → Nat → Int → Int
  | 0, _, total => total
  | fuel + 1, round, total =>
    if round ≥ 2 then halveLoop fuel (round / 2) (total + ((round / 2 : Nat) : Int)) else total

/-- Embeds `KnockoutTournament::gamesPerCycle`. -/
def gamesPerCycle (playerCount : Nat) : Int :=
  let x := bracketSize playerCount
  let round := x / 2
  let total : Int := (round : Int) - ((x : Int) - (playerCount : Int))
  halveLoop round round total

/-- The loop of `addScore` over the pairings of the last round: the first slot whose index is
`player` (first slot of a pairing before its second slot) receives `score`, then the loop
breaks.  The addition `score += score` is that of a 32-bit `int`. -/
def addScoreLoop (player score : Int) : List Pair → List Pair
  | [] => []
  | p :: rest =>
    if p.1.index = player then
      ({ p.1 with score := MachineInt.wrap32 (p.1.score + score) }, p.2) :: rest
    else if p.2.index = player then
      (p.1, { p.2 with score := MachineInt.wrap32 (p.2.score + score) }) :: rest
    else p :: addScoreLoop player score rest

/-- Embeds `KnockoutTournament::addScore`.  The closing call `Tournament::addScore(player, score)`
only updates the ledger of the base class, which is not part of this state. -/
def addScore (player score : Int) (t : KnockoutTournament) : Option KnockoutTournament :=
  match t.m_rounds.getLast? with
  | none => none
  | some lastRound =>
    some { t with m_rounds := t.m_rounds.dropLast ++ [addScoreLoop player score lastRound] }

/-- The body of the loop of `lastRoundWinners`: the winner of one pairing. -/
def winnerOf (p : Pair) : KnockoutPlayer :=
  { index :=
      if p.2.index = -1 then p.1.index
      else if p.1.score ≥ p.2.score then p.1.index
      else p.2.index,
    score := 0 }

/-- Embeds `KnockoutTournament::lastRoundWinners`. -/
def lastRoundWinners (t : KnockoutTournament) : Option (List KnockoutPlayer) :=
  match t.m_rounds.getLast? with
  | none => none
  | some lastRound => some (lastRound.map winnerOf)

/-- The loop `for (int i = 0; i < winners.count(); i += 2) nextRound << qMakePair(winners.at(i),
winners.at(i + 1));` of `nextPair`.  With an odd number of winners `winners.at(i + 1)` is out
of range. -/
def pairWinners : List KnockoutPlayer → Option (List Pair)
  | [] => some []
  | [_] => none
  | a :: b :: rest =>
    match pairWinners rest with
    | none => none
    | some nextRound => some ((a, b) :: nextRound)

/-- The block `// Start new round` of `nextPair`, entered when the cursor has exhausted the last
round and no game is in progress. -/
def startNewRound (t : KnockoutTournament) : Option KnockoutTournament :=
  match lastRoundWinners t with
  | none => none
  | some winners =>
    if winners.length > 1 then
      match pairWinners winners with
      | none => none
      | some nextRound =>
        some { t with
          m_rounds := t.m_rounds ++ [nextRound],
          m_currentPair := 0,
          currentRound := t.currentRound + 1 }
    else none

/-- The expression `m_rounds.last().at(m_currentPair++)`: the pairing under the cursor and the
state with the advanced cursor. -/
def takePair (t : KnockoutTournament) : Option (Pair × KnockoutTournament) :=
  match t.m_rounds.getLast? with
  | none => none
  | some lastRound =>
    if 0 ≤ t.m_currentPair then
      match lastRound[t.m_currentPair.toNat]? with
      | none => none
      | some pair => some (pair, { t with m_currentPair := t.m_currentPair + 1 })
    else none

/-- Embeds `KnockoutTournament::nextPair` with at most `fuel` nested calls; `gamesInProgress` is the
value of `Tournament::gamesInProgress()`, which `nextPair` does not change. -/
def nextPairFuel (gamesInProgress : Int) :
    Nat → KnockoutTournament → Option ((Int × Int) × KnockoutTournament)
  | 0, _ => none
  | fuel + 1, t =>
    match t.m_rounds.getLast? with
    | none => none
    | some lastRound =>
      if t.m_currentPair ≥ (lastRound.length : Int) then
        if gamesInProgress > 0 then some ((-1, -1), t)
        else
          match startNewRound t with
          | none => none
          | some t1 =>
            match takePair t1 with
            | none => none
            | some (pair, t2) =>
              if pair.2.index = -1 then nextPairFuel gamesInProgress fuel t2
              else some ((pair.1.index, pair.2.index), t2)
      else
        match takePair t with
        | none => none
        | some (pair, t2) =>
          if pair.2.index = -1 then nextPairFuel gamesInProgress fuel t2
          else some ((pair.1.index, pair.2.index), t2)

/-- The number of nested calls granted to `nextPair`: each nested call follows a skipped bye,
and a round of `n` pairings is followed by rounds of at most `n / 2`, `n / 4`, ... pairings. -/
def nextPairBudget (t : KnockoutTournament) : Nat :=
  2 * (t.m_rounds.getLast?.getD []).length + 2

/-- Embeds `KnockoutTournament::nextPair`. -/
def nextPair (gamesInProgress : Int) (t : KnockoutTournament) :
    Option ((Int × Int) × KnockoutTournament) :=
  nextPairFuel gamesInProgress (nextPairBudget t) t

/-- A tournament object on which `initializePairing` has been called, for `n` players. -/
def newTournament (n : Nat) : KnockoutTournament :=
  initializePairing { playerCount := n, currentRound := 0, m_currentPair := -1, m_rounds := [] }

/-! ## Driving a tournament -/

/-- A call the tournament driver makes on the scheduler. -/
inductive Call where
  | addScore (player score : Int)
  | nextPair (gamesInProgress : Int)
deriving DecidableEq, Repr

/-- Runs a sequence of calls on the scheduler and collects, in order, the pairs that the
`nextPair` calls return.  The run is undefined as soon as one call is. -/
def drive : List Call → KnockoutTournament → Option (KnockoutTournament × List (Int × Int))
  | [], t => some (t, [])
  | Call.addScore player score :: rest, t =>
    match addScore player score t with
    | none => none
    | some t1 => drive rest t1
  | Call.nextPair g :: rest, t =>
    match nextPair g t with
    | none => none
    | some (r, t1) =>
      match drive rest t1 with
      | none => none
      | some (t2, out) => some (t2, r :: out)

/-- The number of pairs in `out` other than the sentinel `(-1, -1)`. -/
def realPairs (out : List (Int × Int)) : Nat :=
  out.countP (fun r => decide (r ≠ (-1, -1)))

/-- The final has been handed out: the last round has a single pairing and the cursor is
past it. -/
def finalHandedOut (t : KnockoutTournament) : Prop :=
  ∃ lastRound : List Pair,
    t.m_rounds.getLast? = some lastRound ∧ lastRound.length = 1 ∧ t.m_currentPair ≥ 1

/-- The number of pairings of `l` that are not byes. -/
def realCount (l : List Pair) : Nat :=
  l.countP (fun p => decide (p.2.index ≠ -1))

/-- The invariant of a running bracket for `n` players after `c` pairs have been handed out:
the last round has `2 ^ k` pairings, the cursor is inside it, no first slot is empty, the last
pairing of the round is not a bye, and the pairings still to be handed out in this round and
in the `k` rounds that follow it add up to `n - 1 - c`. -/
def Running (n : Nat) (t : KnockoutTournament) (c : Nat) : Prop :=
  ∃ (rs : List (List Pair)) (lastRound : List Pair) (k cur : Nat),
    t.m_rounds = rs ++ [lastRound] ∧
    t.m_currentPair = (cur : Int) ∧
    cur ≤ lastRound.length ∧
    lastRound.length = 2 ^ k ∧
    (∀ p ∈ lastRound, p.1.index ≠ -1) ∧
    (∀ p, lastRound.getLast? = some p → p.2.index ≠ -1) ∧
    c + realCount (lastRound.drop cur) + 2 ^ k = n

/-- The total score reported for `player` by a list of `addScore (player, score)` calls. -/
def reported (player : Int) (scores : List (Int × Int)) : Int :=
  ((scores.filter (fun ps => decide (ps.1 = player))).map (fun ps => ps.2)).sum

/-- The calls `addScore(player, score)` for a list of `(player, score)` reports. -/
def scoreCalls (scores : List (Int × Int)) : List Call :=
  scores.map (fun ps => Call.addScore ps.1 ps.2)

/-- The slot of the pairing that `addScore (player, score)` credits, credited: the first slot
if it holds `player`, the second slot otherwise. -/
def credit (player score : Int) (p : Pair) : Pair :=
  if p.1.index = player then ({ p.1 with score := MachineInt.wrap32 (p.1.score + score) }, p.2)
  else (p.1, { p.2 with score := MachineInt.wrap32 (p.2.score + score) })

/-- The competitor indices held by the slots of a round, in slot order; the empty slot of a
bye holds none. -/
def slots (round : List Pair) : List Int :=
  round.flatMap (fun p => if p.2.index = -1 then [p.1.index] else [p.1.index, p.2.index])

/-- Every slot of the last round holds a competitor of the roster of `n` players, and no
competitor sits in two slots. -/
def Seated (n : Nat) (t : KnockoutTournament) : Prop :=
  ∃ (rs : List (List Pair)) (lastRound : List Pair),
    t.m_rounds = rs ++ [lastRound] ∧ (slots lastRound).Nodup ∧
    ∀ x ∈ slots lastRound, 0 ≤ x ∧ x < (n : Int)

/-- The indices held by the two slots of every pairing of a round, in slot order, the bye
sentinel `-1` included. -/
def allSlots (round : List Pair) : List Int :=
  round.flatMap (fun p => [p.1.index, p.2.index])

/-- The invariant of the list of rounds of a bracket for `n` players: the first round holds
the indices that `initializePairing` gave it; round `r` (0-based) has `P / 2 ^ (r + 1)`
pairings, stated without division; and in every later round no second slot is empty, no
competitor sits in two slots and every slot holds a competitor of the roster. -/
def Bracket (n : Nat) (t : KnockoutTournament) : Prop :=
  (∃ round0 : List Pair, t.m_rounds[0]? = some round0 ∧
    round0.map (fun p => (p.1.index, p.2.index)) =
      (firstRound n).map (fun p => (p.1.index, p.2.index))) ∧
  ∀ (r : Nat) (round : List Pair), t.m_rounds[r]? = some round →
    round.length * 2 ^ (r + 1) = bracketSize n ∧
    (1 ≤ r → (∀ p ∈ round, p.2.index ≠ -1) ∧ (slots round).Nodup ∧
      ∀ x ∈ slots round, 0 ≤ x ∧ x < (n : Int))

end Knockout

namespace Pgn

/-! ## Data model of `PgnGame`

Text is a list of characters: one `Char` stands for one code unit of a `QString` and, in a
file, for one byte of the encoded text (the PGN export format is 7-bit ASCII). -/

/-- A `QString`. -/
abbrev QString := List Char

/-- Embeds `Chess::Side::Type`, with the integer values `White = 0`, `Black = 1`, `NoSide = 2`. -/
inductive Side where
  | White
  | Black
  | NoSide
deriving DecidableEq, Repr

/-- The conversion of a `Chess::Side` to `int`. -/
def Side.toInt : Side → Nat
  | Side.White => 0
  | Side.Black => 1
  | Side.NoSide => 2

/-- Embeds `Chess::Side::opposite`. -/
def Side.opposite : Side → Side
  | Side.White => Side.Black
  | Side.Black => Side.White
  | Side.NoSide => Side.NoSide

/-- A `Chess::GenericMove`; its representation plays no role in the embedded code. -/
abbrev GenericMove := Nat

/-- Embeds `PgnGame::MoveData`. -/
structure MoveData where
  key : Nat
  move : GenericMove
  moveString : QString
  comment : QString
deriving DecidableEq, Repr

/-- Embeds `PgnGame::PgnMode`. -/
inductive PgnMode where
  | Minimal
  | Verbose
deriving DecidableEq, Repr

/-- Embeds `Chess::Result::Type`. -/
inductive ResultType where
  | Win
  | Draw
  | Resignation
  | Timeout
  | Adjudication
  | IllegalMove
  | Disconnection
  | StalledConnection
  | Agreement
  | NoResult
  | ResultError
deriving DecidableEq, Repr

/-- A `Chess::Result`: its type, its winner and its description. -/
structure Result where
  type : ResultType
  winner : Side
  description : QString
deriving DecidableEq, Repr

/-- The order of `QString` keys in a `QMap`: lexicographic by code unit. -/
def qLess : QString → QString → Bool
  | [], [] => false
  | [], _ :: _ => true
  | _ :: _, [] => false
  | x :: xs, y :: ys =>
    if x.toNat < y.toNat then true
    else if y.toNat < x.toNat then false
    else qLess xs ys

/-- A `QMap<QString, QString>`: the entries in ascending key order, which is the order of
iteration from `constBegin()` to `constEnd()`. -/
abbrev QMap := List (QString × QString)

/-- Embeds `QMap::contains`. -/
def QMap.contains (m : QMap) (key : QString) : Bool :=
  m.any (fun kv => decide (kv.1 = key))

/-- Embeds `QMap::value`: the stored value, or the empty string for a missing key. -/
def QMap.value : QMap → QString → QString
  | [], _ => []
  | kv :: rest, key => if kv.1 = key then kv.2 else QMap.value rest key

/-- The assignment `m[key] = value`: replaces the value of an existing key or inserts the
entry at its place in the key order. -/
def QMap.insert : QMap → QString → QString → QMap
  | [], key, value => [(key, value)]
  | kv :: rest, key, value =>
    if kv.1 = key then (key, value) :: rest
    else if qLess key kv.1 then (key, value) :: kv :: rest
    else kv :: QMap.insert rest key value

/-- Embeds `QMap::remove`. -/
def QMap.remove (m : QMap) (key : QString) : QMap :=
  m.filter (fun kv => !decide (kv.1 = key))

/-- The read access `m[key]` on a non-const map: a missing key is inserted with an empty
value.  The result is the map after the access. -/
def QMap.touch (m : QMap) (key : QString) : QMap :=
  if m.contains key then m else m.insert key []

/-- The state of a `PgnGame`.  The members `m_tagReceiver`, `m_gameStartTime` and
`m_gameDuration` are left out: no embedded function reads them. -/
structure PgnGame where
  m_startingSide : Side
  m_tags : QMap
  m_moves : List MoveData
  m_initialComment : QString
  m_key : Nat
  m_tag_changed : Bool
  m_last_move : Nat
  m_last_result : QString
deriving DecidableEq, Repr

/-- Embeds `PgnGame::resetCursor`. -/
def resetCursor (g : PgnGame) : PgnGame :=
  { g with m_tag_changed := true, m_last_move := 0, m_last_result := [] }

/-- Embeds `PgnGame::clear`. -/
def clear (g : PgnGame) : PgnGame :=
  resetCursor { g with m_startingSide := Side.NoSide, m_tags := [], m_moves := [] }

/-- The seven tag roster of `PgnGame::tags`. -/
def roster : List QString :=
  ["Event".toList, "Site".toList, "Date".toList, "Round".toList, "White".toList,
   "Black".toList, "Result".toList]

/-- Embeds `PgnGame::tags`. -/
def tags (g : PgnGame) : List (QString × QString) :=
  roster.map (fun tag =>
      let value := g.m_tags.value tag
      (tag, if value.isEmpty then ['?'] else value)) ++
    g.m_tags.filter (fun kv => !roster.contains kv.1 && !kv.2.isEmpty)

/-- Embeds `PgnGame::setTag`.  The notification of `m_tagReceiver` is not part of the state. -/
def setTag (tag value : QString) (g : PgnGame) : PgnGame :=
  let prev := g.m_tags.value tag
  let touched := g.m_tags.touch tag
  if value.isEmpty then
    let g1 := { g with m_tags := touched.remove tag }
    if prev.length ≠ 0 then resetCursor g1 else g1
  else
    let g1 := { g with m_tags := touched.insert tag value }
    if value ≠ prev then resetCursor g1 else g1

/-- Embeds `QString::toLower`, on the letters `A` to `Z`.  It is only used to compare a variant name
with `chess`, `normal` and `standard`; no other character is mapped to a letter of these
words. -/
def toLower (s : QString) : QString :=
  s.map Char.toLower

/-- Embeds `PgnGame::variant`. -/
def variant (g : PgnGame) : QString :=
  if g.m_tags.contains "Variant".toList then
    let v := toLower (g.m_tags.value "Variant".toList)
    if "chess".toList ≠ v ∧ "normal".toList ≠ v then v else "standard".toList
  else "standard".toList

/-- Embeds `PgnGame::isStandard`. -/
def isStandard (g : PgnGame) : Bool :=
  decide (variant g = "standard".toList) && !g.m_tags.contains "FEN".toList

/-- An entry of the ECO catalogue, `EcoNode`. -/
structure EcoNode where
  ecoCode : QString
  opening : QString
  variation : QString
deriving DecidableEq, Repr

/-- Embeds `PgnGame::addMove`; `ecoFind` is the catalogue lookup `EcoNode::find`. -/
def addMove (ecoFind : Nat → Option EcoNode) (data : MoveData) (key : Nat) (addEco : Bool)
    (g : PgnGame) : PgnGame :=
  let g1 := { g with m_moves := g.m_moves ++ [data], m_key := key }
  if addEco && isStandard g1 then
    match ecoFind key with
    | some eco =>
      setTag "Variation".toList eco.variation
        (setTag "Opening".toList eco.opening (setTag "ECO".toList eco.ecoCode g1))
    | none => g1
  else g1

/-- Embeds `PgnGame::setMove`: the assignment `m_moves[ply] = data`.  The index operator of
`QVector` asserts that `ply` is inside the list; outside of it the call is undefined. -/
def setMove (ply : Int) (data : MoveData) (g : PgnGame) : Option PgnGame :=
  if 0 ≤ ply ∧ ply < (g.m_moves.length : Int) then
    some { g with m_moves := g.m_moves.set ply.toNat data }
  else none

/-- The tag of `PgnGame::setResult` for the type of a result. -/
def terminationOf : ResultType → QString
  | ResultType.Adjudication => "adjudication".toList
  | ResultType.Timeout => "time forfeit".toList
  | ResultType.Disconnection => "abandoned".toList
  | ResultType.StalledConnection => "stalled connection".toList
  | ResultType.IllegalMove => "illegal move".toList
  | ResultType.NoResult => "unterminated".toList
  | _ => []

/-- Embeds `PgnGame::setResult`; `toShortString` is `Chess::Result::toShortString`. -/
def setResult (toShortString : Result → QString) (result : Result) (g : PgnGame) : PgnGame :=
  setTag "Termination".toList (terminationOf result.type)
    (setTag "Result".toList (toShortString result) g)

/-- Embeds `PgnGame::setResultDescription`. -/
def setResultDescription (description : QString) (g : PgnGame) : PgnGame :=
  if description.isEmpty then g
  else
    match g.m_moves.getLast? with
    | none => { g with m_initialComment := description }
    | some last =>
      let comment :=
        if last.comment.isEmpty then last.comment
        else (if last.comment.getLast? ≠ some ',' then last.comment ++ [','] else last.comment)
          ++ [' ']
      { g with m_moves :=
          g.m_moves.dropLast ++ [{ last with comment := comment ++ description }] }

/-- The function `writeTag` of the anonymous namespace: the text it sends to the stream. -/
def writeTag (tag value : QString) : QString :=
  if !value.isEmpty then ['['] ++ tag ++ " \"".toList ++ value ++ "\"]\n".toList
  else ['['] ++ tag ++ " \"?\"]\n".toList

/-- Step 1 of `PgnGame::write(QTextStream&, PgnMode)`, run when `m_tag_changed` is set: the
tag block sent to the stream. -/
def tagBlock (g : PgnGame) (mode : PgnMode) : QString :=
  let tags := tags g
  let maxTags := if mode = PgnMode.Verbose then tags.length else 7
  ((tags.take maxTags).map (fun tv => writeTag tv.1 tv.2)).flatten ++
  (if mode = PgnMode.Minimal ∧ g.m_tags.contains "FEN".toList then
     writeTag "FEN".toList (g.m_tags.value "FEN".toList) ++
     writeTag "SetUp".toList (g.m_tags.value "SetUp".toList)
   else []) ++
  (if mode = PgnMode.Minimal ∧ g.m_tags.contains "Variant".toList ∧
      variant g ≠ "standard".toList then
     writeTag "Variant".toList (g.m_tags.value "Variant".toList)
   else [])

/-- Step 1 of `write`: the tag map after the accesses `m_tags["FEN"]`, `m_tags["SetUp"]` and
`m_tags["Variant"]`, of which only `m_tags["SetUp"]` can meet a missing key. -/
def tagsAfterBlock (g : PgnGame) (mode : PgnMode) : QMap :=
  if mode = PgnMode.Minimal ∧ g.m_tags.contains "FEN".toList then
    g.m_tags.touch "SetUp".toList
  else g.m_tags

/-- The statement `side = !side` on the `int side`. -/
def flipSide (side : Nat) : Nat :=
  if side = 0 then 1 else 0

/-- Whether the ply at index `i` with `side` to move carries a move number: the two tests
`i == 0 && side == Chess::Side::Black` and `side == Chess::Side::White`. -/
def numbered (i side : Nat) : Bool :=
  (i == 0 && side == 1) || side == 0

/-- The loop `// skip moves` of `write`: `movenum` and `side` after `count` plies starting at
ply `i`. -/
def skipMoves : Nat → Nat → Nat → Nat → Nat × Nat
  | 0, _, movenum, side => (movenum, side)
  | count + 1, i, movenum, side =>
    skipMoves count (i + 1) (if numbered i side then movenum + 1 else movenum) (flipSide side)

/-- Embeds `QString::number` of a non-negative `int`. -/
def number (n : Nat) : QString :=
  (toString n).toList

/-- The string `str` built for one ply in the loop `// 3)` of `write`; `movenum` is the value
before the ply. -/
def moveText (mode : PgnMode) (i movenum side : Nat) (data : MoveData) : QString :=
  (if i = 0 ∧ side = 1 then number (movenum + 1) ++ "... ".toList
   else if side = 0 then number (movenum + 1) ++ ". ".toList
   else []) ++
  data.moveString ++
  (if mode = PgnMode.Verbose ∧ !data.comment.isEmpty then
     [' ', '{'] ++ data.comment ++ ['}']
   else [])

/-- The loop `// 3)` of `write` over the moves that are still to be written, starting at ply
`i`: the text sent to the stream and the final `lineLength`. -/
def writeMoves (mode : PgnMode) :
    List MoveData → Nat → Nat → Nat → Nat → QString → QString × Nat
  | [], _, _, _, lineLength, out => (out, lineLength)
  | data :: rest, i, movenum, side, lineLength, out =>
    let str := moveText mode i movenum side data
    let movenum1 := if numbered i side then movenum + 1 else movenum
    if lineLength = 0 ∨ lineLength + str.length ≥ 80 then
      writeMoves mode rest (i + 1) movenum1 (flipSide side) str.length (out ++ ['\n'] ++ str)
    else
      writeMoves mode rest (i + 1) movenum1 (flipSide side) (lineLength + str.length + 1)
        (out ++ [' '] ++ str)

/-- Embeds `PgnGame::write(QTextStream&, PgnMode)`.  `out` is the text the stream has received so
far and `streamOk` tells whether the stream ends in the state `QTextStream::Ok`.  The result
is the returned flag, the record and the text of the stream. -/
def write (streamOk : Bool) (g : PgnGame) (out : QString) (mode : PgnMode) :
    Bool × PgnGame × QString :=
  if g.m_tags.isEmpty then (false, g, out)
  else
    let out1 := if g.m_tag_changed then out ++ tagBlock g mode else out
    let tags1 := if g.m_tag_changed then tagsAfterBlock g mode else g.m_tags
    let out2 :=
      if g.m_last_move = 0 ∧ !g.m_initialComment.isEmpty then
        out1 ++ ['\n'] ++ ['{'] ++ g.m_initialComment ++ ['}']
      else out1
    let st := skipMoves g.m_last_move 0 0 g.m_startingSide.toInt
    let res := writeMoves mode (g.m_moves.drop g.m_last_move) g.m_last_move st.1 st.2 0 out2
    let last_result := tags1.value "Result".toList
    let out3 :=
      if res.2 + last_result.length ≥ 80 then res.1 ++ ['\n'] ++ last_result ++ ['\n', '\n']
      else res.1 ++ [' '] ++ last_result ++ ['\n', '\n']
    (streamOk,
     { g with m_tags := tags1, m_tag_changed := false, m_last_move := g.m_moves.length,
              m_last_result := last_result },
     out3)

/-- Embeds `QFile::resize` to at most the present size. -/
def resize (file : QString) (size : Nat) : QString :=
  file.take size

/-- Embeds `PgnGame::write(const QString&, int, PgnMode)` on a file with the content `file`.
`canOpen` tells whether `QFile::open` succeeds.  The result is the returned flag, the record
and the content of the file. -/
def writeFile (canOpen streamOk : Bool) (g : PgnGame) (file : QString) (reset_flag : Nat)
    (mode : PgnMode) : Bool × PgnGame × QString :=
  if !canOpen then (false, g, file)
  else
    let g1 := if reset_flag &&& 1 ≠ 0 then resetCursor g else g
    if g1.m_tag_changed then
      write streamOk g1 (if reset_flag &&& 2 ≠ 0 then resize file 0 else file) mode
    else if g1.m_last_result = ['*'] then
      write streamOk { g1 with m_last_result := [] }
        (resize file (if file.length > 4 then file.length - 4 else 0)) mode
    else write streamOk g1 file mode

/-! ## Commit scenarios -/

/-- Adds the moves to the record, in order, by `addMove` without ECO lookup: no tag changes. -/
def addMoves (moves : List (MoveData × Nat)) (g : PgnGame) : PgnGame :=
  moves.foldl (fun g1 dk => addMove (fun _ => none) dk.1 dk.2 false g1) g

/-- Incremental persistence: after every added move the record is committed to the same
file with `write(filename, reset_flag, mode)`; opening and writing succeed. -/
def commitEachMove (reset_flag : Nat) (mode : PgnMode) :
    List (MoveData × Nat) → PgnGame → QString → PgnGame × QString
  | [], g, file => (g, file)
  | dk :: rest, g, file =>
    let r := writeFile true true (addMove (fun _ => none) dk.1 dk.2 false g) file reset_flag mode
    commitEachMove reset_flag mode rest r.2.1 r.2.2

/-- One commit after all the moves. -/
def commitOnce (reset_flag : Nat) (mode : PgnMode) (moves : List (MoveData × Nat))
    (g : PgnGame) (file : QString) : PgnGame × QString :=
  let r := writeFile true true (addMoves moves g) file reset_flag mode
  (r.2.1, r.2.2)

/-- The text with every line break replaced by a space. -/
def unwrapped (s : QString) : QString :=
  s.map (fun c => if c = '\n' then ' ' else c)

/-- A record with the single tag `Result`, no moves and a cold cursor. -/
def recordWithResult (result : QString) : PgnGame :=
  { m_startingSide := Side.White, m_tags := [("Result".toList, result)], m_moves := [],
    m_initialComment := [], m_key := 0, m_tag_changed := true, m_last_move := 0,
    m_last_result := [] }

/-- The two plies `e4 e5`. -/
def twoPlies : List (MoveData × Nat) :=
  [({ key := 0, move := 0, moveString := "e4".toList, comment := [] }, 1),
   ({ key := 1, move := 1, moveString := "e5".toList, comment := [] }, 2)]

/-- The strings `str` that the loop `// 3)` of `write` builds for the moves, starting at ply
`i`. -/
def moveTokens (mode : PgnMode) : List MoveData → Nat → Nat → Nat → List QString
  | [], _, _, _ => []
  | data :: rest, i, movenum, side =>
    moveText mode i movenum side data ::
      moveTokens mode rest (i + 1) (if numbered i side then movenum + 1 else movenum)
        (flipSide side)

/-- The tokens, each on one line of its own after a separating space. -/
def tokenLine (toks : List QString) : QString :=
  (toks.map (fun t => ' ' :: unwrapped t)).flatten

/-- The record has been committed at least once with the result `*` and nothing was changed
since except the file: the cursor is clean and at the end of the non-empty move list, the
remembered result is `*`, the file ends with the four characters of the placeholder, and the
text before the placeholder is `head` followed by the tokens of all moves, up to line
breaks. -/
def Warm (mode : PgnMode) (head : QString) (g : PgnGame) (file : QString) : Prop :=
  g.m_tag_changed = false ∧ g.m_last_move = g.m_moves.length ∧ g.m_moves ≠ [] ∧
  g.m_last_result = ['*'] ∧ g.m_tags.value "Result".toList = ['*'] ∧
  ∃ (body : QString) (sep : Char), (sep = ' ' ∨ sep = '\n') ∧
    file = body ++ [sep, '*', '\n', '\n'] ∧
    unwrapped body =
      head ++ tokenLine (moveTokens mode g.m_moves 0 0 g.m_startingSide.toInt)

/-- The text that a full commit sends to the stream before the first move: the tag block and
the initial comment. -/
def fullHead (g : PgnGame) (mode : PgnMode) : QString :=
  tagBlock g mode ++
    (if !g.m_initialComment.isEmpty then ['\n'] ++ ['{'] ++ g.m_initialComment ++ ['}'] else [])

/-- The representation invariant of a `QMap`: the keys are in strictly ascending order. -/
def QMap.Ordered (m : QMap) : Prop :=
  m.Pairwise (fun a b => qLess a.1 b.1 = true)

instance (m : QMap) : Decidable (QMap.Ordered m) := by
  unfold QMap.Ordered
  infer_instance

/-- A sequence of `setTag` calls, each given by its tag and its value, run in order. -/
def applyTags (calls : List (QString × QString)) (g : PgnGame) : PgnGame :=
  calls.foldl (fun g1 c => setTag c.1 c.2 g1) g

/-- A record with a clean cursor that holds the tags `Event` and `White`. -/
def taggedRecord : PgnGame :=
  { m_startingSide := Side.White,
    m_tags := [("Event".toList, "Cup".toList), ("White".toList, "Ann".toList)],
    m_moves := [], m_initialComment := [], m_key := 0, m_tag_changed := false,
    m_last_move := 2, m_last_result := ['*'] }

/-- A record with a dirty cursor, no moves and the tags `FEN` and `Result`. -/
def fenRecord : PgnGame :=
  { m_startingSide := Side.White,
    m_tags := [("FEN".toList, "4k3/8/8/8/8/8/8/4K3 w - - 0 1".toList),
      ("Result".toList, ['*'])],
    m_moves := [], m_initialComment := [], m_key := 0, m_tag_changed := true,
    m_last_move := 0, m_last_result := [] }

/-- Whether every line of the text `s` holds at most `w` characters, when the line on which
`s` starts already holds `col` characters.  A line ends at a line break. -/
def fits (w : Nat) : QString → Nat → Bool
  | [], col => decide (col ≤ w)
  | c :: cs, col => if c = '\n' then decide (col ≤ w) && fits w cs 0 else fits w cs (col + 1)

/-- The number of characters on the last line after the text `s`, when the line on which `s`
starts already holds `col` characters. -/
def endCol : QString → Nat → Nat
  | [], col => col
  | c :: cs, col => if c = '\n' then endCol cs 0 else endCol cs (col + 1)

/-- A record with a dirty cursor, the tag `Result`, no moves and an initial comment of 80
characters. -/
def commentedRecord : PgnGame :=
  { recordWithResult ['*'] with m_initialComment := List.replicate 80 'x' }

/-- Whether a character separates tokens: a space, a line break, a tabulator or a carriage
return. -/
def isSpace (c : Char) : Bool :=
  c = ' ' || c = '\n' || c = '\t' || c = '\r'

/-- The tokens of the text after the characters `cur` of a token that has been started. -/
def tokensFrom : QString → QString → List QString
  | [], cur => if cur = [] then [] else [cur]
  | c :: rest, cur =>
    if isSpace c then (if cur = [] then tokensFrom rest [] else cur :: tokensFrom rest [])
    else tokensFrom rest (cur ++ [c])

/-- The whitespace-separated tokens of a text, in order: the reading of a written file by
which two commits are compared. -/
def tokens (s : QString) : List QString :=
  tokensFrom s []

/-- The move list `a` is the move list `b` up to the comment of the last entry: the entries
before the last are the same, and the last entries have the same key, move and move
string. -/
def SameButLastComment (a b : List MoveData) : Prop :=
  a.dropLast = b.dropLast ∧
  a.map (fun d => (d.key, d.move, d.moveString)) =
    b.map (fun d => (d.key, d.move, d.moveString))

end Pgn

namespace Pgn

/-- Embeds `PgnGame::setVariant`. -/
def setVariant (variant : QString) (g : PgnGame) : PgnGame :=
  if variant = "standard".toList then setTag "Variant".toList [] g
  else setTag "Variant".toList variant g

/-- Embeds `PgnGame::setStartingFenString`. -/
def setStartingFenString (side : Side) (fen : QString) (g : PgnGame) : PgnGame :=
  let g1 := { g with m_startingSide := side }
  if fen.isEmpty then setTag "SetUp".toList [] (setTag "FEN".toList [] g1)
  else setTag "SetUp".toList ['1'] (setTag "FEN".toList fen g1)

/-- Embeds `PgnGame::setPlayerName`. -/
def setPlayerName (side : Side) (name : QString) (g : PgnGame) : PgnGame :=
  match side with
  | Side.White => setTag "White".toList name g
  | Side.Black => setTag "Black".toList name g
  | Side.NoSide => g

/-- Embeds `PgnGame::setPlayerRating`. -/
def setPlayerRating (side : Side) (rating : Nat) (g : PgnGame) : PgnGame :=
  if side = Side.White ∧ rating ≠ 0 then
    setTag "WhiteElo".toList (if rating ≠ 0 then number rating else ['-']) g
  else if side = Side.Black ∧ rating ≠ 0 then
    setTag "BlackElo".toList (if rating ≠ 0 then number rating else ['-']) g
  else g

end Pgn

namespace Game

open Pgn

/-! ## Data model of `ChessGame`

The rules engine (`Chess::Board`), the adjudicator (`GameAdjudicator`), the players, the
opening books and the clock are collaborators outside the embedded files.  The board and the
adjudicator are values of arbitrary types `B` and `A`, a move is a value of an arbitrary type
`M`, and every function of a collaborator that `ChessGame` calls is a field of `Env`.  A
player is identified by a number (the address of the `ChessPlayer` object).  Signals that
`ChessGame` emits and calls that it makes on its players are appended to a log. -/

/-- The values of the accessors of a `MoveEvaluation` that `ChessGame` reads. -/
structure MoveEvaluation where
  isEmpty : Bool
  isBookEval : Bool
  depth : Int
  selectiveDepth : Int
  score : Int
  time : Int
  nodeCount : Int
  nps : Int
  tbHits : Int
  hashUsage : Int
  ponderhitRate : Int
  pv : QString
  ponderMove : QString
deriving DecidableEq, Repr

/-- A signal emitted by the game, a call made on a player, or a warning written with
`qWarning`. -/
inductive Event (M : Type) where
  | warning (text : QString)
  | humanEnabled (enabled : Bool)
  | pgnMove
  | scoreChanged (ply : Nat) (score : Int)
  | moveMade (move : GenericMove) (moveString comment : QString)
  | moveChanged (ply : Nat) (move : GenericMove) (moveString comment : QString)
  | playerMakeMove (player : Nat) (move : M)
  | playerMakeBookMove (player : Nat) (move : M)
  | playerGo (player : Nat)
  | playerStartPondering (player : Nat)
  | playerClearPonderState (player : Nat)
  | playerEndGame (player : Nat) (result : Result)
  | playersReady
  | finished (result : Result)
  | playerKill (player : Nat)
  | initialized
  | fenChanged (fen : QString)
  | started
  | startFailed
  | playerSetTimeControl (player : Nat)
  | playerNewGame (player : Nat) (side : Side) (opponent : Nat)
  | queuedSyncPlayers
  | delayedStart (delay : Int)

/-- The functions of the collaborators of a `ChessGame`, and the values that it reads from
them. -/
structure Env (B A M : Type) where
  /-- Stands for `Chess::Board::sideToMove`. -/
  sideToMove : B → Side
  /-- Stands for `Chess::Board::isLegalMove`. -/
  isLegalMove : B → M → Bool
  /-- Stands for `Chess::Board::makeMove`. -/
  makeMove : B → M → B
  /-- Stands for `Chess::Board::undoMove`. -/
  undoMove : B → B
  /-- Stands for `Chess::Board::result`. -/
  result : B → Result
  /-- Stands for `Chess::Board::key`. -/
  key : B → Nat
  /-- Stands for `Chess::Board::genericMove`. -/
  genericMove : B → M → GenericMove
  /-- Stands for `Chess::Board::moveFromGenericMove`; `none` is the null move. -/
  moveFromGenericMove : B → GenericMove → Option M
  /-- Stands for `Chess::Board::moveString` in standard algebraic notation. -/
  moveString : B → M → QString
  /-- Stands for `Chess::Board::moveString` in long algebraic notation. -/
  longMoveString : B → M → QString
  /-- Stands for `Chess::Board::isRepetition`. -/
  isRepetition : B → M → Bool
  /-- Stands for `Chess::Board::reversibleMoveCount`. -/
  reversibleMoveCount : B → Int
  /-- Stands for `Chess::Board::variant`. -/
  variant : B → QString
  /-- Stands for `Chess::Board::startingSide`. -/
  startingSide : B → Side
  /-- Stands for `Chess::Result::isNone`. -/
  isNone : Result → Bool
  /-- Stands for `Chess::Result::toShortString`. -/
  toShortString : Result → QString
  /-- Stands for `Chess::Result::shortDescription`. -/
  shortDescription : Result → QString
  /-- The default-constructed `Chess::Result()`. -/
  noResult : Result
  /-- Stands for `GameAdjudicator::resetDrawMoveCount`. -/
  resetDrawMoveCount : A → A
  /-- Stands for `GameAdjudicator::addEval`. -/
  addEval : A → B → MoveEvaluation → A
  /-- Stands for `GameAdjudicator::result`. -/
  adjudicatorResult : A → Result
  /-- The text that `evalString` builds for a non-empty evaluation, from the board before the
  move, the board after the move, the adjudicator, and the time left of the player to move. -/
  annotation : B → B → A → MoveEvaluation → M → QString
  /-- Stands for `MoveEvaluation::NULL_SCORE`. -/
  NULL_SCORE : Int
  /-- Stands for `OpeningBook::move` of the book of a side, when the side has a book. -/
  bookMove : Side → Option (Nat → GenericMove)
  /-- Stands for `ChessPlayer::isHuman`. -/
  isHuman : Nat → Bool
  /-- Stands for `ChessPlayer::name`. -/
  name : Nat → QString
  /-- Stands for `ChessPlayer::rating`. -/
  rating : Nat → Nat
  /-- Whether the player is ready or disconnected, the test of `syncPlayers`. -/
  isReady : Nat → Bool
  /-- Stands for `EcoNode::find`. -/
  ecoFind : Nat → Option EcoNode
  /-- The default value of the parameter `addEco` of `PgnGame::addMove`. -/
  addEco : Bool
  /-- Stands for `ChessPlayer::areClaimsValidated`. -/
  areClaimsValidated : Nat → Bool
  /-- Stands for `ChessPlayer::side`. -/
  side : Nat → Side
  /-- Stands for `Chess::Result::loser`. -/
  loser : Result → Side
  /-- Stands for `Chess::Result::toVerboseString`. -/
  toVerboseString : Result → QString
  /-- The default value of the parameter `emitMoveChanged` of `ChessGame::stop`. -/
  emitMoveChanged : Bool
  /-- Stands for `QDate::currentDate().toString("yyyy.MM.dd")`. -/
  currentDate : QString
  /-- Stands for `PgnGame::timeStamp` of the time at which the game ends. -/
  gameEndTime : QString
  /-- The duration of the game as `hh:mm:ss`. -/
  gameDuration : QString
  /-- The tags of the time controls that `initializePgn` sets. -/
  timeControlTags : List (QString × QString)
  /-- The engine options that `initializePgn` passes to `setResultDescription`. -/
  engineOptions : QString
  /-- Stands for `Chess::Side::toString`. -/
  sideString : Side → QString
  /-- Stands for `Chess::Board::defaultFenString`. -/
  defaultFenString : B → QString
  /-- Stands for `Chess::Board::isRandomVariant`. -/
  isRandomVariant : B → Bool
  /-- Stands for `Chess::Board::setFenString`: whether the rules engine accepts the position,
  and the board afterwards. -/
  setFenString : B → QString → Bool × B
  /-- Stands for `Chess::Board::reset`. -/
  reset : B → B
  /-- Stands for `Chess::Board::fenString`. -/
  fenString : B → QString
  /-- Stands for `Chess::Board::startingFenString`. -/
  startingFenString : B → QString
  /-- Whether `ChessPlayer::state` is `ChessPlayer::Disconnected`. -/
  isDisconnected : Nat → Bool
  /-- Stands for `ChessPlayer::supportsVariant`. -/
  supportsVariant : Nat → QString → Bool
  /-- The message `tr("Could not initialize player %1: %2")` with the name and the error
  string of the player. -/
  initErrorMessage : Nat → QString
  /-- Stands for `PgnGame::timeStamp` of the time at which the game starts. -/
  gameStartTime : QString

/-- The state of a `ChessGame`, the content of its live PGN file, and the log. -/
structure ChessGame (B A M : Type) where
  m_board : B
  m_adjudicator : A
  m_playerWhite : Option Nat
  m_playerBlack : Option Nat
  m_bookDepthWhite : Int
  m_bookDepthBlack : Int
  m_finished : Bool
  m_gameInProgress : Bool
  m_paused : Bool
  m_pgnInitialized : Bool
  m_result : Result
  m_moves : List M
  m_scores : List (Nat × Int)
  m_startingFen : QString
  m_pgn : PgnGame
  m_livePgnOut : QString
  m_livePgnOutMode : PgnMode
  m_pgnFormat : Bool
  m_startDelay : Int
  m_error : QString
  liveFile : QString
  log : List (Event M)

variable {B A M : Type}

/-- The array access `m_player[side]`. -/
def player (g : ChessGame B A M) : Side → Option Nat
  | Side.White => g.m_playerWhite
  | Side.Black => g.m_playerBlack
  | Side.NoSide => none

/-- Embeds `ChessGame::playerToMove`. -/
def playerToMove (env : Env B A M) (g : ChessGame B A M) : Option Nat :=
  if env.sideToMove g.m_board = Side.NoSide then none
  else player g (env.sideToMove g.m_board)

/-- Embeds `ChessGame::playerToWait`. -/
def playerToWait (env : Env B A M) (g : ChessGame B A M) : Option Nat :=
  if env.sideToMove g.m_board = Side.NoSide then none
  else player g (env.sideToMove g.m_board).opposite

/-- Appends events to the log. -/
def emit (events : List (Event M)) (g : ChessGame B A M) : ChessGame B A M :=
  { g with log := g.log ++ events }

/-- The assignment `m_scores[ply] = score` on the `QMap<int, int>`. -/
def setScore : List (Nat × Int) → Nat → Int → List (Nat × Int)
  | [], ply, score => [(ply, score)]
  | kv :: rest, ply, score =>
    if kv.1 = ply then (ply, score) :: rest
    else if ply < kv.1 then (ply, score) :: kv :: rest
    else kv :: setScore rest ply score

/-- The lookup `m_scores[ply]` guarded by `m_scores.contains(ply)`. -/
def scoreAt : List (Nat × Int) → Nat → Option Int
  | [], _ => none
  | kv :: rest, ply => if kv.1 = ply then some kv.2 else scoreAt rest ply

/-- Embeds `ChessGame::evalString`: the annotation and the board afterwards.  For a
non-empty evaluation the function makes the move on the board and takes it back; the text it
builds in between is `Env.annotation`. -/
def evalString (env : Env B A M) (eval : MoveEvaluation) (move : M) (g : ChessGame B A M) :
    QString × ChessGame B A M :=
  if eval.isEmpty then ([], g)
  else
    let after := env.makeMove g.m_board move
    (env.annotation g.m_board after g.m_adjudicator eval move,
     { g with m_board := env.undoMove after })

/-- Embeds `ChessGame::addPgnMove`. -/
def addPgnMove (env : Env B A M) (move : M) (comment : QString) (g : ChessGame B A M) :
    ChessGame B A M :=
  let md : MoveData :=
    { key := env.key g.m_board, move := env.genericMove g.m_board move,
      moveString := env.moveString g.m_board move, comment := comment }
  let after := env.makeMove g.m_board move
  { g with
    m_pgn := addMove env.ecoFind md (env.key after) env.addEco g.m_pgn,
    m_board := env.undoMove after }

/-- Embeds `ChessGame::emitLastMove`.  The call `m_pgn->moves().last()` is undefined on an empty
list. -/
def emitLastMove (env : Env B A M) (g : ChessGame B A M) : Option (ChessGame B A M) :=
  let ply : Int := (g.m_moves.length : Int) - 1
  let scoreEvents : List (Event M) :=
    if 0 ≤ ply then
      match scoreAt g.m_scores ply.toNat with
      | some score =>
        if score ≠ env.NULL_SCORE then [Event.scoreChanged ply.toNat score] else []
      | none => []
    else []
  match g.m_pgn.m_moves.getLast? with
  | none => none
  | some md =>
    some (emit ([Event.pgnMove] ++ scoreEvents ++
      [Event.moveMade md.move md.moveString md.comment]) g)

/-- The array access `m_bookDepth[side]`. -/
def bookDepth (g : ChessGame B A M) : Side → Int
  | Side.White => g.m_bookDepthWhite
  | Side.Black => g.m_bookDepthBlack
  | Side.NoSide => 0

/-- Embeds `ChessGame::bookMove`: the move, `none` for the null move, and the game with the
warning about an illegal book move.  The function asserts that `side` is not null.  The
product `m_bookDepth[side] * 2` is that of a 32-bit `int`. -/
def bookMove (env : Env B A M) (side : Side) (g : ChessGame B A M) :
    Option M × ChessGame B A M :=
  match env.bookMove side with
  | none => (none, g)
  | some book =>
    if (g.m_moves.length : Int) ≥ MachineInt.wrap32 (bookDepth g side * 2) then (none, g)
    else
      match env.moveFromGenericMove g.m_board (book (env.key g.m_board)) with
      | none => (none, g)
      | some move =>
        if !env.isLegalMove g.m_board move then
          (none, emit [Event.warning ("Illegal opening book move for ".toList ++
            env.sideString side ++ ": ".toList ++ env.longMoveString g.m_board move)] g)
        else if env.isRepetition g.m_board move then (none, g)
        else (some move, g)

/-- Embeds `ChessGame::startTurn`.  The players of both sides are dereferenced, and without a
side to move `m_player[side]` is out of range. -/
def startTurn (env : Env B A M) (g : ChessGame B A M) : Option (ChessGame B A M) :=
  if g.m_paused then some g
  else
    let side := env.sideToMove g.m_board
    match player g side, player g side.opposite with
    | some mover, some waiter =>
      let g1 := emit [Event.humanEnabled (env.isHuman mover)] g
      match bookMove env side g1 with
      | (none, g2) => some (emit [Event.playerGo mover, Event.playerStartPondering waiter] g2)
      | (some move, g2) =>
        some (emit [Event.playerClearPonderState waiter, Event.playerMakeBookMove mover move] g2)
    | _, _ => none

/-- Embeds `ChessGame::initializePgn`. -/
def initializePgn (env : Env B A M) (g : ChessGame B A M) : Option (ChessGame B A M) :=
  if g.m_pgnInitialized then some g
  else
    match g.m_playerWhite, g.m_playerBlack with
    | some white, some black =>
      let p1 := setVariant (env.variant g.m_board) g.m_pgn
      let p2 := setStartingFenString (env.startingSide g.m_board) g.m_startingFen p1
      let p3 := setTag "Date".toList env.currentDate p2
      let p4 := setPlayerName Side.White (env.name white) p3
      let p5 := setPlayerName Side.Black (env.name black) p4
      let p6 := setPlayerRating Side.White (env.rating white) p5
      let p7 := setPlayerRating Side.Black (env.rating black) p6
      let p8 := setResult env.toShortString g.m_result p7
      let p9 := env.timeControlTags.foldl (fun p tv => setTag tv.1 tv.2 p) p8
      some { g with m_pgnInitialized := true,
                    m_pgn := setResultDescription env.engineOptions p9 }
    | _, _ => none

/-- Embeds `ChessGame::finish`. -/
def finish (g : ChessGame B A M) : ChessGame B A M :=
  emit [Event.finished g.m_result] g

/-- Embeds `ChessGame::syncPlayers`: the signal `playersReady` is emitted when both players
are ready; otherwise it is emitted later, by `onPlayerReady`. -/
def syncPlayers (env : Env B A M) (g : ChessGame B A M) : Option (ChessGame B A M) :=
  match g.m_playerWhite, g.m_playerBlack with
  | some white, some black =>
    if env.isReady white && env.isReady black then some (emit [Event.playersReady] g)
    else some g
  | _, _ => none

/-- Embeds `ChessGame::stop`.  The slot `finish` connected to `playersReady` runs from the
event queue, after `stop` has returned. -/
def stop (env : Env B A M) (emitMoveChanged : Bool) (g : ChessGame B A M) :
    Option (ChessGame B A M) :=
  if g.m_finished then some g
  else
    let g1 := emit [Event.humanEnabled false] { g with m_finished := true }
    if !g1.m_gameInProgress then some (finish { g1 with m_result := env.noResult })
    else
      match initializePgn env g1 with
      | none => none
      | some g2 =>
        let plies := g2.m_pgn.m_moves.length
        let p1 := setTag "PlyCount".toList (number plies) g2.m_pgn
        let p2 := setTag "GameDuration".toList env.gameDuration
          (setTag "GameEndTime".toList env.gameEndTime p1)
        let p3 := setResult env.toShortString g2.m_result p2
        let p4 := setResultDescription g2.m_result.description p3
        let p5 := setTag "TerminationDetails".toList (env.shortDescription g2.m_result) p4
        let g3 := { g2 with m_gameInProgress := false, m_pgn := p5 }
        let changed : List (Event M) :=
          if emitMoveChanged ∧ plies > 1 then
            match p5.m_moves.getLast? with
            | some md => [Event.moveChanged (plies - 1) md.move md.moveString md.comment]
            | none => []
          else []
        match g3.m_playerWhite, g3.m_playerBlack with
        | some white, some black =>
          syncPlayers env (emit (changed ++
            [Event.playerEndGame white g3.m_result, Event.playerEndGame black g3.m_result]) g3)
        | _, _ => none

/-- Embeds `ChessGame::updateLiveFiles`.  Only the PGN output is active in the source file. -/
def updateLiveFiles (canOpen streamOk : Bool) (g : ChessGame B A M) : ChessGame B A M :=
  if g.m_livePgnOut.isEmpty then g
  else if g.m_pgnFormat then
    let r := writeFile canOpen streamOk g.m_pgn g.liveFile 2 g.m_livePgnOutMode
    { g with m_pgn := r.2.1, liveFile := r.2.2 }
  else g

/-- Embeds `ChessGame::onMoveMade`, the slot run when the player `sender` reports `move`.
`eval` is `sender->evaluation()`; `canOpen` and `streamOk` tell whether the live file can be
opened and written; `assertions` tells whether `Q_ASSERT` is compiled in.  The result is
`none` when a compiled-in assertion at the head of the function fails or when a player that
the function dereferences is missing. -/
def onMoveMade (env : Env B A M) (assertions canOpen streamOk : Bool) (sender : Nat)
    (eval : MoveEvaluation) (move : M) (g : ChessGame B A M) : Option (ChessGame B A M) :=
  if assertions && !g.m_gameInProgress then none
  else if assertions && !env.isLegalMove g.m_board move then none
  else if some sender ≠ playerToMove env g then
    some (emit [Event.warning (env.name sender ++
      " tried to make a move on the opponent's turn".toList)] g)
  else
    let g1 := { g with m_scores := setScore g.m_scores g.m_moves.length eval.score,
                       m_moves := g.m_moves ++ [move] }
    let es := evalString env eval move g1
    let g2 := addPgnMove env move es.1 es.2
    let g3 := { g2 with m_board := env.makeMove g2.m_board move }
    let g4 := { g3 with m_result := env.result g3.m_board }
    let g5 :=
      if env.isNone g4.m_result then
        let a1 :=
          if env.reversibleMoveCount g4.m_board = 0 then env.resetDrawMoveCount g4.m_adjudicator
          else g4.m_adjudicator
        let a2 := env.addEval a1 g4.m_board eval
        { g4 with m_adjudicator := a2, m_result := env.adjudicatorResult a2 }
      else g4
    let g6 := { g5 with m_board := env.undoMove g5.m_board }
    match playerToWait env g6 with
    | none => none
    | some waiter =>
      let g7 := emit [Event.playerMakeMove waiter move] g6
      let g8 := { g7 with m_board := env.makeMove g7.m_board move }
      let g9 :=
        if env.isNone g8.m_result then
          match emitLastMove env g8 with
          | none => none
          | some g' => startTurn env g'
        else
          match stop env false g8 with
          | none => none
          | some g' => emitLastMove env g'
      match g9 with
      | none => none
      | some g' => some (updateLiveFiles canOpen streamOk g')

/-- The part of `ChessGame::onMoveMade` that accounts for an accepted move, from the entry in
`m_scores` to the second `m_board->makeMove(move)`: the move is logged and added to the record,
the result is computed, and the move is sent to the opponent.  The result is `none` when there
is no player to wait. -/
def recordMove (env : Env B A M) (eval : MoveEvaluation) (move : M) (g : ChessGame B A M) :
    Option (ChessGame B A M) :=
  let g1 := { g with m_scores := setScore g.m_scores g.m_moves.length eval.score,
                     m_moves := g.m_moves ++ [move] }
  let es := evalString env eval move g1
  let g2 := addPgnMove env move es.1 es.2
  let g3 := { g2 with m_board := env.makeMove g2.m_board move }
  let g4 := { g3 with m_result := env.result g3.m_board }
  let g5 :=
    if env.isNone g4.m_result then
      let a1 :=
        if env.reversibleMoveCount g4.m_board = 0 then env.resetDrawMoveCount g4.m_adjudicator
        else g4.m_adjudicator
      let a2 := env.addEval a1 g4.m_board eval
      { g4 with m_adjudicator := a2, m_result := env.adjudicatorResult a2 }
    else g4
  let g6 := { g5 with m_board := env.undoMove g5.m_board }
  match playerToWait env g6 with
  | none => none
  | some waiter =>
    let g7 := emit [Event.playerMakeMove waiter move] g6
    some { g7 with m_board := env.makeMove g7.m_board move }

/-- Embeds `ChessGame::onResultClaim`, the slot run when the player `sender` claims `result`.
`Chess::Result(type, winner)` has an empty description. -/
def onResultClaim (env : Env B A M) (sender : Nat) (result : Result) (g : ChessGame B A M) :
    Option (ChessGame B A M) :=
  if g.m_finished then some g
  else
    let g1 : ChessGame B A M :=
      if result.type = ResultType.Disconnection then
        let side := if g.m_playerWhite ≠ some sender then Side.Black else Side.White
        { g with m_result :=
            { type := result.type, winner := side.opposite, description := [] } }
      else if !g.m_gameInProgress ∧ result.winner = Side.NoSide then
        emit [Event.warning ("Unexpected result claim from ".toList ++ env.name sender ++
          ": ".toList ++ env.toVerboseString result)] g
      else if env.areClaimsValidated sender ∧ env.loser result ≠ env.side sender then
        emit [Event.warning (env.name sender ++
          " forfeits by invalid result claim: ".toList ++ env.toVerboseString result)]
          { g with m_result :=
              { type := ResultType.Adjudication, winner := (env.side sender).opposite,
                description := "Invalid result claim".toList } }
      else { g with m_result := result }
    stop env env.emitMoveChanged g1

/-- Embeds `ChessGame::onAdjudication`. -/
def onAdjudication (env : Env B A M) (result : Result) (g : ChessGame B A M) :
    Option (ChessGame B A M) :=
  if g.m_finished || result.type != ResultType.Adjudication then some g
  else stop env env.emitMoveChanged { g with m_result := result }

/-- Embeds `ChessGame::onResignation`. -/
def onResignation (env : Env B A M) (result : Result) (g : ChessGame B A M) :
    Option (ChessGame B A M) :=
  if g.m_finished || result.type != ResultType.Resignation then some g
  else stop env env.emitMoveChanged { g with m_result := result }

/-- The call `m_player[i]->kill()` of `ChessGame::kill`, made when the player is not null. -/
def killPlayer : Option Nat → List (Event M)
  | some p => [Event.playerKill p]
  | none => []

/-- Embeds `ChessGame::kill`. -/
def kill (env : Env B A M) (g : ChessGame B A M) : Option (ChessGame B A M) :=
  stop env env.emitMoveChanged
    (emit (killPlayer g.m_playerWhite ++ killPlayer g.m_playerBlack) g)

/-- Embeds `ChessGame::resetBoard`: the returned flag and the game afterwards. -/
def resetBoard (env : Env B A M) (g : ChessGame B A M) : Bool × ChessGame B A M :=
  let fen := if g.m_startingFen.isEmpty then env.defaultFenString g.m_board else g.m_startingFen
  let g1 :=
    if g.m_startingFen.isEmpty ∧ env.isRandomVariant g.m_board then
      { g with m_startingFen := fen }
    else g
  let r := env.setFenString g1.m_board fen
  if !r.1 then
    let g2 := emit [Event.warning ("Invalid FEN string: ".toList ++ fen)]
      { g1 with m_board := env.reset r.2 }
    (false,
     if env.isRandomVariant g2.m_board then { g2 with m_startingFen := env.fenString g2.m_board }
     else { g2 with m_startingFen := [] })
  else if !g1.m_startingFen.isEmpty then
    (true, { g1 with m_board := r.2, m_startingFen := env.fenString r.2 })
  else (true, { g1 with m_board := r.2 })

/-- Embeds `ChessGame::start`.  With a start delay the function only schedules itself.  The
connections that it makes are kept by the event system: `onResultClaim` runs on a result
claim of a player and `startGame` on `playersReady`, and `syncPlayers` runs from the event
queue once `start` has returned.  The value returned by `resetBoard` is not used. -/
def start (env : Env B A M) (g : ChessGame B A M) : Option (ChessGame B A M) :=
  if g.m_startDelay > 0 then
    some (emit [Event.delayedStart g.m_startDelay] { g with m_startDelay := 0 })
  else
    let g1 := emit [Event.queuedSyncPlayers, Event.humanEnabled false]
      { g with m_result := env.noResult }
    let g2 := (resetBoard env g1).2
    match initializePgn env g2 with
    | none => none
    | some g3 =>
      some (emit [Event.initialized, Event.fenChanged (env.startingFenString g3.m_board)] g3)

/-- The test of the first loop of `ChessGame::startGame` for one player: the player is
disconnected or does not support the variant. -/
def playerFails (env : Env B A M) (p : Nat) (g : ChessGame B A M) : Bool :=
  env.isDisconnected p || !env.supportsVariant p (env.variant g.m_board)

/-- The two branches of the first loop of `ChessGame::startGame` that end the function, run
for a player for which `playerFails` holds. -/
def abortStart (env : Env B A M) (p : Nat) (g : ChessGame B A M) : Option (ChessGame B A M) :=
  if env.isDisconnected p then
    match stop env env.emitMoveChanged
        { g with m_error := env.initErrorMessage p,
                 m_result := { type := ResultType.ResultError, winner := Side.NoSide,
                               description := [] } } with
    | none => none
    | some g1 => some (emit [Event.startFailed] g1)
  else
    stop env env.emitMoveChanged
      (emit [Event.warning (env.name p ++ " doesn't support variant ".toList ++
          env.variant g.m_board)]
        { g with m_result := { type := ResultType.ResultError, winner := Side.NoSide,
                               description := [] } })

/-- The loop `// Play the forced opening moves first` of `ChessGame::startGame` over the moves
`m_moves`; the flag tells whether the loop has ended the function.  `statusString` returns
`","`. -/
def playForcedMoves (env : Env B A M) (assertions : Bool) :
    List M → ChessGame B A M → Option (Bool × ChessGame B A M)
  | [], g => some (false, g)
  | move :: rest, g =>
    if assertions && !env.isLegalMove g.m_board move then none
    else
      let g1 := addPgnMove env move ("book".toList ++ [',']) g
      match playerToMove env g1, playerToWait env g1 with
      | some mover, some waiter =>
        let g2 := emit [Event.playerMakeBookMove mover move, Event.playerMakeMove waiter move] g1
        let g3 := { g2 with m_board := env.makeMove g2.m_board move }
        match emitLastMove env g3 with
        | none => none
        | some g4 =>
          if !env.isNone (env.result g4.m_board) then
            match stop env env.emitMoveChanged
                (emit [Event.warning "Every move was played from the book".toList]
                  { g4 with m_result := env.result g4.m_board }) with
            | none => none
            | some g5 => some (true, g5)
          else playForcedMoves env assertions rest g4
      | _, _ => none

/-- Embeds `ChessGame::startGame`, the slot run on `playersReady` after `start`.  The
assertions on the readiness of the players and on the validity of the time controls concern
state of the collaborators and are taken to hold; `assertions` tells whether the assertion on
the legality of a forced move is compiled in. -/
def startGame (env : Env B A M) (assertions canOpen streamOk : Bool) (g : ChessGame B A M) :
    Option (ChessGame B A M) :=
  if g.m_finished then some g
  else
    let g1 := { g with m_gameInProgress := true }
    match g1.m_playerWhite, g1.m_playerBlack with
    | some white, some black =>
      if playerFails env white g1 then abortStart env white g1
      else if playerFails env black g1 then abortStart env black g1
      else
        let p1 := setPlayerName Side.Black (env.name black)
          (setPlayerName Side.White (env.name white) g1.m_pgn)
        let p2 := setTag "GameStartTime".toList env.gameStartTime p1
        let g2 := emit [Event.started, Event.playerSetTimeControl white,
          Event.playerNewGame white Side.White black, Event.playerSetTimeControl black,
          Event.playerNewGame black Side.Black white] { g1 with m_pgn := p2 }
        match playForcedMoves env assertions g2.m_moves g2 with
        | none => none
        | some (true, g3) => some g3
        | some (false, g3) => startTurn env (updateLiveFiles canOpen streamOk g3)
    | _, _ => none

/-! ## The score texts of `evalString` -/

/-- Embeds `qAbs` on `int`: `t >= 0 ? t : -t`. -/
def qAbs (t : Int) : Int :=
  if t ≥ 0 then t else MachineInt.wrap32 (-t)

/-- Embeds `QString::number(double(score) / 100.0, 'f', 2)` for an `int` score: the sign, the
integer part of `|score| / 100`, and the two decimals.  The quotient of an `int` by 100 is
within `1e-8` of its double, so the two decimals printed are those of `|score| mod 100`. -/
def fixed2 (score : Int) : QString :=
  (if score < 0 then ['-'] else []) ++ number (score.natAbs / 100) ++
    ['.', Nat.digitChar (score.natAbs % 100 / 10), Nat.digitChar (score.natAbs % 10)]

/-- The text `sScore` that `evalString` builds from the depth and the score of an evaluation
that is not a book evaluation.  The remainder `absScore % 1000` is taken after the test
`absScore > 9900` has succeeded, of a positive number. -/
def scoreText (depth score : Int) : QString :=
  if depth > 0 then
    let absScore := qAbs score
    if absScore > 9900 ∧ 1000 - absScore % 1000 < 100 then
      (if score < 0 then ['-'] else []) ++ (['M'] ++ number (1000 - absScore % 1000).toNat)
    else fixed2 score
  else "0.00".toList

/-- The text that `evalString` appends after `", wv="`: the score text seen from White, for
the side to move `side`.  `rightRef(n)` is the text of the last `n` characters. -/
def whiteView (side : Side) (sScore : QString) : QString :=
  if side = Side.Black ∧ sScore ≠ "0.00".toList then
    if sScore.head? = some '-' then sScore.drop (sScore.length - (sScore.length - 1))
    else ['-'] ++ sScore
  else sScore

/-! ## A small instance for concrete runs -/

/-- The result `*`. -/
def unfinished : Result :=
  { type := ResultType.NoResult, winner := Side.NoSide, description := [] }

/-- An evaluation with score 25 at depth 10. -/
def sampleEval : MoveEvaluation :=
  { isEmpty := false, isBookEval := false, depth := 10, selectiveDepth := 12, score := 25,
    time := 100, nodeCount := 1000, nps := 10000, tbHits := 0, hashUsage := 0,
    ponderhitRate := 0, pv := "e4".toList, ponderMove := [] }

/-- Collaborators for concrete runs: the board is the number of plies played, White moves at
even ply counts, every move is legal, no position is terminal, and the adjudicator never
decides. -/
def sampleEnv : Env Nat Nat Nat :=
  { sideToMove := fun b => if b % 2 = 0 then Side.White else Side.Black,
    isLegalMove := fun _ _ => true,
    makeMove := fun b _ => b + 1,
    undoMove := fun b => b - 1,
    result := fun _ => unfinished,
    key := fun b => b,
    genericMove := fun _ m => m,
    moveFromGenericMove := fun _ m => some m,
    moveString := fun _ m => 'm' :: number m,
    longMoveString := fun _ m => 'm' :: number m,
    isRepetition := fun _ _ => false,
    reversibleMoveCount := fun b => b,
    variant := fun _ => "standard".toList,
    startingSide := fun _ => Side.White,
    isNone := fun r => decide (r.type = ResultType.NoResult),
    toShortString := fun r =>
      match r.type, r.winner with
      | ResultType.NoResult, _ => ['*']
      | _, Side.White => "1-0".toList
      | _, Side.Black => "0-1".toList
      | _, Side.NoSide => "1/2-1/2".toList,
    shortDescription := fun r => r.description,
    noResult := unfinished,
    resetDrawMoveCount := fun _ => 0,
    addEval := fun a _ _ => a + 1,
    adjudicatorResult := fun _ => unfinished,
    annotation := fun _ _ _ _ _ => "d=10".toList,
    NULL_SCORE := 268435455,
    bookMove := fun _ => none,
    isHuman := fun _ => false,
    name := fun p => if p = 1 then "Alpha".toList else "Beta".toList,
    rating := fun _ => 0,
    isReady := fun _ => true,
    ecoFind := fun _ => none,
    addEco := true,
    areClaimsValidated := fun _ => false,
    side := fun p => if p = 1 then Side.White else Side.Black,
    loser := fun r => r.winner.opposite,
    toVerboseString := fun r => r.description,
    emitMoveChanged := true,
    currentDate := "2024.01.01".toList,
    gameEndTime := [],
    gameDuration := [],
    timeControlTags := [("TimeControl".toList, "40/60".toList)],
    engineOptions := [],
    sideString := fun s =>
      match s with
      | Side.White => "white".toList
      | Side.Black => "black".toList
      | Side.NoSide => [],
    defaultFenString := fun _ => "startpos".toList,
    isRandomVariant := fun _ => false,
    setFenString := fun b fen => if fen = "startpos".toList then (true, 0) else (false, b),
    reset := fun _ => 0,
    fenString := fun b => "ply ".toList ++ number b,
    startingFenString := fun _ => "startpos".toList,
    isDisconnected := fun _ => false,
    supportsVariant := fun _ _ => true,
    initErrorMessage := fun _ => "Could not initialize player".toList,
    gameStartTime := [] }

/-- A game in progress at the starting position: player 1 has White, player 2 has Black, the
record carries the result `*`, and the live file is enabled and still empty. -/
def sampleGame : ChessGame Nat Nat Nat :=
  { m_board := 0, m_adjudicator := 0, m_playerWhite := some 1, m_playerBlack := some 2,
    m_bookDepthWhite := 0, m_bookDepthBlack := 0, m_finished := false,
    m_gameInProgress := true, m_paused := false, m_pgnInitialized := true,
    m_result := unfinished, m_moves := [], m_scores := [], m_startingFen := [],
    m_pgn := recordWithResult ['*'], m_livePgnOut := "live".toList,
    m_livePgnOutMode := PgnMode.Verbose, m_pgnFormat := true, m_startDelay := 0,
    m_error := [], liveFile := [], log := [] }

/-- The sample game while it is paused. -/
def pausedGame : ChessGame Nat Nat Nat :=
  { sampleGame with m_paused := true }

/-- The sample game before its start: no game is in progress. -/
def idleGame : ChessGame Nat Nat Nat :=
  { sampleGame with m_gameInProgress := false }

/-- The sample game before its start, configured with a starting position that the rules
engine of `sampleEnv` rejects; the record is not initialised yet. -/
def rejectedGame : ChessGame Nat Nat Nat :=
  { idleGame with m_startingFen := "8/8/8 w".toList, m_pgnInitialized := false, m_board := 7 }

/-- The collaborators of `sampleEnv` with an opening book for both sides that suggests the
move `key + 5` at the position with key `key`. -/
def bookEnv : Env Nat Nat Nat :=
  { sampleEnv with bookMove := fun _ => some (fun key => key + 5) }

/-- The sample game with a book depth of one full move for White. -/
def bookGame : ChessGame Nat Nat Nat :=
  { sampleGame with m_bookDepthWhite := 1 }

/-- A draw by agreement, which names no winner. -/
def drawClaim : Result :=
  { type := ResultType.Agreement, winner := Side.NoSide, description := [] }

end Game

/-! # The bracket scheduler -/

namespace Knockout

theorem doubleLoop_spec (n : Nat) : ∀ fuel k : Nat, n ≤ fuel + 2 ^ k → (k = 0 ∨ 2 ^ (k - 1) < n) →
    ∃ j, doubleLoop n fuel (2 ^ k) = 2 ^ j ∧ n ≤ 2 ^ j ∧ (j = 0 ∨ 2 ^ (j - 1) < n) := by
  intro fuel
  induction fuel with
  | zero =>
    intro k h1 h2
    exact ⟨k, rfl, by simpa using h1, h2⟩
  | succ fuel ih =>
    intro k h1 h2
    by_cases hlt : 2 ^ k < n
    · have hk : 1 ≤ 2 ^ k := Nat.one_le_two_pow
      have h := ih (k + 1) (by rw [pow_succ]; omega) (Or.inr (by simpa using hlt))
      obtain ⟨j, hj1, hj2, hj3⟩ := h
      refine ⟨j, ?_, hj2, hj3⟩
      simp only [doubleLoop, hlt, if_true]
      rw [← pow_succ]; exact hj1
    · refine ⟨k, ?_, by omega, h2⟩
      simp only [doubleLoop, hlt, if_false]

/-- Two powers of two that are both the least one above `n` coincide. -/
theorem least_pow_unique (n j k : Nat) (hj : n ≤ 2 ^ j) (hj' : j = 0 ∨ 2 ^ (j - 1) < n)
    (hk : n ≤ 2 ^ k) (hk' : k = 0 ∨ 2 ^ (k - 1) < n) : j = k := by
  have key : ∀ a b : Nat, n ≤ 2 ^ a → (b = 0 ∨ 2 ^ (b - 1) < n) → b ≤ a := by
    intro a b ha hb
    rcases hb with hb | hb
    · omega
    · have : 2 ^ (b - 1) < 2 ^ a := lt_of_lt_of_le hb ha
      have := (Nat.pow_lt_pow_iff_right (by norm_num : 1 < 2)).1 this
      omega
  have h1 := key j k hj hk'
  have h2 := key k j hk hj'
  omega

theorem bracketSize_spec (n : Nat) :
    ∃ j, bracketSize n = 2 ^ j ∧ n ≤ 2 ^ j ∧ (j = 0 ∨ 2 ^ (j - 1) < n) := by
  have := doubleLoop_spec n n 0 (by omega) (Or.inl rfl)
  simpa [bracketSize] using this

/-- The fuel given to the doubling loop is never exhausted: more fuel gives the same value. -/
theorem doubleLoop_fuel (n fuel : Nat) (h : n ≤ fuel + 1) : doubleLoop n fuel 1 = bracketSize n := by
  obtain ⟨j, hj1, hj2, hj3⟩ := bracketSize_spec n
  obtain ⟨k, hk1, hk2, hk3⟩ := doubleLoop_spec n fuel 0 (by simpa using h) (Or.inl rfl)
  have := least_pow_unique n j k hj2 hj3 hk2 hk3
  simp only [pow_zero] at hk1
  rw [hk1, hj1, this]

theorem bracketSize_least (n j : Nat) (hj1 : n ≤ 2 ^ j) (hj3 : j = 0 ∨ 2 ^ (j - 1) < n) :
    ∀ m, n ≤ 2 ^ m → 2 ^ j ≤ 2 ^ m := by
  intro m hm
  rcases hj3 with h | h
  · subst h; simpa using Nat.one_le_two_pow
  · have : 2 ^ (j - 1) < 2 ^ m := lt_of_lt_of_le h hm
    have := (Nat.pow_lt_pow_iff_right (by norm_num : 1 < 2)).1 this
    exact Nat.pow_le_pow_right (by norm_num) (by omega)

theorem byeLoop_eq (count : Nat) :
    byeLoop count = (count, (List.range count).map (fun i : Nat => byePair (i : Int))) := by
  induction count with
  | zero => rfl
  | succ c ih =>
    unfold byeLoop at ih ⊢
    rw [List.range_succ, List.foldl_append, ih]
    simp

theorem pairLoop_eq (n : Nat) : ∀ fuel i pairs, (n - i + 1) / 2 ≤ fuel →
    pairLoop n fuel i pairs =
      pairs ++ (List.range ((n - i + 1) / 2)).map (fun j : Nat => matchPair ((i + 2 * j : Nat) : Int)) := by
  intro fuel
  induction fuel with
  | zero =>
    intro i pairs h
    have : (n - i + 1) / 2 = 0 := by omega
    simp [pairLoop, this]
  | succ fuel ih =>
    intro i pairs h
    by_cases hlt : i < n
    · simp only [pairLoop, hlt, if_true]
      rw [ih (i + 2) _ (by omega)]
      have e : (n - i + 1) / 2 = (n - (i + 2) + 1) / 2 + 1 := by omega
      rw [e, List.range_succ_eq_map]
      simp only [List.map_cons, List.map_map, List.append_assoc, List.singleton_append]
      congr 2
      apply List.map_congr_left
      intro a _
      simp only [Function.comp]
      congr 2
      omega
    · have : (n - i + 1) / 2 = 0 := by omega
      simp [pairLoop, hlt, this]

end Knockout
namespace Knockout

theorem firstRound_eq (n : Nat) :
    firstRound n =
      (List.range (bracketSize n - n)).map (fun i : Nat => byePair (i : Int)) ++
      (List.range ((n - (bracketSize n - n) + 1) / 2)).map
        (fun j : Nat => matchPair ((bracketSize n - n + 2 * j : Nat) : Int)) := by
  unfold firstRound
  simp only [byeLoop_eq]
  rw [pairLoop_eq n n _ _ (by omega)]

/-- Arithmetic of the bracket: with `P = 2 * h` the least power of two above `n`. -/
theorem bracketSize_half (n : Nat) (hn : 2 ≤ n) :
    ∃ j h, bracketSize n = 2 ^ j ∧ bracketSize n = 2 * h ∧ h < n ∧ n ≤ 2 * h ∧
      (∀ m, n ≤ 2 ^ m → bracketSize n ≤ 2 ^ m) := by
  obtain ⟨j, hj1, hj2, hj3⟩ := bracketSize_spec n
  have hj0 : j ≠ 0 := by
    rintro rfl
    simp at hj2; omega
  have hj3' : 2 ^ (j - 1) < n := by
    rcases hj3 with h | h
    · exact absurd h hj0
    · exact h
  have e : 2 ^ j = 2 * 2 ^ (j - 1) := by
    conv_lhs => rw [show j = (j - 1) + 1 by omega]
    rw [pow_succ]; ring
  refine ⟨j, 2 ^ (j - 1), hj1, by rw [hj1, e], hj3', by rw [← e]; exact hj2, ?_⟩
  rw [hj1]
  exact bracketSize_least n j hj2 hj3

end Knockout
namespace Knockout

/-- C1: for `N ≥ 2` players `initializePairing` leaves exactly one round; with `P` the least
power of two that is at least `N`, the round has `P / 2` pairings, exactly `P - N` of them are
byes, the byes are the first `P - N` pairings and the `i`-th bye holds competitor `i`; all
scores are `0` and the cursor is `0`. -/
theorem C1_initializePairing_bracket (t : KnockoutTournament) (hN : 2 ≤ t.playerCount) :
    ∃ P k : Nat, P = 2 ^ k ∧ t.playerCount ≤ P ∧ (∀ m, t.playerCount ≤ 2 ^ m → P ≤ 2 ^ m) ∧
    ∃ round : List Pair,
      (initializePairing t).m_rounds = [round] ∧
      round.length = P / 2 ∧
      round.countP (fun p => decide (p.2.index = -1)) = P - t.playerCount ∧
      (∀ i : Nat, i < P - t.playerCount →
        round[i]? = some ({ index := (i : Int), score := 0 }, { index := -1, score := 0 })) ∧
      (∀ (i : Nat) (p : Pair), P - t.playerCount ≤ i → round[i]? = some p → p.2.index ≠ -1) ∧
      (∀ p ∈ round, p.1.score = 0 ∧ p.2.score = 0) ∧
      (initializePairing t).m_currentPair = 0 := by
  obtain ⟨j, h, hP, hPh, hlt, hle, hmin⟩ := bracketSize_half t.playerCount hN
  refine ⟨bracketSize t.playerCount, j, hP, by omega, hmin, firstRound t.playerCount, rfl, ?_⟩
  rw [firstRound_eq]
  generalize hb : bracketSize t.playerCount - t.playerCount = b
  generalize hm : (t.playerCount - b + 1) / 2 = m
  have hA : ∀ p ∈ (List.range b).map (fun i : Nat => byePair (i : Int)), p.2.index = -1 := by
    intro p hp
    simp only [List.mem_map, List.mem_range] at hp
    obtain ⟨i, _, rfl⟩ := hp
    rfl
  have hB : ∀ p ∈ (List.range m).map (fun j : Nat => matchPair ((b + 2 * j : Nat) : Int)),
      p.2.index ≠ -1 := by
    intro p hp
    simp only [List.mem_map, List.mem_range] at hp
    obtain ⟨i, _, rfl⟩ := hp
    simp only [matchPair]
    omega
  refine ⟨?_, ?_, ?_, ?_, ?_, rfl⟩
  · simp only [List.length_append, List.length_map, List.length_range]
    omega
  · rw [List.countP_append]
    have h1 : List.countP (fun p : Pair => decide (p.2.index = -1))
        ((List.range b).map (fun i : Nat => byePair (i : Int))) = b := by
      have := (List.countP_eq_length (p := fun p : Pair => decide (p.2.index = -1))
        (l := (List.range b).map (fun i : Nat => byePair (i : Int)))).2
        (by intro p hp; simpa using hA p hp)
      simpa using this
    have h2 : List.countP (fun p : Pair => decide (p.2.index = -1))
        ((List.range m).map (fun j : Nat => matchPair ((b + 2 * j : Nat) : Int))) = 0 := by
      rw [List.countP_eq_zero]
      intro p hp
      simpa using hB p hp
    rw [h1, h2]; omega
  · intro i hi
    rw [List.getElem?_append_left (by simpa using hi)]
    simp [List.getElem?_range hi, byePair]
  · intro i p hi hp
    rw [List.getElem?_append_right (by simpa using hi)] at hp
    exact hB p (List.getElem?_mem hp)
  · intro p hp
    rw [List.mem_append] at hp
    rcases hp with hp | hp
    · simp only [List.mem_map, List.mem_range] at hp
      obtain ⟨i, _, rfl⟩ := hp
      exact ⟨rfl, rfl⟩
    · simp only [List.mem_map, List.mem_range] at hp
      obtain ⟨i, _, rfl⟩ := hp
      exact ⟨rfl, rfl⟩

/-- Witness of C1 at five players. -/
theorem C1_initializePairing_bracket_witness :
    ∃ P k : Nat, P = 2 ^ k ∧ 5 ≤ P ∧ (∀ m, 5 ≤ 2 ^ m → P ≤ 2 ^ m) ∧
    ∃ round : List Pair,
      (newTournament 5).m_rounds = [round] ∧
      round.length = P / 2 ∧
      round.countP (fun p => decide (p.2.index = -1)) = P - 5 ∧
      (∀ i : Nat, i < P - 5 →
        round[i]? = some ({ index := (i : Int), score := 0 }, { index := -1, score := 0 })) ∧
      (∀ (i : Nat) (p : Pair), P - 5 ≤ i → round[i]? = some p → p.2.index ≠ -1) ∧
      (∀ p ∈ round, p.1.score = 0 ∧ p.2.score = 0) ∧
      (newTournament 5).m_currentPair = 0 :=
  C1_initializePairing_bracket
    { playerCount := 5, currentRound := 0, m_currentPair := -1, m_rounds := [] } (by decide)

end Knockout
namespace Knockout

theorem halveLoop_pow : ∀ fuel a : Nat, ∀ total : Int, a ≤ fuel →
    halveLoop fuel (2 ^ a) total = total + ((2 ^ a : Nat) : Int) - 1 := by
  intro fuel
  induction fuel with
  | zero =>
    intro a total h
    have : a = 0 := by omega
    subst this
    simp [halveLoop]
  | succ fuel ih =>
    intro a total h
    cases a with
    | zero => simp [halveLoop]
    | succ a =>
      have h2 : 2 ^ (a + 1) ≥ 2 := by
        have : 1 ≤ 2 ^ a := Nat.one_le_two_pow
        rw [pow_succ]; omega
      have hdiv : 2 ^ (a + 1) / 2 = 2 ^ a := by
        rw [pow_succ]; omega
      simp only [halveLoop, h2, if_true, hdiv]
      rw [ih a _ (by omega)]
      have : ((2 ^ (a + 1) : Nat) : Int) = 2 * ((2 ^ a : Nat) : Int) := by
        rw [pow_succ]; push_cast; ring
      rw [this]; ring

/-- The rounds after the first: `P/4 + P/8 + ... + 1` for `P = 2 ^ (k + 1)`. -/
theorem sum_later_rounds (k : Nat) :
    ∑ i in Finset.range k, 2 ^ (k + 1) / 2 ^ (i + 2) = 2 ^ k - 1 := by
  induction k with
  | zero => simp
  | succ k ih =>
    rw [Finset.sum_range_succ]
    have hterm : ∀ i ∈ Finset.range k, 2 ^ (k + 1 + 1) / 2 ^ (i + 2) = 2 * (2 ^ (k + 1) / 2 ^ (i + 2)) := by
      intro i hi
      rw [Finset.mem_range] at hi
      rw [Nat.pow_div (by omega) (by norm_num), Nat.pow_div (by omega) (by norm_num)]
      rw [show k + 1 + 1 - (i + 2) = (k + 1 - (i + 2)) + 1 by omega, pow_succ]
      ring
    rw [Finset.sum_congr rfl hterm, ← Finset.mul_sum, ih]
    have : 2 ^ (k + 1 + 1) / 2 ^ (k + 2) = 1 := Nat.div_self (by positivity)
    rw [this]
    have : 1 ≤ 2 ^ k := Nat.one_le_two_pow
    rw [pow_succ]; omega

theorem gamesPerCycle_eq (n : Nat) (hn : 1 ≤ n) : gamesPerCycle n = (n : Int) - 1 := by
  by_cases h1 : n = 1
  · subst h1; decide
  · obtain ⟨j, h, hP, hPh, hlt, hle, _⟩ := bracketSize_half n (by omega)
    have hj : j ≠ 0 := by
      rintro rfl
      simp at hP; omega
    have hh : h = 2 ^ (j - 1) := by
      have e : 2 ^ j = 2 * 2 ^ (j - 1) := by
        conv_lhs => rw [show j = (j - 1) + 1 by omega]
        rw [pow_succ]; ring
      omega
    unfold gamesPerCycle
    simp only
    have hdiv : bracketSize n / 2 = 2 ^ (j - 1) := by omega
    rw [hdiv, halveLoop_pow _ _ _ (Nat.le_of_lt (Nat.lt_two_pow _))]
    rw [hPh, hh]
    push_cast
    omega

end Knockout

namespace Knockout

/-- C6: for `N ≥ 1` players `gamesPerCycle` returns `(P/2 - (P - N)) + P/4 + P/8 + ... + 1`,
where `P = 2 ^ k` is the least power of two that is at least `N`; this equals `N - 1`, and it
is `4` for five players. -/
theorem C6_gamesPerCycle_closed_form :
    (∀ N : Nat, 1 ≤ N →
      ∃ P k : Nat, P = 2 ^ k ∧ N ≤ P ∧ (∀ m, N ≤ 2 ^ m → P ≤ 2 ^ m) ∧
        gamesPerCycle N =
          (((P / 2 : Nat) : Int) - ((P : Int) - (N : Int))) +
            ((∑ i in Finset.range (k - 1), P / 2 ^ (i + 2) : Nat) : Int) ∧
        gamesPerCycle N = (N : Int) - 1) ∧
    gamesPerCycle 5 = 4 := by
  refine ⟨?_, by decide⟩
  intro N hN
  obtain ⟨j, hj1, hj2, hj3⟩ := bracketSize_spec N
  refine ⟨2 ^ j, j, rfl, hj2, bracketSize_least N j hj2 hj3, ?_, gamesPerCycle_eq N hN⟩
  rw [gamesPerCycle_eq N hN]
  cases j with
  | zero =>
    simp at hj2
    have : N = 1 := by omega
    subst this
    simp
  | succ j =>
    simp only [Nat.add_sub_cancel]
    rw [sum_later_rounds]
    have h1 : 1 ≤ 2 ^ j := Nat.one_le_two_pow
    have hdiv : 2 ^ (j + 1) / 2 = 2 ^ j := by rw [pow_succ]; omega
    rw [hdiv]
    have : ((2 ^ (j + 1) : Nat) : Int) = 2 * ((2 ^ j : Nat) : Int) := by
      rw [pow_succ]; push_cast; ring
    rw [this]
    omega

/-- Witness of C6 at six players. -/
theorem C6_gamesPerCycle_closed_form_witness :
    1 ≤ 6 ∧ gamesPerCycle 6 = (6 : Int) - 1 :=
  ⟨by decide, by
    obtain ⟨_, _, _, _, _, _, h⟩ := C6_gamesPerCycle_closed_form.1 6 (by decide)
    exact_mod_cast h⟩

/-- C7 as stated fails: with four players `gamesPerCycle` does not return `2`. -/
theorem C7_gamesPerCycle_four_not_two : gamesPerCycle 4 ≠ 2 := by decide

/-- C7 amended: with four players `gamesPerCycle` returns `3`, the two games of the first
round and the final. -/
theorem C7_gamesPerCycle_four : gamesPerCycle 4 = 3 := by decide

end Knockout
namespace Knockout

theorem takePair_rounds {t t2 : KnockoutTournament} {pair : Pair}
    (h : takePair t = some (pair, t2)) :
    t2.m_rounds = t.m_rounds ∧ t2.currentRound = t.currentRound ∧
      t2.playerCount = t.playerCount ∧ t2.m_currentPair = t.m_currentPair + 1 := by
  unfold takePair at h
  split at h
  · simp at h
  · split at h
    · split at h
      · simp at h
      · simp only [Option.some.injEq, Prod.mk.injEq] at h
        obtain ⟨_, rfl⟩ := h
        exact ⟨rfl, rfl, rfl, rfl⟩
    · simp at h

/-- While a game is in progress no call of `nextPair`, however deeply nested, touches the list
of rounds or the round counter. -/
theorem nextPairFuel_blocked (g : Int) (hg : g > 0) : ∀ (fuel : Nat) (t t' : KnockoutTournament)
    (r : Int × Int), nextPairFuel g fuel t = some (r, t') →
    t'.m_rounds = t.m_rounds ∧ t'.currentRound = t.currentRound := by
  intro fuel
  induction fuel with
  | zero => intro t t' r h; simp [nextPairFuel] at h
  | succ fuel ih =>
    intro t t' r h
    unfold nextPairFuel at h
    split at h
    · simp at h
    · split at h
      · simp only [hg, if_true, Option.some.injEq, Prod.mk.injEq] at h
        obtain ⟨_, rfl⟩ := h
        exact ⟨rfl, rfl⟩
      · split at h
        · simp at h
        · rename_i pair t2 htake
          have ht2 := takePair_rounds htake
          split at h
          · have := ih t2 t' r h
            exact ⟨this.1.trans ht2.1, this.2.trans ht2.2.1⟩
          · simp only [Option.some.injEq, Prod.mk.injEq] at h
            obtain ⟨_, rfl⟩ := h
            exact ⟨ht2.1, ht2.2.1⟩

/-- C3: when the cursor has exhausted the last round and a game is in progress, `nextPair`
returns `(-1, -1)` and leaves the whole state (rounds, cursor, round counter) as it was; and
in any state, a call made while a game is in progress appends no round and does not advance
the round counter. -/
theorem C3_nextPair_waits_for_games (g : Int) (t : KnockoutTournament) (hg : g > 0) :
    (∀ lastRound : List Pair, t.m_rounds.getLast? = some lastRound →
      t.m_currentPair ≥ (lastRound.length : Int) → nextPair g t = some ((-1, -1), t)) ∧
    (∀ (r : Int × Int) (t' : KnockoutTournament), nextPair g t = some (r, t') →
      t'.m_rounds = t.m_rounds ∧ t'.currentRound = t.currentRound) := by
  constructor
  · intro lastRound hlast hcur
    unfold nextPair nextPairBudget
    have : 2 * (t.m_rounds.getLast?.getD []).length + 2 = (2 * (t.m_rounds.getLast?.getD []).length + 1) + 1 := rfl
    rw [this]
    unfold nextPairFuel
    simp only [hlast]
    simp [hcur, hg]
  · intro r t' h
    exact nextPairFuel_blocked g hg _ t t' r h

/-- Witness of C3: four players, both first-round pairings handed out, one game running. -/
theorem C3_nextPair_waits_for_games_witness :
    nextPair 1 { newTournament 4 with m_currentPair := 2 } =
      some ((-1, -1), { newTournament 4 with m_currentPair := 2 }) :=
  (C3_nextPair_waits_for_games 1 { newTournament 4 with m_currentPair := 2 } (by decide)).1
    (firstRound 4) (by decide) (by decide)

/-- C4: `lastRoundWinners` returns one winner per pairing of the last round, in pairing order;
the winner is the first slot if the second slot is the bye sentinel or if the first score is
at least the second score, and the second slot otherwise.  With equal scores the winner is
the first slot, and the winners depend on nothing but the last round. -/
theorem C4_lastRoundWinners_tie_break (t : KnockoutTournament) (lastRound : List Pair)
    (hlast : t.m_rounds.getLast? = some lastRound) :
    ∃ winners : List KnockoutPlayer,
      lastRoundWinners t = some winners ∧
      winners.length = lastRound.length ∧
      (∀ (i : Nat) (p : Pair), lastRound[i]? = some p →
        ∃ w, winners[i]? = some w ∧
          w.index = (if p.2.index = -1 ∨ p.1.score ≥ p.2.score then p.1.index else p.2.index) ∧
          (p.1.score = p.2.score → w.index = p.1.index)) ∧
      (∀ t' : KnockoutTournament, t'.m_rounds.getLast? = some lastRound →
        lastRoundWinners t' = some winners) := by
  refine ⟨lastRound.map winnerOf, by simp [lastRoundWinners, hlast], by simp, ?_,
    fun t' h' => by simp [lastRoundWinners, h']⟩
  intro i p hp
  refine ⟨winnerOf p, by simp [hp], ?_, ?_⟩
  · unfold winnerOf
    by_cases h1 : p.2.index = -1
    · simp [h1]
    · by_cases h2 : p.1.score ≥ p.2.score
      · simp [h1, h2]
      · simp [h1, h2]
  · intro heq
    unfold winnerOf
    by_cases h1 : p.2.index = -1
    · simp [h1]
    · simp [h1, heq]

/-- Witness of C4: a pairing with the scores 3 and 3 is won by its first slot. -/
theorem C4_lastRoundWinners_tie_break_witness :
    ∃ winners : List KnockoutPlayer,
      lastRoundWinners
          { playerCount := 2, currentRound := 0, m_currentPair := 1,
            m_rounds := [[({ index := 0, score := 3 }, { index := 1, score := 3 })]] } =
        some winners ∧
      winners.length = 1 ∧
      winners[0]? = some { index := 0, score := 0 } := by
  obtain ⟨winners, h1, h2, h3, _⟩ := C4_lastRoundWinners_tie_break
    { playerCount := 2, currentRound := 0, m_currentPair := 1,
      m_rounds := [[({ index := 0, score := 3 }, { index := 1, score := 3 })]] }
    [({ index := 0, score := 3 }, { index := 1, score := 3 })] rfl
  refine ⟨winners, h1, h2, ?_⟩
  have hw : lastRoundWinners
      { playerCount := 2, currentRound := 0, m_currentPair := 1,
        m_rounds := [[({ index := 0, score := 3 }, { index := 1, score := 3 })]] } =
      some [{ index := 0, score := 0 }] := by decide
  rw [hw] at h1
  cases h1
  rfl

end Knockout
namespace Knockout

theorem pairWinners_length : ∀ (n : Nat) (ws : List KnockoutPlayer) (nr : List Pair),
    ws.length ≤ n → pairWinners ws = some nr → 2 * nr.length = ws.length := by
  intro n
  induction n with
  | zero =>
    intro ws nr hlen h
    have : ws = [] := List.length_eq_zero.1 (by omega)
    subst this
    simp only [pairWinners, Option.some.injEq] at h
    subst h
    rfl
  | succ n ih =>
    intro ws nr hlen h
    match ws, hlen, h with
    | [], _, h =>
      simp only [pairWinners, Option.some.injEq] at h
      subst h
      rfl
    | [_], _, h => simp [pairWinners] at h
    | a :: b :: rest, hlen, h =>
      unfold pairWinners at h
      cases hr : pairWinners rest with
      | none => simp [hr] at h
      | some nr' =>
        simp only [hr, Option.some.injEq] at h
        subst h
        have := ih rest nr' (by simp at hlen; omega) hr
        simp only [List.length_cons]
        omega

theorem startNewRound_some {t t1 : KnockoutTournament} (h : startNewRound t = some t1) :
    ∃ (lastRound nr : List Pair), t.m_rounds.getLast? = some lastRound ∧
      t1.m_rounds = t.m_rounds ++ [nr] ∧ t1.m_currentPair = 0 ∧
      2 * nr.length = lastRound.length := by
  unfold startNewRound lastRoundWinners at h
  cases hl : t.m_rounds.getLast? with
  | none => simp [hl] at h
  | some lastRound =>
    simp only [hl] at h
    split at h
    · cases hp : pairWinners (lastRound.map winnerOf) with
      | none => simp [hp] at h
      | some nr =>
        simp only [hp, Option.some.injEq] at h
        subst h
        have := pairWinners_length _ _ nr (le_refl _) hp
        exact ⟨lastRound, nr, rfl, rfl, rfl, by simpa using this⟩
    · simp at h

theorem takePair_some {t t2 : KnockoutTournament} {pair : Pair}
    (h : takePair t = some (pair, t2)) :
    ∃ lastRound : List Pair, t.m_rounds.getLast? = some lastRound ∧ 0 ≤ t.m_currentPair ∧
      t.m_currentPair.toNat < lastRound.length ∧ t2.m_rounds = t.m_rounds ∧
      t2.m_currentPair = t.m_currentPair + 1 := by
  unfold takePair at h
  cases hl : t.m_rounds.getLast? with
  | none => simp [hl] at h
  | some lastRound =>
    simp only [hl] at h
    split at h
    · rename_i hpos
      cases hp : lastRound[t.m_currentPair.toNat]? with
      | none => simp [hp] at h
      | some p =>
        simp only [hp, Option.some.injEq, Prod.mk.injEq] at h
        obtain ⟨_, rfl⟩ := h
        exact ⟨lastRound, rfl, hpos, (List.getElem?_eq_some.1 hp).1, rfl, rfl⟩
    · simp at h

/-- One more unit of fuel does not change the result of `nextPair` once the fuel covers the
pairings still ahead of the cursor and the rounds that can follow. -/
theorem nextPairFuel_succ (g : Int) : ∀ (fuel : Nat) (t : KnockoutTournament),
    2 * (t.m_rounds.getLast?.getD []).length + 1 -
      min t.m_currentPair.toNat (t.m_rounds.getLast?.getD []).length ≤ fuel →
    nextPairFuel g fuel t = nextPairFuel g (fuel + 1) t := by
  intro fuel
  induction fuel with
  | zero => intro t h; omega
  | succ fuel ih =>
    intro t h
    rw [nextPairFuel, nextPairFuel]
    cases hl : t.m_rounds.getLast? with
    | none => rfl
    | some lastRound =>
      simp only [hl, Option.getD_some] at h
      dsimp only
      by_cases hcur : t.m_currentPair ≥ (lastRound.length : Int)
      · simp only [hcur, if_true]
        by_cases hg : g > 0
        · simp only [hg, if_true]
        · simp only [hg, if_false]
          cases hs : startNewRound t with
          | none => rfl
          | some t1 =>
            dsimp only
            cases ht : takePair t1 with
            | none => rfl
            | some r =>
              obtain ⟨pair, t2⟩ := r
              dsimp only
              by_cases hb : pair.2.index = -1
              · simp only [hb, if_true]
                obtain ⟨lr, nr, h1, h2, h3, h4⟩ := startNewRound_some hs
                obtain ⟨lr1, k1, k2, k3, k4, k5⟩ := takePair_some ht
                rw [hl, Option.some.injEq] at h1
                subst h1
                rw [h2, List.getLast?_concat, Option.some.injEq] at k1
                subst k1
                apply ih
                rw [k4, h2, List.getLast?_concat, Option.getD_some, k5, h3]
                simp only [zero_add, Int.toNat_one]
                rw [h3] at k3
                simp only [Int.toNat_zero] at k3
                omega
              · simp only [hb, if_false]
      · simp only [hcur, if_false]
        cases ht : takePair t with
        | none => rfl
        | some r =>
          obtain ⟨pair, t2⟩ := r
          dsimp only
          by_cases hb : pair.2.index = -1
          · simp only [hb, if_true]
            obtain ⟨lr1, k1, k2, k3, k4, k5⟩ := takePair_some ht
            rw [hl, Option.some.injEq] at k1
            subst k1
            apply ih
            rw [k4, hl, Option.getD_some, k5]
            omega
          · simp only [hb, if_false]

/-- The fuel granted to `nextPair` is never exhausted: any larger amount of fuel gives the
same result, so `none` always stands for undefined behaviour of the source. -/
theorem nextPairFuel_budget (g : Int) (t : KnockoutTournament) : ∀ extra : Nat,
    nextPairFuel g (nextPairBudget t + extra) t = nextPair g t := by
  intro extra
  induction extra with
  | zero => rfl
  | succ extra ih =>
    rw [← ih, ← Nat.add_assoc]
    exact (nextPairFuel_succ g _ t (by unfold nextPairBudget; omega)).symm

end Knockout
namespace Knockout

/-- The index pair of a pairing. -/
theorem addScoreLoop_index (player score : Int) (l : List Pair) :
    (addScoreLoop player score l).map (fun p => (p.1.index, p.2.index)) =
      l.map (fun p => (p.1.index, p.2.index)) := by
  induction l with
  | nil => rfl
  | cons p rest ih =>
    unfold addScoreLoop
    split
    · simp
    · split
      · simp
      · simp [ih]

theorem addScoreLoop_length (player score : Int) (l : List Pair) :
    (addScoreLoop player score l).length = l.length := by
  have := congrArg List.length (addScoreLoop_index player score l)
  simpa using this

theorem list_ext_index {l l' : List Pair}
    (h : l'.map (fun p => (p.1.index, p.2.index)) = l.map (fun p => (p.1.index, p.2.index)))
    (i : Nat) (p' : Pair) (hp : l'[i]? = some p') :
    ∃ p, l[i]? = some p ∧ p.1.index = p'.1.index ∧ p.2.index = p'.2.index := by
  have h1 := congrArg (fun m => m[i]?) h
  simp only [List.getElem?_map, hp, Option.map_some'] at h1
  cases hl : l[i]? with
  | none => simp [hl] at h1
  | some p =>
    simp only [hl, Option.map_some', Option.some.injEq, Prod.mk.injEq] at h1
    exact ⟨p, rfl, h1.1.symm, h1.2.symm⟩

theorem realCount_index {l l' : List Pair}
    (h : l'.map (fun p => (p.1.index, p.2.index)) = l.map (fun p => (p.1.index, p.2.index)))
    (cur : Nat) : realCount (l'.drop cur) = realCount (l.drop cur) := by
  have e : ∀ m : List Pair, realCount m =
      (m.map (fun p => (p.1.index, p.2.index))).countP (fun q => decide (q.2 ≠ -1)) := by
    intro m
    unfold realCount
    rw [List.countP_map]
    rfl
  rw [e, e, List.map_drop, List.map_drop, h]

theorem Running_addScore {n c : Nat} {t : KnockoutTournament} (player score : Int)
    (h : Running n t c) : ∃ t', addScore player score t = some t' ∧ Running n t' c := by
  obtain ⟨rs, lastRound, k, cur, h1, h2, h3, h4, h5, h6, h7⟩ := h
  have hidx := addScoreLoop_index player score lastRound
  have hlen := addScoreLoop_length player score lastRound
  refine ⟨{ t with m_rounds := rs ++ [addScoreLoop player score lastRound] },
    by simp [addScore, h1], rs, addScoreLoop player score lastRound, k, cur, rfl, h2,
    by omega, by omega, ?_, ?_, ?_⟩
  · intro p' hp'
    obtain ⟨i, hi⟩ := List.mem_iff_getElem?.1 hp'
    obtain ⟨p, hp, e1, _⟩ := list_ext_index hidx i p' hi
    rw [← e1]
    exact h5 p (List.getElem?_mem hp)
  · intro p' hp'
    rw [List.getLast?_eq_getElem?] at hp'
    obtain ⟨p, hp, _, e2⟩ := list_ext_index hidx _ p' hp'
    rw [← e2]
    apply h6 p
    rw [List.getLast?_eq_getElem?, ← hlen]
    exact hp
  · rw [realCount_index hidx]
    exact h7

end Knockout
namespace Knockout

theorem takePair_at {t : KnockoutTournament} {rs : List (List Pair)} {lastRound : List Pair}
    {cur : Nat} {p : Pair} (h1 : t.m_rounds = rs ++ [lastRound])
    (h2 : t.m_currentPair = (cur : Int)) (hp : lastRound[cur]? = some p) :
    takePair t = some (p, { t with m_currentPair := ((cur + 1 : Nat) : Int) }) := by
  unfold takePair
  simp only [h1, List.getLast?_concat, h2]
  simp [hp]

theorem realCount_drop_step {l : List Pair} {cur : Nat} {p : Pair} (hp : l[cur]? = some p) :
    realCount (l.drop cur) =
      realCount (l.drop (cur + 1)) + (if p.2.index ≠ -1 then 1 else 0) := by
  obtain ⟨hlt, rfl⟩ := List.getElem?_eq_some.1 hp
  rw [List.drop_eq_getElem_cons hlt]
  unfold realCount
  rw [List.countP_cons]
  simp

theorem nextPairFuel_skip (g : Int) (rs : List (List Pair)) (lastRound : List Pair)
    (hreal : ∀ p, lastRound.getLast? = some p → p.2.index ≠ -1) :
    ∀ (d fuel cur : Nat) (t : KnockoutTournament),
      t.m_rounds = rs ++ [lastRound] → t.m_currentPair = (cur : Int) →
      cur < lastRound.length → lastRound.length - cur ≤ d → d ≤ fuel →
      ∃ (j : Nat) (p : Pair), cur ≤ j ∧ lastRound[j]? = some p ∧ p.2.index ≠ -1 ∧
        realCount (lastRound.drop cur) = realCount (lastRound.drop (j + 1)) + 1 ∧
        nextPairFuel g fuel t =
          some ((p.1.index, p.2.index), { t with m_currentPair := ((j + 1 : Nat) : Int) }) := by
  intro d
  induction d with
  | zero => intro fuel cur t _ _ h3 h4 _; omega
  | succ d ih =>
    intro fuel cur t h1 h2 h3 h4 h5
    obtain ⟨fuel', rfl⟩ : ∃ f, fuel = f + 1 := ⟨fuel - 1, by omega⟩
    have hp : lastRound[cur]? = some lastRound[cur] := List.getElem?_eq_getElem h3
    have htake := takePair_at h1 h2 hp
    have hcount := realCount_drop_step hp
    have hnot : ¬ (t.m_currentPair ≥ (lastRound.length : Int)) := by rw [h2]; omega
    unfold nextPairFuel
    simp only [h1, List.getLast?_concat, hnot, if_false]
    rw [← h1, htake]
    simp only
    by_cases hbye : lastRound[cur].2.index = -1
    · simp only [hbye, if_true]
      have hcur : cur + 1 < lastRound.length := by
        by_contra hc
        have hlast : lastRound.getLast? = some lastRound[cur] := by
          rw [List.getLast?_eq_getElem?, ← hp]
          congr 1; omega
        exact hreal _ hlast hbye
      obtain ⟨j, p, hj1, hj2, hj3, hj4, hj5⟩ :=
        ih fuel' (cur + 1) { t with m_currentPair := ((cur + 1 : Nat) : Int) } h1 rfl hcur
          (by omega) (by omega)
      refine ⟨j, p, by omega, hj2, hj3, ?_, hj5⟩
      rw [hcount, hj4]
      simp [hbye]
    · simp only [hbye, if_false]
      refine ⟨cur, lastRound[cur], le_refl _, hp, hbye, ?_, rfl⟩
      rw [hcount]
      simp [hbye]

theorem pairWinners_even : ∀ (m : Nat) (ws : List KnockoutPlayer), ws.length = 2 * m →
    ∃ nr, pairWinners ws = some nr ∧ nr.length = m ∧ ∀ p ∈ nr, p.1 ∈ ws ∧ p.2 ∈ ws := by
  intro m
  induction m with
  | zero =>
    intro ws h
    have : ws = [] := List.length_eq_zero.1 (by omega)
    subst this
    exact ⟨[], rfl, rfl, by simp⟩
  | succ m ih =>
    intro ws h
    match ws, h with
    | a :: b :: rest, h =>
      obtain ⟨nr, h1, h2, h3⟩ := ih rest (by simp at h; omega)
      refine ⟨(a, b) :: nr, by simp [pairWinners, h1], by simp [h2], ?_⟩
      intro p hp
      rw [List.mem_cons] at hp
      rcases hp with rfl | hp
      · simp
      · have := h3 p hp
        simp [this.1, this.2]

theorem winnerOf_index_ne {p : Pair} (h : p.1.index ≠ -1) : (winnerOf p).index ≠ -1 := by
  unfold winnerOf
  by_cases h1 : p.2.index = -1
  · simp [h1, h]
  · by_cases h2 : p.1.score ≥ p.2.score
    · simp [h1, h2, h]
    · simp [h1, h2]

end Knockout
namespace Knockout

theorem realCount_all {l : List Pair} (h : ∀ p ∈ l, p.2.index ≠ -1) :
    realCount l = l.length := by
  unfold realCount
  rw [List.countP_eq_length]
  intro p hp
  simpa using h p hp

theorem nextPair_unfold_budget (g : Int) (t : KnockoutTournament) (rs : List (List Pair))
    (lastRound : List Pair) (h1 : t.m_rounds = rs ++ [lastRound]) :
    nextPair g t = nextPairFuel g (2 * lastRound.length + 1 + 1) t := by
  unfold nextPair nextPairBudget
  simp [h1]

/-- One call of `nextPair` on a running bracket: it is refused because games are in progress,
or it hands out a real pair and the bracket keeps running, or the final had been handed out
before. -/
theorem Running_nextPair {n c : Nat} {t : KnockoutTournament} (g : Int) (h : Running n t c) :
    (g > 0 ∧ nextPair g t = some ((-1, -1), t)) ∨
    (∃ (a b : Int) (t' : KnockoutTournament),
      nextPair g t = some ((a, b), t') ∧ b ≠ -1 ∧ Running n t' (c + 1)) ∨
    (finalHandedOut t ∧ g ≤ 0 ∧ nextPair g t = none) := by
  obtain ⟨rs, lastRound, k, cur, h1, h2, h3, h4, h5, h6, h7⟩ := h
  have hbud := nextPair_unfold_budget g t rs lastRound h1
  by_cases hcur : cur < lastRound.length
  · right; left
    obtain ⟨j, p, hj1, hj2, hj3, hj4, hj5⟩ :=
      nextPairFuel_skip g rs lastRound h6 (lastRound.length - cur)
        (2 * lastRound.length + 1 + 1) cur t h1 h2 hcur (le_refl _) (by omega)
    have hjlt : j < lastRound.length := (List.getElem?_eq_some.1 hj2).1
    refine ⟨p.1.index, p.2.index, { t with m_currentPair := ((j + 1 : Nat) : Int) },
      by rw [hbud]; exact hj5, hj3, rs, lastRound, k, j + 1,
      h1, rfl, by omega, h4, h5, h6, by omega⟩
  · have hcl : cur = lastRound.length := by omega
    have hge : t.m_currentPair ≥ (lastRound.length : Int) := by rw [h2]; omega
    have hdrop : realCount (lastRound.drop cur) = 0 := by
      rw [List.drop_eq_nil_of_le (by omega)]; rfl
    by_cases hg : g > 0
    · left
      refine ⟨hg, ?_⟩
      rw [hbud]
      unfold nextPairFuel
      simp only [h1, List.getLast?_concat]
      simp [hge, hg]
    · right
      have hwin : lastRoundWinners t = some (lastRound.map winnerOf) := by
        simp [lastRoundWinners, h1]
      cases k with
      | zero =>
        right
        refine ⟨⟨lastRound, by simp [h1], by simpa using h4, by rw [h2]; simp at h4; omega⟩,
          by omega, ?_⟩
        rw [hbud]
        unfold nextPairFuel
        simp only [h1, List.getLast?_concat]
        simp only [hge, if_true, hg, if_false]
        have : startNewRound t = none := by
          unfold startNewRound
          rw [hwin]
          simp at h4
          simp [h4]
        rw [this]
      | succ k =>
        left
        have hwl : (lastRound.map winnerOf).length = 2 * 2 ^ k := by
          rw [List.length_map, h4, pow_succ]; ring
        obtain ⟨nr, hn1, hn2, hn3⟩ := pairWinners_even (2 ^ k) _ hwl
        have hpos : 1 ≤ 2 ^ k := Nat.one_le_two_pow
        have hboth : ∀ p ∈ nr, p.1.index ≠ -1 ∧ p.2.index ≠ -1 := by
          intro p hp
          have hw : ∀ w ∈ lastRound.map winnerOf, w.index ≠ -1 := by
            intro w hw
            rw [List.mem_map] at hw
            obtain ⟨q, hq, rfl⟩ := hw
            exact winnerOf_index_ne (h5 q hq)
          exact ⟨hw _ (hn3 p hp).1, hw _ (hn3 p hp).2⟩
        have hstart : startNewRound t = some { t with
            m_rounds := t.m_rounds ++ [nr], m_currentPair := 0,
            currentRound := t.currentRound + 1 } := by
          unfold startNewRound
          rw [hwin]
          simp only [hn1]
          rw [if_pos (by omega)]
        have h0 : nr[0]? = some nr[0] := List.getElem?_eq_getElem (by omega)
        have htake := @takePair_at
          { t with m_rounds := t.m_rounds ++ [nr], m_currentPair := 0,
                   currentRound := t.currentRound + 1 }
          t.m_rounds nr 0 nr[0] rfl rfl h0
        have hmem : nr[0] ∈ nr := List.getElem_mem _
        refine ⟨nr[0].1.index, nr[0].2.index,
          { t with m_rounds := t.m_rounds ++ [nr], m_currentPair := ((0 + 1 : Nat) : Int),
                   currentRound := t.currentRound + 1 }, ?_, (hboth _ hmem).2,
          t.m_rounds, nr, k, 1, rfl, rfl, by omega, hn2, fun p hp => (hboth p hp).1,
          fun p hp => (hboth p (List.mem_of_mem_getLast? hp)).2, ?_⟩
        · rw [hbud]
          unfold nextPairFuel
          simp only [h1, List.getLast?_concat]
          simp only [hge, if_true, hg, if_false, hstart, htake, (hboth _ hmem).2]
          rw [h1]
        · rw [realCount_all (fun p hp => (hboth p (List.mem_of_mem_drop hp)).2)]
          rw [List.length_drop, hn2]
          rw [hdrop, pow_succ] at h7
          omega

end Knockout
namespace Knockout

theorem firstRound_split (n : Nat) (hn : 2 ≤ n) :
    ∃ (k : Nat) (A B : List Pair), firstRound n = A ++ B ∧ 2 ^ k < n ∧ n ≤ 2 * 2 ^ k ∧
      A.length = 2 * 2 ^ k - n ∧ B.length = n - 2 ^ k ∧
      (∀ p ∈ A, p.1.index ≠ -1 ∧ p.2.index = -1) ∧
      (∀ p ∈ B, p.1.index ≠ -1 ∧ p.2.index ≠ -1) := by
  obtain ⟨j, hj1, hj2, hj3⟩ := bracketSize_spec n
  have hj0 : j ≠ 0 := by
    rintro rfl
    simp at hj2; omega
  have hj3' : 2 ^ (j - 1) < n := by
    rcases hj3 with h | h
    · exact absurd h hj0
    · exact h
  have e : 2 ^ j = 2 * 2 ^ (j - 1) := by
    conv_lhs => rw [show j = (j - 1) + 1 by omega]
    rw [pow_succ]; ring
  rw [e] at hj1 hj2
  refine ⟨j - 1, _, _, firstRound_eq n, hj3', hj2, ?_, ?_, ?_, ?_⟩
  · simp [hj1]
  · simp only [List.length_map, List.length_range, hj1]; omega
  · intro p hp
    simp only [List.mem_map, List.mem_range] at hp
    obtain ⟨i, _, rfl⟩ := hp
    simp only [byePair]
    exact ⟨by omega, trivial⟩
  · intro p hp
    simp only [List.mem_map, List.mem_range] at hp
    obtain ⟨i, _, rfl⟩ := hp
    simp only [matchPair]
    exact ⟨by omega, by omega⟩

theorem Running_init (n : Nat) (hn : 2 ≤ n) : Running n (newTournament n) 0 := by
  obtain ⟨k, A, B, hAB, h1, h2, hA, hB, hAp, hBp⟩ := firstRound_split n hn
  refine ⟨[], firstRound n, k, 0, rfl, rfl, by omega, by rw [hAB, List.length_append]; omega,
    ?_, ?_, ?_⟩
  · intro p hp
    rw [hAB, List.mem_append] at hp
    rcases hp with hp | hp
    · exact (hAp p hp).1
    · exact (hBp p hp).1
  · intro p hp
    rw [hAB, List.getLast?_eq_getElem?, List.getElem?_append_right (by simp; omega)] at hp
    exact (hBp p (List.getElem?_mem hp)).2
  · rw [List.drop_zero, hAB]
    unfold realCount
    rw [List.countP_append]
    have e1 : List.countP (fun p : Pair => decide (p.2.index ≠ -1)) A = 0 := by
      rw [List.countP_eq_zero]
      intro p hp
      simpa using (hAp p hp).2
    have e2 : List.countP (fun p : Pair => decide (p.2.index ≠ -1)) B = B.length := by
      rw [List.countP_eq_length]
      intro p hp
      simpa using (hBp p hp).2
    rw [e1, e2]; omega

theorem realPairs_cons_sentinel (out : List (Int × Int)) :
    realPairs ((-1, -1) :: out) = realPairs out := by
  simp [realPairs]

theorem realPairs_cons_real (a b : Int) (hb : b ≠ -1) (out : List (Int × Int)) :
    realPairs ((a, b) :: out) = realPairs out + 1 := by
  unfold realPairs
  rw [List.countP_cons]
  simp [hb]

theorem drive_Running (n : Nat) : ∀ (calls : List Call) (t tf : KnockoutTournament) (c : Nat)
    (out : List (Int × Int)), Running n t c → drive calls t = some (tf, out) →
    Running n tf (c + realPairs out) := by
  intro calls
  induction calls with
  | nil =>
    intro t tf c out h hd
    simp only [drive, Option.some.injEq, Prod.mk.injEq] at hd
    obtain ⟨rfl, rfl⟩ := hd
    simpa [realPairs] using h
  | cons call rest ih =>
    intro t tf c out h hd
    cases call with
    | addScore player score =>
      obtain ⟨t1, h1, h2⟩ := Running_addScore player score h
      simp only [drive, h1] at hd
      exact ih t1 tf c out h2 hd
    | nextPair g =>
      rcases Running_nextPair g h with ⟨_, h1⟩ | ⟨a, b, t1, h1, hb, h2⟩ | ⟨_, _, h1⟩
      · simp only [drive, h1] at hd
        cases hr : drive rest t with
        | none => simp [hr] at hd
        | some r =>
          obtain ⟨t2, out2⟩ := r
          simp only [hr, Option.some.injEq, Prod.mk.injEq] at hd
          obtain ⟨rfl, rfl⟩ := hd
          rw [realPairs_cons_sentinel]
          exact ih t t2 c out2 h hr
      · simp only [drive, h1] at hd
        cases hr : drive rest t1 with
        | none => simp [hr] at hd
        | some r =>
          obtain ⟨t2, out2⟩ := r
          simp only [hr, Option.some.injEq, Prod.mk.injEq] at hd
          obtain ⟨rfl, rfl⟩ := hd
          rw [realPairs_cons_real a b hb]
          have := ih t1 t2 (c + 1) out2 h2 hr
          rw [show c + (realPairs out2 + 1) = c + 1 + realPairs out2 by omega]
          exact this
      · simp [drive, h1] at hd

theorem Running_final_count {n c : Nat} {t : KnockoutTournament} (h : Running n t c)
    (hf : finalHandedOut t) : c + 1 = n := by
  obtain ⟨rs, lastRound, k, cur, h1, h2, h3, h4, h5, h6, h7⟩ := h
  obtain ⟨lr, hl1, hl2, hl3⟩ := hf
  rw [h1, List.getLast?_concat, Option.some.injEq] at hl1
  subst hl1
  have hcur : 1 ≤ cur := by rw [h2] at hl3; omega
  rw [List.drop_eq_nil_of_le (by omega)] at h7
  rw [← h4, hl2] at h7
  simpa [realCount] using h7

theorem Running_done {n : Nat} {t : KnockoutTournament} (hn : 1 ≤ n) (h : Running n t (n - 1)) :
    finalHandedOut t := by
  obtain ⟨rs, lastRound, k, cur, h1, h2, h3, h4, h5, h6, h7⟩ := h
  have hpos : 1 ≤ 2 ^ k := Nat.one_le_two_pow
  have hk : 2 ^ k = 1 := by omega
  have hz : realCount (lastRound.drop cur) = 0 := by omega
  refine ⟨lastRound, by simp [h1], by omega, ?_⟩
  rw [h2]
  by_contra hc
  have hc0 : cur = 0 := by omega
  subst hc0
  rw [List.drop_zero] at hz
  obtain ⟨p, rfl⟩ := List.length_eq_one.1 (h4.trans hk)
  have := h6 p rfl
  simp [realCount, this] at hz

theorem drive_replicate (n : Nat) : ∀ (m c : Nat) (t : KnockoutTournament), Running n t c →
    c + m + 1 ≤ n →
    ∃ tf out, drive (List.replicate m (Call.nextPair 0)) t = some (tf, out) ∧
      Running n tf (c + m) := by
  intro m
  induction m with
  | zero => intro c t h _; exact ⟨t, [], rfl, h⟩
  | succ m ih =>
    intro c t h hle
    rcases Running_nextPair 0 h with ⟨hg, _⟩ | ⟨a, b, t1, h1, hb, h2⟩ | ⟨hf, _, _⟩
    · omega
    · obtain ⟨tf, out, hd, hr⟩ := ih (c + 1) t1 h2 (by omega)
      refine ⟨tf, (a, b) :: out, ?_, ?_⟩
      · simp [List.replicate_succ, drive, h1, hd]
      · rw [show c + (m + 1) = c + 1 + m by omega]; exact hr
    · have := Running_final_count h hf
      omega

end Knockout
namespace Knockout

/-- C9: for `N ≥ 2` players, every run of `addScore` and `nextPair` calls from
`initializePairing` that ends with the final handed out has returned exactly `gamesPerCycle`
pairs other than the sentinel; and such a run exists: `N - 1` calls of `nextPair` with no game
in progress hand out the whole tournament. -/
theorem C9_complete_run_returns_gamesPerCycle (N : Nat) (hN : 2 ≤ N) :
    (∀ (calls : List Call) (tf : KnockoutTournament) (out : List (Int × Int)),
      drive calls (newTournament N) = some (tf, out) → finalHandedOut tf →
      (realPairs out : Int) = gamesPerCycle N) ∧
    (∃ (tf : KnockoutTournament) (out : List (Int × Int)),
      drive (List.replicate (N - 1) (Call.nextPair 0)) (newTournament N) = some (tf, out) ∧
      finalHandedOut tf) := by
  constructor
  · intro calls tf out hd hf
    have h := drive_Running N calls (newTournament N) tf 0 out (Running_init N hN) hd
    have := Running_final_count h hf
    rw [gamesPerCycle_eq N (by omega)]
    omega
  · obtain ⟨tf, out, hd, hr⟩ := drive_replicate N (N - 1) 0 (newTournament N) (Running_init N hN) (by omega)
    refine ⟨tf, out, hd, @Running_done N tf (by omega) ?_⟩
    simpa using hr

/-- Witness of C9 at five players: the rounds have 4, 2 and 1 pairings and the four pairs
handed out are one of round one, two of round two and the final. -/
theorem C9_complete_run_returns_gamesPerCycle_witness :
    drive [Call.nextPair 0, Call.addScore 4 1, Call.nextPair 1, Call.nextPair 0,
        Call.nextPair 0, Call.addScore 1 1, Call.addScore 4 1, Call.nextPair 0]
      (newTournament 5) =
      some ({ playerCount := 5, currentRound := 2, m_currentPair := 1,
              m_rounds := [[byePair 0, byePair 1, byePair 2,
                            ({ index := 3, score := 0 }, { index := 4, score := 1 })],
                           [({ index := 0, score := 0 }, { index := 1, score := 1 }),
                            ({ index := 2, score := 0 }, { index := 4, score := 1 })],
                           [({ index := 1, score := 0 }, { index := 4, score := 0 })]] },
            [(3, 4), (-1, -1), (0, 1), (2, 4), (1, 4)]) ∧
    (realPairs [(3, 4), (-1, -1), (0, 1), (2, 4), (1, 4)] : Int) = gamesPerCycle 5 ∧
    gamesPerCycle 5 = 1 + 2 + 1 := by
  have hd : drive [Call.nextPair 0, Call.addScore 4 1, Call.nextPair 1, Call.nextPair 0,
        Call.nextPair 0, Call.addScore 1 1, Call.addScore 4 1, Call.nextPair 0]
      (newTournament 5) =
      some ({ playerCount := 5, currentRound := 2, m_currentPair := 1,
              m_rounds := [[byePair 0, byePair 1, byePair 2,
                            ({ index := 3, score := 0 }, { index := 4, score := 1 })],
                           [({ index := 0, score := 0 }, { index := 1, score := 1 }),
                            ({ index := 2, score := 0 }, { index := 4, score := 1 })],
                           [({ index := 1, score := 0 }, { index := 4, score := 0 })]] },
            [(3, 4), (-1, -1), (0, 1), (2, 4), (1, 4)]) := by decide
  exact ⟨hd, (C9_complete_run_returns_gamesPerCycle 5 (by decide)).1 _ _ _ hd
    ⟨_, rfl, rfl, by decide⟩, by decide⟩

end Knockout
namespace Knockout

theorem wrap32_range (x : Int) :
    -(2 : Int) ^ 31 ≤ MachineInt.wrap32 x ∧ MachineInt.wrap32 x < (2 : Int) ^ 31 := by
  unfold MachineInt.wrap32
  omega

theorem wrap32_of_range (x : Int) (hlo : -(2 : Int) ^ 31 ≤ x) (hhi : x < (2 : Int) ^ 31) :
    MachineInt.wrap32 x = x := by
  unfold MachineInt.wrap32
  omega

theorem wrap32_add (x y : Int) :
    MachineInt.wrap32 (MachineInt.wrap32 x + y) = MachineInt.wrap32 (x + y) := by
  unfold MachineInt.wrap32
  omega

/-- The first round of four players after any list of score reports: the indices stay and
each slot holds the total reported for its competitor, added up in 32-bit arithmetic. -/
theorem drive_scoreCalls_four (rs : List (List Pair)) :
    ∀ (scores : List (Int × Int)) (t : KnockoutTournament) (a b c d : Int),
      MachineInt.wrap32 a = a → MachineInt.wrap32 b = b → MachineInt.wrap32 c = c →
      MachineInt.wrap32 d = d →
      t.m_rounds = rs ++ [[({ index := 0, score := a }, { index := 1, score := b }),
                    ({ index := 2, score := c }, { index := 3, score := d })]] →
      drive (scoreCalls scores) t =
        some ({ t with m_rounds :=
                  rs ++ [[({ index := 0, score := MachineInt.wrap32 (a + reported 0 scores) },
                     { index := 1, score := MachineInt.wrap32 (b + reported 1 scores) }),
                    ({ index := 2, score := MachineInt.wrap32 (c + reported 2 scores) },
                     { index := 3, score := MachineInt.wrap32 (d + reported 3 scores) })]] },
          []) := by
  intro scores
  induction scores with
  | nil =>
    intro t a b c d ha hb hc hd h
    simp [scoreCalls, drive, reported, ← h, ha, hb, hc, hd]
  | cons ps rest ih =>
    intro t a b c d ha hb hc hd h
    obtain ⟨player, score⟩ := ps
    have hstep : ∃ a' b' c' d' : Int,
        addScore player score t =
          some { t with m_rounds :=
            rs ++ [[({ index := 0, score := a' }, { index := 1, score := b' }),
              ({ index := 2, score := c' }, { index := 3, score := d' })]] } ∧
        MachineInt.wrap32 a' = a' ∧ MachineInt.wrap32 b' = b' ∧
        MachineInt.wrap32 c' = c' ∧ MachineInt.wrap32 d' = d' ∧
        MachineInt.wrap32 (a' + reported 0 rest) =
          MachineInt.wrap32 (a + reported 0 ((player, score) :: rest)) ∧
        MachineInt.wrap32 (b' + reported 1 rest) =
          MachineInt.wrap32 (b + reported 1 ((player, score) :: rest)) ∧
        MachineInt.wrap32 (c' + reported 2 rest) =
          MachineInt.wrap32 (c + reported 2 ((player, score) :: rest)) ∧
        MachineInt.wrap32 (d' + reported 3 rest) =
          MachineInt.wrap32 (d + reported 3 ((player, score) :: rest)) := by
      have hw : ∀ x : Int, MachineInt.wrap32 (MachineInt.wrap32 x) = MachineInt.wrap32 x := by
        intro x
        have := wrap32_add x 0
        simpa using this
      have hr : ∀ (p : Int) (x : Int), p = player →
          MachineInt.wrap32 (MachineInt.wrap32 (x + score) + reported p rest) =
            MachineInt.wrap32 (x + reported p ((player, score) :: rest)) := by
        intro p x hp
        subst hp
        rw [wrap32_add]
        have : reported p ((p, score) :: rest) = score + reported p rest := by
          simp [reported, List.filter_cons]
        rw [this, add_assoc]
      have hk : ∀ (p : Int) (x : Int), p ≠ player →
          MachineInt.wrap32 (x + reported p rest) =
            MachineInt.wrap32 (x + reported p ((player, score) :: rest)) := by
        intro p x hp
        have hne : ¬ (player = p) := fun e => hp e.symm
        have : reported p ((player, score) :: rest) = reported p rest := by
          unfold reported
          rw [List.filter_cons]
          simp only [hne, decide_False, Bool.false_eq_true, if_false]
        rw [this]
      by_cases h0 : player = 0
      · subst h0
        exact ⟨MachineInt.wrap32 (a + score), b, c, d, by simp [addScore, h, addScoreLoop],
          hw _, hb, hc, hd, hr 0 a rfl, hk 1 b (by decide), hk 2 c (by decide),
          hk 3 d (by decide)⟩
      by_cases h1 : player = 1
      · subst h1
        exact ⟨a, MachineInt.wrap32 (b + score), c, d, by simp [addScore, h, addScoreLoop],
          ha, hw _, hc, hd, hk 0 a (by decide), hr 1 b rfl, hk 2 c (by decide),
          hk 3 d (by decide)⟩
      by_cases h2 : player = 2
      · subst h2
        exact ⟨a, b, MachineInt.wrap32 (c + score), d, by simp [addScore, h, addScoreLoop],
          ha, hb, hw _, hd, hk 0 a (by decide), hk 1 b (by decide), hr 2 c rfl,
          hk 3 d (by decide)⟩
      by_cases h3 : player = 3
      · subst h3
        exact ⟨a, b, c, MachineInt.wrap32 (d + score), by simp [addScore, h, addScoreLoop],
          ha, hb, hc, hw _, hk 0 a (by decide), hk 1 b (by decide), hk 2 c (by decide),
          hr 3 d rfl⟩
      · have e0 : ¬ (0 = player) := fun e => h0 e.symm
        have e1 : ¬ (1 = player) := fun e => h1 e.symm
        have e2 : ¬ (2 = player) := fun e => h2 e.symm
        have e3 : ¬ (3 = player) := fun e => h3 e.symm
        exact ⟨a, b, c, d, by simp [addScore, h, addScoreLoop, e0, e1, e2, e3],
          ha, hb, hc, hd, hk 0 a e0, hk 1 b e1, hk 2 c e2, hk 3 d e3⟩
    obtain ⟨a', b', c', d', hs, wa, wb, wc, wd, ea, eb, ec, ed⟩ := hstep
    have := ih { t with m_rounds :=
            rs ++ [[({ index := 0, score := a' }, { index := 1, score := b' }),
              ({ index := 2, score := c' }, { index := 3, score := d' })]] } a' b' c' d'
      wa wb wc wd rfl
    simp only [scoreCalls, List.map_cons, drive, hs]
    simp only [scoreCalls] at this
    rw [this, ea, eb, ec, ed]

end Knockout
namespace Knockout

/-- C8: with four players the first two `nextPair` calls return `(0, 1)` and `(2, 3)`.
After any score reports the slots of the first round hold the totals reported for their
competitors, added up in 32-bit arithmetic.  When these scores leave competitor 1 above
competitor 0 and competitor 2 above competitor 3, a `nextPair` call made while no game is in
progress returns `(1, 2)` and the second round it creates is that single pairing. -/
theorem C8_four_player_bracket (g1 g2 g3 : Int) (scores : List (Int × Int)) (hg3 : g3 ≤ 0)
    (h01 : MachineInt.wrap32 (reported 0 scores) < MachineInt.wrap32 (reported 1 scores))
    (h23 : MachineInt.wrap32 (reported 3 scores) < MachineInt.wrap32 (reported 2 scores)) :
    ∃ t1 t2 t3 t4 : KnockoutTournament,
      nextPair g1 (newTournament 4) = some ((0, 1), t1) ∧
      nextPair g2 t1 = some ((2, 3), t2) ∧
      drive (scoreCalls scores) t2 = some (t3, []) ∧
      t3.m_rounds =
        [[({ index := 0, score := MachineInt.wrap32 (reported 0 scores) },
           { index := 1, score := MachineInt.wrap32 (reported 1 scores) }),
          ({ index := 2, score := MachineInt.wrap32 (reported 2 scores) },
           { index := 3, score := MachineInt.wrap32 (reported 3 scores) })]] ∧
      nextPair g3 t3 = some ((1, 2), t4) ∧
      t4.m_rounds = t3.m_rounds ++ [[({ index := 1, score := 0 }, { index := 2, score := 0 })]] ∧
      t3.m_rounds.length = 1 := by
  have hd := drive_scoreCalls_four [] scores { newTournament 4 with m_currentPair := 2 }
    0 0 0 0 (by decide) (by decide) (by decide) (by decide) rfl
  simp only [zero_add, List.nil_append] at hd
  refine ⟨{ newTournament 4 with m_currentPair := 1 }, { newTournament 4 with m_currentPair := 2 },
    _,
    { playerCount := 4, currentRound := 0 + 1, m_currentPair := 0 + 1,
      m_rounds := [[({ index := 0, score := MachineInt.wrap32 (reported 0 scores) },
                     { index := 1, score := MachineInt.wrap32 (reported 1 scores) }),
                    ({ index := 2, score := MachineInt.wrap32 (reported 2 scores) },
                     { index := 3, score := MachineInt.wrap32 (reported 3 scores) })],
                   [({ index := 1, score := 0 }, { index := 2, score := 0 })]] },
    rfl, rfl, hd, rfl, ?_, ?_, rfl⟩
  · have hg : ¬ g3 > 0 := by omega
    generalize MachineInt.wrap32 (reported 0 scores) = a at h01 ⊢
    generalize MachineInt.wrap32 (reported 1 scores) = b at h01 ⊢
    generalize MachineInt.wrap32 (reported 2 scores) = c at h23 ⊢
    generalize MachineInt.wrap32 (reported 3 scores) = d at h23 ⊢
    have ha : ¬ (a ≥ b) := by omega
    have hc : c ≥ d := by omega
    simp only [nextPair, nextPairBudget, nextPairFuel, List.getLast?_singleton,
      newTournament, initializePairing]
    simp [hg, startNewRound, lastRoundWinners, winnerOf, pairWinners, takePair, ha, hc]
  · simp

/-- Witness of C8: competitor 1 reports 1 point, competitor 2 reports 2 points. -/
theorem C8_four_player_bracket_witness :
    ∃ t1 t2 t3 t4 : KnockoutTournament,
      nextPair 0 (newTournament 4) = some ((0, 1), t1) ∧
      nextPair 1 t1 = some ((2, 3), t2) ∧
      drive (scoreCalls [(1, 1), (2, 2)]) t2 = some (t3, []) ∧
      nextPair 0 t3 = some ((1, 2), t4) ∧
      t4.m_rounds = t3.m_rounds ++ [[({ index := 1, score := 0 }, { index := 2, score := 0 })]] ∧
      t3.m_rounds.length = 1 := by
  obtain ⟨t1, t2, t3, t4, h1, h2, h3, _, h5, h6, h7⟩ :=
    C8_four_player_bracket 0 1 0 [(1, 1), (2, 2)] (by decide) (by decide) (by decide)
  exact ⟨t1, t2, t3, t4, h1, h2, h3, h5, h6, h7⟩

end Knockout
namespace Knockout

theorem addScoreLoop_absent (player score : Int) (l : List Pair)
    (h : ∀ q ∈ l, q.1.index ≠ player ∧ q.2.index ≠ player) :
    addScoreLoop player score l = l := by
  induction l with
  | nil => rfl
  | cons p rest ih =>
    have hp := h p (List.mem_cons_self _ _)
    unfold addScoreLoop
    rw [if_neg hp.1, if_neg hp.2, ih (fun q hq => h q (List.mem_cons_of_mem _ hq))]

theorem addScoreLoop_first (player score : Int) : ∀ (l : List Pair) (i : Nat) (q : Pair),
    l[i]? = some q → (q.1.index = player ∨ q.2.index = player) →
    (∀ (j : Nat) (q' : Pair), j < i → l[j]? = some q' →
      q'.1.index ≠ player ∧ q'.2.index ≠ player) →
    addScoreLoop player score l = l.set i (credit player score q) := by
  intro l
  induction l with
  | nil => intro i q h; simp at h
  | cons p rest ih =>
    intro i q hq hor hbefore
    cases i with
    | zero =>
      simp only [List.getElem?_cons_zero, Option.some.injEq] at hq
      subst hq
      unfold addScoreLoop credit
      by_cases h1 : p.1.index = player
      · simp [h1]
      · have h2 : p.2.index = player := by
          rcases hor with h | h
          · exact absurd h h1
          · exact h
        simp [h1, h2]
    | succ i =>
      have hp := hbefore 0 p (by omega) (by simp)
      simp only [List.getElem?_cons_succ] at hq
      unfold addScoreLoop
      rw [if_neg hp.1, if_neg hp.2, List.set_cons_succ]
      rw [ih i q hq hor (fun j q' hj hq' => hbefore (j + 1) q' (by omega) (by simpa using hq'))]

/-- C12: `addScore (p, s)` adds `s` to the score of the first slot of the last round, in
pairing order, that holds `p`, and changes nothing else: the other slot of that pairing, the
other pairings of the round, the indices, the earlier rounds, the cursor and the round
counter stay as they were.  The addition is that of a 32-bit `int`: the new score is the sum
whenever the sum is in the range of `int`, and the sum reduced modulo `2 ^ 32` into that
range otherwise.  When no slot of the last round holds `p` the whole state stays as it
was. -/
theorem C12_addScore_frame (player score : Int) (t : KnockoutTournament)
    (rs : List (List Pair)) (lastRound : List Pair) (h : t.m_rounds = rs ++ [lastRound]) :
    ((∀ q ∈ lastRound, q.1.index ≠ player ∧ q.2.index ≠ player) →
      addScore player score t = some t) ∧
    (∀ (i : Nat) (q : Pair), lastRound[i]? = some q →
      (q.1.index = player ∨ q.2.index = player) →
      (∀ (j : Nat) (q' : Pair), j < i → lastRound[j]? = some q' →
        q'.1.index ≠ player ∧ q'.2.index ≠ player) →
      addScore player score t =
          some { t with m_rounds := rs ++ [lastRound.set i (credit player score q)] } ∧
        (∀ j : Nat, j ≠ i → (lastRound.set i (credit player score q))[j]? = lastRound[j]?) ∧
        (lastRound.set i (credit player score q))[i]? = some (credit player score q) ∧
        (credit player score q).1.index = q.1.index ∧
        (credit player score q).2.index = q.2.index ∧
        (q.1.index = player →
          (credit player score q).1.score = MachineInt.wrap32 (q.1.score + score) ∧
          (credit player score q).2 = q.2 ∧
          (-(2 : Int) ^ 31 ≤ q.1.score + score → q.1.score + score < (2 : Int) ^ 31 →
            (credit player score q).1.score = q.1.score + score)) ∧
        (q.1.index ≠ player →
          (credit player score q).2.score = MachineInt.wrap32 (q.2.score + score) ∧
          (credit player score q).1 = q.1 ∧
          (-(2 : Int) ^ 31 ≤ q.2.score + score → q.2.score + score < (2 : Int) ^ 31 →
            (credit player score q).2.score = q.2.score + score))) := by
  constructor
  · intro habs
    unfold addScore
    rw [h, List.getLast?_concat]
    simp only [List.dropLast_concat, addScoreLoop_absent player score lastRound habs]
    rw [← h]
  · intro i q hq hor hbefore
    have hlt : i < lastRound.length := (List.getElem?_eq_some.1 hq).1
    refine ⟨?_, fun j hj => List.getElem?_set_ne (Ne.symm hj), List.getElem?_set_self hlt, ?_⟩
    · unfold addScore
      rw [h, List.getLast?_concat]
      simp only [List.dropLast_concat, addScoreLoop_first player score lastRound i q hq hor hbefore]
    · by_cases h1 : q.1.index = player
      · have e : credit player score q =
            ({ q.1 with score := MachineInt.wrap32 (q.1.score + score) }, q.2) := by
          simp [credit, h1]
        rw [e]
        exact ⟨rfl, rfl, fun _ => ⟨rfl, rfl, fun hlo hhi => wrap32_of_range _ hlo hhi⟩,
          fun hne => absurd h1 hne⟩
      · have e : credit player score q =
            (q.1, { q.2 with score := MachineInt.wrap32 (q.2.score + score) }) := by
          simp [credit, h1]
        rw [e]
        exact ⟨rfl, rfl, fun he => absurd he h1,
          fun _ => ⟨rfl, rfl, fun hlo hhi => wrap32_of_range _ hlo hhi⟩⟩

/-- Witness of C12: in the first round of four players a point for competitor 3 lands in the
second slot of the second pairing, which then holds the score 1. -/
theorem C12_addScore_frame_witness :
    addScore 3 1 (newTournament 4) =
      some { newTournament 4 with m_rounds :=
        [] ++ [(firstRound 4).set 1 (credit 3 1 (matchPair 2))] } ∧
    (credit 3 1 (matchPair 2)).2.score = (matchPair 2).2.score + 1 ∧
    addScore 7 1 (newTournament 4) = some (newTournament 4) :=
  ⟨((C12_addScore_frame 3 1 (newTournament 4) [] (firstRound 4) rfl).2 1 (matchPair 2)
      (by decide) (by decide) (by
        intro j q' hj hq'
        have hj0 : j = 0 := by omega
        subst hj0
        have e : (firstRound 4)[0]? = some (matchPair 0) := by decide
        rw [e] at hq'
        cases hq'
        decide)).1,
   (((C12_addScore_frame 3 1 (newTournament 4) [] (firstRound 4) rfl).2 1 (matchPair 2)
      (by decide) (by decide) (by
        intro j q' hj hq'
        have hj0 : j = 0 := by omega
        subst hj0
        have e : (firstRound 4)[0]? = some (matchPair 0) := by decide
        rw [e] at hq'
        cases hq'
        decide)).2.2.2.2.2.2 (by decide)).2.2 (by decide) (by decide),
   (C12_addScore_frame 7 1 (newTournament 4) [] (firstRound 4) rfl).1 (by decide)⟩

end Knockout
namespace Knockout

/-- C14 as stated fails: with five players the only match of the first round is `(3, 4)`,
whose first slot holds an odd index. -/
theorem C14_first_round_pair_not_even :
    (3, 4) ∈ (firstRound 5).map (fun p => (p.1.index, p.2.index)) ∧
    ¬ ∃ k : Int, (3 : Int) = 2 * k := by
  refine ⟨by decide, ?_⟩
  rintro ⟨k, hk⟩
  omega

/-- C14 amended: for `N ≥ 2` every pairing of the first round that is not a bye holds two
consecutive competitor indices `(i, i + 1)`, where `i = (P - N) + 2 * j` for some `j`, with
`P - N` the number of byes; so `i` has the parity of `N`, and the pairing has the form
`(2 * k, 2 * k + 1)` exactly when `N` is even. -/
theorem C14_first_round_pairs_consecutive (N : Nat) (hN : 2 ≤ N) (p : Pair)
    (hp : p ∈ firstRound N) (hreal : p.2.index ≠ -1) :
    ∃ j : Nat, p.1.index = ((bracketSize N - N + 2 * j : Nat) : Int) ∧
      p.2.index = p.1.index + 1 ∧ p.2.index < (N : Int) ∧
      p.1.index % 2 = (N : Int) % 2 ∧
      ((∃ k : Int, p.1.index = 2 * k ∧ p.2.index = 2 * k + 1) ↔ N % 2 = 0) := by
  obtain ⟨j0, h, hP, hPh, hlt, hle, _⟩ := bracketSize_half N hN
  rw [firstRound_eq, List.mem_append] at hp
  rcases hp with hp | hp
  · simp only [List.mem_map, List.mem_range] at hp
    obtain ⟨i, _, rfl⟩ := hp
    exact absurd rfl hreal
  · simp only [List.mem_map, List.mem_range] at hp
    obtain ⟨j, hj, rfl⟩ := hp
    refine ⟨j, rfl, rfl, ?_, ?_, ?_⟩
    · simp only [matchPair]
      omega
    · simp only [matchPair]
      omega
    · simp only [matchPair]
      constructor
      · rintro ⟨k, hk, _⟩
        omega
      · intro hev
        exact ⟨((bracketSize N - N + 2 * j : Nat) : Int) / 2, by omega, by omega⟩

/-- Witness of C14 amended: the match `(3, 4)` of five players. -/
theorem C14_first_round_pairs_consecutive_witness :
    ∃ j : Nat, (3 : Int) = ((bracketSize 5 - 5 + 2 * j : Nat) : Int) ∧
      (4 : Int) = 3 + 1 ∧ (4 : Int) < (5 : Nat) ∧ (3 : Int) % 2 = ((5 : Nat) : Int) % 2 ∧
      ((∃ k : Int, (3 : Int) = 2 * k ∧ (4 : Int) = 2 * k + 1) ↔ 5 % 2 = 0) :=
  C14_first_round_pairs_consecutive 5 (by decide) (matchPair 3) (by decide) (by decide)

end Knockout
namespace Knockout

theorem startNewRound_rounds {t t1 : KnockoutTournament} (h : startNewRound t = some t1) :
    ∃ (lastRound nr : List Pair), t.m_rounds.getLast? = some lastRound ∧
      pairWinners (lastRound.map winnerOf) = some nr ∧
      t1.m_rounds = t.m_rounds ++ [nr] := by
  unfold startNewRound lastRoundWinners at h
  cases hl : t.m_rounds.getLast? with
  | none => simp [hl] at h
  | some lastRound =>
    simp only [hl] at h
    split at h
    · cases hp : pairWinners (lastRound.map winnerOf) with
      | none => simp [hp] at h
      | some nr =>
        simp only [hp, Option.some.injEq] at h
        subst h
        exact ⟨lastRound, nr, rfl, hp, rfl⟩
    · simp at h

theorem takePair_pair {t t2 : KnockoutTournament} {pair : Pair}
    (h : takePair t = some (pair, t2)) :
    ∃ lastRound : List Pair, t.m_rounds.getLast? = some lastRound ∧
      lastRound[t.m_currentPair.toNat]? = some pair := by
  unfold takePair at h
  cases hl : t.m_rounds.getLast? with
  | none => simp [hl] at h
  | some lastRound =>
    simp only [hl] at h
    split at h
    · cases hp : lastRound[t.m_currentPair.toNat]? with
      | none => simp [hp] at h
      | some p =>
        simp only [hp, Option.some.injEq, Prod.mk.injEq] at h
        obtain ⟨rfl, _⟩ := h
        exact ⟨lastRound, rfl, hp⟩
    · simp at h

/-- The only way for `nextPair` to change the list of rounds: no game is in progress, every
pairing from the cursor to the end of the last round is a bye, and the round built from the
winners of the last round is appended. -/
theorem nextPairFuel_appends (g : Int) : ∀ (fuel : Nat) (t t' : KnockoutTournament)
    (r : Int × Int), nextPairFuel g fuel t = some (r, t') →
    t'.m_rounds = t.m_rounds ∨
    (g ≤ 0 ∧ ∃ (lastRound nr : List Pair) (more : List (List Pair)),
      t.m_rounds.getLast? = some lastRound ∧
      (∀ (i : Nat) (p : Pair), t.m_currentPair.toNat ≤ i → lastRound[i]? = some p →
        p.2.index = -1) ∧
      pairWinners (lastRound.map winnerOf) = some nr ∧
      t'.m_rounds = t.m_rounds ++ nr :: more) := by
  intro fuel
  induction fuel with
  | zero => intro t t' r h; simp [nextPairFuel] at h
  | succ fuel ih =>
    intro t t' r h
    unfold nextPairFuel at h
    cases hl : t.m_rounds.getLast? with
    | none => simp [hl] at h
    | some lastRound =>
      simp only [hl] at h
      by_cases hcur : t.m_currentPair ≥ (lastRound.length : Int)
      · simp only [hcur, if_true] at h
        by_cases hg : g > 0
        · simp only [hg, if_true, Option.some.injEq, Prod.mk.injEq] at h
          obtain ⟨_, rfl⟩ := h
          exact Or.inl rfl
        · simp only [hg, if_false] at h
          have hpast : ∀ (i : Nat) (p : Pair), t.m_currentPair.toNat ≤ i →
              lastRound[i]? = some p → p.2.index = -1 := by
            intro i p hi hp
            have := (List.getElem?_eq_some.1 hp).1
            omega
          cases hs : startNewRound t with
          | none => simp [hs] at h
          | some t1 =>
            obtain ⟨lr, nr, e1, e2, e3⟩ := startNewRound_rounds hs
            rw [hl, Option.some.injEq] at e1
            subst e1
            simp only [hs] at h
            cases ht : takePair t1 with
            | none => simp [ht] at h
            | some pt =>
              obtain ⟨pair, t2⟩ := pt
              have hr2 := (takePair_rounds ht).1
              simp only [ht] at h
              by_cases hb : pair.2.index = -1
              · simp only [hb, if_true] at h
                right
                rcases ih t2 t' r h with h1 | ⟨_, lr2, nr2, more2, _, _, _, k4⟩
                · exact ⟨by omega, lastRound, nr, [], rfl, hpast, e2, by rw [h1, hr2, e3]⟩
                · exact ⟨by omega, lastRound, nr, nr2 :: more2, rfl, hpast, e2,
                    by rw [k4, hr2, e3]; simp⟩
              · simp only [hb, if_false, Option.some.injEq, Prod.mk.injEq] at h
                obtain ⟨_, rfl⟩ := h
                exact Or.inr ⟨by omega, lastRound, nr, [], rfl, hpast, e2, by rw [hr2, e3]⟩
      · simp only [hcur, if_false] at h
        cases ht : takePair t with
        | none => simp [ht] at h
        | some pt =>
          obtain ⟨pair, t2⟩ := pt
          obtain ⟨hr2, _, _, hc2⟩ := takePair_rounds ht
          obtain ⟨lr, e1, e2⟩ := takePair_pair ht
          obtain ⟨_, _, hpos, _, _, _⟩ := takePair_some ht
          rw [hl, Option.some.injEq] at e1
          subst e1
          simp only [ht] at h
          by_cases hb : pair.2.index = -1
          · simp only [hb, if_true] at h
            rcases ih t2 t' r h with h1 | ⟨hg, lr2, nr, more, k1, k2, k3, k4⟩
            · exact Or.inl (h1.trans hr2)
            · right
              rw [hr2, hl, Option.some.injEq] at k1
              subst k1
              refine ⟨hg, lastRound, nr, more, rfl, ?_, k3, by rw [k4, hr2]⟩
              intro i p hi hp
              by_cases hieq : i = t.m_currentPair.toNat
              · subst hieq
                rw [e2] at hp
                cases hp
                exact hb
              · exact k2 i p (by rw [hc2]; omega) hp
          · simp only [hb, if_false, Option.some.injEq, Prod.mk.injEq] at h
            obtain ⟨_, rfl⟩ := h
            exact Or.inl hr2

end Knockout
namespace Knockout

/-- C11 as stated fails: three `nextPair` calls with no game in progress and not a single
`addScore` call hand out both pairings of the first round of four players and append the
second round. -/
theorem C11_round_advances_without_scores :
    drive [Call.nextPair 0, Call.nextPair 0, Call.nextPair 0] (newTournament 4) =
      some ({ playerCount := 4, currentRound := 1, m_currentPair := 1,
              m_rounds := [firstRound 4,
                [({ index := 0, score := 0 }, { index := 2, score := 0 })]] },
            [(0, 1), (2, 3), (0, 2)]) := by
  decide

/-- C11 amended: `nextPair` changes the list of rounds only when `gamesInProgress()` is not
positive and every pairing of the last round from the cursor on is a bye, that is, when all
pairings of the round have been handed out and no game is running; the rounds it appends
start with the round built from `lastRoundWinners`.  The scores are not consulted: whether a
score was reported for a pairing plays no role. -/
theorem C11_nextPair_advances_only_when_idle (g : Int) (t t' : KnockoutTournament)
    (r : Int × Int) (h : nextPair g t = some (r, t')) (hne : t'.m_rounds ≠ t.m_rounds) :
    g ≤ 0 ∧ ∃ (lastRound nr : List Pair) (more : List (List Pair)),
      t.m_rounds.getLast? = some lastRound ∧
      (∀ (i : Nat) (p : Pair), t.m_currentPair.toNat ≤ i → lastRound[i]? = some p →
        p.2.index = -1) ∧
      pairWinners (lastRound.map winnerOf) = some nr ∧
      t'.m_rounds = t.m_rounds ++ nr :: more := by
  rcases nextPairFuel_appends g _ t t' r h with h1 | h2
  · exact absurd h1 hne
  · exact h2

/-- Witness of C11 amended: the first round of four players is exhausted and no game runs. -/
theorem C11_nextPair_advances_only_when_idle_witness :
    (0 : Int) ≤ 0 ∧ ∃ (lastRound nr : List Pair) (more : List (List Pair)),
      ({ newTournament 4 with m_currentPair := 2 } : KnockoutTournament).m_rounds.getLast? =
        some lastRound ∧
      (∀ (i : Nat) (p : Pair), (2 : Int).toNat ≤ i → lastRound[i]? = some p →
        p.2.index = -1) ∧
      pairWinners (lastRound.map winnerOf) = some nr ∧
      [firstRound 4, [({ index := 0, score := 0 }, { index := 2, score := 0 })]] =
        [firstRound 4] ++ nr :: more :=
  C11_nextPair_advances_only_when_idle 0 { newTournament 4 with m_currentPair := 2 }
    { playerCount := 4, currentRound := 1, m_currentPair := 1,
      m_rounds := [firstRound 4, [({ index := 0, score := 0 }, { index := 2, score := 0 })]] }
    (0, 2) (by decide) (by decide)

end Knockout
namespace Knockout

theorem slots_index {l l' : List Pair}
    (h : l'.map (fun p => (p.1.index, p.2.index)) = l.map (fun p => (p.1.index, p.2.index))) :
    slots l' = slots l := by
  have e : ∀ m : List Pair, slots m =
      (m.map (fun p => (p.1.index, p.2.index))).flatMap
        (fun q => if q.2 = -1 then [q.1] else [q.1, q.2]) := by
    intro m
    unfold slots
    rw [List.flatMap_map]
  rw [e, e, h]

theorem slots_append (a b : List Pair) : slots (a ++ b) = slots a ++ slots b := by
  simp [slots]

theorem slots_byes (b : Nat) :
    slots ((List.range b).map (fun i : Nat => byePair (i : Int))) =
      (List.range' 0 b).map (fun i : Nat => (i : Int)) := by
  induction b with
  | zero => rfl
  | succ b ih =>
    rw [List.range_succ, List.map_append, slots_append, ih, List.range'_concat]
    simp [slots, byePair]

theorem slots_matches (b m : Nat) :
    slots ((List.range m).map (fun j : Nat => matchPair ((b + 2 * j : Nat) : Int))) =
      (List.range' b (2 * m)).map (fun i : Nat => (i : Int)) := by
  induction m with
  | zero => rfl
  | succ m ih =>
    rw [List.range_succ, List.map_append, slots_append, ih,
      show 2 * (m + 1) = 2 * m + 1 + 1 by ring, List.range'_concat, List.range'_concat]
    simp [slots, matchPair]
    rw [if_neg (by omega)]
    simp
    omega

/-- The slots of the first round hold the competitors `0, 1, ..., N - 1` in this order. -/
theorem slots_firstRound (n : Nat) (hn : 2 ≤ n) :
    slots (firstRound n) = (List.range n).map (fun i : Nat => (i : Int)) := by
  obtain ⟨j, h, hP, hPh, hlt, hle, _⟩ := bracketSize_half n hn
  rw [firstRound_eq, slots_append, slots_byes, slots_matches, ← List.map_append,
    List.range_eq_range']
  congr 1
  have e : 2 * ((n - (bracketSize n - n) + 1) / 2) = n - (bracketSize n - n) := by omega
  rw [e]
  have := List.range'_append 0 (bracketSize n - n) (n - (bracketSize n - n)) 1
  simp only [Nat.one_mul, Nat.zero_add] at this
  rw [this]
  congr 1
  omega

theorem Seated_init (n : Nat) (hn : 2 ≤ n) : Seated n (newTournament n) := by
  refine ⟨[], firstRound n, rfl, ?_, ?_⟩
  · rw [slots_firstRound n hn]
    exact (List.nodup_range n).map (fun a b h => by exact_mod_cast h)
  · intro x hx
    rw [slots_firstRound n hn, List.mem_map] at hx
    obtain ⟨i, hi, rfl⟩ := hx
    rw [List.mem_range] at hi
    omega

theorem Seated_addScore {n : Nat} {t t' : KnockoutTournament} (player score : Int)
    (h : Seated n t) (ht : addScore player score t = some t') : Seated n t' := by
  obtain ⟨rs, lastRound, h1, h2, h3⟩ := h
  unfold addScore at ht
  rw [h1, List.getLast?_concat] at ht
  simp only [List.dropLast_concat, Option.some.injEq] at ht
  subst ht
  have e := slots_index (addScoreLoop_index player score lastRound)
  exact ⟨rs, addScoreLoop player score lastRound, rfl, by rw [e]; exact h2, by rw [e]; exact h3⟩

/-- In a round whose slots hold pairwise different competitors, the two slots of a pairing
that is not a bye hold different competitors, and both are slots of the round. -/
theorem pair_of_seated {round : List Pair} {p : Pair} (hp : p ∈ round)
    (hreal : p.2.index ≠ -1) (hnd : (slots round).Nodup) :
    p.1.index ≠ p.2.index ∧ p.1.index ∈ slots round ∧ p.2.index ∈ slots round := by
  unfold slots at hnd ⊢
  have hpn := (List.nodup_flatMap.1 hnd).1 p hp
  rw [if_neg hreal] at hpn
  refine ⟨?_, ?_, ?_⟩
  · intro e
    rw [e] at hpn
    simp at hpn
  · exact List.mem_flatMap.2 ⟨p, hp, by rw [if_neg hreal]; simp⟩
  · exact List.mem_flatMap.2 ⟨p, hp, by rw [if_neg hreal]; simp⟩

theorem winnerOf_mem_slots (p : Pair) :
    (winnerOf p).index ∈ (if p.2.index = -1 then [p.1.index] else [p.1.index, p.2.index]) := by
  unfold winnerOf
  by_cases h1 : p.2.index = -1
  · simp [h1]
  · by_cases h2 : p.1.score ≥ p.2.score
    · simp [h1, h2]
    · simp [h1, h2]

/-- The winners of a round whose slots hold pairwise different competitors are pairwise
different, and each of them sits in a slot of the round. -/
theorem winners_of_seated : ∀ (round : List Pair), (slots round).Nodup →
    ((round.map winnerOf).map (fun w => w.index)).Nodup ∧
    ∀ x ∈ (round.map winnerOf).map (fun w => w.index), x ∈ slots round := by
  intro round
  induction round with
  | nil => intro _; exact ⟨List.nodup_nil, by simp⟩
  | cons p rest ih =>
    intro hnd
    have hs : slots (p :: rest) =
        (if p.2.index = -1 then [p.1.index] else [p.1.index, p.2.index]) ++ slots rest := by
      simp [slots]
    rw [hs] at hnd ⊢
    obtain ⟨h1, h2, h3⟩ := List.nodup_append.1 hnd
    obtain ⟨ih1, ih2⟩ := ih h2
    have hw := winnerOf_mem_slots p
    constructor
    · simp only [List.map_cons]
      refine List.nodup_cons.2 ⟨?_, ih1⟩
      intro hin
      exact h3 hw (ih2 _ hin)
    · intro x hx
      simp only [List.map_cons, List.mem_cons] at hx
      rcases hx with rfl | hx
      · exact List.mem_append_left _ hw
      · exact List.mem_append_right _ (ih2 x hx)

theorem pairWinners_slots : ∀ (n : Nat) (ws : List KnockoutPlayer) (nr : List Pair),
    ws.length ≤ n → pairWinners ws = some nr → (∀ w ∈ ws, w.index ≠ -1) →
    slots nr = ws.map (fun w => w.index) := by
  intro n
  induction n with
  | zero =>
    intro ws nr hlen h _
    have : ws = [] := List.length_eq_zero.1 (by omega)
    subst this
    simp only [pairWinners, Option.some.injEq] at h
    subst h
    rfl
  | succ n ih =>
    intro ws nr hlen h hall
    match ws, hlen, h, hall with
    | [], _, h, _ =>
      simp only [pairWinners, Option.some.injEq] at h
      subst h
      rfl
    | [_], _, h, _ => simp [pairWinners] at h
    | a :: b :: rest, hlen, h, hall =>
      unfold pairWinners at h
      cases hr : pairWinners rest with
      | none => simp [hr] at h
      | some nr' =>
        simp only [hr, Option.some.injEq] at h
        subst h
        have hb : b.index ≠ -1 := hall b (by simp)
        have := ih rest nr' (by simp at hlen; omega) hr
          (fun w hw => hall w (by simp [hw]))
        simp only [slots, List.flatMap_cons, hb, if_false, List.map_cons] at this ⊢
        rw [this]
        rfl

end Knockout
namespace Knockout

/-- Skipping byes: from a cursor inside the round, `nextPair` hands out the first pairing at
or after the cursor that is not a bye, and every pairing it passes over is a bye. -/
theorem nextPairFuel_skip_byes (g : Int) (rs : List (List Pair)) (lastRound : List Pair)
    (hreal : ∀ p, lastRound.getLast? = some p → p.2.index ≠ -1) :
    ∀ (d fuel cur : Nat) (t : KnockoutTournament),
      t.m_rounds = rs ++ [lastRound] → t.m_currentPair = (cur : Int) →
      cur < lastRound.length → lastRound.length - cur ≤ d → d ≤ fuel →
      ∃ (j : Nat) (p : Pair), cur ≤ j ∧ lastRound[j]? = some p ∧ p.2.index ≠ -1 ∧
        (∀ (i : Nat) (q : Pair), cur ≤ i → i < j → lastRound[i]? = some q → q.2.index = -1) ∧
        nextPairFuel g fuel t =
          some ((p.1.index, p.2.index), { t with m_currentPair := ((j + 1 : Nat) : Int) }) := by
  intro d
  induction d with
  | zero => intro fuel cur t _ _ h3 h4 _; omega
  | succ d ih =>
    intro fuel cur t h1 h2 h3 h4 h5
    obtain ⟨fuel', rfl⟩ : ∃ f, fuel = f + 1 := ⟨fuel - 1, by omega⟩
    have hp : lastRound[cur]? = some lastRound[cur] := List.getElem?_eq_getElem h3
    have htake := takePair_at h1 h2 hp
    have hnot : ¬ (t.m_currentPair ≥ (lastRound.length : Int)) := by rw [h2]; omega
    unfold nextPairFuel
    simp only [h1, List.getLast?_concat, hnot, if_false]
    rw [← h1, htake]
    simp only
    by_cases hbye : lastRound[cur].2.index = -1
    · simp only [hbye, if_true]
      have hcur : cur + 1 < lastRound.length := by
        by_contra hc
        have hlast : lastRound.getLast? = some lastRound[cur] := by
          rw [List.getLast?_eq_getElem?, ← hp]
          congr 1; omega
        exact hreal _ hlast hbye
      obtain ⟨j, p, hj1, hj2, hj3, hj4, hj5⟩ :=
        ih fuel' (cur + 1) { t with m_currentPair := ((cur + 1 : Nat) : Int) } h1 rfl hcur
          (by omega) (by omega)
      refine ⟨j, p, by omega, hj2, hj3, ?_, hj5⟩
      intro i q hi1 hi2 hq
      by_cases hic : i = cur
      · subst hic
        rw [hp] at hq
        cases hq
        exact hbye
      · exact hj4 i q (by omega) hi2 hq
    · simp only [hbye, if_false]
      exact ⟨cur, lastRound[cur], le_refl _, hp, hbye, fun i q h1 h2 _ => by omega, rfl⟩

theorem pairWinners_mem : ∀ (n : Nat) (ws : List KnockoutPlayer) (nr : List Pair),
    ws.length ≤ n → pairWinners ws = some nr → ∀ p ∈ nr, p.1 ∈ ws ∧ p.2 ∈ ws := by
  intro n
  induction n with
  | zero =>
    intro ws nr hlen h p hp
    have : ws = [] := List.length_eq_zero.1 (by omega)
    subst this
    simp only [pairWinners, Option.some.injEq] at h
    subst h
    simp at hp
  | succ n ih =>
    intro ws nr hlen h p hp
    match ws, hlen, h with
    | [], _, h =>
      simp only [pairWinners, Option.some.injEq] at h
      subst h
      simp at hp
    | [_], _, h => simp [pairWinners] at h
    | a :: b :: rest, hlen, h =>
      unfold pairWinners at h
      cases hr : pairWinners rest with
      | none => simp [hr] at h
      | some nr' =>
        simp only [hr, Option.some.injEq] at h
        subst h
        rw [List.mem_cons] at hp
        rcases hp with rfl | hp
        · simp
        · have := ih rest nr' (by simp at hlen; omega) hr p hp
          simp [this.1, this.2]

/-- One call of `nextPair` on a seated bracket: the pair handed out consists of two different
competitors of the roster, and the bracket stays seated. -/
theorem Seated_nextPair {n c : Nat} {t t' : KnockoutTournament} (g : Int) (r : Int × Int)
    (hrun : Running n t c) (hs : Seated n t) (h : nextPair g t = some (r, t')) :
    Seated n t' ∧
    (r = (-1, -1) ∨
      (0 ≤ r.1 ∧ r.1 < (n : Int) ∧ 0 ≤ r.2 ∧ r.2 < (n : Int) ∧ r.1 ≠ r.2)) := by
  obtain ⟨rs, lastRound, k, cur, h1, h2, h3, h4, h5, h6, h7⟩ := hrun
  obtain ⟨rs', lr', s1, s2, s3⟩ := hs
  have hrs : rs' = rs ∧ lr' = lastRound := by
    rw [h1] at s1
    have := List.append_inj' s1 rfl
    exact ⟨this.1.symm, by simpa using this.2.symm⟩
  obtain ⟨rfl, rfl⟩ := hrs
  have hbud := nextPair_unfold_budget g t rs' lr' h1
  by_cases hcur : cur < lr'.length
  · obtain ⟨j, p, hj1, hj2, hj3, _, hj5⟩ :=
      nextPairFuel_skip_byes g rs' lr' h6 (lr'.length - cur)
        (2 * lr'.length + 1 + 1) cur t h1 h2 hcur (le_refl _) (by omega)
    rw [hbud, hj5, Option.some.injEq, Prod.mk.injEq] at h
    obtain ⟨rfl, rfl⟩ := h
    obtain ⟨d1, d2, d3⟩ := pair_of_seated (List.getElem?_mem hj2) hj3 s2
    exact ⟨⟨rs', lr', h1, s2, s3⟩, Or.inr ⟨(s3 _ d2).1, (s3 _ d2).2, (s3 _ d3).1, (s3 _ d3).2, d1⟩⟩
  · have hge : t.m_currentPair ≥ (lr'.length : Int) := by rw [h2]; omega
    rw [hbud] at h
    unfold nextPairFuel at h
    simp only [h1, List.getLast?_concat, hge, if_true] at h
    by_cases hg : g > 0
    · simp only [hg, if_true, Option.some.injEq, Prod.mk.injEq] at h
      obtain ⟨rfl, rfl⟩ := h
      exact ⟨⟨rs', lr', h1, s2, s3⟩, Or.inl rfl⟩
    · simp only [hg, if_false] at h
      cases hst : startNewRound t with
      | none => rw [hst] at h; simp at h
      | some t1 =>
        obtain ⟨lr, nr, e1, e2, e3⟩ := startNewRound_rounds hst
        rw [h1, List.getLast?_concat, Option.some.injEq] at e1
        subst e1
        obtain ⟨w1, w2⟩ := winners_of_seated lr' s2
        have hwne : ∀ w ∈ lr'.map winnerOf, w.index ≠ -1 := by
          intro w hw
          have := (s3 _ (w2 w.index (List.mem_map_of_mem _ hw))).1
          omega
        have hsl := pairWinners_slots _ _ nr (le_refl _) e2 hwne
        have hseat : (slots nr).Nodup ∧ ∀ x ∈ slots nr, 0 ≤ x ∧ x < (n : Int) := by
          rw [hsl]
          exact ⟨w1, fun x hx => s3 x (w2 x hx)⟩
        rw [hst] at h
        simp only at h
        cases htk : takePair t1 with
        | none => rw [htk] at h; simp at h
        | some pt =>
          obtain ⟨pair, t2⟩ := pt
          obtain ⟨lr2, k1, k2⟩ := takePair_pair htk
          rw [e3, List.getLast?_concat, Option.some.injEq] at k1
          subst k1
          have hr2 := (takePair_rounds htk).1
          have hreal : pair.2.index ≠ -1 :=
            hwne _ (pairWinners_mem _ _ nr (le_refl _) e2 pair (List.getElem?_mem k2)).2
          rw [htk] at h
          simp only [hreal, if_false, Option.some.injEq, Prod.mk.injEq] at h
          obtain ⟨rfl, rfl⟩ := h
          obtain ⟨d1, d2, d3⟩ := pair_of_seated (List.getElem?_mem k2) hreal hseat.1
          exact ⟨⟨t.m_rounds, nr, by rw [hr2, e3], hseat.1, hseat.2⟩,
            Or.inr ⟨(hseat.2 _ d2).1, (hseat.2 _ d2).2, (hseat.2 _ d3).1, (hseat.2 _ d3).2, d1⟩⟩

end Knockout
namespace Knockout

theorem drive_Seated (n : Nat) : ∀ (calls : List Call) (t tf : KnockoutTournament) (c : Nat)
    (out : List (Int × Int)), Running n t c → Seated n t → drive calls t = some (tf, out) →
    Seated n tf ∧
    ∀ r ∈ out, r = (-1, -1) ∨
      (0 ≤ r.1 ∧ r.1 < (n : Int) ∧ 0 ≤ r.2 ∧ r.2 < (n : Int) ∧ r.1 ≠ r.2) := by
  intro calls
  induction calls with
  | nil =>
    intro t tf c out hr hs hd
    simp only [drive, Option.some.injEq, Prod.mk.injEq] at hd
    obtain ⟨rfl, rfl⟩ := hd
    exact ⟨hs, by simp⟩
  | cons call rest ih =>
    intro t tf c out hr hs hd
    cases call with
    | addScore player score =>
      obtain ⟨t1, h1, h2⟩ := Running_addScore player score hr
      simp only [drive, h1] at hd
      exact ih t1 tf c out h2 (Seated_addScore player score hs h1) hd
    | nextPair g =>
      cases hn : nextPair g t with
      | none => simp [drive, hn] at hd
      | some rt =>
        obtain ⟨r, t1⟩ := rt
        obtain ⟨hs1, hv⟩ := Seated_nextPair g r hr hs hn
        have hr1 : ∃ c', Running n t1 c' := by
          rcases Running_nextPair g hr with ⟨_, e⟩ | ⟨a, b, t', e, _, hr'⟩ | ⟨_, _, e⟩
          · rw [hn, Option.some.injEq, Prod.mk.injEq] at e
            exact ⟨c, e.2 ▸ hr⟩
          · rw [hn, Option.some.injEq, Prod.mk.injEq] at e
            exact ⟨c + 1, e.2 ▸ hr'⟩
          · rw [hn] at e
            cases e
        obtain ⟨c', hr1⟩ := hr1
        simp only [drive, hn] at hd
        cases hrest : drive rest t1 with
        | none => simp [hrest] at hd
        | some res =>
          obtain ⟨t2, out2⟩ := res
          simp only [hrest, Option.some.injEq, Prod.mk.injEq] at hd
          obtain ⟨rfl, rfl⟩ := hd
          obtain ⟨hs2, hall⟩ := ih t1 t2 c' out2 hr1 hs1 hrest
          refine ⟨hs2, ?_⟩
          intro x hx
          rw [List.mem_cons] at hx
          rcases hx with rfl | hx
          · exact hv
          · exact hall x hx

/-- C15: in every state reached from `initializePairing` for `N ≥ 2` players by `addScore`
and `nextPair` calls, as long as the final has not been handed out, `nextPair` returns, with
any amount of fuel beyond its budget, either `(-1, -1)` or two different competitor indices
in `[0, N)`, never a bye.  The first call skips the `P - N` byes of the first round and hands
out the pairing `(P - N, P - N + 1)` of that round, whatever the number of games in
progress: the skip stays inside the round. -/
theorem C15_nextPair_returns_real_pairs (N : Nat) (hN : 2 ≤ N) :
    (∀ (calls : List Call) (t : KnockoutTournament) (out : List (Int × Int)),
      drive calls (newTournament N) = some (t, out) → ¬ finalHandedOut t →
      ∀ g : Int, ∃ (r : Int × Int) (t' : KnockoutTournament),
        nextPair g t = some (r, t') ∧
        (∀ extra : Nat, nextPairFuel g (nextPairBudget t + extra) t = some (r, t')) ∧
        (r = (-1, -1) ∨
          (0 ≤ r.1 ∧ r.1 < (N : Int) ∧ 0 ≤ r.2 ∧ r.2 < (N : Int) ∧ r.1 ≠ r.2))) ∧
    (∀ g : Int,
      nextPair g (newTournament N) =
        some ((((bracketSize N - N : Nat) : Int), ((bracketSize N - N : Nat) : Int) + 1),
          { newTournament N with m_currentPair := ((bracketSize N - N + 1 : Nat) : Int) }) ∧
      bracketSize N - N + 1 ≤ (firstRound N).length) := by
  constructor
  · intro calls t out hd hnf g
    have hr := drive_Running N calls (newTournament N) t 0 out (Running_init N hN) hd
    have hs := (drive_Seated N calls (newTournament N) t 0 out (Running_init N hN)
      (Seated_init N hN) hd).1
    have hsome : ∃ r t', nextPair g t = some (r, t') := by
      rcases Running_nextPair g hr with ⟨_, e⟩ | ⟨a, b, t', e, _, _⟩ | ⟨hf, _, _⟩
      · exact ⟨_, _, e⟩
      · exact ⟨_, _, e⟩
      · exact absurd hf hnf
    obtain ⟨r, t', hn⟩ := hsome
    refine ⟨r, t', hn, fun extra => ?_, (Seated_nextPair g r hr hs hn).2⟩
    rw [nextPairFuel_budget, hn]
  · intro g
    obtain ⟨j0, h, hP, hPh, hlt, hle, _⟩ := bracketSize_half N hN
    have hlen : (firstRound N).length = h := by
      rw [firstRound_eq]
      simp only [List.length_append, List.length_map, List.length_range]
      omega
    have hbye : ∀ i : Nat, i < bracketSize N - N →
        (firstRound N)[i]? = some (byePair (i : Int)) := by
      intro i hi
      rw [firstRound_eq, List.getElem?_append_left (by simpa using hi)]
      simp [List.getElem?_range hi]
    have hmatch : (firstRound N)[bracketSize N - N]? =
        some (matchPair ((bracketSize N - N : Nat) : Int)) := by
      rw [firstRound_eq, List.getElem?_append_right (by simp)]
      simp only [List.length_map, List.length_range, Nat.sub_self]
      rw [List.getElem?_map, List.getElem?_range (by omega)]
      simp
    have hlast : ∀ p, (firstRound N).getLast? = some p → p.2.index ≠ -1 := by
      obtain ⟨rs, lr, k, cur, e1, _, _, _, _, e6, _⟩ := Running_init N hN
      have e : ([] : List (List Pair)) ++ [firstRound N] = rs ++ [lr] := e1
      have hlr : lr = firstRound N := by
        have := (List.append_inj' e rfl).2
        simpa using this.symm
      rw [← hlr]
      exact e6
    obtain ⟨j, p, _, hj2, hj3, hj4, hj5⟩ :=
      nextPairFuel_skip_byes g [] (firstRound N) hlast ((firstRound N).length)
        (2 * (firstRound N).length + 1 + 1) 0 (newTournament N) rfl rfl (by omega)
        (by omega) (by omega)
    have hj : j = bracketSize N - N := by
      by_contra hne
      rcases Nat.lt_or_gt_of_ne hne with hl | hg
      · rw [hbye j hl] at hj2
        cases hj2
        exact hj3 rfl
      · have := hj4 (bracketSize N - N) _ (Nat.zero_le _) hg hmatch
        simp only [matchPair] at this
        omega
    subst hj
    rw [hmatch] at hj2
    cases hj2
    refine ⟨?_, by omega⟩
    rw [nextPair_unfold_budget g (newTournament N) [] (firstRound N) rfl, hj5]
    rfl

/-- Witness of C15: five players; after the first pairing has been handed out and scored,
a call made while the game is still counted as running returns the sentinel, and the first
call skips the three byes. -/
theorem C15_nextPair_returns_real_pairs_witness :
    (∃ (r : Int × Int) (t' : KnockoutTournament),
      nextPair 1 { newTournament 5 with m_currentPair := 4 } = some (r, t') ∧
      (r = (-1, -1) ∨
        (0 ≤ r.1 ∧ r.1 < ((5 : Nat) : Int) ∧ 0 ≤ r.2 ∧ r.2 < ((5 : Nat) : Int) ∧
          r.1 ≠ r.2))) ∧
    nextPair 1 (newTournament 5) =
      some ((((bracketSize 5 - 5 : Nat) : Int), ((bracketSize 5 - 5 : Nat) : Int) + 1),
        { newTournament 5 with m_currentPair := ((bracketSize 5 - 5 + 1 : Nat) : Int) }) := by
  have h := C15_nextPair_returns_real_pairs 5 (by decide)
  refine ⟨?_, (h.2 1).1⟩
  obtain ⟨r, t', h1, _, h3⟩ := h.1 [Call.nextPair 0]
    { newTournament 5 with m_currentPair := 4 } [(3, 4)] (by decide)
    (by
      rintro ⟨lr, e1, e2, _⟩
      have : lr = firstRound 5 := by
        have e : ({ newTournament 5 with m_currentPair := 4 } :
            KnockoutTournament).m_rounds.getLast? = some (firstRound 5) := by decide
        rw [e] at e1
        cases e1
        rfl
      subst this
      revert e2
      decide) 1
  exact ⟨r, t', h1, h3⟩

end Knockout
namespace Knockout

theorem firstRound_length (n : Nat) (hn : 2 ≤ n) :
    (firstRound n).length * 2 = bracketSize n := by
  obtain ⟨j, h, _, hPh, hlt, hle, _⟩ := bracketSize_half n hn
  rw [firstRound_eq]
  simp only [List.length_append, List.length_map, List.length_range]
  omega

theorem allSlots_index {l l' : List Pair}
    (h : l'.map (fun p => (p.1.index, p.2.index)) = l.map (fun p => (p.1.index, p.2.index))) :
    allSlots l' = allSlots l := by
  have e : ∀ m : List Pair, allSlots m =
      (m.map (fun p => (p.1.index, p.2.index))).flatMap (fun q => [q.1, q.2]) := by
    intro m
    induction m with
    | nil => rfl
    | cons p rest ih =>
      simp only [allSlots, List.flatMap_cons, List.map_cons] at ih ⊢
      rw [ih]
  rw [e, e, h]

theorem slots_eq_allSlots : ∀ round : List Pair, (∀ p ∈ round, p.2.index ≠ -1) →
    slots round = allSlots round := by
  intro round
  induction round with
  | nil => intro _; rfl
  | cons p rest ih =>
    intro h
    have hp := h p (List.mem_cons_self _ _)
    have hr := ih (fun q hq => h q (List.mem_cons_of_mem _ hq))
    simp only [slots, allSlots, List.flatMap_cons] at hr ⊢
    rw [if_neg hp, hr]

theorem count_allSlots (x : Int) (hx : x ≠ -1) : ∀ round : List Pair,
    (allSlots round).count x = (slots round).count x := by
  intro round
  induction round with
  | nil => rfl
  | cons p rest ih =>
    simp only [slots, allSlots, List.flatMap_cons, List.count_append] at ih ⊢
    rw [ih]
    by_cases hp : p.2.index = -1
    · rw [if_pos hp, hp]
      have : (-1 : Int) ≠ x := fun e => hx e.symm
      simp [List.count_cons, this]
    · rw [if_neg hp]

theorem Bracket_init (n : Nat) (hn : 2 ≤ n) : Bracket n (newTournament n) := by
  refine ⟨⟨firstRound n, rfl, rfl⟩, ?_⟩
  intro r round hr
  have hm : (newTournament n).m_rounds = [firstRound n] := rfl
  rw [hm] at hr
  cases r with
  | zero =>
    simp only [List.getElem?_cons_zero, Option.some.injEq] at hr
    subst hr
    exact ⟨by simpa using firstRound_length n hn, fun h => absurd h (by omega)⟩
  | succ r => simp at hr

theorem Bracket_congr {n : Nat} {t t' : KnockoutTournament} (h : t'.m_rounds = t.m_rounds)
    (hb : Bracket n t) : Bracket n t' := by
  unfold Bracket at hb ⊢
  rw [h]
  exact hb

theorem Bracket_index {n : Nat} {t t' : KnockoutTournament} (rs : List (List Pair))
    (l l' : List Pair) (h1 : t.m_rounds = rs ++ [l]) (h2 : t'.m_rounds = rs ++ [l'])
    (hi : l'.map (fun p => (p.1.index, p.2.index)) = l.map (fun p => (p.1.index, p.2.index)))
    (hb : Bracket n t) : Bracket n t' := by
  obtain ⟨⟨round0, b1, b2⟩, b3⟩ := hb
  have hlen : l'.length = l.length := by
    have := congrArg List.length hi
    simpa using this
  have hsec : (∀ p ∈ l, p.2.index ≠ -1) → ∀ p ∈ l', p.2.index ≠ -1 := by
    intro h p hp
    obtain ⟨i, hi'⟩ := List.getElem?_of_mem hp
    obtain ⟨q, hq1, _, hq3⟩ := list_ext_index hi i p hi'
    rw [← hq3]
    exact h q (List.getElem?_mem hq1)
  have key : ∀ (r : Nat) (round : List Pair), (rs ++ [l'])[r]? = some round →
      ∃ round', (rs ++ [l])[r]? = some round' ∧ round.length = round'.length ∧
        round.map (fun p => (p.1.index, p.2.index)) =
          round'.map (fun p => (p.1.index, p.2.index)) ∧
        ((∀ p ∈ round', p.2.index ≠ -1) → ∀ p ∈ round, p.2.index ≠ -1) := by
    intro r round hr
    by_cases hlt : r < rs.length
    · rw [List.getElem?_append_left hlt] at hr
      exact ⟨round, by rw [List.getElem?_append_left hlt]; exact hr, rfl, rfl, fun h => h⟩
    · rw [List.getElem?_append_right (by omega)] at hr
      have hr0 : r - rs.length = 0 := by
        by_contra hne
        obtain ⟨m, hm⟩ := Nat.exists_eq_succ_of_ne_zero hne
        rw [hm] at hr
        simp at hr
      rw [hr0] at hr
      simp only [List.getElem?_cons_zero, Option.some.injEq] at hr
      subst hr
      refine ⟨l, ?_, hlen, hi, hsec⟩
      rw [List.getElem?_append_right (by omega), hr0]
      rfl
  rw [h1] at b1 b3
  refine ⟨?_, ?_⟩
  · rw [h2]
    cases hr0 : (rs ++ [l'])[0]? with
    | none =>
      have : 0 < (rs ++ [l']).length := by simp
      rw [List.getElem?_eq_getElem this] at hr0
      cases hr0
    | some r0 =>
      obtain ⟨round', k1, _, k3, _⟩ := key 0 r0 hr0
      rw [b1] at k1
      cases k1
      exact ⟨r0, rfl, by rw [k3, b2]⟩
  · intro r round hr
    rw [h2] at hr
    obtain ⟨round', k1, k2, k3, k4⟩ := key r round hr
    obtain ⟨c1, c2⟩ := b3 r round' k1
    refine ⟨by rw [k2]; exact c1, fun h1r => ?_⟩
    obtain ⟨d1, d2, d3⟩ := c2 h1r
    rw [slots_index k3]
    exact ⟨k4 d1, d2, d3⟩

theorem Bracket_addScore {n : Nat} {t t' : KnockoutTournament} (player score : Int)
    (hb : Bracket n t) (ht : addScore player score t = some t') : Bracket n t' := by
  unfold addScore at ht
  cases hl : t.m_rounds.getLast? with
  | none => rw [hl] at ht; cases ht
  | some lastRound =>
    rw [hl] at ht
    simp only [Option.some.injEq] at ht
    subst ht
    have h1 : t.m_rounds = t.m_rounds.dropLast ++ [lastRound] := by
      have hne : t.m_rounds ≠ [] := by
        intro e
        rw [e] at hl
        cases hl
      have := List.dropLast_append_getLast hne
      rw [List.getLast?_eq_getLast _ hne, Option.some.injEq] at hl
      rw [hl] at this
      exact this.symm
    exact Bracket_index t.m_rounds.dropLast lastRound (addScoreLoop player score lastRound) h1 rfl
      (addScoreLoop_index player score lastRound) hb

theorem Bracket_append {n : Nat} {t t' : KnockoutTournament} (rs : List (List Pair))
    (lastRound nr : List Pair) (h1 : t.m_rounds = rs ++ [lastRound])
    (h2 : t'.m_rounds = t.m_rounds ++ [nr]) (hlen : 2 * nr.length = lastRound.length)
    (hsec : ∀ p ∈ nr, p.2.index ≠ -1) (hnd : (slots nr).Nodup)
    (hrange : ∀ x ∈ slots nr, 0 ≤ x ∧ x < (n : Int)) (hb : Bracket n t) : Bracket n t' := by
  obtain ⟨⟨round0, b1, b2⟩, b3⟩ := hb
  have hpos : 0 < t.m_rounds.length := by rw [h1]; simp
  refine ⟨⟨round0, ?_, b2⟩, ?_⟩
  · rw [h2, List.getElem?_append_left hpos]
    exact b1
  · intro r round hr
    rw [h2] at hr
    by_cases hlt : r < t.m_rounds.length
    · rw [List.getElem?_append_left hlt] at hr
      exact b3 r round hr
    · rw [List.getElem?_append_right (by omega)] at hr
      have hr0 : r - t.m_rounds.length = 0 := by
        by_contra hne
        obtain ⟨m, hm⟩ := Nat.exists_eq_succ_of_ne_zero hne
        rw [hm] at hr
        simp at hr
      rw [hr0] at hr
      simp only [List.getElem?_cons_zero, Option.some.injEq] at hr
      subst hr
      have hrlen : r = t.m_rounds.length := by omega
      have hlast : t.m_rounds[r - 1]? = some lastRound := by
        rw [h1, hrlen, List.getElem?_append_right (by rw [h1]; simp)]
        simp [h1]
      obtain ⟨c1, _⟩ := b3 (r - 1) lastRound hlast
      have hr1 : r - 1 + 1 = r := by omega
      rw [hr1] at c1
      refine ⟨?_, fun _ => ⟨hsec, hnd, hrange⟩⟩
      rw [pow_succ, ← c1, ← hlen]
      ring

theorem Bracket_nextPair {n c : Nat} {t t' : KnockoutTournament} (g : Int) (r : Int × Int)
    (hrun : Running n t c) (hs : Seated n t) (hb : Bracket n t)
    (h : nextPair g t = some (r, t')) : Bracket n t' := by
  obtain ⟨rs, lastRound, k, cur, h1, h2, h3, h4, h5, h6, h7⟩ := hrun
  obtain ⟨rs', lr', s1, s2, s3⟩ := hs
  have hrs : rs' = rs ∧ lr' = lastRound := by
    rw [h1] at s1
    have := List.append_inj' s1 rfl
    exact ⟨this.1.symm, by simpa using this.2.symm⟩
  obtain ⟨rfl, rfl⟩ := hrs
  have hbud := nextPair_unfold_budget g t rs' lr' h1
  by_cases hcur : cur < lr'.length
  · obtain ⟨j, p, hj1, hj2, hj3, _, hj5⟩ :=
      nextPairFuel_skip_byes g rs' lr' h6 (lr'.length - cur)
        (2 * lr'.length + 1 + 1) cur t h1 h2 hcur (le_refl _) (by omega)
    rw [hbud, hj5, Option.some.injEq, Prod.mk.injEq] at h
    obtain ⟨_, rfl⟩ := h
    exact Bracket_congr rfl hb
  · have hge : t.m_currentPair ≥ (lr'.length : Int) := by rw [h2]; omega
    rw [hbud] at h
    unfold nextPairFuel at h
    simp only [h1, List.getLast?_concat, hge, if_true] at h
    by_cases hg : g > 0
    · simp only [hg, if_true, Option.some.injEq, Prod.mk.injEq] at h
      obtain ⟨_, rfl⟩ := h
      exact ⟨hb.1, hb.2⟩
    · simp only [hg, if_false] at h
      cases hst : startNewRound t with
      | none => rw [hst] at h; simp at h
      | some t1 =>
        obtain ⟨lr, nr, e1, e2, e3⟩ := startNewRound_rounds hst
        rw [h1, List.getLast?_concat, Option.some.injEq] at e1
        subst e1
        obtain ⟨w1, w2⟩ := winners_of_seated lr' s2
        have hwne : ∀ w ∈ lr'.map winnerOf, w.index ≠ -1 := by
          intro w hw
          have := (s3 _ (w2 w.index (List.mem_map_of_mem _ hw))).1
          omega
        have hsl := pairWinners_slots _ _ nr (le_refl _) e2 hwne
        have hseat : (slots nr).Nodup ∧ ∀ x ∈ slots nr, 0 ≤ x ∧ x < (n : Int) := by
          rw [hsl]
          exact ⟨w1, fun x hx => s3 x (w2 x hx)⟩
        have hlen : 2 * nr.length = lr'.length := by
          have := pairWinners_length _ _ nr (le_refl _) e2
          simpa using this
        have hsec : ∀ p ∈ nr, p.2.index ≠ -1 := fun p hp =>
          hwne _ (pairWinners_mem _ _ nr (le_refl _) e2 p hp).2
        rw [hst] at h
        simp only at h
        cases htk : takePair t1 with
        | none => rw [htk] at h; simp at h
        | some pt =>
          obtain ⟨pair, t2⟩ := pt
          obtain ⟨lr2, k1, k2⟩ := takePair_pair htk
          rw [e3, List.getLast?_concat, Option.some.injEq] at k1
          subst k1
          have hr2 := (takePair_rounds htk).1
          have hreal : pair.2.index ≠ -1 := hsec pair (List.getElem?_mem k2)
          rw [htk] at h
          simp only [hreal, if_false, Option.some.injEq, Prod.mk.injEq] at h
          obtain ⟨_, rfl⟩ := h
          exact Bracket_append rs' lr' nr h1 (by rw [hr2, e3]) hlen hsec hseat.1 hseat.2 hb

theorem drive_Bracket (n : Nat) : ∀ (calls : List Call) (t tf : KnockoutTournament) (c : Nat)
    (out : List (Int × Int)), Running n t c → Seated n t → Bracket n t →
    drive calls t = some (tf, out) → Bracket n tf := by
  intro calls
  induction calls with
  | nil =>
    intro t tf c out _ _ hb hd
    simp only [drive, Option.some.injEq, Prod.mk.injEq] at hd
    obtain ⟨rfl, _⟩ := hd
    exact hb
  | cons call rest ih =>
    intro t tf c out hr hs hb hd
    cases call with
    | addScore player score =>
      obtain ⟨t1, h1, h2⟩ := Running_addScore player score hr
      simp only [drive, h1] at hd
      exact ih t1 tf c out h2 (Seated_addScore player score hs h1)
        (Bracket_addScore player score hb h1) hd
    | nextPair g =>
      cases hn : nextPair g t with
      | none => simp [drive, hn] at hd
      | some rt =>
        obtain ⟨r, t1⟩ := rt
        obtain ⟨hs1, _⟩ := Seated_nextPair g r hr hs hn
        have hb1 := Bracket_nextPair g r hr hs hb hn
        have hr1 : ∃ c', Running n t1 c' := by
          rcases Running_nextPair g hr with ⟨_, e⟩ | ⟨a, b, t', e, _, hr'⟩ | ⟨_, _, e⟩
          · rw [hn, Option.some.injEq, Prod.mk.injEq] at e
            exact ⟨c, e.2 ▸ hr⟩
          · rw [hn, Option.some.injEq, Prod.mk.injEq] at e
            exact ⟨c + 1, e.2 ▸ hr'⟩
          · rw [hn] at e
            cases e
        obtain ⟨c', hr1⟩ := hr1
        simp only [drive, hn] at hd
        cases hrest : drive rest t1 with
        | none => simp [hrest] at hd
        | some res =>
          obtain ⟨t2, out2⟩ := res
          simp only [hrest, Option.some.injEq, Prod.mk.injEq] at hd
          obtain ⟨rfl, _⟩ := hd
          exact ih t1 t2 c' out2 hr1 hs1 hb1 hrest

end Knockout
namespace Knockout

/-- C33: in every state reached from `initializePairing` for `N ≥ 2` players by `addScore`
and `nextPair` calls, round `r` (0-based) has exactly `P / 2 ^ (r + 1)` pairings, `P` the
bracket size, and the division is exact.  Hence, when the last round has more than one
pairing, the list of winners from which `nextPair` builds the next round has an even length
of at least 2, so the assertion `winners.count() > 1` holds, every `winners.at(i + 1)` of the
pairing loop is in bounds, and the block that starts a new round is defined and appends a
round of half as many pairings. -/
theorem C33_round_sizes_halve (N : Nat) (hN : 2 ≤ N) (calls : List Call)
    (t : KnockoutTournament) (out : List (Int × Int))
    (hd : drive calls (newTournament N) = some (t, out)) :
    (∀ (r : Nat) (round : List Pair), t.m_rounds[r]? = some round →
      round.length * 2 ^ (r + 1) = bracketSize N ∧
      round.length = bracketSize N / 2 ^ (r + 1)) ∧
    (∀ lastRound : List Pair, t.m_rounds.getLast? = some lastRound → 1 < lastRound.length →
      ∃ (winners : List KnockoutPlayer) (nr : List Pair),
        lastRoundWinners t = some winners ∧ winners.length % 2 = 0 ∧ 2 ≤ winners.length ∧
        (∀ i : Nat, i < winners.length → i % 2 = 0 → i + 1 < winners.length) ∧
        pairWinners winners = some nr ∧ 2 * nr.length = winners.length ∧
        startNewRound t =
          some { t with m_rounds := t.m_rounds ++ [nr], m_currentPair := 0,
                        currentRound := t.currentRound + 1 }) := by
  have hrun := drive_Running N calls (newTournament N) t 0 out (Running_init N hN) hd
  have hb := drive_Bracket N calls (newTournament N) t 0 out (Running_init N hN)
    (Seated_init N hN) (Bracket_init N hN) hd
  constructor
  · intro r round hr
    have h1 := (hb.2 r round hr).1
    refine ⟨h1, ?_⟩
    rw [← h1]
    exact (Nat.mul_div_cancel _ (Nat.pos_pow_of_pos _ (by decide))).symm
  · intro lastRound hl hlen
    obtain ⟨rs, lr, k, cur, h1, h2, h3, h4, h5, h6, h7⟩ := hrun
    rw [h1, List.getLast?_concat, Option.some.injEq] at hl
    subst hl
    have hk : 1 ≤ k := by
      by_contra hk
      have : k = 0 := by omega
      rw [this] at h4
      simp only [pow_zero] at h4
      omega
    obtain ⟨m, rfl⟩ : ∃ m, k = m + 1 := ⟨k - 1, by omega⟩
    have hpos : 1 ≤ 2 ^ m := Nat.one_le_two_pow
    have hwl : (lr.map winnerOf).length = 2 * 2 ^ m := by
      rw [List.length_map, h4, pow_succ]
      ring
    obtain ⟨nr, p1, p2, _⟩ := pairWinners_even (2 ^ m) (lr.map winnerOf) hwl
    have hlw : lastRoundWinners t = some (lr.map winnerOf) := by
      unfold lastRoundWinners
      rw [h1, List.getLast?_concat]
    refine ⟨lr.map winnerOf, nr, hlw, by omega, by omega, fun i hi he => by omega, p1,
      by omega, ?_⟩
    unfold startNewRound
    rw [hlw]
    simp only
    rw [if_pos (by omega), p1]

/-- Witness of C33: four players, both pairings of the first round handed out; the first
round has `4 / 2` pairings and the two winners are paired into a round of one pairing. -/
theorem C33_round_sizes_halve_witness :
    2 ≤ 4 ∧
    drive [Call.nextPair 0, Call.nextPair 1] (newTournament 4) =
      some ({ newTournament 4 with m_currentPair := 2 }, [(0, 1), (2, 3)]) ∧
    (∀ (r : Nat) (round : List Pair),
      ({ newTournament 4 with m_currentPair := 2 } : KnockoutTournament).m_rounds[r]? =
        some round →
      round.length * 2 ^ (r + 1) = bracketSize 4 ∧
      round.length = bracketSize 4 / 2 ^ (r + 1)) ∧
    (∃ (winners : List KnockoutPlayer) (nr : List Pair),
      lastRoundWinners { newTournament 4 with m_currentPair := 2 } = some winners ∧
      winners.length % 2 = 0 ∧ 2 ≤ winners.length ∧
      pairWinners winners = some nr ∧ 2 * nr.length = winners.length) := by
  have h := C33_round_sizes_halve 4 (by decide) [Call.nextPair 0, Call.nextPair 1]
    { newTournament 4 with m_currentPair := 2 } [(0, 1), (2, 3)] (by decide)
  refine ⟨by decide, by decide, h.1, ?_⟩
  obtain ⟨winners, nr, a1, a2, a3, _, a5, a6, _⟩ := h.2 (firstRound 4) rfl (by decide)
  exact ⟨winners, nr, a1, a2, a3, a5, a6⟩

/-- C37: for `N ≥ 2` players every competitor index `0 .. N - 1` occurs in exactly one slot
of the first round built by `initializePairing`, whose other slots hold the bye sentinel, and
the first round keeps these indices in every state reached by `addScore` and `nextPair`
calls.  In every later round of such a state no slot holds the bye sentinel `-1`, every slot
holds a competitor index in `[0, N)`, and no index occurs in more than one slot. -/
theorem C37_one_slot_per_competitor (N : Nat) (hN : 2 ≤ N) :
    (∀ i : Nat, i < N → (allSlots (firstRound N)).count (i : Int) = 1) ∧
    (∀ x ∈ allSlots (firstRound N), x = -1 ∨ (0 ≤ x ∧ x < (N : Int))) ∧
    ∀ (calls : List Call) (t : KnockoutTournament) (out : List (Int × Int)),
      drive calls (newTournament N) = some (t, out) →
      (∃ round0 : List Pair, t.m_rounds[0]? = some round0 ∧
        allSlots round0 = allSlots (firstRound N)) ∧
      ∀ (r : Nat) (round : List Pair), 1 ≤ r → t.m_rounds[r]? = some round →
        (-1 : Int) ∉ allSlots round ∧
        (∀ x ∈ allSlots round, 0 ≤ x ∧ x < (N : Int)) ∧
        ∀ x : Int, (allSlots round).count x ≤ 1 := by
  have hnd : ((List.range N).map (fun i : Nat => (i : Int))).Nodup :=
    (List.nodup_range N).map (fun a b h => by exact_mod_cast h)
  refine ⟨?_, ?_, ?_⟩
  · intro i hi
    rw [count_allSlots (i : Int) (by omega), slots_firstRound N hN]
    exact List.count_eq_one_of_mem hnd (List.mem_map.2 ⟨i, List.mem_range.2 hi, rfl⟩)
  · intro x hx
    by_cases hx1 : x = -1
    · exact Or.inl hx1
    · right
      have hc : 0 < (allSlots (firstRound N)).count x := List.count_pos_iff.2 hx
      rw [count_allSlots x hx1, slots_firstRound N hN] at hc
      have hm := List.count_pos_iff.1 hc
      rw [List.mem_map] at hm
      obtain ⟨i, hi, rfl⟩ := hm
      rw [List.mem_range] at hi
      omega
  · intro calls t out hd
    have hb := drive_Bracket N calls (newTournament N) t 0 out (Running_init N hN)
      (Seated_init N hN) (Bracket_init N hN) hd
    obtain ⟨⟨round0, b1, b2⟩, b3⟩ := hb
    refine ⟨⟨round0, b1, allSlots_index b2⟩, ?_⟩
    intro r round hr1 hr
    obtain ⟨c1, c2, c3⟩ := (b3 r round hr).2 hr1
    rw [← slots_eq_allSlots round c1]
    refine ⟨fun hm => ?_, c3, fun x => List.nodup_iff_count_le_one.1 c2 x⟩
    have := (c3 _ hm).1
    omega

/-- Witness of C37: five players; competitor 3 sits in exactly one slot of the first round,
and the round appended once the first round is exhausted holds no bye. -/
theorem C37_one_slot_per_competitor_witness :
    2 ≤ 5 ∧ (allSlots (firstRound 5)).count (3 : Int) = 1 ∧
    drive [Call.nextPair 0, Call.nextPair 0] (newTournament 5) =
      some ({ playerCount := 5, currentRound := 1, m_currentPair := 1,
              m_rounds := [firstRound 5,
                [({ index := 0, score := 0 }, { index := 1, score := 0 }),
                 ({ index := 2, score := 0 }, { index := 3, score := 0 })]] },
            [(3, 4), (0, 1)]) ∧
    (-1 : Int) ∉ allSlots [({ index := 0, score := 0 }, { index := 1, score := 0 }),
      ({ index := 2, score := 0 }, { index := 3, score := 0 })] := by
  have h := C37_one_slot_per_competitor 5 (by decide)
  have hd : drive [Call.nextPair 0, Call.nextPair 0] (newTournament 5) =
      some ({ playerCount := 5, currentRound := 1, m_currentPair := 1,
              m_rounds := [firstRound 5,
                [({ index := 0, score := 0 }, { index := 1, score := 0 }),
                 ({ index := 2, score := 0 }, { index := 3, score := 0 })]] },
            [(3, 4), (0, 1)]) := by decide
  exact ⟨by decide, h.1 3 (by decide), hd, ((h.2.2 _ _ _ hd).2 1 _ (le_refl 1) rfl).1⟩

end Knockout

/-! # The record writer -/

namespace Pgn

theorem value_insert (m : QMap) (key value key' : QString) :
    (m.insert key value).value key' = if key = key' then value else m.value key' := by
  induction m with
  | nil => simp [QMap.insert, QMap.value]
  | cons kv rest ih =>
    unfold QMap.insert
    by_cases h1 : kv.1 = key
    · simp only [h1, if_true, QMap.value]
      by_cases h2 : key = key'
      · simp [h2]
      · simp [h2, h1]
    · simp only [h1, if_false]
      by_cases h3 : qLess key kv.1 = true
      · simp only [h3, if_true]
        by_cases h2 : key = key'
        · simp [QMap.value, h2]
        · simp [QMap.value, h2]
      · simp only [h3]
        by_cases h2 : key = key'
        · subst h2
          simp [QMap.value, h1, ih]
        · by_cases h4 : kv.1 = key'
          · simp [QMap.value, h4, h2]
          · simp [QMap.value, h4, h2, ih]

theorem value_remove (m : QMap) (key key' : QString) :
    (m.remove key).value key' = if key = key' then [] else m.value key' := by
  induction m with
  | nil => simp [QMap.remove, QMap.value]
  | cons kv rest ih =>
    unfold QMap.remove at ih ⊢
    by_cases h1 : kv.1 = key
    · simp only [List.filter_cons, h1, decide_True, Bool.not_true]
      simp only [Bool.false_eq_true, if_false, ih]
      by_cases h2 : key = key'
      · simp [h2]
      · simp [h2, QMap.value, h1]
    · simp only [List.filter_cons, h1, decide_False, Bool.not_false, if_true, QMap.value]
      by_cases h4 : kv.1 = key'
      · have : ¬ key = key' := fun e => h1 (h4.trans e.symm)
        simp [h4, this]
      · simp [h4, ih]

theorem value_of_not_contains (m : QMap) (key : QString) (h : m.contains key = false) :
    m.value key = [] := by
  induction m with
  | nil => rfl
  | cons kv rest ih =>
    simp only [QMap.contains, List.any_cons, Bool.or_eq_false_iff, decide_eq_false_iff_not] at h
    simp only [QMap.value, h.1, if_false]
    exact ih h.2

theorem value_touch (m : QMap) (key key' : QString) :
    (m.touch key).value key' = m.value key' := by
  unfold QMap.touch
  by_cases h : m.contains key = true
  · simp [h]
  · simp only [h]
    rw [if_neg (by simp), value_insert]
    by_cases h2 : key = key'
    · subst h2
      simp [value_of_not_contains m key (by simpa using h)]
    · simp [h2]

theorem isEmpty_of_value (m : QMap) (key : QString) (h : m.value key ≠ []) :
    m.isEmpty = false := by
  cases m with
  | nil => simp [QMap.value] at h
  | cons _ _ => rfl

theorem unwrapped_append (a b : QString) : unwrapped (a ++ b) = unwrapped a ++ unwrapped b := by
  simp [unwrapped]

theorem tokenLine_append (a b : List QString) : tokenLine (a ++ b) = tokenLine a ++ tokenLine b := by
  simp [tokenLine]

theorem writeMoves_unwrapped (mode : PgnMode) : ∀ (ms : List MoveData)
    (i movenum side lineLength : Nat) (out : QString),
    unwrapped (writeMoves mode ms i movenum side lineLength out).1 =
      unwrapped out ++ tokenLine (moveTokens mode ms i movenum side) := by
  intro ms
  induction ms with
  | nil => intro i movenum side lineLength out; simp [writeMoves, moveTokens, tokenLine]
  | cons data rest ih =>
    intro i movenum side lineLength out
    unfold writeMoves
    simp only
    split
    · rw [ih]
      simp [moveTokens, tokenLine, unwrapped]
    · rw [ih]
      simp [moveTokens, tokenLine, unwrapped]

theorem moveTokens_append (mode : PgnMode) : ∀ (a b : List MoveData) (i movenum side : Nat),
    moveTokens mode (a ++ b) i movenum side =
      moveTokens mode a i movenum side ++
        moveTokens mode b (i + a.length) (skipMoves a.length i movenum side).1
          (skipMoves a.length i movenum side).2 := by
  intro a
  induction a with
  | nil => intro b i movenum side; simp [moveTokens, skipMoves]
  | cons data rest ih =>
    intro b i movenum side
    have e := ih b (i + 1) (if numbered i side then movenum + 1 else movenum) (flipSide side)
    rw [show i + 1 + rest.length = i + (rest.length + 1) by omega] at e
    simp only [List.cons_append, moveTokens, List.length_cons, skipMoves]
    exact congrArg _ e

end Pgn
namespace Pgn

theorem addMove_plain (ecoFind : Nat → Option EcoNode) (data : MoveData) (key : Nat)
    (g : PgnGame) :
    addMove ecoFind data key false g = { g with m_moves := g.m_moves ++ [data], m_key := key } := by
  simp [addMove]

theorem addMoves_fields : ∀ (moves : List (MoveData × Nat)) (g : PgnGame),
    (addMoves moves g).m_moves = g.m_moves ++ moves.map Prod.fst ∧
    (addMoves moves g).m_tags = g.m_tags ∧
    (addMoves moves g).m_startingSide = g.m_startingSide ∧
    (addMoves moves g).m_initialComment = g.m_initialComment ∧
    (addMoves moves g).m_tag_changed = g.m_tag_changed ∧
    (addMoves moves g).m_last_move = g.m_last_move ∧
    (addMoves moves g).m_last_result = g.m_last_result := by
  intro moves
  induction moves with
  | nil => intro g; simp [addMoves]
  | cons dk rest ih =>
    intro g
    have := ih (addMove (fun _ => none) dk.1 dk.2 false g)
    simp only [addMoves, List.foldl_cons] at this ⊢
    rw [addMove_plain] at this ⊢
    simpa using this

theorem tagBlock_congr (g g' : PgnGame) (mode : PgnMode) (h : g.m_tags = g'.m_tags) :
    tagBlock g mode = tagBlock g' mode := by
  simp [tagBlock, tags, variant, h]

theorem tagsAfterBlock_value (g : PgnGame) (mode : PgnMode) (key : QString) :
    (tagsAfterBlock g mode).value key = g.m_tags.value key := by
  unfold tagsAfterBlock
  split
  · exact value_touch _ _ _
  · rfl

/-- The shape of a successful `write`: the record afterwards and the text of the stream, which
ends with a separator, the `Result` value and two line breaks. -/
theorem write_shape (streamOk : Bool) (g : PgnGame) (out : QString) (mode : PgnMode)
    (h : g.m_tags.isEmpty = false) :
    ∃ sep : Char, (sep = ' ' ∨ sep = '\n') ∧
      write streamOk g out mode =
        (streamOk,
         { g with
            m_tags := if g.m_tag_changed then tagsAfterBlock g mode else g.m_tags,
            m_tag_changed := false, m_last_move := g.m_moves.length,
            m_last_result := g.m_tags.value "Result".toList },
         (writeMoves mode (g.m_moves.drop g.m_last_move) g.m_last_move
            (skipMoves g.m_last_move 0 0 g.m_startingSide.toInt).1
            (skipMoves g.m_last_move 0 0 g.m_startingSide.toInt).2 0
            (if g.m_last_move = 0 ∧ !g.m_initialComment.isEmpty then
               (if g.m_tag_changed then out ++ tagBlock g mode else out) ++ ['\n'] ++ ['{'] ++
                 g.m_initialComment ++ ['}']
             else (if g.m_tag_changed then out ++ tagBlock g mode else out))).1 ++
           sep :: g.m_tags.value "Result".toList ++ ['\n', '\n']) := by
  have hv : (if g.m_tag_changed then tagsAfterBlock g mode else g.m_tags).value "Result".toList =
      g.m_tags.value "Result".toList := by
    split
    · exact tagsAfterBlock_value g mode _
    · rfl
  unfold write
  simp only [h, Bool.false_eq_true, if_false, hv]
  generalize writeMoves mode _ _ _ _ _ _ = w
  by_cases hlen : w.2 + (g.m_tags.value "Result".toList).length ≥ 80
  · exact ⟨'\n', Or.inr rfl, by rw [if_pos hlen]; simp⟩
  · exact ⟨' ', Or.inl rfl, by rw [if_neg hlen]; simp⟩

end Pgn
namespace Pgn

theorem resize_placeholder (body : QString) (sep : Char) :
    resize (body ++ [sep, '*', '\n', '\n'])
      (if (body ++ [sep, '*', '\n', '\n']).length > 4
        then (body ++ [sep, '*', '\n', '\n']).length - 4 else 0) = body := by
  have hl : (body ++ [sep, '*', '\n', '\n']).length = body.length + 4 := by simp
  have : (if (body ++ [sep, '*', '\n', '\n']).length > 4
        then (body ++ [sep, '*', '\n', '\n']).length - 4 else 0) = body.length := by
    rw [hl]; split <;> omega
  rw [this]
  simp [resize]

/-- One incremental commit of a warm record: the placeholder is removed, the new move is put
on a line of its own and the placeholder is written again. -/
theorem warm_step (mode : PgnMode) (head : QString) (g : PgnGame) (file : QString)
    (reset_flag : Nat) (data : MoveData) (key : Nat) (hflag : reset_flag &&& 1 = 0)
    (h : Warm mode head g file) :
    Warm mode head
        (writeFile true true (addMove (fun _ => none) data key false g) file reset_flag mode).2.1
        (writeFile true true (addMove (fun _ => none) data key false g) file reset_flag mode).2.2 ∧
      (writeFile true true (addMove (fun _ => none) data key false g) file reset_flag
          mode).2.1.m_moves = g.m_moves ++ [data] ∧
      (writeFile true true (addMove (fun _ => none) data key false g) file reset_flag
          mode).2.1.m_startingSide = g.m_startingSide := by
  obtain ⟨h1, h2, h3, h4, h5, body, sep, hsep, hfile, hbody⟩ := h
  have htags : g.m_tags.isEmpty = false := isEmpty_of_value _ _ (by rw [h5]; simp)
  have hlen : g.m_moves.length ≠ 0 := by
    intro e; exact h3 (List.length_eq_zero.1 e)
  obtain ⟨sep', hsep', hw⟩ := write_shape true
    { g with m_moves := g.m_moves ++ [data], m_key := key, m_last_result := [] } body mode htags
  have hwf : writeFile true true (addMove (fun _ => none) data key false g) file reset_flag mode =
      write true { g with m_moves := g.m_moves ++ [data], m_key := key, m_last_result := [] }
        body mode := by
    rw [addMove_plain]
    unfold writeFile
    simp only [Bool.not_true, Bool.false_eq_true, if_false, hflag, ne_eq, not_true_eq_false,
      h1, h4, if_true]
    rw [hfile, resize_placeholder]
  rw [hwf, hw]
  dsimp only
  rw [h1, h2, List.drop_left, if_neg (by simp [hlen])]
  rw [if_neg (by simp [hlen]), if_neg (by simp)]
  refine ⟨⟨rfl, rfl, by simp, h5, h5,
    (writeMoves mode [data] g.m_moves.length
      (skipMoves g.m_moves.length 0 0 g.m_startingSide.toInt).1
      (skipMoves g.m_moves.length 0 0 g.m_startingSide.toInt).2 0 body).1,
    sep', hsep', ?_, ?_⟩, rfl, rfl⟩
  · rw [h5]; simp
  · rw [writeMoves_unwrapped, hbody, moveTokens_append, tokenLine_append]
    simp


theorem warm_run (mode : PgnMode) (head : QString) (reset_flag : Nat)
    (hflag : reset_flag &&& 1 = 0) : ∀ (rest : List (MoveData × Nat)) (g : PgnGame)
    (file : QString), Warm mode head g file →
    Warm mode head (commitEachMove reset_flag mode rest g file).1
        (commitEachMove reset_flag mode rest g file).2 ∧
      (commitEachMove reset_flag mode rest g file).1.m_moves = g.m_moves ++ rest.map Prod.fst ∧
      (commitEachMove reset_flag mode rest g file).1.m_startingSide = g.m_startingSide := by
  intro rest
  induction rest with
  | nil => intro g file h; exact ⟨h, by simp [commitEachMove], rfl⟩
  | cons dk rest ih =>
    intro g file h
    obtain ⟨hw, hm, hs⟩ := warm_step mode head g file reset_flag dk.1 dk.2 hflag h
    obtain ⟨hw', hm', hs'⟩ := ih _ _ hw
    simp only [commitEachMove]
    refine ⟨hw', ?_, hs'.trans hs⟩
    rw [hm', hm]
    simp

/-- The first commit, made with a cold cursor after the first added move, is a full block and
leaves the record warm. -/
theorem first_commit (mode : PgnMode) (g : PgnGame) (file : QString) (reset_flag : Nat)
    (data : MoveData) (key : Nat) (hflag : reset_flag &&& 1 = 0)
    (hc : g.m_tag_changed = true) (hm : g.m_last_move = 0)
    (hres : g.m_tags.value "Result".toList = ['*']) :
    Warm mode (unwrapped ((if reset_flag &&& 2 ≠ 0 then [] else file) ++ fullHead g mode))
        (writeFile true true (addMove (fun _ => none) data key false g) file reset_flag mode).2.1
        (writeFile true true (addMove (fun _ => none) data key false g) file reset_flag mode).2.2 ∧
      (writeFile true true (addMove (fun _ => none) data key false g) file reset_flag
          mode).2.1.m_moves = g.m_moves ++ [data] ∧
      (writeFile true true (addMove (fun _ => none) data key false g) file reset_flag
          mode).2.1.m_startingSide = g.m_startingSide := by
  have htags : g.m_tags.isEmpty = false := isEmpty_of_value _ _ (by rw [hres]; simp)
  obtain ⟨sep', hsep', hw⟩ := write_shape true
    { g with m_moves := g.m_moves ++ [data], m_key := key }
    (if reset_flag &&& 2 ≠ 0 then [] else file) mode htags
  have hwf : writeFile true true (addMove (fun _ => none) data key false g) file reset_flag mode =
      write true { g with m_moves := g.m_moves ++ [data], m_key := key }
        (if reset_flag &&& 2 ≠ 0 then [] else file) mode := by
    rw [addMove_plain]
    unfold writeFile
    simp only [Bool.not_true, Bool.false_eq_true, if_false, hflag, ne_eq, not_true_eq_false,
      hc, if_true]
    simp [resize]
  rw [hwf, hw]
  dsimp only
  rw [hc, hm]
  refine ⟨?_, rfl, rfl⟩
  have hblock' : ∀ (mv : List MoveData) (k : Nat) (tc : Bool) (lm : Nat),
      tagBlock { g with m_moves := mv, m_key := k, m_tag_changed := tc, m_last_move := lm } mode =
        tagBlock g mode := fun _ _ _ _ => tagBlock_congr _ g mode rfl
  rw [hblock']
  simp only [if_true, List.drop_zero, skipMoves, true_and, eq_self_iff_true]
  refine ⟨rfl, rfl, by simp, hres, ?_,
    (writeMoves mode (g.m_moves ++ [data]) 0 0 g.m_startingSide.toInt 0
      (if (!g.m_initialComment.isEmpty) = true then
        (if reset_flag &&& 2 ≠ 0 then [] else file) ++ tagBlock g mode ++ ['\n'] ++ ['{'] ++
          g.m_initialComment ++ ['}']
      else (if reset_flag &&& 2 ≠ 0 then [] else file) ++ tagBlock g mode)).1,
    sep', hsep', ?_, ?_⟩
  · rw [tagsAfterBlock_value]; exact hres
  · rw [hres]; simp
  · rw [writeMoves_unwrapped]
    congr 2
    unfold fullHead
    by_cases hcm : g.m_initialComment.isEmpty = true
    · simp [hcm]
    · simp [hcm]


/-- A full-rewrite commit of a record whose result is `*`. -/
theorem full_commit (mode : PgnMode) (g : PgnGame) (file : QString) (reset_flag : Nat)
    (hflag : reset_flag &&& 1 ≠ 0) (hres : g.m_tags.value "Result".toList = ['*']) :
    unwrapped (writeFile true true g file reset_flag mode).2.2 =
      unwrapped ((if reset_flag &&& 2 ≠ 0 then [] else file) ++ fullHead g mode) ++
        tokenLine (moveTokens mode g.m_moves 0 0 g.m_startingSide.toInt) ++
        [' ', '*', ' ', ' '] := by
  have htags : g.m_tags.isEmpty = false := isEmpty_of_value _ _ (by rw [hres]; simp)
  obtain ⟨sep', hsep', hw⟩ := write_shape true (resetCursor g)
    (if reset_flag &&& 2 ≠ 0 then [] else file) mode htags
  have hwf : writeFile true true g file reset_flag mode =
      write true (resetCursor g) (if reset_flag &&& 2 ≠ 0 then [] else file) mode := by
    unfold writeFile
    simp only [Bool.not_true, Bool.false_eq_true, if_false, hflag, ne_eq, not_false_eq_true,
      if_true]
    simp [resetCursor, resize]
  have hblock : tagBlock (resetCursor g) mode = tagBlock g mode := tagBlock_congr _ _ _ rfl
  rw [hwf, hw]
  dsimp only
  rw [hblock]
  simp only [resetCursor, if_true, List.drop_zero, skipMoves, true_and, eq_self_iff_true]
  rw [unwrapped_append, unwrapped_append, writeMoves_unwrapped, hres]
  have hhead : (if (!g.m_initialComment.isEmpty) = true then
        (if reset_flag &&& 2 ≠ 0 then [] else file) ++ tagBlock g mode ++ ['\n'] ++ ['{'] ++
          g.m_initialComment ++ ['}']
      else (if reset_flag &&& 2 ≠ 0 then [] else file) ++ tagBlock g mode) =
      (if reset_flag &&& 2 ≠ 0 then [] else file) ++ fullHead g mode := by
    unfold fullHead
    by_cases hcm : g.m_initialComment.isEmpty = true
    · simp [hcm]
    · simp [hcm]
  rw [hhead]
  rcases hsep' with rfl | rfl <;> simp [unwrapped]

end Pgn
namespace Pgn

theorem fullHead_congr (g g' : PgnGame) (mode : PgnMode) (h : g.m_tags = g'.m_tags)
    (hc : g.m_initialComment = g'.m_initialComment) : fullHead g mode = fullHead g' mode := by
  unfold fullHead
  rw [tagBlock_congr g g' mode h, hc]

/-- C2 as stated fails: with the single tag `Result` and the plies `e4 e5`, committing after
each move leaves `e5` on a line of its own, while one full rewrite puts both plies on one
line; and with a result other than `*` the marker of the first commit stays in the file. -/
theorem C2_incremental_not_byte_identical :
    (commitEachMove 2 PgnMode.Minimal twoPlies (recordWithResult ['*']) []).2 ≠
      (commitOnce 3 PgnMode.Minimal twoPlies (recordWithResult ['*']) []).2 ∧
    (commitEachMove 2 PgnMode.Minimal twoPlies (recordWithResult ['*']) []).2 =
      ("[Event \"?\"]\n[Site \"?\"]\n[Date \"?\"]\n[Round \"?\"]\n[White \"?\"]\n" ++
        "[Black \"?\"]\n[Result \"*\"]\n\n1. e4\ne5 *\n\n").toList ∧
    (commitOnce 3 PgnMode.Minimal twoPlies (recordWithResult ['*']) []).2 =
      ("[Event \"?\"]\n[Site \"?\"]\n[Date \"?\"]\n[Round \"?\"]\n[White \"?\"]\n" ++
        "[Black \"?\"]\n[Result \"*\"]\n\n1. e4 e5 *\n\n").toList ∧
    (commitEachMove 2 PgnMode.Minimal twoPlies (recordWithResult "1-0".toList) []).2 =
      ("[Event \"?\"]\n[Site \"?\"]\n[Date \"?\"]\n[Round \"?\"]\n[White \"?\"]\n" ++
        "[Black \"?\"]\n[Result \"1-0\"]\n\n1. e4 1-0\n\n\ne5 1-0\n\n").toList := by
  refine ⟨by decide, by decide, by decide, by decide⟩

/-- C2 amended: for a record whose `Result` tag is `*` and a non-empty sequence of moves,
committing to the same file after every added move (cold cursor at the first commit, no
cursor reset and no tag change afterwards) leaves the file equal, up to line breaks, to the
file after a single full-rewrite commit of the same truncation setting made after all the
moves: the two texts coincide once every line break is replaced by a space. -/
theorem C2_incremental_equals_full_up_to_line_breaks (g : PgnGame)
    (moves : List (MoveData × Nat)) (file : QString) (inc_flag full_flag : Nat)
    (mode : PgnMode) (hc : g.m_tag_changed = true) (hm : g.m_last_move = 0)
    (hres : g.m_tags.value "Result".toList = ['*']) (hmoves : moves ≠ [])
    (hinc : inc_flag &&& 1 = 0) (hfull : full_flag &&& 1 ≠ 0)
    (htrunc : full_flag &&& 2 = inc_flag &&& 2) :
    unwrapped (commitEachMove inc_flag mode moves g file).2 =
      unwrapped (commitOnce full_flag mode moves g file).2 := by
  obtain ⟨hf1, hf2, hf3, hf4, _, _, _⟩ := addMoves_fields moves g
  cases moves with
  | nil => exact absurd rfl hmoves
  | cons dk rest =>
    obtain ⟨hw, hmv, hside⟩ := first_commit mode g file inc_flag dk.1 dk.2 hinc hc hm hres
    obtain ⟨hw', hmv', hside'⟩ := warm_run mode _ inc_flag hinc rest _ _ hw
    have hfull' := full_commit mode (addMoves (dk :: rest) g) file full_flag hfull
      (by rw [hf2]; exact hres)
    simp only [commitOnce]
    rw [hfull', fullHead_congr _ g mode hf2 hf4, hf1, hf3, htrunc]
    simp only [commitEachMove]
    obtain ⟨_, _, _, _, _, body, sep, hsep, hfile, hbody⟩ := hw'
    rw [hfile, unwrapped_append, hbody, hmv', hmv, hside', hside]
    rcases hsep with rfl | rfl <;> simp [unwrapped]

/-- Witness of C2 amended: the record and the plies of the counterexample, live file. -/
theorem C2_incremental_equals_full_up_to_line_breaks_witness :
    unwrapped (commitEachMove 2 PgnMode.Minimal twoPlies (recordWithResult ['*']) []).2 =
      unwrapped (commitOnce 3 PgnMode.Minimal twoPlies (recordWithResult ['*']) []).2 :=
  C2_incremental_equals_full_up_to_line_breaks (recordWithResult ['*']) twoPlies [] 2 3
    PgnMode.Minimal rfl rfl (by decide) (by decide) (by decide) (by decide) (by decide)

end Pgn
namespace Pgn

theorem write_value (streamOk : Bool) (g : PgnGame) (out : QString) (mode : PgnMode)
    (key : QString) : (write streamOk g out mode).2.1.m_tags.value key = g.m_tags.value key := by
  unfold write
  split
  · rfl
  · dsimp only
    split
    · exact tagsAfterBlock_value g mode key
    · rfl

theorem writeFile_eq_write (streamOk : Bool) (g : PgnGame) (file : QString)
    (reset_flag : Nat) (mode : PgnMode) :
    ∃ (g' : PgnGame) (out : QString),
      writeFile true streamOk g file reset_flag mode = write streamOk g' out mode ∧
      g'.m_tags = g.m_tags := by
  unfold writeFile
  simp only [Bool.not_true, Bool.false_eq_true, if_false]
  split_ifs <;> exact ⟨_, _, rfl, rfl⟩

theorem writeFile_value (streamOk : Bool) (g : PgnGame) (file : QString)
    (reset_flag : Nat) (mode : PgnMode) (key : QString) :
    (writeFile true streamOk g file reset_flag mode).2.1.m_tags.value key =
      g.m_tags.value key := by
  obtain ⟨g', out, he, ht⟩ := writeFile_eq_write streamOk g file reset_flag mode
  rw [he, write_value, ht]

theorem setTag_changed (tag value : QString) (g : PgnGame) (h1 : value ≠ [])
    (h2 : value ≠ g.m_tags.value tag) :
    setTag tag value g = resetCursor { g with m_tags := (g.m_tags.touch tag).insert tag value } := by
  unfold setTag
  have : value.isEmpty = false := by
    cases value with
    | nil => exact absurd rfl h1
    | cons _ _ => rfl
  simp [this, h2]

theorem setTag_cursor (tag value : QString) (g : PgnGame) (hc : g.m_tag_changed = true)
    (hm : g.m_last_move = 0) :
    (setTag tag value g).m_tag_changed = true ∧ (setTag tag value g).m_last_move = 0 := by
  unfold setTag
  dsimp only
  split
  · split
    · exact ⟨rfl, rfl⟩
    · exact ⟨hc, hm⟩
  · split
    · exact ⟨rfl, rfl⟩
    · exact ⟨hc, hm⟩

theorem setTag_value_other (tag value key : QString) (g : PgnGame) (h : tag ≠ key) :
    (setTag tag value g).m_tags.value key = g.m_tags.value key := by
  have e1 : ((g.m_tags.touch tag).remove tag).value key = g.m_tags.value key := by
    rw [value_remove, if_neg h, value_touch]
  have e2 : ((g.m_tags.touch tag).insert tag value).value key = g.m_tags.value key := by
    rw [value_insert, if_neg h, value_touch]
  unfold setTag
  dsimp only
  split
  · split
    · exact e1
    · exact e1
  · split
    · exact e2
    · exact e2

theorem write_ignores_last_result (streamOk : Bool) (g : PgnGame) (out : QString)
    (mode : PgnMode) (x : QString) :
    (write streamOk { g with m_last_result := x } out mode).2.2 =
      (write streamOk g out mode).2.2 := by
  have hb : tagBlock { g with m_last_result := x } mode = tagBlock g mode :=
    tagBlock_congr _ g mode rfl
  unfold write
  dsimp only
  rw [hb]
  split
  · rfl
  · rfl

/-- C10: a record is committed to a file while its `Result` is `*`; moves may be added; the
result is set to a decided value and the record is committed again to the same file with
bit 2 of the flag set.  Then the file holds exactly the text of a full rewrite of the record
into an empty file, so nothing of the earlier content and in particular not its `*` marker
remains, and it ends with the decided result followed by two line breaks. -/
theorem C10_decided_result_replaces_placeholder (toShortString : Result → QString)
    (result : Result) (g : PgnGame) (file : QString) (flag1 flag2 : Nat)
    (mode1 mode2 : PgnMode) (moves : List (MoveData × Nat))
    (hstar : g.m_tags.value "Result".toList = ['*'])
    (hdec : toShortString result ≠ [] ∧ toShortString result ≠ ['*'])
    (hflag : flag2 &&& 2 ≠ 0) :
    ∃ (g1 g2 g3 : PgnGame) (file1 file2 : QString),
      writeFile true true g file flag1 mode1 = (true, g1, file1) ∧
      g2 = setResult toShortString result (addMoves moves g1) ∧
      writeFile true true g2 file1 flag2 mode2 = (true, g3, file2) ∧
      file2 = (write true (resetCursor g2) [] mode2).2.2 ∧
      ∃ (body : QString) (sep : Char), (sep = ' ' ∨ sep = '\n') ∧
        file2 = body ++ sep :: toShortString result ++ ['\n', '\n'] := by
  have htags : g.m_tags.isEmpty = false := isEmpty_of_value _ _ (by rw [hstar]; simp)
  -- first commit
  have h1ok : (writeFile true true g file flag1 mode1).1 = true := by
    obtain ⟨g', out, he, ht⟩ := writeFile_eq_write true g file flag1 mode1
    obtain ⟨_, _, hw⟩ := write_shape true g' out mode1 (by rw [ht]; exact htags)
    rw [he, hw]
  have h1v := writeFile_value true g file flag1 mode1 "Result".toList
  rw [hstar] at h1v
  generalize writeFile true true g file flag1 mode1 = r1 at h1ok h1v
  obtain ⟨ok1, g1, file1⟩ := r1
  dsimp only at h1ok h1v
  subst h1ok
  -- the record after the moves and the result
  obtain ⟨_, hmt, _, _, _, _, _⟩ := addMoves_fields moves g1
  have hprev : toShortString result ≠ (addMoves moves g1).m_tags.value "Result".toList := by
    rw [hmt, h1v]; exact hdec.2
  have hset := setTag_changed "Result".toList (toShortString result) (addMoves moves g1)
    hdec.1 hprev
  have hcur := setTag_cursor "Termination".toList (terminationOf result.type)
    (setTag "Result".toList (toShortString result) (addMoves moves g1))
    (by rw [hset]; rfl) (by rw [hset]; rfl)
  have hval : (setResult toShortString result (addMoves moves g1)).m_tags.value "Result".toList =
      toShortString result := by
    unfold setResult
    rw [setTag_value_other _ _ _ _ (by decide), hset]
    simp [resetCursor, value_insert]
  generalize hg2 : setResult toShortString result (addMoves moves g1) = g2 at hval
  have hc2 : g2.m_tag_changed = true := by rw [← hg2]; exact hcur.1
  have hm2 : g2.m_last_move = 0 := by rw [← hg2]; exact hcur.2
  have htags2 : g2.m_tags.isEmpty = false := isEmpty_of_value _ _ (by rw [hval]; exact hdec.1)
  -- second commit
  have hreset : resetCursor g2 = { g2 with m_last_result := [] } := by
    unfold resetCursor
    rw [← hc2, ← hm2]
  have hwf : writeFile true true g2 file1 flag2 mode2 =
      write true (if flag2 &&& 1 ≠ 0 then resetCursor g2 else g2) [] mode2 := by
    unfold writeFile
    have : (if flag2 &&& 1 ≠ 0 then resetCursor g2 else g2).m_tag_changed = true := by
      split
      · rfl
      · exact hc2
    simp only [Bool.not_true, Bool.false_eq_true, if_false, this, if_true, hflag, ne_eq,
      not_false_eq_true, resize, List.take_zero]
  have hout : (write true (if flag2 &&& 1 ≠ 0 then resetCursor g2 else g2) [] mode2).2.2 =
      (write true (resetCursor g2) [] mode2).2.2 := by
    split
    · rfl
    · rw [hreset]
      exact (write_ignores_last_result true g2 [] mode2 []).symm
  obtain ⟨sep, hsep, hw⟩ := write_shape true (resetCursor g2) [] mode2 htags2
  have hok : (write true (if flag2 &&& 1 ≠ 0 then resetCursor g2 else g2) [] mode2).1 = true := by
    obtain ⟨_, _, hw'⟩ := write_shape true (if flag2 &&& 1 ≠ 0 then resetCursor g2 else g2) []
      mode2 (by split <;> exact htags2)
    rw [hw']
  refine ⟨g1, g2, (writeFile true true g2 file1 flag2 mode2).2.1,
    file1, (writeFile true true g2 file1 flag2 mode2).2.2, rfl, hg2.symm, ?_, ?_, ?_⟩
  · rw [hwf]
    ext : 1
    · exact hok
    · rfl
  · rw [hwf, hout]
  · rw [hwf, hout, hw]
    have hv' : (resetCursor g2).m_tags.value "Result".toList = toShortString result := hval
    rw [hv']
    exact ⟨_, sep, hsep, rfl⟩

/-- Witness of C10: a live file written after the first ply with result `*` and rewritten
after White has won. -/
theorem C10_decided_result_replaces_placeholder_witness :
    ∃ (g1 g2 g3 : PgnGame) (file1 file2 : QString),
      writeFile true true (addMoves twoPlies (recordWithResult ['*'])) [] 2 PgnMode.Minimal =
        (true, g1, file1) ∧
      g2 = setResult (fun _ => "1-0".toList)
        { type := ResultType.Win, winner := Side.White, description := [] } (addMoves [] g1) ∧
      writeFile true true g2 file1 2 PgnMode.Minimal = (true, g3, file2) ∧
      file2 = (write true (resetCursor g2) [] PgnMode.Minimal).2.2 ∧
      ∃ (body : QString) (sep : Char), (sep = ' ' ∨ sep = '\n') ∧
        file2 = body ++ sep :: "1-0".toList ++ ['\n', '\n'] :=
  C10_decided_result_replaces_placeholder (fun _ => "1-0".toList)
    { type := ResultType.Win, winner := Side.White, description := [] }
    (addMoves twoPlies (recordWithResult ['*'])) [] 2 2 PgnMode.Minimal PgnMode.Minimal []
    (by decide) (by decide) (by decide)

end Pgn
namespace Pgn

theorem char_eq_of_toNat {a b : Char} (h : a.toNat = b.toNat) : a = b := by
  have := congrArg Char.ofNat h
  simpa using this

theorem qLess_irrefl : ∀ a : QString, qLess a a = false
  | [] => rfl
  | x :: xs => by
    unfold qLess
    simp [qLess_irrefl xs]

theorem qLess_asymm : ∀ a b : QString, qLess a b = true → qLess b a = false
  | [], [], h => by simp [qLess] at h
  | [], _ :: _, _ => by simp [qLess]
  | _ :: _, [], h => by simp [qLess] at h
  | x :: xs, y :: ys, h => by
    unfold qLess at h ⊢
    by_cases h1 : x.toNat < y.toNat
    · simp [Nat.lt_asymm h1, h1]
    · by_cases h2 : y.toNat < x.toNat
      · simp [h1, h2] at h
      · simp only [h1, h2, if_false] at h ⊢
        exact qLess_asymm xs ys h

theorem qLess_trans : ∀ a b c : QString, qLess a b = true → qLess b c = true →
    qLess a c = true
  | [], [], _, h, _ => by simp [qLess] at h
  | [], _ :: _, [], _, h => by simp [qLess] at h
  | [], _ :: _, _ :: _, _, _ => by simp [qLess]
  | _ :: _, [], _, h, _ => by simp [qLess] at h
  | _ :: _, _ :: _, [], _, h => by simp [qLess] at h
  | x :: xs, y :: ys, z :: zs, h1, h2 => by
    unfold qLess at h1 h2 ⊢
    by_cases a1 : x.toNat < y.toNat
    · by_cases b1 : y.toNat < z.toNat
      · simp [Nat.lt_trans a1 b1]
      · by_cases b2 : z.toNat < y.toNat
        · simp [b1, b2] at h2
        · have : x.toNat < z.toNat := by omega
          simp [this]
    · by_cases a2 : y.toNat < x.toNat
      · simp [a1, a2] at h1
      · simp only [a1, a2, if_false] at h1
        by_cases b1 : y.toNat < z.toNat
        · have : x.toNat < z.toNat := by omega
          simp [this]
        · by_cases b2 : z.toNat < y.toNat
          · simp [b1, b2] at h2
          · simp only [b1, b2, if_false] at h2
            have e1 : ¬ x.toNat < z.toNat := by omega
            have e2 : ¬ z.toNat < x.toNat := by omega
            simp only [e1, e2, if_false]
            exact qLess_trans xs ys zs h1 h2

theorem qLess_total : ∀ a b : QString, a ≠ b → qLess a b = true ∨ qLess b a = true
  | [], [], h => absurd rfl h
  | [], _ :: _, _ => Or.inl (by simp [qLess])
  | _ :: _, [], _ => Or.inr (by simp [qLess])
  | x :: xs, y :: ys, h => by
    unfold qLess
    by_cases h1 : x.toNat < y.toNat
    · simp [h1]
    · by_cases h2 : y.toNat < x.toNat
      · simp [h2]
      · have e : x = y := char_eq_of_toNat (by omega)
        subst e
        have hne : xs ≠ ys := fun e => h (by rw [e])
        simpa [h1] using qLess_total xs ys hne

theorem contains_iff (m : QMap) (key : QString) :
    m.contains key = true ↔ ∃ kv ∈ m, kv.1 = key := by
  simp [QMap.contains]

theorem contains_of_value (m : QMap) (key : QString) (h : m.value key ≠ []) :
    m.contains key = true := by
  by_contra hc
  exact h (value_of_not_contains m key (by simpa using hc))

theorem mem_insert (m : QMap) (key value : QString) (kv : QString × QString)
    (h : kv ∈ m.insert key value) : kv = (key, value) ∨ kv ∈ m := by
  induction m with
  | nil =>
    simp only [QMap.insert, List.mem_singleton] at h
    exact Or.inl h
  | cons a rest ih =>
    unfold QMap.insert at h
    split_ifs at h with h1 h2
    · rw [List.mem_cons] at h
      rcases h with h | h
      · exact Or.inl h
      · exact Or.inr (List.mem_cons_of_mem _ h)
    · rw [List.mem_cons] at h
      rcases h with h | h
      · exact Or.inl h
      · exact Or.inr h
    · rw [List.mem_cons] at h
      rcases h with h | h
      · exact Or.inr (h ▸ List.mem_cons_self _ _)
      · rcases ih h with h | h
        · exact Or.inl h
        · exact Or.inr (List.mem_cons_of_mem _ h)

theorem Ordered_insert (m : QMap) (key value : QString) (h : m.Ordered) :
    (m.insert key value).Ordered := by
  induction m with
  | nil => simp [QMap.insert, QMap.Ordered]
  | cons a rest ih =>
    unfold QMap.Ordered at h ih ⊢
    rw [List.pairwise_cons] at h
    unfold QMap.insert
    split_ifs with h1 h2
    · rw [List.pairwise_cons]
      exact ⟨fun b hb => h1 ▸ h.1 b hb, h.2⟩
    · rw [List.pairwise_cons, List.pairwise_cons]
      refine ⟨fun b hb => ?_, h⟩
      rw [List.mem_cons] at hb
      rcases hb with rfl | hb
      · exact h2
      · exact qLess_trans _ _ _ h2 (h.1 b hb)
    · rw [List.pairwise_cons]
      refine ⟨fun b hb => ?_, ih h.2⟩
      rcases mem_insert rest key value b hb with rfl | hb
      · rcases qLess_total a.1 key h1 with h3 | h3
        · exact h3
        · exact absurd h3 h2
      · exact h.1 b hb

theorem Ordered_remove (m : QMap) (key : QString) (h : m.Ordered) : (m.remove key).Ordered :=
  List.Pairwise.filter _ h

theorem Ordered_touch (m : QMap) (key : QString) (h : m.Ordered) : (m.touch key).Ordered := by
  unfold QMap.touch
  split
  · exact h
  · exact Ordered_insert m key [] h

theorem Ordered_setTag (tag value : QString) (g : PgnGame) (h : g.m_tags.Ordered) :
    (setTag tag value g).m_tags.Ordered := by
  unfold setTag
  simp only
  split_ifs
  · exact Ordered_remove _ _ (Ordered_touch _ _ h)
  · exact Ordered_remove _ _ (Ordered_touch _ _ h)
  · exact Ordered_insert _ _ _ (Ordered_touch _ _ h)
  · exact Ordered_insert _ _ _ (Ordered_touch _ _ h)

theorem insert_stored (m : QMap) (key : QString) (h : m.Ordered)
    (hc : m.contains key = true) : m.insert key (m.value key) = m := by
  induction m with
  | nil => simp [QMap.contains] at hc
  | cons a rest ih =>
    unfold QMap.Ordered at h ih
    rw [List.pairwise_cons] at h
    unfold QMap.insert QMap.value
    by_cases h1 : a.1 = key
    · simp only [h1, if_true]
      rw [← h1]
    · have hc' : QMap.contains rest key = true := by
        simp only [QMap.contains, List.any_cons, Bool.or_eq_true, decide_eq_true_eq] at hc
        rcases hc with hc | hc
        · exact absurd hc h1
        · exact hc
      obtain ⟨kv, hkv, e⟩ := (contains_iff rest key).1 hc'
      have h2 : qLess key a.1 = false := by
        apply qLess_asymm
        rw [← e]
        exact h.1 kv hkv
      simp only [h1, if_false, h2]
      rw [ih h.2 hc']
      simp

theorem remove_insert_absent (m : QMap) (key value : QString)
    (hc : m.contains key = false) : (m.insert key value).remove key = m := by
  induction m with
  | nil => simp [QMap.insert, QMap.remove]
  | cons a rest ih =>
    simp only [QMap.contains, List.any_cons, Bool.or_eq_false_iff, decide_eq_false_iff_not] at hc
    unfold QMap.insert
    simp only [hc.1, if_false]
    have hr : QMap.remove rest key = rest := by
      unfold QMap.remove
      rw [List.filter_eq_self]
      intro b hb
      have := hc.2
      simp only [List.any_eq_false, decide_eq_true_eq] at this
      simpa using this b hb
    split_ifs with h2
    · unfold QMap.remove
      rw [List.filter_cons_of_neg (by simp), List.filter_cons_of_pos (by simpa using hc.1)]
      unfold QMap.remove at hr
      rw [hr]
    · unfold QMap.remove
      rw [List.filter_cons_of_pos (by simpa using hc.1)]
      unfold QMap.remove at ih
      rw [ih hc.2]

theorem setTag_value_self (tag value : QString) (g : PgnGame) :
    (setTag tag value g).m_tags.value tag = value := by
  unfold setTag
  simp only
  split_ifs with h1 h2 h3
  · simp only [resetCursor, value_remove, if_true]
    simpa using h1.symm
  · simp only [value_remove, if_true]
    simpa using h1.symm
  · simp [resetCursor, value_insert]
  · simp [value_insert]

/-- C16: `setTag(tag, value)` stores `value` for the tag and touches nothing but the tag
map and the cursor.  The cursor is reset (dirty flag set, last-flushed move index 0, last
result cleared) when `value` is non-empty and differs from the stored value, or `value` is
empty and a non-empty value was stored; in every other case the three cursor fields and
the value of every tag keep what they held.  On a tag map in key order, setting the
non-empty value that is already stored, or removing a tag that is absent, returns the
record as it was. -/
theorem C16_setTag_resets_cursor_iff_value_changes (tag value : QString) (g : PgnGame) :
    (setTag tag value g).m_tags.value tag = value ∧
    (setTag tag value g).m_moves = g.m_moves ∧
    (setTag tag value g).m_startingSide = g.m_startingSide ∧
    (setTag tag value g).m_initialComment = g.m_initialComment ∧
    (((value ≠ [] ∧ value ≠ g.m_tags.value tag) ∨ (value = [] ∧ g.m_tags.value tag ≠ [])) →
      (setTag tag value g).m_tag_changed = true ∧ (setTag tag value g).m_last_move = 0 ∧
      (setTag tag value g).m_last_result = []) ∧
    (¬ ((value ≠ [] ∧ value ≠ g.m_tags.value tag) ∨
        (value = [] ∧ g.m_tags.value tag ≠ [])) →
      (setTag tag value g).m_tag_changed = g.m_tag_changed ∧
      (setTag tag value g).m_last_move = g.m_last_move ∧
      (setTag tag value g).m_last_result = g.m_last_result ∧
      ∀ key, (setTag tag value g).m_tags.value key = g.m_tags.value key) ∧
    (g.m_tags.Ordered → value ≠ [] → value = g.m_tags.value tag → setTag tag value g = g) ∧
    (g.m_tags.contains tag = false → setTag tag [] g = g) := by
  refine ⟨setTag_value_self tag value g, ?_, ?_, ?_, ?_, ?_, ?_, ?_⟩
  · unfold setTag resetCursor
    simp only
    split_ifs <;> rfl
  · unfold setTag resetCursor
    simp only
    split_ifs <;> rfl
  · unfold setTag resetCursor
    simp only
    split_ifs <;> rfl
  · intro hch
    unfold setTag resetCursor
    simp only
    rcases hch with ⟨h1, h2⟩ | ⟨h1, h2⟩
    · rw [if_neg (by simpa using h1), if_pos h2]
      exact ⟨rfl, rfl, rfl⟩
    · rw [if_pos (by simpa using h1), if_pos (by simpa using h2)]
      exact ⟨rfl, rfl, rfl⟩
  · intro hch
    rw [not_or] at hch
    have hv : ∀ key, (setTag tag value g).m_tags.value key = g.m_tags.value key := by
      intro key
      by_cases hk : tag = key
      · rw [← hk, setTag_value_self]
        by_cases hv : value = []
        · by_contra hne
          exact hch.2 ⟨hv, fun e => hne (by rw [hv, e])⟩
        · by_contra hne
          exact hch.1 ⟨hv, hne⟩
      · exact setTag_value_other tag value key g hk
    unfold setTag resetCursor at *
    simp only at *
    by_cases hv0 : value = []
    · have hp : g.m_tags.value tag = [] := by
        by_contra hne
        exact hch.2 ⟨hv0, hne⟩
      rw [if_pos (by simpa using hv0), if_neg (by simp [hp])] at hv ⊢
      exact ⟨rfl, rfl, rfl, hv⟩
    · have hp : value = g.m_tags.value tag := by
        by_contra hne
        exact hch.1 ⟨hv0, hne⟩
      rw [if_neg (by simpa using hv0), if_neg (by simpa using hp)] at hv ⊢
      exact ⟨rfl, rfl, rfl, hv⟩
  · intro ho hv he
    have hc : g.m_tags.contains tag = true := contains_of_value _ _ (he ▸ hv)
    unfold setTag
    simp only
    rw [if_neg (by simpa using hv), if_neg (by simpa using he)]
    have ht : g.m_tags.touch tag = g.m_tags := by simp [QMap.touch, hc]
    rw [ht, he, insert_stored _ _ ho hc]
  · intro hc
    unfold setTag
    simp only
    rw [if_pos (by simp), if_neg (by simp [value_of_not_contains _ _ hc])]
    have ht : g.m_tags.touch tag = g.m_tags.insert tag [] := by simp [QMap.touch, hc]
    rw [ht, remove_insert_absent _ _ _ hc]

/-- Witness of C16 on a record that holds `Event` and `White`: storing the value `Event`
already has and removing the absent `Site` return the record as it was, and storing
another value for `Event` sets the dirty flag. -/
theorem C16_setTag_resets_cursor_iff_value_changes_witness :
    setTag "Event".toList "Cup".toList taggedRecord = taggedRecord ∧
    setTag "Site".toList [] taggedRecord = taggedRecord ∧
    (setTag "Event".toList "Open".toList taggedRecord).m_tag_changed = true ∧
    (setTag "Event".toList "Open".toList taggedRecord).m_last_move = 0 ∧
    (setTag "Event".toList "Open".toList taggedRecord).m_last_result = [] :=
  ⟨(C16_setTag_resets_cursor_iff_value_changes "Event".toList "Cup".toList
      taggedRecord).2.2.2.2.2.2.1 (by decide) (by decide) (by decide),
   (C16_setTag_resets_cursor_iff_value_changes "Site".toList []
      taggedRecord).2.2.2.2.2.2.2 (by decide),
   (C16_setTag_resets_cursor_iff_value_changes "Event".toList "Open".toList
      taggedRecord).2.2.2.2.1 (Or.inl ⟨by decide, by decide⟩)⟩

end Pgn
namespace Pgn

theorem Ordered_applyTags : ∀ (calls : List (QString × QString)) (g : PgnGame),
    g.m_tags.Ordered → (applyTags calls g).m_tags.Ordered := by
  intro calls
  induction calls with
  | nil => intro g h; exact h
  | cons c rest ih =>
    intro g h
    exact ih (setTag c.1 c.2 g) (Ordered_setTag c.1 c.2 g h)

theorem mem_ordered_iff (m : QMap) (k v : QString) (h : m.Ordered) :
    (k, v) ∈ m ↔ (m.contains k = true ∧ m.value k = v) := by
  induction m with
  | nil => simp [QMap.contains]
  | cons a rest ih =>
    unfold QMap.Ordered at h ih
    rw [List.pairwise_cons] at h
    simp only [List.mem_cons, QMap.value, QMap.contains, List.any_cons, Bool.or_eq_true,
      decide_eq_true_eq]
    have ih' := ih h.2
    simp only [QMap.contains] at ih'
    constructor
    · rintro (e | e)
      · subst e
        simp
      · have hne : a.1 ≠ k := by
          intro e'
          have := h.1 (k, v) e
          rw [e'] at this
          simp [qLess_irrefl] at this
        rw [if_neg hne]
        exact ⟨Or.inr (ih'.1 e).1, (ih'.1 e).2⟩
    · rintro ⟨hc, hv⟩
      by_cases h1 : a.1 = k
      · rw [if_pos h1] at hv
        left
        rw [← h1, ← hv]
      · rw [if_neg h1] at hv
        rcases hc with hc | hc
        · exact absurd hc h1
        · exact Or.inr (ih'.2 ⟨hc, hv⟩)

theorem tags_take (g : PgnGame) :
    (tags g).take 7 = roster.map (fun tag =>
      (tag, if (g.m_tags.value tag).isEmpty then ['?'] else g.m_tags.value tag)) := by
  unfold tags
  exact List.take_left' (by simp [roster])

theorem tags_drop (g : PgnGame) :
    (tags g).drop 7 = g.m_tags.filter (fun kv => !roster.contains kv.1 && !kv.2.isEmpty) := by
  unfold tags
  exact List.drop_left' (by simp [roster])

theorem mem_tags_drop (g : PgnGame) (h : g.m_tags.Ordered) (kv : QString × QString) :
    kv ∈ (tags g).drop 7 ↔ (kv.1 ∉ roster ∧ kv.2 ≠ [] ∧ g.m_tags.value kv.1 = kv.2) := by
  rw [tags_drop, List.mem_filter]
  have hm := mem_ordered_iff g.m_tags kv.1 kv.2 h
  simp only [Bool.and_eq_true, Bool.not_eq_true', List.contains_eq_any_beq, List.any_eq_false,
    beq_iff_eq, List.isEmpty_eq_false]
  constructor
  · rintro ⟨h1, h2, h3⟩
    refine ⟨fun hr => h2 kv.1 hr rfl, h3, (hm.1 h1).2⟩
  · rintro ⟨h1, h2, h3⟩
    refine ⟨hm.2 ⟨contains_of_value _ _ (by rw [h3]; exact h2), h3⟩, ?_, h2⟩
    intro x hx e
    exact h1 (e ▸ hx)

theorem tags_drop_sorted (g : PgnGame) (h : g.m_tags.Ordered) :
    ((tags g).drop 7).Pairwise (fun a b => qLess a.1 b.1 = true) := by
  rw [tags_drop]
  exact List.Pairwise.filter _ h

theorem sorted_ext (l1 l2 : List (QString × QString))
    (h1 : l1.Pairwise (fun a b => qLess a.1 b.1 = true))
    (h2 : l2.Pairwise (fun a b => qLess a.1 b.1 = true))
    (h : ∀ kv, kv ∈ l1 ↔ kv ∈ l2) : l1 = l2 := by
  have hne : ∀ a b : QString × QString, qLess a.1 b.1 = true → a ≠ b := by
    intro a b hab e
    rw [e, qLess_irrefl] at hab
    cases hab
  have n1 : l1.Nodup := List.Pairwise.imp (fun {a b} hab => hne a b hab) h1
  have n2 : l2.Nodup := List.Pairwise.imp (fun {a b} hab => hne a b hab) h2
  have hp : l1.Perm l2 := (List.perm_ext_iff_of_nodup n1 n2).2 h
  haveI : IsAntisymm (QString × QString) (fun a b => qLess a.1 b.1 = true) :=
    ⟨fun a b hab hba => by rw [qLess_asymm _ _ hab] at hba; cases hba⟩
  exact List.eq_of_perm_of_sorted hp h1 h2

theorem tags_congr (g1 g2 : PgnGame) (h1 : g1.m_tags.Ordered) (h2 : g2.m_tags.Ordered)
    (h : ∀ key, g1.m_tags.value key = g2.m_tags.value key) : tags g1 = tags g2 := by
  rw [← List.take_append_drop 7 (tags g1), ← List.take_append_drop 7 (tags g2)]
  congr 1
  · rw [tags_take, tags_take]
    apply List.map_congr_left
    intro tag _
    rw [h tag]
  · apply sorted_ext _ _ (tags_drop_sorted g1 h1) (tags_drop_sorted g2 h2)
    intro kv
    rw [mem_tags_drop g1 h1, mem_tags_drop g2 h2, h kv.1]

theorem tags_names_nodup (g : PgnGame) (h : g.m_tags.Ordered) :
    ((tags g).map Prod.fst).Nodup := by
  rw [← List.take_append_drop 7 (tags g), List.map_append, List.nodup_append]
  refine ⟨?_, ?_, ?_⟩
  · rw [tags_take, List.map_map]
    have : (Prod.fst ∘ fun tag : QString =>
        (tag, if (g.m_tags.value tag).isEmpty then ['?'] else g.m_tags.value tag)) = id := by
      funext tag
      rfl
    rw [this, List.map_id]
    decide
  · have hs := tags_drop_sorted g h
    unfold List.Nodup
    rw [List.pairwise_map]
    refine List.Pairwise.imp ?_ hs
    intro a b hab e
    rw [e, qLess_irrefl] at hab
    cases hab
  · intro x hx1 hx2
    rw [List.mem_map] at hx1 hx2
    obtain ⟨a, ha, rfl⟩ := hx1
    obtain ⟨b, hb, hab⟩ := hx2
    have hb' := (mem_tags_drop g h b).1 hb
    rw [tags_take, List.mem_map] at ha
    obtain ⟨tag, htag, rfl⟩ := ha
    apply hb'.1
    rw [hab]
    exact htag

/-- C19: the tag list depends only on the mapping from tag to value.  Two sequences of
`setTag` calls, run on records whose tag maps are in key order, that end in the same
mapping give the same `tags()` list.  The list starts with the seven roster tags in their
fixed order, with `?` for a missing value; what follows is in strictly ascending name order
and holds exactly the tags outside the roster that have a non-empty value, each with its
value; no tag name occurs twice in the list. -/
theorem C19_tags_depend_only_on_mapping (g1 g2 : PgnGame)
    (calls1 calls2 : List (QString × QString))
    (h1 : g1.m_tags.Ordered) (h2 : g2.m_tags.Ordered)
    (hsame : ∀ key, (applyTags calls1 g1).m_tags.value key =
      (applyTags calls2 g2).m_tags.value key) :
    tags (applyTags calls1 g1) = tags (applyTags calls2 g2) ∧
    (tags (applyTags calls1 g1)).take 7 = roster.map (fun tag =>
      (tag, if (applyTags calls1 g1).m_tags.value tag = [] then ['?']
            else (applyTags calls1 g1).m_tags.value tag)) ∧
    ((tags (applyTags calls1 g1)).drop 7).Pairwise (fun a b => qLess a.1 b.1 = true) ∧
    (∀ kv, kv ∈ (tags (applyTags calls1 g1)).drop 7 ↔
      (kv.1 ∉ roster ∧ kv.2 ≠ [] ∧ (applyTags calls1 g1).m_tags.value kv.1 = kv.2)) ∧
    ((tags (applyTags calls1 g1)).map Prod.fst).Nodup := by
  have o1 := Ordered_applyTags calls1 g1 h1
  have o2 := Ordered_applyTags calls2 g2 h2
  refine ⟨tags_congr _ _ o1 o2 hsame, ?_, tags_drop_sorted _ o1, mem_tags_drop _ o1,
    tags_names_nodup _ o1⟩
  rw [tags_take]
  apply List.map_congr_left
  intro tag _
  simp [List.isEmpty_iff]

/-- Witness of C19: the tags `Site`, `ECO` and `Annotator` set in two different orders, with
`Site` first given another value in the second sequence. -/
theorem C19_tags_depend_only_on_mapping_witness :
    tags (applyTags [("Site".toList, "Oslo".toList), ("ECO".toList, "A00".toList),
        ("Annotator".toList, "Bo".toList)] taggedRecord) =
      tags (applyTags [("Annotator".toList, "Bo".toList), ("Site".toList, "Rome".toList),
        ("ECO".toList, "A00".toList), ("Site".toList, "Oslo".toList)] taggedRecord) :=
  (C19_tags_depend_only_on_mapping taggedRecord taggedRecord
    [("Site".toList, "Oslo".toList), ("ECO".toList, "A00".toList),
      ("Annotator".toList, "Bo".toList)]
    [("Annotator".toList, "Bo".toList), ("Site".toList, "Rome".toList),
      ("ECO".toList, "A00".toList), ("Site".toList, "Oslo".toList)]
    (by decide) (by decide)
    (fun key => by
      have e : (applyTags [("Site".toList, "Oslo".toList), ("ECO".toList, "A00".toList),
          ("Annotator".toList, "Bo".toList)] taggedRecord).m_tags =
        (applyTags [("Annotator".toList, "Bo".toList), ("Site".toList, "Rome".toList),
          ("ECO".toList, "A00".toList), ("Site".toList, "Oslo".toList)]
          taggedRecord).m_tags := by decide
      rw [e])).1

end Pgn
namespace Pgn

theorem writeMoves_onto (mode : PgnMode) : ∀ (ms : List MoveData)
    (i movenum side lineLength : Nat) (out : QString),
    writeMoves mode ms i movenum side lineLength out =
      (out ++ (writeMoves mode ms i movenum side lineLength []).1,
       (writeMoves mode ms i movenum side lineLength []).2) := by
  intro ms
  induction ms with
  | nil => intro i movenum side lineLength out; simp [writeMoves]
  | cons data rest ih =>
    intro i movenum side lineLength out
    unfold writeMoves
    simp only
    generalize (if numbered i side then movenum + 1 else movenum) = movenum1
    by_cases h : lineLength = 0 ∨ lineLength + (moveText mode i movenum side data).length ≥ 80
    · rw [if_pos h, if_pos h,
        ih _ _ _ _ (out ++ ['\n'] ++ moveText mode i movenum side data),
        ih _ _ _ _ ([] ++ ['\n'] ++ moveText mode i movenum side data)]
      simp
    · rw [if_neg h, if_neg h,
        ih _ _ _ _ (out ++ [' '] ++ moveText mode i movenum side data),
        ih _ _ _ _ ([] ++ [' '] ++ moveText mode i movenum side data)]
      simp

theorem writeMoves_head (mode : PgnMode) (data : MoveData) (rest : List MoveData)
    (i movenum side : Nat) :
    ∃ tail, (writeMoves mode (data :: rest) i movenum side 0 []).1 = '\n' :: tail := by
  unfold writeMoves
  simp only [true_or, if_true]
  rw [writeMoves_onto]
  exact ⟨moveText mode i movenum side data ++
    (writeMoves mode rest (i + 1) (if numbered i side then movenum + 1 else movenum)
      (flipSide side) (moveText mode i movenum side data).length []).1, by simp⟩

/-- The text of the stream after `write`, step by step: the text before, the tag block when
the dirty flag is set, the initial comment when no move has been flushed, the moves from the
cursor on, the separator, the `Result` value and two line breaks. -/
theorem write_text (streamOk : Bool) (g : PgnGame) (out : QString) (mode : PgnMode)
    (h : g.m_tags.isEmpty = false) :
    (write streamOk g out mode).2.2 =
      out ++ (if g.m_tag_changed then tagBlock g mode else []) ++
        (if g.m_last_move = 0 ∧ g.m_initialComment ≠ [] then
           ['\n', '{'] ++ g.m_initialComment ++ ['}'] else []) ++
        (writeMoves mode (g.m_moves.drop g.m_last_move) g.m_last_move
          (skipMoves g.m_last_move 0 0 g.m_startingSide.toInt).1
          (skipMoves g.m_last_move 0 0 g.m_startingSide.toInt).2 0 []).1 ++
        (if (writeMoves mode (g.m_moves.drop g.m_last_move) g.m_last_move
              (skipMoves g.m_last_move 0 0 g.m_startingSide.toInt).1
              (skipMoves g.m_last_move 0 0 g.m_startingSide.toInt).2 0 []).2 +
            (g.m_tags.value "Result".toList).length ≥ 80 then ['\n'] else [' ']) ++
        g.m_tags.value "Result".toList ++ ['\n', '\n'] := by
  have hv : (if g.m_tag_changed then tagsAfterBlock g mode else g.m_tags).value "Result".toList =
      g.m_tags.value "Result".toList := by
    split
    · exact tagsAfterBlock_value g mode _
    · rfl
  unfold write
  simp only [h, Bool.false_eq_true, if_false, hv]
  rw [writeMoves_onto]
  simp only
  have hc : (g.m_last_move = 0 ∧ (!g.m_initialComment.isEmpty) = true) ↔
      (g.m_last_move = 0 ∧ g.m_initialComment ≠ []) := by
    simp [List.isEmpty_iff]
  by_cases hcm : g.m_last_move = 0 ∧ g.m_initialComment ≠ []
  · rw [if_pos (hc.2 hcm), if_pos hcm]
    by_cases hd : g.m_tag_changed = true <;> split_ifs <;> simp [hd]
  · rw [if_neg (fun x => hcm (hc.1 x)), if_neg hcm]
    by_cases hd : g.m_tag_changed = true <;> split_ifs <;> simp [hd]

theorem writeTag_question (tag value : QString) :
    writeTag tag (if value.isEmpty then ['?'] else value) = writeTag tag value := by
  cases value with
  | nil => simp [writeTag]
  | cons c cs => simp

theorem tagBlock_minimal (g : PgnGame) :
    tagBlock g PgnMode.Minimal =
      (roster.map (fun tag => writeTag tag (g.m_tags.value tag))).flatten ++
      (if g.m_tags.contains "FEN".toList then
         writeTag "FEN".toList (g.m_tags.value "FEN".toList) ++
         writeTag "SetUp".toList (g.m_tags.value "SetUp".toList)
       else []) ++
      (if g.m_tags.contains "Variant".toList ∧ variant g ≠ "standard".toList then
         writeTag "Variant".toList (g.m_tags.value "Variant".toList)
       else []) := by
  unfold tagBlock
  simp only [reduceCtorEq, if_false, true_and]
  rw [tags_take, List.map_map]
  congr 3
  apply List.map_congr_left
  intro tag _
  exact writeTag_question tag _

/-- C17, counterexample: a Minimal-mode commit with the dirty flag set of a record that
holds a `FEN` tag emits nine tag lines: the seven of the roster, then `FEN` and `SetUp`. -/
theorem C17_minimal_commit_emits_FEN_lines :
    (write true fenRecord [] PgnMode.Minimal).2.2 =
      ("[Event \"?\"]\n[Site \"?\"]\n[Date \"?\"]\n[Round \"?\"]\n[White \"?\"]\n" ++
       "[Black \"?\"]\n[Result \"*\"]\n[FEN \"4k3/8/8/8/8/8/8/4K3 w - - 0 1\"]\n" ++
       "[SetUp \"?\"]\n *\n\n").toList := by
  decide

/-- C17, amended: in Minimal mode a commit with the dirty flag set emits the seven tag
lines Event, Site, Date, Round, White, Black, Result, in that order, then a `FEN` line and
a `SetUp` line when the record holds a `FEN` tag, then a `Variant` line when the record holds
a `Variant` tag whose variant is not standard, and no other tag line: what follows is the
text that the commit of the same record writes with a clean dirty flag. -/
theorem C17_minimal_commit_tag_lines (streamOk : Bool) (g : PgnGame) (out : QString)
    (htags : g.m_tags.isEmpty = false) (hdirty : g.m_tag_changed = true) :
    (write streamOk g out PgnMode.Minimal).2.2 =
      out ++
      (roster.map (fun tag => writeTag tag (g.m_tags.value tag))).flatten ++
      (if g.m_tags.contains "FEN".toList then
         writeTag "FEN".toList (g.m_tags.value "FEN".toList) ++
         writeTag "SetUp".toList (g.m_tags.value "SetUp".toList)
       else []) ++
      (if g.m_tags.contains "Variant".toList ∧ variant g ≠ "standard".toList then
         writeTag "Variant".toList (g.m_tags.value "Variant".toList)
       else []) ++
      (write streamOk { g with m_tag_changed := false } [] PgnMode.Minimal).2.2 := by
  rw [write_text streamOk g out _ htags,
    write_text streamOk { g with m_tag_changed := false } [] _ htags]
  simp only [hdirty, if_true, Bool.false_eq_true, if_false, tagBlock_minimal,
    List.append_assoc, List.nil_append, List.append_nil]

/-- Witness of C17 on the record with the tags `FEN` and `Result`. -/
theorem C17_minimal_commit_tag_lines_witness :
    (write true fenRecord [] PgnMode.Minimal).2.2 =
      [] ++
      (roster.map (fun tag => writeTag tag (fenRecord.m_tags.value tag))).flatten ++
      (if fenRecord.m_tags.contains "FEN".toList then
         writeTag "FEN".toList (fenRecord.m_tags.value "FEN".toList) ++
         writeTag "SetUp".toList (fenRecord.m_tags.value "SetUp".toList)
       else []) ++
      (if fenRecord.m_tags.contains "Variant".toList ∧ variant fenRecord ≠ "standard".toList then
         writeTag "Variant".toList (fenRecord.m_tags.value "Variant".toList)
       else []) ++
      (write true { fenRecord with m_tag_changed := false } [] PgnMode.Minimal).2.2 :=
  C17_minimal_commit_tag_lines true fenRecord [] (by decide) (by decide)

end Pgn
namespace Pgn

theorem writeTag_line (tag value : QString) :
    writeTag tag value =
      ['['] ++ tag ++ [' ', '"'] ++ (if value = [] then ['?'] else value) ++ ['"', ']', '\n'] := by
  cases value with
  | nil => simp [writeTag]
  | cons c cs => simp [writeTag]

theorem tags_values (g : PgnGame) : ∀ tv ∈ tags g, tv.2 ≠ [] := by
  intro tv h
  unfold tags at h
  rw [List.mem_append] at h
  rcases h with h | h
  · rw [List.mem_map] at h
    obtain ⟨tag, _, rfl⟩ := h
    simp only
    split_ifs with h1
    · simp
    · simpa [List.isEmpty_iff] using h1
  · rw [List.mem_filter] at h
    have h2 := h.2
    simp only [Bool.and_eq_true, Bool.not_eq_true', List.isEmpty_eq_false] at h2
    exact h2.2

theorem tagBlock_lines (g : PgnGame) (mode : PgnMode) :
    ∃ lines : List (QString × QString),
      tagBlock g mode =
        (lines.map (fun tv => ['['] ++ tv.1 ++ [' ', '"'] ++ tv.2 ++ ['"', ']', '\n'])).flatten ∧
      lines.take 7 = roster.map (fun tag =>
        (tag, if g.m_tags.value tag = [] then ['?'] else g.m_tags.value tag)) ∧
      (∀ tv ∈ lines, tv.2 ≠ []) ∧
      (mode = PgnMode.Verbose → lines = tags g) := by
  have hroster : (roster.map (fun tag =>
        (tag, if (g.m_tags.value tag).isEmpty then ['?'] else g.m_tags.value tag))) =
      roster.map (fun tag =>
        (tag, if g.m_tags.value tag = [] then ['?'] else g.m_tags.value tag)) := by
    apply List.map_congr_left
    intro tag _
    simp [List.isEmpty_iff]
  cases mode with
  | Verbose =>
    refine ⟨tags g, ?_, ?_, tags_values g, fun _ => rfl⟩
    · unfold tagBlock
      simp only [if_true, List.take_length, reduceCtorEq, false_and, if_false, List.append_nil]
      congr 1
      apply List.map_congr_left
      intro tv htv
      rw [writeTag_line, if_neg (tags_values g tv htv)]
    · rw [tags_take, hroster]
  | Minimal =>
    refine ⟨roster.map (fun tag =>
        (tag, if g.m_tags.value tag = [] then ['?'] else g.m_tags.value tag)) ++
      ((if g.m_tags.contains "FEN".toList then
          [("FEN".toList, if g.m_tags.value "FEN".toList = [] then ['?']
              else g.m_tags.value "FEN".toList),
           ("SetUp".toList, if g.m_tags.value "SetUp".toList = [] then ['?']
              else g.m_tags.value "SetUp".toList)]
        else []) ++
       (if g.m_tags.contains "Variant".toList ∧ variant g ≠ "standard".toList then
          [("Variant".toList, if g.m_tags.value "Variant".toList = [] then ['?']
              else g.m_tags.value "Variant".toList)]
        else [])), ?_, ?_, ?_, ?_⟩
    · rw [tagBlock_minimal, List.map_append, List.map_append, List.flatten_append,
        List.flatten_append, List.map_map, ← List.append_assoc]
      congr 1
      · congr 1
        · congr 1
          apply List.map_congr_left
          intro tag _
          exact writeTag_line tag _
        · by_cases hf : g.m_tags.contains "FEN".toList = true
          · rw [if_pos hf, if_pos hf]
            simp only [List.map_cons, List.map_nil, List.flatten_cons, List.flatten_nil,
              List.append_nil]
            rw [writeTag_line, writeTag_line]
          · rw [if_neg hf, if_neg hf]
            rfl
      · by_cases hv : g.m_tags.contains "Variant".toList ∧ variant g ≠ "standard".toList
        · rw [if_pos hv, if_pos hv]
          simp only [List.map_cons, List.map_nil, List.flatten_cons, List.flatten_nil,
            List.append_nil]
          rw [writeTag_line]
        · rw [if_neg hv, if_neg hv]
          rfl
    · exact List.take_left' (by simp [roster])
    · intro tv htv
      rw [List.mem_append, List.mem_append] at htv
      rcases htv with h | h | h
      · rw [List.mem_map] at h
        obtain ⟨tag, _, rfl⟩ := h
        simp only
        split_ifs with h1
        · simp
        · exact h1
      · by_cases hf : g.m_tags.contains "FEN".toList = true
        · rw [if_pos hf] at h
          simp only [List.mem_cons, List.mem_singleton, List.not_mem_nil, or_false] at h
          rcases h with rfl | rfl
          · simp only
            split_ifs with h1
            · simp
            · exact h1
          · simp only
            split_ifs with h1
            · simp
            · exact h1
        · rw [if_neg hf] at h
          cases h
      · by_cases hv : g.m_tags.contains "Variant".toList ∧ variant g ≠ "standard".toList
        · rw [if_pos hv] at h
          simp only [List.mem_singleton] at h
          subst h
          simp only
          split_ifs with h1
          · simp
          · exact h1
        · rw [if_neg hv] at h
          cases h
    · intro h
      cases h

/-- C18, counterexample: the full commit of a record with tags and without moves or initial
comment writes the `Result` value on the line that follows the last tag line: there is no
blank line after the tag lines. -/
theorem C18_no_blank_line_without_moves :
    (write true (recordWithResult ['*']) [] PgnMode.Verbose).2.2 =
      ("[Event \"?\"]\n[Site \"?\"]\n[Date \"?\"]\n[Round \"?\"]\n[White \"?\"]\n" ++
       "[Black \"?\"]\n[Result \"*\"]\n *\n\n").toList := by
  decide

/-- C18, amended: for every record with at least one tag, a full commit (dirty cursor)
writes, in this order: one line `[Name "Value"]` per emitted tag, none with an empty value,
the first seven being the roster tags, a roster tag without a value written with the value
`?` (in Verbose mode the lines are those of `tags()`); then the body; then a separator, the
`Result` tag's value and the two end-of-record newlines.  The body is the initial comment in
braces on a line of its own, when there is one, followed by the move text, which up to line
breaks is the sequence of move tokens; when the record has an initial comment or at least
one move the body starts with a line break, which makes the blank line after the tag
lines, and otherwise the body is empty and no blank line is written. -/
theorem C18_full_commit_layout (streamOk : Bool) (g : PgnGame) (out : QString)
    (mode : PgnMode) (htags : g.m_tags.isEmpty = false) (hdirty : g.m_tag_changed = true)
    (hmove : g.m_last_move = 0) :
    ∃ (lines : List (QString × QString)) (body : QString) (sep : Char),
      (write streamOk g out mode).2.2 =
        out ++
        (lines.map (fun tv => ['['] ++ tv.1 ++ [' ', '"'] ++ tv.2 ++ ['"', ']', '\n'])).flatten ++
        body ++ sep :: g.m_tags.value "Result".toList ++ ['\n', '\n'] ∧
      lines.take 7 = roster.map (fun tag =>
        (tag, if g.m_tags.value tag = [] then ['?'] else g.m_tags.value tag)) ∧
      (∀ tv ∈ lines, tv.2 ≠ []) ∧
      (mode = PgnMode.Verbose → lines = tags g) ∧
      (sep = ' ' ∨ sep = '\n') ∧
      body =
        (if g.m_initialComment = [] then [] else ['\n', '{'] ++ g.m_initialComment ++ ['}']) ++
        (writeMoves mode g.m_moves 0 0 g.m_startingSide.toInt 0 []).1 ∧
      unwrapped (writeMoves mode g.m_moves 0 0 g.m_startingSide.toInt 0 []).1 =
        tokenLine (moveTokens mode g.m_moves 0 0 g.m_startingSide.toInt) ∧
      ((g.m_initialComment ≠ [] ∨ g.m_moves ≠ []) → ∃ rest, body = '\n' :: rest) ∧
      ((g.m_initialComment = [] ∧ g.m_moves = []) → body = []) := by
  obtain ⟨lines, hl1, hl2, hl3, hl4⟩ := tagBlock_lines g mode
  refine ⟨lines,
    (if g.m_initialComment = [] then [] else ['\n', '{'] ++ g.m_initialComment ++ ['}']) ++
      (writeMoves mode g.m_moves 0 0 g.m_startingSide.toInt 0 []).1,
    (if (writeMoves mode g.m_moves 0 0 g.m_startingSide.toInt 0 []).2 +
        (g.m_tags.value "Result".toList).length ≥ 80 then '\n' else ' '),
    ?_, hl2, hl3, hl4, ?_, rfl, ?_, ?_, ?_⟩
  · rw [write_text streamOk g out mode htags, hdirty, hmove, ← hl1]
    simp only [if_true, List.drop_zero, skipMoves, true_and]
    by_cases hc : g.m_initialComment = []
    · rw [if_neg (by simp [hc]), if_pos hc]
      split_ifs <;> simp
    · rw [if_pos hc, if_neg hc]
      split_ifs <;> simp
  · split_ifs
    · exact Or.inr rfl
    · exact Or.inl rfl
  · have := writeMoves_unwrapped mode g.m_moves 0 0 g.m_startingSide.toInt 0 []
    simpa [unwrapped] using this
  · intro h
    by_cases hc : g.m_initialComment = []
    · rw [if_pos hc]
      rcases h with h | h
      · exact absurd hc h
      · cases hm : g.m_moves with
        | nil => exact absurd hm h
        | cons data rest =>
          obtain ⟨tail, ht⟩ := writeMoves_head mode data rest 0 0 g.m_startingSide.toInt
          exact ⟨tail, by rw [ht]; rfl⟩
    · rw [if_neg hc]
      exact ⟨_, rfl⟩
  · rintro ⟨hc, hm⟩
    rw [if_pos hc, hm]
    rfl

/-- Witness of C18 on the record with the result `*` and the plies `e4 e5`. -/
theorem C18_full_commit_layout_witness :
    ∃ (lines : List (QString × QString)) (rest : QString) (sep : Char),
      (write true (addMoves twoPlies (recordWithResult ['*'])) [] PgnMode.Verbose).2.2 =
        [] ++
        (lines.map (fun tv => ['['] ++ tv.1 ++ [' ', '"'] ++ tv.2 ++ ['"', ']', '\n'])).flatten ++
        ('\n' :: rest) ++ sep :: ['*'] ++ ['\n', '\n'] ∧
      lines = tags (addMoves twoPlies (recordWithResult ['*'])) := by
  obtain ⟨lines, body, sep, h1, _, _, h4, _, _, _, h8, _⟩ :=
    C18_full_commit_layout true (addMoves twoPlies (recordWithResult ['*'])) []
      PgnMode.Verbose (by decide) (by decide) (by decide)
  obtain ⟨rest, hrest⟩ := h8 (Or.inr (by decide))
  refine ⟨lines, rest, sep, ?_, h4 rfl⟩
  rw [h1, hrest]
  rfl

end Pgn
namespace Pgn

theorem skipMoves_succ : ∀ (count i movenum side : Nat),
    skipMoves (count + 1) i movenum side =
      ((if numbered (i + count) (skipMoves count i movenum side).2 then
          (skipMoves count i movenum side).1 + 1
        else (skipMoves count i movenum side).1),
       flipSide (skipMoves count i movenum side).2) := by
  intro count
  induction count with
  | zero => intro i movenum side; simp [skipMoves]
  | succ c ih =>
    intro i movenum side
    rw [skipMoves, ih]
    have e : i + 1 + c = i + (c + 1) := by omega
    rw [e]
    rfl

theorem skipMoves_white (j : Nat) : skipMoves j 0 0 0 = ((j + 1) / 2, j % 2) := by
  induction j with
  | zero => rfl
  | succ j ih =>
    rw [skipMoves_succ, ih]
    simp only [numbered, flipSide, Nat.zero_add, Bool.or_eq_true, Bool.and_eq_true,
      beq_iff_eq, Prod.mk.injEq]
    constructor
    · by_cases h : j % 2 = 0
      · rw [if_pos (Or.inr h)]
        omega
      · rw [if_neg (by omega)]
        omega
    · split_ifs <;> omega

theorem skipMoves_black (j : Nat) :
    skipMoves j 0 0 1 = ((if j = 0 then 0 else 1 + j / 2), (j + 1) % 2) := by
  induction j with
  | zero => rfl
  | succ j ih =>
    rw [skipMoves_succ, ih]
    simp only [numbered, flipSide, Nat.zero_add, Bool.or_eq_true, Bool.and_eq_true,
      beq_iff_eq, Prod.mk.injEq]
    constructor
    · by_cases h0 : j = 0
      · subst h0
        rfl
      · by_cases h : (j + 1) % 2 = 0
        · rw [if_pos (Or.inr h), if_neg h0, if_neg (by omega)]
          omega
        · rw [if_neg (by omega), if_neg h0, if_neg (by omega)]
          omega
    · split_ifs <;> omega

theorem moveTokens_getElem (mode : PgnMode) : ∀ (ms : List MoveData) (i movenum side j : Nat)
    (data : MoveData), ms[j]? = some data →
    (moveTokens mode ms i movenum side)[j]? =
      some (moveText mode (i + j) (skipMoves j i movenum side).1
        (skipMoves j i movenum side).2 data) := by
  intro ms
  induction ms with
  | nil => intro i movenum side j data h; simp at h
  | cons d rest ih =>
    intro i movenum side j data h
    cases j with
    | zero =>
      simp only [List.getElem?_cons_zero, Option.some.injEq] at h
      subst h
      simp [moveTokens, skipMoves]
    | succ j =>
      simp only [List.getElem?_cons_succ] at h
      simp only [moveTokens, List.getElem?_cons_succ, skipMoves]
      rw [ih _ _ _ j data h]
      have e : i + 1 + j = i + (j + 1) := by omega
      rw [e]

theorem moveTokens_length (mode : PgnMode) : ∀ (ms : List MoveData) (i movenum side : Nat),
    (moveTokens mode ms i movenum side).length = ms.length := by
  intro ms
  induction ms with
  | nil => intro i movenum side; rfl
  | cons d rest ih => intro i movenum side; simp [moveTokens, ih]

/-- C20: a full commit writes, after the tag block and the initial comment and up to the
choice between a space and a line break before each token, one token per ply in order,
then the `Result` value.  When the starting side is White the token of the ply at 0-based
index `i` is its move string (and comment) with the prefix `k. `, `k = i/2 + 1`, when `i` is
even and without prefix when `i` is odd.  When the starting side is Black the token of ply 0
has the prefix `1... `, the token of an odd ply `i` has the prefix `k. `, `k = (i+1)/2 + 1`,
and the token of an even ply `i > 0` has no prefix. -/
theorem C20_move_number_prefixes (streamOk : Bool) (g : PgnGame) (out : QString)
    (mode : PgnMode) (htags : g.m_tags.isEmpty = false) (hdirty : g.m_tag_changed = true)
    (hmove : g.m_last_move = 0) :
    unwrapped (write streamOk g out mode).2.2 =
      unwrapped (out ++ tagBlock g mode ++
        (if g.m_initialComment ≠ [] then ['\n', '{'] ++ g.m_initialComment ++ ['}'] else [])) ++
      tokenLine (moveTokens mode g.m_moves 0 0 g.m_startingSide.toInt) ++
      [' '] ++ unwrapped (g.m_tags.value "Result".toList) ++ [' ', ' '] ∧
    (moveTokens mode g.m_moves 0 0 g.m_startingSide.toInt).length = g.m_moves.length ∧
    (g.m_startingSide = Side.White → ∀ (i : Nat) (data : MoveData), g.m_moves[i]? = some data →
      (moveTokens mode g.m_moves 0 0 g.m_startingSide.toInt)[i]? =
        some ((if i % 2 = 0 then number (i / 2 + 1) ++ ". ".toList else []) ++
          data.moveString ++
          (if mode = PgnMode.Verbose ∧ !data.comment.isEmpty then
             [' ', '{'] ++ data.comment ++ ['}']
           else []))) ∧
    (g.m_startingSide = Side.Black → ∀ (i : Nat) (data : MoveData), g.m_moves[i]? = some data →
      (moveTokens mode g.m_moves 0 0 g.m_startingSide.toInt)[i]? =
        some ((if i = 0 then "1... ".toList
               else if i % 2 = 1 then number ((i + 1) / 2 + 1) ++ ". ".toList else []) ++
          data.moveString ++
          (if mode = PgnMode.Verbose ∧ !data.comment.isEmpty then
             [' ', '{'] ++ data.comment ++ ['}']
           else []))) := by
  refine ⟨?_, ?_, ?_, ?_⟩
  · rw [write_text streamOk g out mode htags, hdirty, hmove]
    simp only [if_true, List.drop_zero, skipMoves, true_and, unwrapped_append]
    have hw := writeMoves_unwrapped mode g.m_moves 0 0 g.m_startingSide.toInt 0 []
    rw [hw]
    split_ifs <;> simp [unwrapped]
  · exact moveTokens_length mode _ _ _ _
  · intro hs i data hi
    rw [hs, moveTokens_getElem mode _ 0 0 _ i data hi]
    simp only [Side.toInt, skipMoves_white, moveText, Nat.zero_add]
    congr 3
    by_cases he : i % 2 = 0
    · rw [if_neg (by omega), if_pos he, if_pos he]
      have e : (i + 1) / 2 = i / 2 := by omega
      rw [e]
    · rw [if_neg (by omega), if_neg he, if_neg he]
  · intro hs i data hi
    rw [hs, moveTokens_getElem mode _ 0 0 _ i data hi]
    simp only [Side.toInt, skipMoves_black, moveText, Nat.zero_add]
    congr 3
    by_cases h0 : i = 0
    · subst h0
      rw [if_pos (by simp), if_pos rfl]
      decide
    · by_cases he : i % 2 = 1
      · rw [if_neg (by omega), if_pos (by omega), if_neg h0, if_pos he, if_neg h0]
        have e : 1 + i / 2 + 1 = (i + 1) / 2 + 1 := by omega
        rw [e]
      · rw [if_neg (by omega), if_neg (by omega), if_neg h0, if_neg he]

/-- Witness of C20: with Black to start, the second of the plies `e4 e5` is White's and
carries the number 2. -/
theorem C20_move_number_prefixes_witness :
    (moveTokens PgnMode.Minimal
        (addMoves twoPlies { recordWithResult ['*'] with m_startingSide := Side.Black }).m_moves
        0 0 1)[1]? = some "2. e5".toList :=
  ((C20_move_number_prefixes true
      (addMoves twoPlies { recordWithResult ['*'] with m_startingSide := Side.Black }) []
      PgnMode.Minimal (by decide) (by decide) (by decide)).2.2.2 (by decide) 1
      { key := 1, move := 1, moveString := "e5".toList, comment := [] } (by decide)).trans
    (by decide)

end Pgn
namespace Pgn

theorem writeMoves_seps (mode : PgnMode) : ∀ (ms : List MoveData) (i movenum side lineLength : Nat),
    ∃ seps : List Char, seps.length = ms.length ∧ (∀ s ∈ seps, s = ' ' ∨ s = '\n') ∧
      (writeMoves mode ms i movenum side lineLength []).1 =
        (List.zipWith (fun s t => s :: t) seps (moveTokens mode ms i movenum side)).flatten := by
  intro ms
  induction ms with
  | nil => intro i movenum side lineLength; exact ⟨[], rfl, by simp, rfl⟩
  | cons data rest ih =>
    intro i movenum side lineLength
    unfold writeMoves moveTokens
    simp only
    generalize (if numbered i side then movenum + 1 else movenum) = movenum1
    by_cases h : lineLength = 0 ∨ lineLength + (moveText mode i movenum side data).length ≥ 80
    · obtain ⟨seps, h1, h2, h3⟩ := ih (i + 1) movenum1 (flipSide side)
        (moveText mode i movenum side data).length
      refine ⟨'\n' :: seps, by simp [h1], ?_, ?_⟩
      · intro s hs
        rw [List.mem_cons] at hs
        rcases hs with rfl | hs
        · exact Or.inr rfl
        · exact h2 s hs
      · rw [if_pos h, writeMoves_onto, h3]
        simp
    · obtain ⟨seps, h1, h2, h3⟩ := ih (i + 1) movenum1 (flipSide side)
        (lineLength + (moveText mode i movenum side data).length + 1)
      refine ⟨' ' :: seps, by simp [h1], ?_, ?_⟩
      · intro s hs
        rw [List.mem_cons] at hs
        rcases hs with rfl | hs
        · exact Or.inl rfl
        · exact h2 s hs
      · rw [if_neg h, writeMoves_onto, h3]
        simp

theorem moveTokens_drop (mode : PgnMode) (ms : List MoveData) (k side : Nat) :
    moveTokens mode (ms.drop k) k (skipMoves k 0 0 side).1 (skipMoves k 0 0 side).2 =
      (moveTokens mode ms 0 0 side).drop k := by
  by_cases hk : k ≤ ms.length
  · have hlen : (ms.take k).length = k := by simp [hk]
    have h := moveTokens_append mode (ms.take k) (ms.drop k) 0 0 side
    rw [List.take_append_drop, hlen, Nat.zero_add] at h
    rw [h]
    exact (List.drop_left' (by rw [moveTokens_length, hlen])).symm
  · have h1 : ms.drop k = [] := List.drop_eq_nil_of_le (by omega)
    have h2 : (moveTokens mode ms 0 0 side).drop k = [] :=
      List.drop_eq_nil_of_le (by rw [moveTokens_length]; omega)
    rw [h1, h2]
    rfl

/-- C21: a commit made with a clean dirty flag and last-flushed index `k` on a record with at
least one tag and `n` moves writes no tag line: after the text already in the stream come
the initial comment (only when `k = 0`), then one token per move at the indices `k..n-1`,
each after one space or line break, then the `Result` value.  The tokens are those that a
full commit of the same record writes, without the first `k`.  Afterwards the last-flushed
index is `n`, the remembered result is the value of the `Result` tag, the dirty flag is
clean, and tags and moves are as before. -/
theorem C21_clean_commit_emits_new_moves (streamOk : Bool) (g : PgnGame) (out : QString)
    (mode : PgnMode) (k : Nat) (htags : g.m_tags.isEmpty = false)
    (hclean : g.m_tag_changed = false) (hk : g.m_last_move = k) :
    (∃ (seps : List Char) (sep : Char),
      (write streamOk g out mode).2.2 =
        out ++
        (if k = 0 ∧ g.m_initialComment ≠ [] then ['\n', '{'] ++ g.m_initialComment ++ ['}']
         else []) ++
        (List.zipWith (fun s t => s :: t) seps
          ((moveTokens mode g.m_moves 0 0 g.m_startingSide.toInt).drop k)).flatten ++
        sep :: g.m_tags.value "Result".toList ++ ['\n', '\n'] ∧
      seps.length = g.m_moves.length - k ∧
      (∀ s ∈ seps, s = ' ' ∨ s = '\n') ∧ (sep = ' ' ∨ sep = '\n')) ∧
    (∃ (seps : List Char) (sep : Char),
      (write streamOk (resetCursor g) out mode).2.2 =
        out ++ tagBlock g mode ++
        (if g.m_initialComment ≠ [] then ['\n', '{'] ++ g.m_initialComment ++ ['}'] else []) ++
        (List.zipWith (fun s t => s :: t) seps
          (moveTokens mode g.m_moves 0 0 g.m_startingSide.toInt)).flatten ++
        sep :: g.m_tags.value "Result".toList ++ ['\n', '\n'] ∧
      seps.length = g.m_moves.length ∧
      (∀ s ∈ seps, s = ' ' ∨ s = '\n') ∧ (sep = ' ' ∨ sep = '\n')) ∧
    ((moveTokens mode g.m_moves 0 0 g.m_startingSide.toInt).drop k).length =
      g.m_moves.length - k ∧
    (∀ j : Nat, ((moveTokens mode g.m_moves 0 0 g.m_startingSide.toInt).drop k)[j]? =
      (moveTokens mode g.m_moves 0 0 g.m_startingSide.toInt)[k + j]?) ∧
    (write streamOk g out mode).2.1.m_last_move = g.m_moves.length ∧
    (write streamOk g out mode).2.1.m_last_result = g.m_tags.value "Result".toList ∧
    (write streamOk g out mode).2.1.m_tag_changed = false ∧
    (write streamOk g out mode).2.1.m_tags = g.m_tags ∧
    (write streamOk g out mode).2.1.m_moves = g.m_moves := by
  refine ⟨?_, ?_, ?_, ?_, ?_⟩
  · obtain ⟨seps, h1, h2, h3⟩ := writeMoves_seps mode (g.m_moves.drop k) k
      (skipMoves k 0 0 g.m_startingSide.toInt).1 (skipMoves k 0 0 g.m_startingSide.toInt).2 0
    refine ⟨seps,
      (if (writeMoves mode (g.m_moves.drop k) k (skipMoves k 0 0 g.m_startingSide.toInt).1
          (skipMoves k 0 0 g.m_startingSide.toInt).2 0 []).2 +
          (g.m_tags.value "Result".toList).length ≥ 80 then '\n' else ' '),
      ?_, by simpa using h1, h2, ?_⟩
    · rw [write_text streamOk g out mode htags, hclean, hk, h3, moveTokens_drop]
      simp only [Bool.false_eq_true, if_false, List.append_nil]
      split_ifs <;> simp
    · split_ifs
      · exact Or.inr rfl
      · exact Or.inl rfl
  · obtain ⟨seps, h1, h2, h3⟩ := writeMoves_seps mode g.m_moves 0 0 g.m_startingSide.toInt 0
    refine ⟨seps,
      (if (writeMoves mode g.m_moves 0 0 g.m_startingSide.toInt 0 []).2 +
          (g.m_tags.value "Result".toList).length ≥ 80 then '\n' else ' '),
      ?_, h1, h2, ?_⟩
    · rw [write_text streamOk (resetCursor g) out mode htags]
      have hb : tagBlock (resetCursor g) mode = tagBlock g mode := tagBlock_congr _ _ _ rfl
      simp only [resetCursor, if_true, List.drop_zero, skipMoves, true_and] at hb ⊢
      rw [hb, h3]
      split_ifs <;> simp
    · split_ifs
      · exact Or.inr rfl
      · exact Or.inl rfl
  · rw [List.length_drop, moveTokens_length]
  · intro j
    rw [List.getElem?_drop]
  · unfold write
    simp [htags, hclean]

/-- Witness of C21: the record with the result `*` and the plies `e4 e5`, the first of which
has been flushed. -/
theorem C21_clean_commit_emits_new_moves_witness :
    (write true { addMoves twoPlies (recordWithResult ['*']) with
        m_tag_changed := false, m_last_move := 1 } [] PgnMode.Minimal).2.1.m_last_move = 2 ∧
    ((moveTokens PgnMode.Minimal (addMoves twoPlies (recordWithResult ['*'])).m_moves 0 0
        0).drop 1).length = 2 - 1 :=
  ⟨(C21_clean_commit_emits_new_moves true
      { addMoves twoPlies (recordWithResult ['*']) with
        m_tag_changed := false, m_last_move := 1 } [] PgnMode.Minimal 1
      (by decide) (by decide) (by decide)).2.2.2.2.1,
   (C21_clean_commit_emits_new_moves true
      { addMoves twoPlies (recordWithResult ['*']) with
        m_tag_changed := false, m_last_move := 1 } [] PgnMode.Minimal 1
      (by decide) (by decide) (by decide)).2.2.1⟩

end Pgn
namespace Pgn

theorem fits_le (w : Nat) : ∀ (s : QString) (col : Nat), fits w s col = true → col ≤ w := by
  intro s
  induction s with
  | nil => intro col h; simpa [fits] using h
  | cons c cs ih =>
    intro col h
    unfold fits at h
    by_cases hc : c = '\n'
    · rw [if_pos hc, Bool.and_eq_true] at h
      simpa using h.1
    · rw [if_neg hc] at h
      have := ih (col + 1) h
      omega

theorem fits_append (w : Nat) : ∀ (a b : QString) (col : Nat),
    fits w (a ++ b) col = true ↔ (fits w a col = true ∧ fits w b (endCol a col) = true) := by
  intro a
  induction a with
  | nil =>
    intro b col
    simp only [List.nil_append, fits, endCol, decide_eq_true_eq]
    exact ⟨fun h => ⟨fits_le w b col h, h⟩, fun h => h.2⟩
  | cons c cs ih =>
    intro b col
    have e1 : fits w (c :: cs ++ b) col =
        if c = '\n' then decide (col ≤ w) && fits w (cs ++ b) 0
        else fits w (cs ++ b) (col + 1) := rfl
    have e2 : fits w (c :: cs) col =
        if c = '\n' then decide (col ≤ w) && fits w cs 0 else fits w cs (col + 1) := rfl
    have e3 : endCol (c :: cs) col =
        if c = '\n' then endCol cs 0 else endCol cs (col + 1) := rfl
    rw [e1, e2, e3]
    by_cases hc : c = '\n'
    · rw [if_pos hc, if_pos hc, if_pos hc, Bool.and_eq_true, Bool.and_eq_true, ih b 0]
      tauto
    · rw [if_neg hc, if_neg hc, if_neg hc]
      exact ih b (col + 1)

theorem fits_short (w : Nat) : ∀ (s : QString) (col : Nat), col + s.length ≤ w →
    fits w s col = true := by
  intro s
  induction s with
  | nil => intro col h; simpa [fits] using h
  | cons c cs ih =>
    intro col h
    simp only [List.length_cons] at h
    unfold fits
    by_cases hc : c = '\n'
    · rw [if_pos hc, Bool.and_eq_true]
      exact ⟨by simp; omega, ih 0 (by omega)⟩
    · rw [if_neg hc]
      exact ih (col + 1) (by omega)

theorem endCol_le : ∀ (s : QString) (col : Nat), endCol s col ≤ col + s.length := by
  intro s
  induction s with
  | nil => intro col; simp [endCol]
  | cons c cs ih =>
    intro col
    unfold endCol
    simp only [List.length_cons]
    by_cases hc : c = '\n'
    · rw [if_pos hc]
      have := ih 0
      omega
    · rw [if_neg hc]
      have := ih (col + 1)
      omega

theorem endCol_append : ∀ (a b : QString) (col : Nat),
    endCol (a ++ b) col = endCol b (endCol a col) := by
  intro a
  induction a with
  | nil => intro b col; rfl
  | cons c cs ih =>
    intro b col
    have e1 : endCol (c :: cs ++ b) col =
        if c = '\n' then endCol (cs ++ b) 0 else endCol (cs ++ b) (col + 1) := rfl
    have e3 : endCol (c :: cs) col =
        if c = '\n' then endCol cs 0 else endCol cs (col + 1) := rfl
    rw [e1, e3]
    by_cases hc : c = '\n'
    · rw [if_pos hc, if_pos hc]
      exact ih b 0
    · rw [if_neg hc, if_neg hc]
      exact ih b (col + 1)

theorem writeMoves_fits (mode : PgnMode) : ∀ (ms : List MoveData)
    (i movenum side lineLength col : Nat) (out : QString),
    (∀ tok ∈ moveTokens mode ms i movenum side, tok.length < 80) →
    fits 80 out col = true → endCol out col ≤ lineLength → lineLength ≤ 80 →
    fits 80 (writeMoves mode ms i movenum side lineLength out).1 col = true ∧
    endCol (writeMoves mode ms i movenum side lineLength out).1 col ≤
      (writeMoves mode ms i movenum side lineLength out).2 ∧
    (writeMoves mode ms i movenum side lineLength out).2 ≤ 80 := by
  intro ms
  induction ms with
  | nil =>
    intro i movenum side lineLength col out _ h1 h2 h3
    exact ⟨h1, h2, h3⟩
  | cons data rest ih =>
    intro i movenum side lineLength col out htok h1 h2 h3
    unfold moveTokens at htok
    have ht : (moveText mode i movenum side data).length < 80 :=
      htok _ (List.mem_cons_self _ _)
    have hrest := fun tok h => htok tok (List.mem_cons_of_mem _ h)
    unfold writeMoves
    simp only
    have hnl : ∀ c : Nat, fits 80 ('\n' :: moveText mode i movenum side data) c =
        (decide (c ≤ 80) && fits 80 (moveText mode i movenum side data) 0) := fun c => by
      simp [fits]
    have hnl2 : ∀ c : Nat, endCol ('\n' :: moveText mode i movenum side data) c =
        endCol (moveText mode i movenum side data) 0 := fun c => by
      simp [endCol]
    have e1 : out ++ ['\n'] ++ moveText mode i movenum side data =
        out ++ '\n' :: moveText mode i movenum side data := by simp
    have e2 : out ++ [' '] ++ moveText mode i movenum side data =
        out ++ ' ' :: moveText mode i movenum side data := by simp
    by_cases h : lineLength = 0 ∨ lineLength + (moveText mode i movenum side data).length ≥ 80
    · rw [if_pos h, e1]
      apply ih _ _ _ _ _ _ hrest
      · rw [fits_append, hnl, Bool.and_eq_true, decide_eq_true_eq]
        exact ⟨h1, by omega, fits_short 80 _ 0 (by omega)⟩
      · rw [endCol_append, hnl2]
        have := endCol_le (moveText mode i movenum side data) 0
        omega
      · omega
    · rw [if_neg h, e2]
      apply ih _ _ _ _ _ _ hrest
      · rw [fits_append]
        refine ⟨h1, fits_short 80 _ _ ?_⟩
        rw [List.length_cons]
        omega
      · rw [endCol_append]
        have := endCol_le (' ' :: moveText mode i movenum side data) (endCol out col)
        rw [List.length_cons] at this
        omega
      · omega

set_option maxRecDepth 8000 in
/-- C22 as stated fails: the full commit of a record without moves, with the result `*` and
an initial comment of 80 characters puts the result token on the line of the comment, which
then holds 84 characters. -/
theorem C22_result_line_longer_than_80 :
    moveTokens PgnMode.Minimal commentedRecord.m_moves 0 0
      commentedRecord.m_startingSide.toInt = [] ∧
    (commentedRecord.m_tags.value "Result".toList).length < 80 ∧
    (write true commentedRecord [] PgnMode.Minimal).2.2 =
      tagBlock commentedRecord PgnMode.Minimal ++ ['\n'] ++
        ('{' :: List.replicate 80 'x' ++ ['}', ' ', '*']) ++ ['\n', '\n'] ∧
    ('{' :: List.replicate 80 'x' ++ ['}', ' ', '*']).length = 84 ∧
    fits 80 (write true commentedRecord [] PgnMode.Minimal).2.2 0 = false := by
  decide

/-- C22 amended: in the text of one commit of a record with at least one tag, if every move
token that the commit writes and the `Result` value are shorter than 80 characters, then
the part written by the move loop and the result step, which is the tokens and the `Result`
value each after one space or line break and the two closing line breaks, has no line
longer than 80 characters, counted from the start of that part, and nothing is inserted
inside a token.  When the commit writes at least one move that part starts with a line
break, so the count covers whole lines; when it writes no move the part is a space, the
`Result` value and the line breaks, appended to whatever line precedes it. -/
theorem C22_move_lines_fit (streamOk : Bool) (g : PgnGame) (out : QString) (mode : PgnMode)
    (htags : g.m_tags.isEmpty = false)
    (htok : ∀ tok ∈ (moveTokens mode g.m_moves 0 0 g.m_startingSide.toInt).drop g.m_last_move,
      tok.length < 80)
    (hres : (g.m_tags.value "Result".toList).length < 80) :
    ∃ (head body : QString) (seps : List Char) (sep : Char),
      (write streamOk g out mode).2.2 = out ++ head ++ body ∧
      head = (if g.m_tag_changed then tagBlock g mode else []) ++
        (if g.m_last_move = 0 ∧ g.m_initialComment ≠ [] then
           ['\n', '{'] ++ g.m_initialComment ++ ['}'] else []) ∧
      body = (List.zipWith (fun s t => s :: t) seps
          ((moveTokens mode g.m_moves 0 0 g.m_startingSide.toInt).drop g.m_last_move)).flatten ++
        sep :: g.m_tags.value "Result".toList ++ ['\n', '\n'] ∧
      seps.length = g.m_moves.length - g.m_last_move ∧
      (∀ s ∈ seps, s = ' ' ∨ s = '\n') ∧ (sep = ' ' ∨ sep = '\n') ∧
      fits 80 body 0 = true ∧
      (g.m_last_move < g.m_moves.length → ∃ rest, body = '\n' :: rest) ∧
      (g.m_moves.length ≤ g.m_last_move →
        body = ' ' :: g.m_tags.value "Result".toList ++ ['\n', '\n']) := by
  have hdrop := moveTokens_drop mode g.m_moves g.m_last_move g.m_startingSide.toInt
  obtain ⟨seps, h1, h2, h3⟩ := writeMoves_seps mode (g.m_moves.drop g.m_last_move) g.m_last_move
    (skipMoves g.m_last_move 0 0 g.m_startingSide.toInt).1
    (skipMoves g.m_last_move 0 0 g.m_startingSide.toInt).2 0
  obtain ⟨f1, f2, f3⟩ := writeMoves_fits mode (g.m_moves.drop g.m_last_move) g.m_last_move
    (skipMoves g.m_last_move 0 0 g.m_startingSide.toInt).1
    (skipMoves g.m_last_move 0 0 g.m_startingSide.toInt).2 0 0 []
    (by rw [hdrop]; exact htok) rfl (Nat.le_refl _) (by omega)
  rw [hdrop] at h3
  generalize hw : writeMoves mode (g.m_moves.drop g.m_last_move) g.m_last_move
    (skipMoves g.m_last_move 0 0 g.m_startingSide.toInt).1
    (skipMoves g.m_last_move 0 0 g.m_startingSide.toInt).2 0 [] = w at h3 f1 f2 f3
  have htext := write_text streamOk g out mode htags
  rw [hw] at htext
  have hnl : ∀ c : Nat, c ≤ 80 → fits 80 ['\n', '\n'] c = true := fun c hc => by
    simp [fits, hc]
  refine ⟨_, w.1 ++ (if w.2 + (g.m_tags.value "Result".toList).length ≥ 80 then '\n' else ' ') ::
      g.m_tags.value "Result".toList ++ ['\n', '\n'], seps,
    (if w.2 + (g.m_tags.value "Result".toList).length ≥ 80 then '\n' else ' '),
    ?_, rfl, ?_, by simpa using h1, h2, ?_, ?_, ?_, ?_⟩
  · rw [htext]
    split_ifs <;> simp
  · rw [h3]
  · split_ifs
    · exact Or.inr rfl
    · exact Or.inl rfl
  · rw [fits_append, fits_append]
    by_cases hlen : w.2 + (g.m_tags.value "Result".toList).length ≥ 80
    · rw [if_pos hlen]
      have e : fits 80 ('\n' :: g.m_tags.value "Result".toList) (endCol w.1 0) =
          (decide (endCol w.1 0 ≤ 80) && fits 80 (g.m_tags.value "Result".toList) 0) := by
        simp [fits]
      have e2 : endCol (w.1 ++ '\n' :: g.m_tags.value "Result".toList) 0 =
          endCol (g.m_tags.value "Result".toList) 0 := by
        rw [endCol_append]
        simp [endCol]
      rw [e, e2, Bool.and_eq_true, decide_eq_true_eq]
      refine ⟨⟨f1, by omega, fits_short 80 _ 0 (by omega)⟩, hnl _ ?_⟩
      have := endCol_le (g.m_tags.value "Result".toList) 0
      omega
    · rw [if_neg hlen]
      have hl := endCol_le (' ' :: g.m_tags.value "Result".toList) (endCol w.1 0)
      rw [List.length_cons] at hl
      refine ⟨⟨f1, fits_short 80 _ _ ?_⟩, hnl _ ?_⟩
      · rw [List.length_cons]
        omega
      · rw [endCol_append]
        omega
  · intro hlt
    cases hm : g.m_moves.drop g.m_last_move with
    | nil =>
      have := congrArg List.length hm
      simp at this
      omega
    | cons data rest =>
      rw [hm] at hw
      obtain ⟨tail, ht⟩ := writeMoves_head mode data rest g.m_last_move
        (skipMoves g.m_last_move 0 0 g.m_startingSide.toInt).1
        (skipMoves g.m_last_move 0 0 g.m_startingSide.toInt).2
      rw [hw] at ht
      rw [ht]
      exact ⟨_, rfl⟩
  · intro hge
    have hm : g.m_moves.drop g.m_last_move = [] := List.drop_eq_nil_of_le hge
    rw [hm] at hw
    rw [← hw]
    simp only [writeMoves, Nat.zero_add]
    rw [if_neg (by omega)]
    rfl

/-- Witness of C22 amended: the full commit of the record with the plies `e4 e5`. -/
theorem C22_move_lines_fit_witness :
    ∃ (head body : QString),
      (write true (addMoves twoPlies (recordWithResult ['*'])) [] PgnMode.Minimal).2.2 =
        [] ++ head ++ body ∧ fits 80 body 0 = true ∧ ∃ rest, body = '\n' :: rest := by
  obtain ⟨head, body, _, _, h1, _, _, _, _, _, h7, h8, _⟩ :=
    C22_move_lines_fit true (addMoves twoPlies (recordWithResult ['*'])) [] PgnMode.Minimal
      (by decide) (by decide) (by decide)
  exact ⟨head, body, h1, h7, h8 (by decide)⟩

end Pgn
namespace Pgn

theorem setTag_moves (tag value : QString) (g : PgnGame) :
    (setTag tag value g).m_moves = g.m_moves := by
  unfold setTag resetCursor
  simp only
  split_ifs <;> rfl

theorem setTag_last_move_le (tag value : QString) (g : PgnGame) :
    (setTag tag value g).m_last_move ≤ g.m_last_move := by
  unfold setTag resetCursor
  simp only
  split_ifs <;> simp

theorem addMove_moves (ecoFind : Nat → Option EcoNode) (data : MoveData) (key : Nat)
    (addEco : Bool) (g : PgnGame) :
    (addMove ecoFind data key addEco g).m_moves = g.m_moves ++ [data] := by
  unfold addMove
  simp only
  split
  · split
    · simp [setTag_moves]
    · rfl
  · rfl

theorem write_moves (streamOk : Bool) (g : PgnGame) (out : QString) (mode : PgnMode) :
    (write streamOk g out mode).2.1.m_moves = g.m_moves := by
  unfold write
  split <;> rfl

theorem writeFile_cases (streamOk : Bool) (g : PgnGame) (file : QString) (reset_flag : Nat)
    (mode : PgnMode) :
    writeFile true streamOk g file reset_flag mode =
      write streamOk
        (if reset_flag &&& 1 ≠ 0 then resetCursor g
         else if g.m_tag_changed = true then g
         else if g.m_last_result = ['*'] then { g with m_last_result := [] }
         else g)
        (if reset_flag &&& 1 ≠ 0 ∨ g.m_tag_changed = true then
           (if reset_flag &&& 2 ≠ 0 then [] else file)
         else if g.m_last_result = ['*'] then file.take (file.length - 4)
         else file) mode := by
  unfold writeFile
  simp only [Bool.not_true, Bool.false_eq_true, if_false]
  by_cases hr : reset_flag &&& 1 ≠ 0
  · rw [if_pos hr, if_pos hr, if_pos (Or.inl hr), if_pos (by rfl)]
    rfl
  · rw [if_neg hr, if_neg hr]
    by_cases hc : g.m_tag_changed = true
    · rw [if_pos hc, if_pos hc, if_pos (Or.inr hc)]
      rfl
    · have hor : ¬ (reset_flag &&& 1 ≠ 0 ∨ g.m_tag_changed = true) := by
        rintro (h | h)
        · exact hr h
        · exact hc h
      rw [if_neg hc, if_neg hc, if_neg hor]
      by_cases hl : g.m_last_result = ['*']
      · rw [if_pos hl, if_pos hl, if_pos hl]
        congr 1
        unfold resize
        by_cases h4 : file.length > 4
        · rw [if_pos h4]
        · rw [if_neg h4]
          have : file.length - 4 = 0 := by omega
          rw [this]
      · rw [if_neg hl, if_neg hl, if_neg hl]

theorem writeFile_moves (canOpen streamOk : Bool) (g : PgnGame) (file : QString)
    (reset_flag : Nat) (mode : PgnMode) :
    (writeFile canOpen streamOk g file reset_flag mode).2.1.m_moves = g.m_moves := by
  cases canOpen
  · simp [writeFile]
  · rw [writeFile_cases, write_moves]
    split_ifs <;> rfl

/-- C23 as stated fails: when the stream reports an error, `write` returns false after it has
advanced the cursor: the dirty flag is clear, the last-flushed index is the number of moves
and the remembered result is the `Result` value. -/
theorem C23_stream_error_advances_cursor :
    (addMoves twoPlies (recordWithResult ['*'])).m_tag_changed = true ∧
    (addMoves twoPlies (recordWithResult ['*'])).m_last_move = 0 ∧
    (addMoves twoPlies (recordWithResult ['*'])).m_last_result = [] ∧
    (write false (addMoves twoPlies (recordWithResult ['*'])) [] PgnMode.Minimal).1 = false ∧
    (write false (addMoves twoPlies (recordWithResult ['*'])) []
      PgnMode.Minimal).2.1.m_tag_changed = false ∧
    (write false (addMoves twoPlies (recordWithResult ['*'])) []
      PgnMode.Minimal).2.1.m_last_move = 2 ∧
    (write false (addMoves twoPlies (recordWithResult ['*'])) []
      PgnMode.Minimal).2.1.m_last_result = ['*'] := by
  decide

/-- C23 amended: a commit to a file returns false exactly when the destination cannot be
opened, the record has no tags, or the stream reports an error.  When the destination
cannot be opened nothing changes, and `write` on a stream leaves a record without tags as it
is.  For a record without tags, `write` on a file keeps tags and moves and changes the
cursor only by what it does before writing: the reset requested by bit 1, or clearing a
remembered `*`.  When the stream reports an error for a record with tags, the moves and the
value of every tag are as before, but the cursor has been advanced as by a successful
commit. -/
theorem C23_failed_commit_frame (canOpen streamOk : Bool) (g : PgnGame) (file : QString)
    (reset_flag : Nat) (mode : PgnMode) :
    ((writeFile canOpen streamOk g file reset_flag mode).1 = false ↔
      (canOpen = false ∨ g.m_tags.isEmpty = true ∨ streamOk = false)) ∧
    (canOpen = false → writeFile canOpen streamOk g file reset_flag mode = (false, g, file)) ∧
    (g.m_tags.isEmpty = true → write streamOk g file mode = (false, g, file)) ∧
    (g.m_tags.isEmpty = true →
      (writeFile canOpen streamOk g file reset_flag mode).2.1.m_tags = g.m_tags ∧
      (writeFile canOpen streamOk g file reset_flag mode).2.1.m_moves = g.m_moves ∧
      (canOpen = true → reset_flag &&& 1 ≠ 0 →
        (writeFile canOpen streamOk g file reset_flag mode).2.1 = resetCursor g) ∧
      (reset_flag &&& 1 = 0 →
        (writeFile canOpen streamOk g file reset_flag mode).2.1.m_tag_changed =
          g.m_tag_changed ∧
        (writeFile canOpen streamOk g file reset_flag mode).2.1.m_last_move = g.m_last_move ∧
        ((writeFile canOpen streamOk g file reset_flag mode).2.1.m_last_result =
            g.m_last_result ∨
          (g.m_last_result = ['*'] ∧
            (writeFile canOpen streamOk g file reset_flag mode).2.1.m_last_result = [])))) ∧
    (g.m_tags.isEmpty = false →
      (write false g file mode).1 = false ∧
      (write false g file mode).2.1.m_moves = g.m_moves ∧
      (∀ key, (write false g file mode).2.1.m_tags.value key = g.m_tags.value key) ∧
      (write false g file mode).2.1.m_tag_changed = false ∧
      (write false g file mode).2.1.m_last_move = g.m_moves.length ∧
      (write false g file mode).2.1.m_last_result = g.m_tags.value "Result".toList) := by
  have hw : ∀ (g1 : PgnGame) (o : QString), g1.m_tags = g.m_tags →
      (write streamOk g1 o mode).1 = (!g.m_tags.isEmpty && streamOk) := by
    intro g1 o h1
    unfold write
    rw [h1]
    cases g.m_tags.isEmpty <;> simp
  have hwe : ∀ (g1 : PgnGame) (o : QString), g1.m_tags = g.m_tags → g.m_tags.isEmpty = true →
      write streamOk g1 o mode = (false, g1, o) := by
    intro g1 o h1 h2
    unfold write
    rw [h1, if_pos h2]
  refine ⟨?_, ?_, ?_, ?_, ?_⟩
  · cases canOpen
    · simp [writeFile]
    · rw [writeFile_cases, hw _ _ (by split_ifs <;> rfl)]
      cases g.m_tags.isEmpty <;> cases streamOk <;> simp
  · intro h
    unfold writeFile
    simp [h]
  · intro h
    exact hwe g file rfl h
  · intro h
    cases canOpen
    · simp [writeFile]
    · rw [writeFile_cases, hwe _ _ (by split_ifs <;> rfl) h]
      simp only [true_implies]
      refine ⟨by split_ifs <;> rfl, by split_ifs <;> rfl, ?_, ?_⟩
      · intro hr
        rw [if_pos hr]
      · intro hr
        rw [if_neg (by simp [hr])]
        by_cases hc : g.m_tag_changed = true
        · rw [if_pos hc]
          exact ⟨rfl, rfl, Or.inl rfl⟩
        · rw [if_neg hc]
          by_cases hl : g.m_last_result = ['*']
          · rw [if_pos hl]
            exact ⟨rfl, rfl, Or.inr ⟨hl, rfl⟩⟩
          · rw [if_neg hl]
            exact ⟨rfl, rfl, Or.inl rfl⟩
  · intro h
    refine ⟨?_, write_moves _ _ _ _, ?_, ?_, ?_, ?_⟩
    · unfold write
      simp [h]
    · intro key
      unfold write
      simp only [h, Bool.false_eq_true, if_false]
      split
      · exact tagsAfterBlock_value g mode key
      · rfl
    · unfold write
      simp [h]
    · unfold write
      simp [h]
    · unfold write
      simp only [h, Bool.false_eq_true, if_false]
      split
      · exact tagsAfterBlock_value g mode _
      · rfl

/-- Witness of C23 amended: a destination that cannot be opened leaves record and file as they
were, also when a cursor reset and truncation are requested. -/
theorem C23_failed_commit_frame_witness :
    writeFile false true (addMoves twoPlies (recordWithResult ['*'])) "abc".toList 3
        PgnMode.Minimal =
      (false, addMoves twoPlies (recordWithResult ['*']), "abc".toList) :=
  (C23_failed_commit_frame false true (addMoves twoPlies (recordWithResult ['*']))
    "abc".toList 3 PgnMode.Minimal).2.1 rfl

end Pgn
namespace Pgn

theorem setTag_cursor_move (tag value : QString) (g : PgnGame) :
    (setTag tag value g).m_last_move = g.m_last_move ∨ (setTag tag value g).m_last_move = 0 := by
  unfold setTag resetCursor
  simp only
  split_ifs <;> simp

/-- C24 as stated fails: on a record whose two plies have both been flushed, `setMove`
replaces the flushed entry 0 and `setResultDescription` changes the comment of the flushed
entry 1, and neither moves the last-flushed index. -/
theorem C24_flushed_entries_are_altered :
    ({ addMoves twoPlies (recordWithResult ['*']) with
        m_tag_changed := false, m_last_move := 2 } : PgnGame).m_moves[0]? =
      some { key := 0, move := 0, moveString := "e4".toList, comment := [] } ∧
    (setMove 0 { key := 7, move := 7, moveString := "d4".toList, comment := [] }
      { addMoves twoPlies (recordWithResult ['*']) with
        m_tag_changed := false, m_last_move := 2 }).map (fun g => g.m_moves[0]?) =
      some (some { key := 7, move := 7, moveString := "d4".toList, comment := [] }) ∧
    (setMove 0 { key := 7, move := 7, moveString := "d4".toList, comment := [] }
      { addMoves twoPlies (recordWithResult ['*']) with
        m_tag_changed := false, m_last_move := 2 }).map (fun g => g.m_last_move) = some 2 ∧
    (setResultDescription "mate".toList
      { addMoves twoPlies (recordWithResult ['*']) with
        m_tag_changed := false, m_last_move := 2 }).m_moves[1]? =
      some { key := 1, move := 1, moveString := "e5".toList, comment := "mate".toList } ∧
    (setResultDescription "mate".toList
      { addMoves twoPlies (recordWithResult ['*']) with
        m_tag_changed := false, m_last_move := 2 }).m_last_move = 2 := by
  decide

/-- C24 amended: `addMove`, `setTag`, `setResult` and `write` never change an existing move
entry: `addMove` appends one entry and the other three keep the move list.  `setMove` at a
ply inside the list replaces the entry at that ply (outside the list the call is
undefined), and `setResultDescription` with a non-empty description extends the comment of
the last entry, whose position key, move and move string are kept; both keep the length of
the list, every other entry and the last-flushed index, whether or not the entry they
change lies below that index. -/
theorem C24_move_list_frame (g : PgnGame) :
    (∀ (ecoFind : Nat → Option EcoNode) (data : MoveData) (key : Nat) (addEco : Bool),
      (addMove ecoFind data key addEco g).m_moves = g.m_moves ++ [data]) ∧
    (∀ tag value : QString, (setTag tag value g).m_moves = g.m_moves) ∧
    (∀ (toShortString : Result → QString) (result : Result),
      (setResult toShortString result g).m_moves = g.m_moves) ∧
    (∀ (streamOk : Bool) (out : QString) (mode : PgnMode),
      (write streamOk g out mode).2.1.m_moves = g.m_moves) ∧
    (∀ (canOpen streamOk : Bool) (file : QString) (reset_flag : Nat) (mode : PgnMode),
      (writeFile canOpen streamOk g file reset_flag mode).2.1.m_moves = g.m_moves) ∧
    (∀ (ply : Int) (data : MoveData),
      (0 ≤ ply → ply < (g.m_moves.length : Int) →
        ∃ g' : PgnGame, setMove ply data g = some g' ∧
          g'.m_moves.length = g.m_moves.length ∧
          (∀ i : Nat, i ≠ ply.toNat → g'.m_moves[i]? = g.m_moves[i]?) ∧
          g'.m_moves[ply.toNat]? = some data ∧
          g'.m_last_move = g.m_last_move ∧ g'.m_tags = g.m_tags ∧
          g'.m_tag_changed = g.m_tag_changed ∧ g'.m_last_result = g.m_last_result) ∧
      (¬ (0 ≤ ply ∧ ply < (g.m_moves.length : Int)) → setMove ply data g = none)) ∧
    (∀ description : QString,
      (setResultDescription description g).m_moves.length = g.m_moves.length ∧
      (∀ i : Nat, i + 1 < g.m_moves.length →
        (setResultDescription description g).m_moves[i]? = g.m_moves[i]?) ∧
      (∀ last : MoveData, g.m_moves.getLast? = some last →
        ∃ comment : QString,
          (setResultDescription description g).m_moves.getLast? =
            some { last with comment := last.comment ++ comment }) ∧
      (setResultDescription description g).m_last_move = g.m_last_move) := by
  refine ⟨fun e d k a => addMove_moves e d k a g, fun t v => setTag_moves t v g, ?_,
    fun s o m => write_moves s g o m, fun c s f r m => writeFile_moves c s g f r m, ?_, ?_⟩
  · intro toShortString result
    unfold setResult
    rw [setTag_moves, setTag_moves]
  · intro ply data
    unfold setMove
    constructor
    · intro h0 h1
      rw [if_pos ⟨h0, h1⟩]
      refine ⟨_, rfl, by simp, ?_, ?_, rfl, rfl, rfl, rfl⟩
      · intro i hi
        simp only
        rw [List.getElem?_set_ne (Ne.symm hi)]
      · simp only
        rw [List.getElem?_set_self (by omega)]
    · intro h
      rw [if_neg h]
  · intro description
    unfold setResultDescription
    by_cases hd : description.isEmpty = true
    · rw [if_pos hd]
      refine ⟨rfl, fun _ _ => rfl, ?_, rfl⟩
      intro last hl
      exact ⟨[], by simp [hl]⟩
    · rw [if_neg hd]
      cases hl : g.m_moves.getLast? with
      | none =>
        refine ⟨rfl, fun _ _ => rfl, ?_, rfl⟩
        intro last hl'
        cases hl'
      | some last =>
        simp only
        have hne : g.m_moves ≠ [] := by
          intro e
          rw [e] at hl
          cases hl
        have hlen : g.m_moves.dropLast.length = g.m_moves.length - 1 := by simp
        have hpos : 0 < g.m_moves.length := List.length_pos.2 hne
        refine ⟨?_, ?_, ?_, trivial⟩
        · rw [List.length_append, hlen]
          simp only [List.length_singleton]
          omega
        · intro i hi
          rw [List.getElem?_append_left (by omega), List.getElem?_dropLast]
          rw [if_pos (by omega)]
        · intro last' hl'
          cases hl'
          rw [List.getLast?_concat]
          by_cases hc : last.comment.isEmpty = true
          · refine ⟨description, ?_⟩
            rw [if_pos hc]
          · rw [if_neg hc]
            by_cases hcomma : last.comment.getLast? ≠ some ','
            · rw [if_pos hcomma]
              exact ⟨[','] ++ [' '] ++ description, by simp⟩
            · rw [if_neg hcomma]
              exact ⟨[' '] ++ description, by simp⟩

/-- Witness of C24 amended: `setMove` at ply 0 of the record with the plies `e4 e5`, and at
ply 2, which lies outside the list. -/
theorem C24_move_list_frame_witness :
    (∃ g' : PgnGame,
      setMove 0 { key := 7, move := 7, moveString := "d4".toList, comment := [] }
        (addMoves twoPlies (recordWithResult ['*'])) = some g' ∧
      g'.m_moves[0]? =
        some { key := 7, move := 7, moveString := "d4".toList, comment := [] }) ∧
    setMove 2 { key := 7, move := 7, moveString := "d4".toList, comment := [] }
      (addMoves twoPlies (recordWithResult ['*'])) = none := by
  have h := (C24_move_list_frame (addMoves twoPlies (recordWithResult ['*']))).2.2.2.2.2.1
  obtain ⟨g', h1, _, _, h4, _⟩ :=
    (h 0 { key := 7, move := 7, moveString := "d4".toList, comment := [] }).1
      (by decide) (by decide)
  exact ⟨⟨g', h1, h4⟩,
    (h 2 { key := 7, move := 7, moveString := "d4".toList, comment := [] }).2 (by decide)⟩

/-- C25 as stated fails: with bit 2 clear and a clean dirty flag, a commit whose remembered
result is `*` to a destination of three characters removes all of them before it writes. -/
theorem C25_clean_commit_empties_short_file :
    ({ recordWithResult ['*'] with m_tag_changed := false, m_last_result := ['*'] } :
      PgnGame).m_tag_changed = false ∧
    (0 &&& 2 = 0 ∧ 0 &&& 1 = 0) ∧
    (writeFile true true
      { recordWithResult ['*'] with m_tag_changed := false, m_last_result := ['*'] }
      "abc".toList 0 PgnMode.Minimal).2.2 = " *\n\n".toList := by
  decide

/-- C25 amended: when the destination can be opened, `write(filename, reset_flag, mode)` runs
the stream commit on the destination's content after this preparation: with the dirty flag
set after the optional cursor reset of bit 1, the content is emptied when bit 2 is set and
kept whole when bit 2 is clear; with a clean dirty flag the last four characters are removed
when the remembered result is `*` (everything, when there are at most four) and the content
is kept otherwise.  For a record with tags the text afterwards is the prepared content
followed by what the commit writes, which for a dirty commit starts with the tag block; so
with bit 2 clear a dirty commit keeps the existing content and appends its full block. -/
theorem C25_destination_preparation (streamOk : Bool) (g : PgnGame) (file : QString)
    (reset_flag : Nat) (mode : PgnMode) :
    ∃ (g1 : PgnGame) (pre : QString),
      writeFile true streamOk g file reset_flag mode = write streamOk g1 pre mode ∧
      g1.m_tags = g.m_tags ∧ g1.m_moves = g.m_moves ∧
      g1.m_initialComment = g.m_initialComment ∧
      (g1.m_tag_changed = true ↔ (reset_flag &&& 1 ≠ 0 ∨ g.m_tag_changed = true)) ∧
      (g1.m_tag_changed = true → reset_flag &&& 2 ≠ 0 → pre = []) ∧
      (g1.m_tag_changed = true → reset_flag &&& 2 = 0 → pre = file) ∧
      (g1.m_tag_changed = false → g.m_last_result = ['*'] →
        pre = file.take (file.length - 4)) ∧
      (g1.m_tag_changed = false → g.m_last_result ≠ ['*'] → pre = file) ∧
      (g.m_tags.isEmpty = false → ∃ rest : QString,
        (writeFile true streamOk g file reset_flag mode).2.2 =
          pre ++ (if g1.m_tag_changed then tagBlock g mode else []) ++ rest) := by
  refine ⟨_, _, writeFile_cases streamOk g file reset_flag mode, by split_ifs <;> rfl,
    by split_ifs <;> rfl, by split_ifs <;> rfl, ?_, ?_, ?_, ?_, ?_, ?_⟩
  · by_cases hr : reset_flag &&& 1 ≠ 0
    · rw [if_pos hr]
      exact ⟨fun _ => Or.inl hr, fun _ => rfl⟩
    · rw [if_neg hr]
      by_cases hc : g.m_tag_changed = true
      · rw [if_pos hc]
        exact ⟨fun _ => Or.inr hc, fun _ => hc⟩
      · rw [if_neg hc]
        constructor
        · intro h
          split_ifs at h <;> exact absurd h hc
        · rintro (h | h)
          · exact absurd h hr
          · exact absurd h hc
  · intro h1 h2
    by_cases hd : reset_flag &&& 1 ≠ 0 ∨ g.m_tag_changed = true
    · rw [if_pos hd, if_pos h2]
    · exfalso
      rw [not_or] at hd
      rw [if_neg hd.1, if_neg hd.2] at h1
      split_ifs at h1 <;> exact hd.2 h1
  · intro h1 h2
    by_cases hd : reset_flag &&& 1 ≠ 0 ∨ g.m_tag_changed = true
    · rw [if_pos hd, if_neg (by simp [h2])]
    · exfalso
      rw [not_or] at hd
      rw [if_neg hd.1, if_neg hd.2] at h1
      split_ifs at h1 <;> exact hd.2 h1
  · intro h1 h2
    by_cases hd : reset_flag &&& 1 ≠ 0 ∨ g.m_tag_changed = true
    · exfalso
      rcases hd with hd | hd
      · rw [if_pos hd] at h1
        cases h1
      · by_cases hr : reset_flag &&& 1 ≠ 0
        · rw [if_pos hr] at h1
          cases h1
        · rw [if_neg hr, if_pos hd, hd] at h1
          cases h1
    · rw [if_neg hd, if_pos h2]
  · intro h1 h2
    by_cases hd : reset_flag &&& 1 ≠ 0 ∨ g.m_tag_changed = true
    · exfalso
      rcases hd with hd | hd
      · rw [if_pos hd] at h1
        cases h1
      · by_cases hr : reset_flag &&& 1 ≠ 0
        · rw [if_pos hr] at h1
          cases h1
        · rw [if_neg hr, if_pos hd, hd] at h1
          cases h1
    · rw [if_neg hd, if_neg h2]
  · intro ht
    rw [writeFile_cases, write_text _ _ _ _ (by split_ifs <;> exact ht)]
    have hb : ∀ g1 : PgnGame, g1.m_tags = g.m_tags → tagBlock g1 mode = tagBlock g mode :=
      fun g1 h => tagBlock_congr g1 g mode h
    rw [hb _ (by split_ifs <;> rfl)]
    simp only [List.append_assoc]
    exact ⟨_, rfl⟩

/-- Witness of C25 amended: a dirty commit with bit 2 clear keeps the three characters of the
destination and appends its tag block. -/
theorem C25_destination_preparation_witness :
    ∃ rest : QString,
      (writeFile true true (recordWithResult ['*']) "abc".toList 0 PgnMode.Minimal).2.2 =
        "abc".toList ++ tagBlock (recordWithResult ['*']) PgnMode.Minimal ++ rest := by
  obtain ⟨g1, pre, _, _, _, _, h5, _, h7, _, _, h10⟩ :=
    C25_destination_preparation true (recordWithResult ['*']) "abc".toList 0 PgnMode.Minimal
  have hd : g1.m_tag_changed = true := h5.2 (Or.inr (by decide))
  obtain ⟨rest, hrest⟩ := h10 (by decide)
  rw [h7 hd (by decide), hd] at hrest
  exact ⟨rest, hrest⟩

end Pgn
namespace Pgn

theorem tokensFrom_unwrapped : ∀ (s cur : QString),
    tokensFrom (unwrapped s) cur = tokensFrom s cur := by
  intro s
  induction s with
  | nil => intro cur; rfl
  | cons c rest ih =>
    intro cur
    have e : unwrapped (c :: rest) = (if c = '\n' then ' ' else c) :: unwrapped rest := rfl
    rw [e]
    by_cases hc : c = '\n'
    · subst hc
      rw [if_pos rfl]
      have e1 : ∀ x : Char, isSpace x = true → tokensFrom (x :: unwrapped rest) cur =
          (if cur = [] then tokensFrom (unwrapped rest) []
           else cur :: tokensFrom (unwrapped rest) []) := by
        intro x hx
        simp only [tokensFrom, hx, if_true]
      have e2 : ∀ x : Char, isSpace x = true → tokensFrom (x :: rest) cur =
          (if cur = [] then tokensFrom rest [] else cur :: tokensFrom rest []) := by
        intro x hx
        simp only [tokensFrom, hx, if_true]
      rw [e1 ' ' (by decide), e2 '\n' (by decide), ih]
    · rw [if_neg hc]
      simp only [tokensFrom]
      rw [ih, ih]

theorem tokens_unwrapped (s : QString) : tokens (unwrapped s) = tokens s :=
  tokensFrom_unwrapped s []

theorem tokensFrom_append_space (c : Char) (hc : isSpace c = true) (b : QString) :
    ∀ (a cur : QString), tokensFrom (a ++ c :: b) cur = tokensFrom a cur ++ tokensFrom b [] := by
  intro a
  induction a with
  | nil =>
    intro cur
    simp only [List.nil_append, tokensFrom, hc, if_true]
    by_cases h : cur = []
    · rw [if_pos h, if_pos h]
      rfl
    · rw [if_neg h, if_neg h]
      rfl
  | cons x rest ih =>
    intro cur
    have e1 : tokensFrom (x :: rest ++ c :: b) cur =
        (if isSpace x then
          (if cur = [] then tokensFrom (rest ++ c :: b) []
           else cur :: tokensFrom (rest ++ c :: b) [])
         else tokensFrom (rest ++ c :: b) (cur ++ [x])) := rfl
    have e2 : tokensFrom (x :: rest) cur =
        (if isSpace x then (if cur = [] then tokensFrom rest [] else cur :: tokensFrom rest [])
         else tokensFrom rest (cur ++ [x])) := rfl
    rw [e1, e2]
    by_cases hx : isSpace x = true
    · rw [if_pos hx, if_pos hx, ih]
      by_cases h : cur = []
      · rw [if_pos h, if_pos h]
      · rw [if_neg h, if_neg h]
        rfl
    · rw [if_neg hx, if_neg hx, ih]

theorem tokens_placeholder (a : QString) :
    tokens (a ++ [' ', '*', ' ', ' ']) = tokens a ++ [['*']] := by
  unfold tokens
  rw [tokensFrom_append_space ' ' (by decide) ['*', ' ', ' '] a []]
  rfl

theorem tokens_tokenLine_cons (a t : QString) (ts : List QString) :
    tokens (a ++ tokenLine (t :: ts)) = tokens a ++ tokens (unwrapped t ++ tokenLine ts) := by
  have e : tokenLine (t :: ts) = ' ' :: (unwrapped t ++ tokenLine ts) := by
    simp [tokenLine]
  rw [e]
  exact tokensFrom_append_space ' ' (by decide) _ a []

theorem writeFile_placeholder (streamOk : Bool) (g : PgnGame) (file : QString)
    (reset_flag : Nat) (mode : PgnMode) (hres : g.m_tags.value "Result".toList = ['*']) :
    ∃ (body : QString) (sep : Char), (sep = ' ' ∨ sep = '\n') ∧
      (writeFile true streamOk g file reset_flag mode).2.2 = body ++ [sep, '*', '\n', '\n'] := by
  rw [writeFile_cases]
  generalize hG : (if reset_flag &&& 1 ≠ 0 then resetCursor g
         else if g.m_tag_changed = true then g
         else if g.m_last_result = ['*'] then { g with m_last_result := [] }
         else g) = G
  have ht : G.m_tags = g.m_tags := by
    rw [← hG]
    split_ifs <;> rfl
  have hv : G.m_tags.value "Result".toList = ['*'] := by rw [ht]; exact hres
  have hne : G.m_tags.isEmpty = false := isEmpty_of_value _ _ (by rw [hv]; simp)
  generalize (if reset_flag &&& 1 ≠ 0 ∨ g.m_tag_changed = true then
           (if reset_flag &&& 2 ≠ 0 then [] else file)
         else if g.m_last_result = ['*'] then file.take (file.length - 4)
         else file) = P
  obtain ⟨sep, hsep, hw⟩ := write_shape streamOk G P mode hne
  rw [hw, hv]
  dsimp only
  rw [List.append_assoc]
  exact ⟨_, sep, hsep, rfl⟩

theorem writeFile_strips (streamOk : Bool) (g : PgnGame) (body : QString) (sep : Char)
    (reset_flag : Nat) (mode : PgnMode) (hflag : reset_flag &&& 1 = 0)
    (hclean : g.m_tag_changed = false) (hres : g.m_last_result = ['*']) :
    writeFile true streamOk g (body ++ [sep, '*', '\n', '\n']) reset_flag mode =
      write streamOk { g with m_last_result := [] } body mode := by
  rw [writeFile_cases]
  have h1 : ¬ (reset_flag &&& 1 ≠ 0) := fun h => h hflag
  have h2 : ¬ (g.m_tag_changed = true) := by rw [hclean]; decide
  have hor : ¬ (reset_flag &&& 1 ≠ 0 ∨ g.m_tag_changed = true) := by
    rintro (h | h)
    · exact h1 h
    · exact h2 h
  rw [if_neg h1, if_neg h2, if_pos hres, if_neg hor, if_pos hres]
  have : (body ++ [sep, '*', '\n', '\n']).take ((body ++ [sep, '*', '\n', '\n']).length - 4) =
      body := by
    have hl : (body ++ [sep, '*', '\n', '\n']).length - 4 = body.length := by simp
    rw [hl, List.take_left']
    rfl
  rw [this]

theorem write_extends (streamOk : Bool) (g : PgnGame) (out : QString) (mode : PgnMode) :
    ∃ tail : QString, (write streamOk g out mode).2.2 = out ++ tail := by
  by_cases h : g.m_tags.isEmpty = true
  · refine ⟨[], ?_⟩
    unfold write
    rw [if_pos h]
    simp
  · have h' : g.m_tags.isEmpty = false := by simpa using h
    rw [write_text streamOk g out mode h']
    simp only [List.append_assoc]
    exact ⟨_, rfl⟩

end Pgn
namespace Pgn

theorem unwrapped_idem (s : QString) : unwrapped (unwrapped s) = unwrapped s := by
  induction s with
  | nil => rfl
  | cons c rest ih =>
    have e : ∀ (x : Char) (r : QString),
        unwrapped (x :: r) = (if x = '\n' then ' ' else x) :: unwrapped r := fun _ _ => rfl
    rw [e c rest, e _ (unwrapped rest), ih]
    by_cases hc : c = '\n'
    · rw [if_pos hc]
      rfl
    · rw [if_neg hc, if_neg hc]

theorem unwrapped_tokenLine (ts : List QString) : unwrapped (tokenLine ts) = tokenLine ts := by
  induction ts with
  | nil => rfl
  | cons t rest ih =>
    have e : tokenLine (t :: rest) = [' '] ++ unwrapped t ++ tokenLine rest := by
      simp [tokenLine]
    rw [e, unwrapped_append, unwrapped_append, unwrapped_idem, ih]
    rfl

theorem tokens_head_line (a : QString) (ts : List QString) :
    tokens (unwrapped a ++ tokenLine ts) = tokens (a ++ tokenLine ts) := by
  rw [← tokens_unwrapped (a ++ tokenLine ts), unwrapped_append, unwrapped_tokenLine]

theorem writeFile_remembers (streamOk : Bool) (g : PgnGame) (file : QString)
    (reset_flag : Nat) (mode : PgnMode) (hres : g.m_tags.value "Result".toList = ['*']) :
    (writeFile true streamOk g file reset_flag mode).2.1.m_last_result = ['*'] ∧
    (writeFile true streamOk g file reset_flag mode).2.1.m_tag_changed = false := by
  rw [writeFile_cases]
  generalize hG : (if reset_flag &&& 1 ≠ 0 then resetCursor g
         else if g.m_tag_changed = true then g
         else if g.m_last_result = ['*'] then { g with m_last_result := [] }
         else g) = G
  have ht : G.m_tags = g.m_tags := by
    rw [← hG]
    split_ifs <;> rfl
  have hv : G.m_tags.value "Result".toList = ['*'] := by rw [ht]; exact hres
  have hne : G.m_tags.isEmpty = false := isEmpty_of_value _ _ (by rw [hv]; simp)
  generalize (if reset_flag &&& 1 ≠ 0 ∨ g.m_tag_changed = true then
           (if reset_flag &&& 2 ≠ 0 then [] else file)
         else if g.m_last_result = ['*'] then file.take (file.length - 4)
         else file) = P
  obtain ⟨sep, hsep, hw⟩ := write_shape streamOk G P mode hne
  rw [hw]
  exact ⟨hv, rfl⟩

/-- C36: a destination last written by a commit of a record whose `Result` is `*` ends with
the four characters of the placeholder, a space or a line break followed by `*` and two line
breaks, and that commit leaves the dirty flag clean and remembers `*`.  When
`write(filename, reset_flag, mode)` then runs with bit 1 clear, a clean dirty flag and the
remembered result `*` on that destination, the four characters it removes are exactly this
placeholder: the stream commit runs on the text before the placeholder with the remembered
result cleared, and the destination afterwards starts with every character that stood before
the placeholder. -/
theorem C36_placeholder_is_stripped (s0 s1 : Bool) (g0 g : PgnGame) (file0 : QString)
    (flag0 reset_flag : Nat) (mode0 mode : PgnMode)
    (hres0 : g0.m_tags.value "Result".toList = ['*']) (hflag : reset_flag &&& 1 = 0)
    (hclean : g.m_tag_changed = false) (hres : g.m_last_result = ['*']) :
    (writeFile true s0 g0 file0 flag0 mode0).2.1.m_last_result = ['*'] ∧
    (writeFile true s0 g0 file0 flag0 mode0).2.1.m_tag_changed = false ∧
    ∃ (body : QString) (sep : Char), (sep = ' ' ∨ sep = '\n') ∧
      (writeFile true s0 g0 file0 flag0 mode0).2.2 = body ++ [sep, '*', '\n', '\n'] ∧
      resize (body ++ [sep, '*', '\n', '\n'])
        (if (body ++ [sep, '*', '\n', '\n']).length > 4
          then (body ++ [sep, '*', '\n', '\n']).length - 4 else 0) = body ∧
      writeFile true s1 g (writeFile true s0 g0 file0 flag0 mode0).2.2 reset_flag mode =
        write s1 { g with m_last_result := [] } body mode ∧
      ∃ tail : QString,
        (writeFile true s1 g (writeFile true s0 g0 file0 flag0 mode0).2.2 reset_flag mode).2.2 =
          body ++ tail := by
  obtain ⟨r1, r2⟩ := writeFile_remembers s0 g0 file0 flag0 mode0 hres0
  obtain ⟨body, sep, hsep, hfile⟩ := writeFile_placeholder s0 g0 file0 flag0 mode0 hres0
  refine ⟨r1, r2, body, sep, hsep, hfile, resize_placeholder body sep, ?_, ?_⟩
  · rw [hfile]
    exact writeFile_strips s1 g body sep reset_flag mode hflag hclean hres
  · rw [hfile, writeFile_strips s1 g body sep reset_flag mode hflag hclean hres]
    exact write_extends s1 _ body mode

/-- Witness of C36: the record with the single tag `Result` is committed to an empty live
file, the ply `e4` is added and the record is committed again. -/
theorem C36_placeholder_is_stripped_witness :
    ∃ (body : QString) (sep : Char), (sep = ' ' ∨ sep = '\n') ∧
      (writeFile true true (recordWithResult ['*']) [] 2 PgnMode.Minimal).2.2 =
        body ++ [sep, '*', '\n', '\n'] ∧
      writeFile true true
          (addMoves twoPlies
            (writeFile true true (recordWithResult ['*']) [] 2 PgnMode.Minimal).2.1)
          (writeFile true true (recordWithResult ['*']) [] 2 PgnMode.Minimal).2.2 2
          PgnMode.Minimal =
        write true
          { addMoves twoPlies
              (writeFile true true (recordWithResult ['*']) [] 2 PgnMode.Minimal).2.1 with
            m_last_result := [] } body PgnMode.Minimal := by
  obtain ⟨_, _, body, sep, h1, h2, _, h4, _⟩ :=
    C36_placeholder_is_stripped true true (recordWithResult ['*'])
      (addMoves twoPlies (writeFile true true (recordWithResult ['*']) [] 2 PgnMode.Minimal).2.1)
      [] 2 2 PgnMode.Minimal PgnMode.Minimal (by decide) (by decide) (by decide) (by decide)
  exact ⟨body, sep, h1, h2, h4⟩

/-- C38: for a record whose `Result` tag is `*`, with no initial comment, a cold cursor and
a non-empty sequence of moves, committing to the same file in live mode (`reset_flag = 2`)
after every added move, with no tag change in between, leaves a file whose
whitespace-separated tokens are those of the file after a single full commit (cursor reset
and truncation) made after all the moves.  The tokens are those of the tag block followed by
those of the moves, and then the single token `*`. -/
theorem C38_live_commits_same_tokens (g : PgnGame) (moves : List (MoveData × Nat))
    (file : QString) (full_flag : Nat) (mode : PgnMode)
    (hc : g.m_tag_changed = true) (hm : g.m_last_move = 0)
    (hres : g.m_tags.value "Result".toList = ['*']) (hcomment : g.m_initialComment = [])
    (hmoves : moves ≠ []) (hfull : full_flag &&& 1 ≠ 0) (htrunc : full_flag &&& 2 ≠ 0) :
    tokens (commitEachMove 2 mode moves g file).2 =
      tokens (commitOnce full_flag mode moves g file).2 ∧
    tokens (commitEachMove 2 mode moves g file).2 =
      tokens (tagBlock g mode ++
        tokenLine (moveTokens mode (g.m_moves ++ moves.map Prod.fst) 0 0
          g.m_startingSide.toInt)) ++ [['*']] := by
  obtain ⟨hf1, hf2, hf3, hf4, _, _, _⟩ := addMoves_fields moves g
  have hhead : fullHead g mode = tagBlock g mode := by
    unfold fullHead
    rw [hcomment]
    simp
  cases moves with
  | nil => exact absurd rfl hmoves
  | cons dk rest =>
    obtain ⟨hw, hmv, hside⟩ := first_commit mode g file 2 dk.1 dk.2 (by decide) hc hm hres
    obtain ⟨hw', hmv', hside'⟩ := warm_run mode _ 2 (by decide) rest _ _ hw
    have hfull' := full_commit mode (addMoves (dk :: rest) g) file full_flag hfull
      (by rw [hf2]; exact hres)
    have hinc : tokens (commitEachMove 2 mode (dk :: rest) g file).2 =
        tokens (tagBlock g mode ++
          tokenLine (moveTokens mode (g.m_moves ++ (dk :: rest).map Prod.fst) 0 0
            g.m_startingSide.toInt)) ++ [['*']] := by
      simp only [commitEachMove]
      obtain ⟨_, _, _, _, _, body, sep, hsep, hfile, hbody⟩ := hw'
      rw [← tokens_unwrapped, hfile, unwrapped_append, hbody, hmv', hmv, hside', hside]
      have hsepu : unwrapped [sep, '*', '\n', '\n'] = [' ', '*', ' ', ' '] := by
        rcases hsep with rfl | rfl <;> rfl
      rw [hsepu, tokens_placeholder, if_pos (by decide), List.nil_append, hhead,
        tokens_head_line]
      simp
    refine ⟨?_, hinc⟩
    rw [hinc]
    simp only [commitOnce]
    rw [← tokens_unwrapped (writeFile true true (addMoves (dk :: rest) g) file full_flag mode).2.2,
      hfull', fullHead_congr _ g mode hf2 hf4, hf1, hf3, if_pos htrunc, List.nil_append, hhead,
      tokens_placeholder, tokens_head_line]

/-- Witness of C38: the record with the single tag `Result` and the plies `e4 e5`, whose
files differ in a line break. -/
theorem C38_live_commits_same_tokens_witness :
    tokens (commitEachMove 2 PgnMode.Minimal twoPlies (recordWithResult ['*']) []).2 =
      tokens (commitOnce 3 PgnMode.Minimal twoPlies (recordWithResult ['*']) []).2 :=
  (C38_live_commits_same_tokens (recordWithResult ['*']) twoPlies [] 3 PgnMode.Minimal rfl rfl
    (by decide) rfl (by decide) (by decide) (by decide)).1

end Pgn

/-! # The match orchestration -/

namespace Game

open Pgn

/-- C5: when `onMoveMade` is run for a player that is not the player to move, it returns
without touching the move list, the score map, the result, the finished flag, the board, the
adjudicator, the record or the live file; it only writes a warning.  The function does
return when assertions are compiled out, and also when the game is in progress and the move
is legal. -/
theorem C5_move_out_of_turn_is_ignored {B A M : Type} (env : Env B A M)
    (assertions canOpen streamOk : Bool) (sender : Nat) (eval : MoveEvaluation) (move : M)
    (g : ChessGame B A M) (hturn : some sender ≠ playerToMove env g) :
    (assertions = false ∨
        (g.m_gameInProgress = true ∧ env.isLegalMove g.m_board move = true) →
      ∃ g', onMoveMade env assertions canOpen streamOk sender eval move g = some g') ∧
    (∀ g', onMoveMade env assertions canOpen streamOk sender eval move g = some g' →
      g'.m_moves = g.m_moves ∧ g'.m_scores = g.m_scores ∧ g'.m_result = g.m_result ∧
      g'.m_finished = g.m_finished ∧ g'.m_gameInProgress = g.m_gameInProgress ∧
      g'.m_board = g.m_board ∧ g'.m_adjudicator = g.m_adjudicator ∧
      g'.m_pgn = g.m_pgn ∧ g'.liveFile = g.liveFile ∧
      g'.log = g.log ++ [Event.warning (env.name sender ++
        " tried to make a move on the opponent's turn".toList)]) := by
  constructor
  · intro h
    refine ⟨emit [Event.warning (env.name sender ++
      " tried to make a move on the opponent's turn".toList)] g, ?_⟩
    unfold onMoveMade
    rcases h with h | ⟨h1, h2⟩
    · simp [h, hturn]
    · simp [h1, h2, hturn]
  · intro g' h
    unfold onMoveMade at h
    split at h
    · simp at h
    · split at h
      · simp at h
      · simp only [Option.some.injEq] at h
        subst h
        simp [emit]

/-- Witness of C5: Black (player 2) reports a move at the starting position, where White is
to move. -/
theorem C5_move_out_of_turn_is_ignored_witness :
    ∃ g', onMoveMade sampleEnv true true true 2 sampleEval 0 sampleGame = some g' ∧
      g'.m_moves = [] ∧ g'.m_scores = [] ∧ g'.m_board = 0 ∧
      g'.m_pgn = recordWithResult ['*'] ∧ g'.liveFile = [] := by
  have h := C5_move_out_of_turn_is_ignored sampleEnv true true true 2 sampleEval 0 sampleGame
    (by decide)
  obtain ⟨g', hg'⟩ := h.1 (Or.inr ⟨rfl, rfl⟩)
  obtain ⟨h1, h2, _, _, _, h6, _, h8, h9, _⟩ := h.2 g' hg'
  exact ⟨g', hg', h1, h2, h6, h8, h9⟩

end Game
namespace Pgn

theorem setResult_moves (toShortString : Result → QString) (result : Result) (g : PgnGame) :
    (setResult toShortString result g).m_moves = g.m_moves := by
  unfold setResult
  rw [setTag_moves, setTag_moves]

theorem setResult_value (toShortString : Result → QString) (result : Result) (g : PgnGame) :
    (setResult toShortString result g).m_tags.value "Result".toList = toShortString result := by
  unfold setResult
  rw [setTag_value_other _ _ _ _ (by decide), setTag_value_self]

theorem setResult_value_other (toShortString : Result → QString) (result : Result)
    (g : PgnGame) (key : QString) (h1 : "Result".toList ≠ key)
    (h2 : "Termination".toList ≠ key) :
    (setResult toShortString result g).m_tags.value key = g.m_tags.value key := by
  unfold setResult
  rw [setTag_value_other _ _ _ _ h2, setTag_value_other _ _ _ _ h1]

theorem setResultDescription_length (description : QString) (g : PgnGame) :
    (setResultDescription description g).m_moves.length = g.m_moves.length := by
  unfold setResultDescription
  split
  · rfl
  · split
    · rfl
    · rename_i last hl
      have hne : g.m_moves ≠ [] := by
        intro e
        rw [e] at hl
        cases hl
      have hpos : 0 < g.m_moves.length := List.length_pos.2 hne
      simp only [List.length_append, List.length_dropLast, List.length_singleton]
      omega

theorem setResultDescription_tags (description : QString) (g : PgnGame) :
    (setResultDescription description g).m_tags = g.m_tags := by
  unfold setResultDescription
  split
  · rfl
  · split <;> rfl

theorem setVariant_moves (variant : QString) (g : PgnGame) :
    (setVariant variant g).m_moves = g.m_moves := by
  unfold setVariant
  split <;> exact setTag_moves _ _ _

theorem setStartingFenString_moves (side : Side) (fen : QString) (g : PgnGame) :
    (setStartingFenString side fen g).m_moves = g.m_moves := by
  unfold setStartingFenString
  simp only
  split <;> rw [setTag_moves, setTag_moves]

theorem setPlayerName_moves (side : Side) (name : QString) (g : PgnGame) :
    (setPlayerName side name g).m_moves = g.m_moves := by
  unfold setPlayerName
  cases side
  · exact setTag_moves _ _ _
  · exact setTag_moves _ _ _
  · rfl

theorem setPlayerRating_moves (side : Side) (rating : Nat) (g : PgnGame) :
    (setPlayerRating side rating g).m_moves = g.m_moves := by
  unfold setPlayerRating
  split
  · exact setTag_moves _ _ _
  · split
    · exact setTag_moves _ _ _
    · rfl

theorem foldl_setTag_moves : ∀ (tvs : List (QString × QString)) (g : PgnGame),
    (tvs.foldl (fun p tv => setTag tv.1 tv.2 p) g).m_moves = g.m_moves := by
  intro tvs
  induction tvs with
  | nil => intro g; rfl
  | cons tv rest ih =>
    intro g
    rw [List.foldl_cons, ih, setTag_moves]

end Pgn

namespace Game

open Pgn

variable {B A M : Type}

/-- The shape of the state after `initializePgn` when both players are present: only the
record and the flag `m_pgnInitialized` can differ, and the record has as many moves as
before. -/
theorem initializePgn_shape (env : Env B A M) (g : ChessGame B A M) (w b : Nat)
    (hw : g.m_playerWhite = some w) (hb : g.m_playerBlack = some b) :
    ∃ (i : Bool) (P : PgnGame),
      initializePgn env g = some { g with m_pgnInitialized := i, m_pgn := P } ∧
      P.m_moves.length = g.m_pgn.m_moves.length := by
  unfold initializePgn
  by_cases hi : g.m_pgnInitialized = true
  · rw [if_pos hi]
    exact ⟨g.m_pgnInitialized, g.m_pgn, rfl, rfl⟩
  · rw [if_neg hi, hw, hb]
    refine ⟨true, _, rfl, ?_⟩
    rw [setResultDescription_length, foldl_setTag_moves, setResult_moves,
      setPlayerRating_moves, setPlayerRating_moves, setPlayerName_moves, setPlayerName_moves,
      setTag_moves, setStartingFenString_moves, setVariant_moves]

/-- The effect of `stop` on a game that is not in progress. -/
theorem stop_idle (env : Env B A M) (e : Bool) (g : ChessGame B A M)
    (hf : g.m_finished = false) (hp : g.m_gameInProgress = false) :
    stop env e g =
      some { g with m_finished := true, m_result := env.noResult,
                    log := g.log ++ [Event.humanEnabled false, Event.finished env.noResult] } := by
  unfold stop
  simp [hf, hp, emit, finish]

/-- The effect of `stop` on a game in progress with both players present. -/
theorem stop_running (env : Env B A M) (e : Bool) (g : ChessGame B A M) (w b : Nat)
    (hf : g.m_finished = false) (hp : g.m_gameInProgress = true)
    (hw : g.m_playerWhite = some w) (hb : g.m_playerBlack = some b) :
    ∃ (i : Bool) (P : PgnGame) (evs : List (Event M)),
      stop env e g =
        some { g with m_finished := true, m_gameInProgress := false, m_pgnInitialized := i,
                      m_pgn := P, log := g.log ++ evs } ∧
      P.m_moves.length = g.m_pgn.m_moves.length ∧
      P.m_tags.value "Result".toList = env.toShortString g.m_result ∧
      P.m_tags.value "PlyCount".toList = number g.m_pgn.m_moves.length ∧
      Event.playerEndGame w g.m_result ∈ evs ∧ Event.playerEndGame b g.m_result ∈ evs ∧
      (∀ r, Event.finished r ∉ evs) := by
  obtain ⟨i, P0, h0, hlen⟩ := initializePgn_shape env
    (emit [Event.humanEnabled false] { g with m_finished := true }) w b hw hb
  have hP : ∀ P : PgnGame,
      P = setTag "TerminationDetails".toList (env.shortDescription g.m_result)
        (setResultDescription g.m_result.description
          (setResult env.toShortString g.m_result
            (setTag "GameDuration".toList env.gameDuration
              (setTag "GameEndTime".toList env.gameEndTime
                (setTag "PlyCount".toList (number P0.m_moves.length) P0))))) →
      P.m_moves.length = g.m_pgn.m_moves.length ∧
      P.m_tags.value "Result".toList = env.toShortString g.m_result ∧
      P.m_tags.value "PlyCount".toList = number g.m_pgn.m_moves.length := by
    intro P hPe
    subst hPe
    refine ⟨?_, ?_, ?_⟩
    · rw [setTag_moves, setResultDescription_length, setResult_moves, setTag_moves, setTag_moves,
        setTag_moves]
      exact hlen
    · rw [setTag_value_other _ _ _ _ (by decide), setResultDescription_tags, setResult_value]
    · rw [setTag_value_other _ _ _ _ (by decide), setResultDescription_tags,
        setResult_value_other _ _ _ _ (by decide) (by decide),
        setTag_value_other _ _ _ _ (by decide), setTag_value_other _ _ _ _ (by decide),
        setTag_value_self]
      have : P0.m_moves.length = g.m_pgn.m_moves.length := hlen
      rw [this]
  unfold stop
  rw [if_neg (by simp [hf])]
  simp only
  rw [if_neg (by simp [emit, hp]), h0]
  simp only [emit, hw, hb, syncPlayers]
  by_cases hr : (env.isReady w && env.isReady b) = true
  · rw [if_pos hr]
    refine ⟨i, _, _, by simp only [List.append_assoc]; rfl, (hP _ rfl).1, (hP _ rfl).2.1,
      (hP _ rfl).2.2, ?_, ?_, ?_⟩
    · simp
    · simp
    · intro r
      simp only [List.mem_append, List.mem_cons, List.mem_singleton, List.not_mem_nil, not_or,
        reduceCtorEq, not_false_eq_true, and_true, or_false, true_and]
      intro hmem
      split_ifs at hmem
      · split at hmem <;> simp at hmem
      · simp at hmem
  · rw [if_neg hr]
    refine ⟨i, _, _, by simp only [List.append_assoc]; rfl, (hP _ rfl).1, (hP _ rfl).2.1,
      (hP _ rfl).2.2, ?_, ?_, ?_⟩
    · simp
    · simp
    · intro r
      simp only [List.mem_append, List.mem_cons, List.mem_singleton, List.not_mem_nil, not_or,
        reduceCtorEq, not_false_eq_true, and_true, or_false, true_and]
      intro hmem
      split_ifs at hmem
      · split at hmem <;> simp at hmem
      · simp at hmem

end Game
namespace Game

open Pgn

variable {B A M : Type}

/-- The result that `onResultClaim` sets during a game. -/
theorem onResultClaim_running (env : Env B A M) (sender : Nat) (result : Result)
    (g : ChessGame B A M) (w b : Nat)
    (hf : g.m_finished = false) (hp : g.m_gameInProgress = true)
    (hw : g.m_playerWhite = some w) (hb : g.m_playerBlack = some b) :
    ∃ (i : Bool) (P : PgnGame) (evs : List (Event M)) (R : Result),
      onResultClaim env sender result g =
        some { g with m_finished := true, m_gameInProgress := false, m_pgnInitialized := i,
                      m_pgn := P, m_result := R, log := g.log ++ evs } ∧
      R = (if result.type = ResultType.Disconnection then
             { type := ResultType.Disconnection,
               winner := if w ≠ sender then Side.White else Side.Black, description := [] }
           else if env.areClaimsValidated sender = true ∧ env.loser result ≠ env.side sender then
             { type := ResultType.Adjudication, winner := (env.side sender).opposite,
               description := "Invalid result claim".toList }
           else result) ∧
      P.m_moves.length = g.m_pgn.m_moves.length ∧
      P.m_tags.value "Result".toList = env.toShortString R ∧
      Event.playerEndGame w R ∈ evs ∧ Event.playerEndGame b R ∈ evs ∧
      (∀ r, Event.finished r ∉ evs) := by
  unfold onResultClaim
  rw [if_neg (by simp [hf])]
  simp only
  by_cases ht : result.type = ResultType.Disconnection
  · rw [if_pos ht, if_pos ht]
    obtain ⟨i, P, evs, h1, h2, h3, _, h5, h6, h7⟩ := stop_running env env.emitMoveChanged
      { g with m_result :=
          { type := result.type,
            winner := (if g.m_playerWhite ≠ some sender then Side.Black else Side.White).opposite,
            description := [] } } w b hf hp hw hb
    have hR : Result.mk result.type
          (if g.m_playerWhite ≠ some sender then Side.Black else Side.White).opposite [] =
        Result.mk ResultType.Disconnection (if w ≠ sender then Side.White else Side.Black) [] := by
      rw [ht, hw]
      by_cases hs : w = sender
      · simp [hs, Side.opposite]
      · have : some w ≠ some sender := fun e => hs (Option.some.inj e)
        simp [hs, this, Side.opposite]
    rw [hR] at h1 h3 h5 h6 ⊢
    refine ⟨i, P, evs,
      Result.mk ResultType.Disconnection (if w ≠ sender then Side.White else Side.Black) [],
      h1, rfl, h2, h3, h5, h6, h7⟩
  · rw [if_neg ht, if_neg ht, if_neg (by simp [hp])]
    by_cases hv : env.areClaimsValidated sender = true ∧ env.loser result ≠ env.side sender
    · rw [if_pos hv, if_pos hv]
      obtain ⟨i, P, evs, h1, h2, h3, _, h5, h6, h7⟩ := stop_running env env.emitMoveChanged
        (emit [Event.warning (env.name sender ++
            " forfeits by invalid result claim: ".toList ++ env.toVerboseString result)]
          { g with m_result :=
              { type := ResultType.Adjudication, winner := (env.side sender).opposite,
                description := "Invalid result claim".toList } }) w b hf hp hw hb
      refine ⟨i, P, [Event.warning (env.name sender ++
            " forfeits by invalid result claim: ".toList ++ env.toVerboseString result)] ++ evs,
        _, ?_, rfl, h2, h3, ?_, ?_, ?_⟩
      · rw [h1]
        simp only [emit, List.append_assoc]
      · exact List.mem_append_right _ h5
      · exact List.mem_append_right _ h6
      · intro r hr
        rw [List.mem_append] at hr
        rcases hr with hr | hr
        · simp at hr
        · exact h7 r hr
    · rw [if_neg hv, if_neg hv]
      obtain ⟨i, P, evs, h1, h2, h3, _, h5, h6, h7⟩ := stop_running env env.emitMoveChanged
        { g with m_result := result } w b hf hp hw hb
      exact ⟨i, P, evs, _, h1, rfl, h2, h3, h5, h6, h7⟩

/-- C27 as stated fails: before the game starts, a draw claim from player 1, which is not a
disconnection and names no winner, is logged and then stops the match: the finished flag is
set and the signal `finished` is emitted. -/
theorem C27_unexpected_claim_stops_match :
    idleGame.m_finished = false ∧ idleGame.m_gameInProgress = false ∧
    drawClaim.type ≠ ResultType.Disconnection ∧ drawClaim.winner = Side.NoSide ∧
    ∃ g', onResultClaim sampleEnv 1 drawClaim idleGame = some g' ∧
      g'.m_finished = true ∧
      g'.log = [Event.warning "Unexpected result claim from Alpha: ".toList,
        Event.humanEnabled false, Event.finished unfinished] := by
  refine ⟨rfl, rfl, by decide, rfl, ?_⟩
  have h := stop_idle sampleEnv sampleEnv.emitMoveChanged
    (emit [Event.warning ("Unexpected result claim from ".toList ++ sampleEnv.name 1 ++
        ": ".toList ++ sampleEnv.toVerboseString drawClaim)] idleGame) rfl rfl
  have h' : onResultClaim sampleEnv 1 drawClaim idleGame = stop sampleEnv sampleEnv.emitMoveChanged
      (emit [Event.warning ("Unexpected result claim from ".toList ++ sampleEnv.name 1 ++
        ": ".toList ++ sampleEnv.toVerboseString drawClaim)] idleGame) := by
    unfold onResultClaim
    rw [if_neg (by decide)]
    simp only
    rw [if_neg (by decide), if_pos (by decide)]
  rw [h', h]
  refine ⟨_, rfl, ?_, ?_⟩
  · rfl
  · rfl

/-- C27 amended: on a match that is not finished and has no game in progress, a result claim
that is not a disconnection and names no winner is not adopted as the result: it is logged as
unexpected, and `onResultClaim` then calls `stop()` as for every other claim.  `stop()` sets
the finished flag, sets the result to the default no-result value and emits `humanEnabled`
and `finished`; the record and every other part of the state are left as they were. -/
theorem C27_unexpected_claim_voids_match (env : Env B A M) (sender : Nat) (result : Result)
    (g : ChessGame B A M) (hf : g.m_finished = false) (hp : g.m_gameInProgress = false)
    (ht : result.type ≠ ResultType.Disconnection) (hwin : result.winner = Side.NoSide) :
    onResultClaim env sender result g =
      some { g with
        m_finished := true,
        m_result := env.noResult,
        log := g.log ++ [Event.warning ("Unexpected result claim from ".toList ++
            env.name sender ++ ": ".toList ++ env.toVerboseString result),
          Event.humanEnabled false, Event.finished env.noResult] } := by
  have h := stop_idle env env.emitMoveChanged
    (emit [Event.warning ("Unexpected result claim from ".toList ++ env.name sender ++
        ": ".toList ++ env.toVerboseString result)] g) hf hp
  have h' : onResultClaim env sender result g = stop env env.emitMoveChanged
      (emit [Event.warning ("Unexpected result claim from ".toList ++ env.name sender ++
        ": ".toList ++ env.toVerboseString result)] g) := by
    unfold onResultClaim
    rw [if_neg (by simp [hf])]
    simp only
    rw [if_neg ht, if_pos ⟨by simp [hp], hwin⟩]
  rw [h', h]
  simp [emit]

/-- Witness of C27 amended: the draw claim of player 1 before the sample game starts. -/
theorem C27_unexpected_claim_voids_match_witness :
    onResultClaim sampleEnv 1 drawClaim idleGame =
      some { idleGame with
        m_finished := true,
        m_result := sampleEnv.noResult,
        log := idleGame.log ++ [Event.warning ("Unexpected result claim from ".toList ++
            sampleEnv.name 1 ++ ": ".toList ++ sampleEnv.toVerboseString drawClaim),
          Event.humanEnabled false, Event.finished sampleEnv.noResult] } :=
  C27_unexpected_claim_voids_match sampleEnv 1 drawClaim idleGame rfl rfl (by decide) rfl

/-- C28 as stated fails: during a game, player 1, whose claims are not validated, reports a
disconnection without naming a winner; the result is not the claimed one, it names Black as
the winner. -/
theorem C28_disconnection_claim_not_adopted :
    sampleEnv.areClaimsValidated 1 = false ∧
    sampleGame.m_finished = false ∧ sampleGame.m_gameInProgress = true ∧
    ∃ g', onResultClaim sampleEnv 1
        { type := ResultType.Disconnection, winner := Side.NoSide, description := [] }
        sampleGame = some g' ∧
      g'.m_result =
        { type := ResultType.Disconnection, winner := Side.Black, description := [] } ∧
      g'.m_result ≠
        { type := ResultType.Disconnection, winner := Side.NoSide, description := [] } := by
  refine ⟨rfl, rfl, rfl, ?_⟩
  obtain ⟨i, P, evs, R, h1, h2, _⟩ := onResultClaim_running sampleEnv 1
    { type := ResultType.Disconnection, winner := Side.NoSide, description := [] }
    sampleGame 1 2 rfl rfl rfl rfl
  have hR : R = Result.mk ResultType.Disconnection Side.Black [] := by
    rw [h2]
    decide
  subst hR
  refine ⟨_, h1, ?_, ?_⟩
  · rfl
  · intro h
    cases congrArg Result.winner h

/-- C28 amended: during a game with both players present, for a claimed result that is not
a disconnection: if the claimant's claims are validated and the claimed result does not name
the claimant as the loser, `onResultClaim` sets the result to an adjudicated win for the
side opposite to the claimant's with the reason `Invalid result claim`, and otherwise it
adopts the claimed result unchanged; in both cases it finishes the match with that result:
the finished flag is set, the game is no longer in progress, both players are told the
result and the record's `Result` tag is its short string. -/
theorem C28_claim_validation (env : Env B A M) (sender : Nat) (result : Result)
    (g : ChessGame B A M) (w b : Nat)
    (hf : g.m_finished = false) (hp : g.m_gameInProgress = true)
    (hw : g.m_playerWhite = some w) (hb : g.m_playerBlack = some b)
    (ht : result.type ≠ ResultType.Disconnection) :
    ∃ g', onResultClaim env sender result g = some g' ∧
      (env.areClaimsValidated sender = true ∧ env.loser result ≠ env.side sender →
        g'.m_result =
          { type := ResultType.Adjudication, winner := (env.side sender).opposite,
            description := "Invalid result claim".toList }) ∧
      (env.areClaimsValidated sender = false ∨ env.loser result = env.side sender →
        g'.m_result = result) ∧
      g'.m_finished = true ∧ g'.m_gameInProgress = false ∧
      Event.playerEndGame w g'.m_result ∈ g'.log ∧
      Event.playerEndGame b g'.m_result ∈ g'.log ∧
      g'.m_pgn.m_tags.value "Result".toList = env.toShortString g'.m_result := by
  obtain ⟨i, P, evs, R, h1, h2, _, h4, h5, h6, _⟩ :=
    onResultClaim_running env sender result g w b hf hp hw hb
  rw [if_neg ht] at h2
  refine ⟨_, h1, ?_, ?_, rfl, rfl, List.mem_append_right _ h5, List.mem_append_right _ h6, h4⟩
  · intro hv
    rw [if_pos hv] at h2
    exact h2
  · intro hv
    rw [if_neg ?_] at h2
    · exact h2
    · rintro ⟨hv1, hv2⟩
      rcases hv with hv | hv
      · rw [hv] at hv1
        cases hv1
      · exact hv2 hv

/-- Witness of C28 amended: with validated claims, White (player 1) claims a draw during the
sample game and forfeits. -/
theorem C28_claim_validation_witness :
    ∃ g', onResultClaim { sampleEnv with areClaimsValidated := fun _ => true } 1 drawClaim
        sampleGame = some g' ∧
      g'.m_result =
        { type := ResultType.Adjudication, winner := Side.Black,
          description := "Invalid result claim".toList } ∧
      g'.m_finished = true := by
  obtain ⟨g', h1, h2, _, h4, _⟩ := C28_claim_validation
    { sampleEnv with areClaimsValidated := fun _ => true } 1 drawClaim sampleGame 1 2
    rfl rfl rfl rfl (by decide)
  exact ⟨g', h1, h2 ⟨rfl, by decide⟩, h4⟩

/-- C29: when a player of a game in progress reports a disconnection, the match result has
type Disconnection and its winner is the side opposite to the reporting player: Black when
the White player reports, White when the Black player reports.  The match is finished with
that result: the finished flag is set, the game is no longer in progress, both players are
told the result and the record's `Result` tag is its short string. -/
theorem C29_disconnection_loses (env : Env B A M) (sender : Nat) (result : Result)
    (g : ChessGame B A M) (w b : Nat)
    (hf : g.m_finished = false) (hp : g.m_gameInProgress = true)
    (hw : g.m_playerWhite = some w) (hb : g.m_playerBlack = some b) (hwb : w ≠ b)
    (ht : result.type = ResultType.Disconnection) :
    ∃ g', onResultClaim env sender result g = some g' ∧
      g'.m_result.type = ResultType.Disconnection ∧
      (sender = w → g'.m_result.winner = Side.Black) ∧
      (sender = b → g'.m_result.winner = Side.White) ∧
      g'.m_finished = true ∧ g'.m_gameInProgress = false ∧
      Event.playerEndGame w g'.m_result ∈ g'.log ∧
      Event.playerEndGame b g'.m_result ∈ g'.log ∧
      g'.m_pgn.m_tags.value "Result".toList = env.toShortString g'.m_result := by
  obtain ⟨i, P, evs, R, h1, h2, _, h4, h5, h6, _⟩ :=
    onResultClaim_running env sender result g w b hf hp hw hb
  rw [if_pos ht] at h2
  refine ⟨_, h1, ?_, ?_, ?_, rfl, rfl, List.mem_append_right _ h5,
    List.mem_append_right _ h6, h4⟩
  · show R.type = _
    rw [h2]
  · intro hs
    show R.winner = _
    rw [h2, hs]
    simp
  · intro hs
    show R.winner = _
    rw [h2, hs]
    simp [hwb]

/-- Witness of C29: Black (player 2) reports a disconnection during the sample game. -/
theorem C29_disconnection_loses_witness :
    ∃ g', onResultClaim sampleEnv 2
        { type := ResultType.Disconnection, winner := Side.NoSide, description := [] }
        sampleGame = some g' ∧
      g'.m_result.type = ResultType.Disconnection ∧ g'.m_result.winner = Side.White ∧
      g'.m_finished = true := by
  obtain ⟨g', h1, h2, _, h4, h5, _⟩ := C29_disconnection_loses sampleEnv 2
    { type := ResultType.Disconnection, winner := Side.NoSide, description := [] }
    sampleGame 1 2 rfl rfl rfl rfl (by decide) rfl
  exact ⟨g', h1, h2, h4 rfl, h5⟩

end Game
namespace Game

open Pgn

variable {B A M : Type}

/-- C30: `stop()` on a match that is already finished changes nothing.  On an unfinished
match it sets the finished flag.  If the game never started (it is not in progress), the
result becomes the default no-result value and the signal `finished` is emitted with it.  If
the game is in progress and both players are present, the current result is kept, the
in-progress flag is cleared, both players are told the result, and the record receives
`Result` = the short string of the result and `PlyCount` = the number of recorded moves,
which stays what it was. -/
theorem C30_stop_finishes_match (env : Env B A M) (e : Bool) (g : ChessGame B A M) :
    (g.m_finished = true → stop env e g = some g) ∧
    (g.m_finished = false → g.m_gameInProgress = false →
      ∃ g', stop env e g = some g' ∧ g'.m_finished = true ∧ g'.m_result = env.noResult ∧
        g'.m_gameInProgress = false ∧ g'.m_pgn = g.m_pgn ∧
        g'.log = g.log ++ [Event.humanEnabled false, Event.finished env.noResult]) ∧
    (g.m_finished = false → g.m_gameInProgress = true →
      ∀ w b : Nat, g.m_playerWhite = some w → g.m_playerBlack = some b →
      ∃ g', stop env e g = some g' ∧ g'.m_finished = true ∧ g'.m_result = g.m_result ∧
        g'.m_gameInProgress = false ∧
        g'.m_pgn.m_tags.value "Result".toList = env.toShortString g.m_result ∧
        g'.m_pgn.m_tags.value "PlyCount".toList = number g.m_pgn.m_moves.length ∧
        g'.m_pgn.m_moves.length = g.m_pgn.m_moves.length ∧
        g'.m_board = g.m_board ∧ g'.m_moves = g.m_moves ∧
        Event.playerEndGame w g.m_result ∈ g'.log ∧
        Event.playerEndGame b g.m_result ∈ g'.log) := by
  refine ⟨?_, ?_, ?_⟩
  · intro hf
    unfold stop
    rw [if_pos hf]
  · intro hf hp
    rw [stop_idle env e g hf hp]
    exact ⟨_, rfl, rfl, rfl, hp, rfl, rfl⟩
  · intro hf hp w b hw hb
    obtain ⟨i, P, evs, h1, h2, h3, h4, h5, h6, _⟩ := stop_running env e g w b hf hp hw hb
    exact ⟨_, h1, rfl, rfl, rfl, h3, h4, h2, rfl, rfl, List.mem_append_right _ h5,
      List.mem_append_right _ h6⟩

/-- Witness of C30: `stop()` on the sample game, which is in progress with both players. -/
theorem C30_stop_finishes_match_witness :
    ∃ g', stop sampleEnv true sampleGame = some g' ∧ g'.m_finished = true ∧
      g'.m_result = unfinished ∧ g'.m_gameInProgress = false ∧
      g'.m_pgn.m_tags.value "Result".toList = ['*'] ∧
      g'.m_pgn.m_tags.value "PlyCount".toList = ['0'] := by
  obtain ⟨g', h1, h2, h3, h4, h5, h6, _⟩ :=
    (C30_stop_finishes_match sampleEnv true sampleGame).2.2 rfl rfl 1 2 rfl rfl
  exact ⟨g', h1, h2, h3, h4, h5, h6⟩

end Game
namespace Game

open Pgn

variable {B A M : Type}

/-- An accepted move: `onMoveMade` is the accounting of `recordMove` followed by the branch on
the result and the update of the live file. -/
theorem onMoveMade_accepted (env : Env B A M) (assertions canOpen streamOk : Bool)
    (sender : Nat) (eval : MoveEvaluation) (move : M) (g : ChessGame B A M)
    (hprog : g.m_gameInProgress = true) (hlegal : env.isLegalMove g.m_board move = true)
    (hturn : some sender = playerToMove env g) :
    onMoveMade env assertions canOpen streamOk sender eval move g =
      match recordMove env eval move g with
      | none => none
      | some g8 =>
        match (if env.isNone g8.m_result then
            match emitLastMove env g8 with
            | none => none
            | some g' => startTurn env g'
          else
            match stop env false g8 with
            | none => none
            | some g' => emitLastMove env g') with
        | none => none
        | some g' => some (updateLiveFiles canOpen streamOk g') := by
  unfold onMoveMade recordMove
  rw [if_neg (by simp [hprog]), if_neg (by simp [hlegal]), if_neg (by simp [hturn])]
  simp only
  split <;> rfl

theorem emitLastMove_some (env : Env B A M) (g : ChessGame B A M)
    (h : g.m_pgn.m_moves ≠ []) :
    ∃ evs : List (Event M), emitLastMove env g = some { g with log := g.log ++ evs } := by
  unfold emitLastMove
  cases hl : g.m_pgn.m_moves.getLast? with
  | none =>
    rw [List.getLast?_eq_none_iff] at hl
    exact absurd hl h
  | some md => exact ⟨_, rfl⟩

theorem bookMove_frame (env : Env B A M) (side : Side) (g : ChessGame B A M) :
    ∃ evs : List (Event M), (bookMove env side g).2 = { g with log := g.log ++ evs } := by
  unfold bookMove
  split
  · exact ⟨[], by simp⟩
  · split
    · exact ⟨[], by simp⟩
    · split
      · exact ⟨[], by simp⟩
      · split
        · exact ⟨_, rfl⟩
        · split
          · exact ⟨[], by simp⟩
          · exact ⟨[], by simp⟩

theorem startTurn_some (env : Env B A M) (g : ChessGame B A M) (w b : Nat)
    (hw : g.m_playerWhite = some w) (hb : g.m_playerBlack = some b)
    (hside : env.sideToMove g.m_board ≠ Side.NoSide) :
    ∃ evs : List (Event M), startTurn env g = some { g with log := g.log ++ evs } := by
  unfold startTurn
  by_cases hp : g.m_paused = true
  · rw [if_pos hp]
    exact ⟨[], by simp⟩
  · rw [if_neg hp]
    simp only
    have hpl : ∃ mover waiter, player g (env.sideToMove g.m_board) = some mover ∧
        player g (env.sideToMove g.m_board).opposite = some waiter := by
      cases hs : env.sideToMove g.m_board with
      | White => exact ⟨w, b, hw, hb⟩
      | Black => exact ⟨b, w, hb, hw⟩
      | NoSide => exact absurd hs hside
    obtain ⟨mover, waiter, h1, h2⟩ := hpl
    rw [h1, h2]
    simp only
    obtain ⟨evs, he⟩ := bookMove_frame env (env.sideToMove g.m_board)
      (emit [Event.humanEnabled (env.isHuman mover)] g)
    cases hbm : bookMove env (env.sideToMove g.m_board)
        (emit [Event.humanEnabled (env.isHuman mover)] g) with
    | mk mv g2 =>
      rw [hbm] at he
      simp only at he
      subst he
      cases mv with
      | none =>
        exact ⟨[Event.humanEnabled (env.isHuman mover)] ++ evs ++
          [Event.playerGo mover, Event.playerStartPondering waiter], by simp [emit]⟩
      | some m =>
        exact ⟨[Event.humanEnabled (env.isHuman mover)] ++ evs ++
          [Event.playerClearPonderState waiter, Event.playerMakeBookMove mover m],
          by simp [emit]⟩

theorem updateLiveFiles_frame (canOpen streamOk : Bool) (g : ChessGame B A M) :
    ∃ (P : PgnGame) (file : QString),
      updateLiveFiles canOpen streamOk g = { g with m_pgn := P, liveFile := file } := by
  unfold updateLiveFiles
  split
  · exact ⟨_, _, rfl⟩
  · split
    · exact ⟨_, _, rfl⟩
    · exact ⟨_, _, rfl⟩

/-- The state after the accounting of an accepted move, when taking back a move restores
the position and the side to move has both players. -/
theorem recordMove_shape (env : Env B A M) (eval : MoveEvaluation) (move : M)
    (g : ChessGame B A M) (w b : Nat)
    (hw : g.m_playerWhite = some w) (hb : g.m_playerBlack = some b)
    (hundo : ∀ (x : B) (m : M), env.undoMove (env.makeMove x m) = x)
    (hside : env.sideToMove g.m_board ≠ Side.NoSide) :
    ∃ (waiter : Nat) (P : PgnGame),
      recordMove env eval move g =
        some { g with
          m_scores := setScore g.m_scores g.m_moves.length eval.score,
          m_moves := g.m_moves ++ [move],
          m_pgn := P,
          m_board := env.makeMove g.m_board move,
          m_result :=
            if env.isNone (env.result (env.makeMove g.m_board move)) then
              env.adjudicatorResult (env.addEval
                (if env.reversibleMoveCount (env.makeMove g.m_board move) = 0 then
                  env.resetDrawMoveCount g.m_adjudicator else g.m_adjudicator)
                (env.makeMove g.m_board move) eval)
            else env.result (env.makeMove g.m_board move),
          m_adjudicator :=
            if env.isNone (env.result (env.makeMove g.m_board move)) then
              env.addEval
                (if env.reversibleMoveCount (env.makeMove g.m_board move) = 0 then
                  env.resetDrawMoveCount g.m_adjudicator else g.m_adjudicator)
                (env.makeMove g.m_board move) eval
            else g.m_adjudicator,
          log := g.log ++ [Event.playerMakeMove waiter move] } ∧
      P.m_moves ≠ [] := by
  have hpl : ∃ waiter, player g (env.sideToMove g.m_board).opposite = some waiter := by
    cases hs : env.sideToMove g.m_board with
    | White => exact ⟨b, hb⟩
    | Black => exact ⟨w, hw⟩
    | NoSide => exact absurd hs hside
  obtain ⟨waiter, hwt⟩ := hpl
  have hm : ∀ (md : MoveData) (k : Nat),
      (addMove env.ecoFind md k env.addEco g.m_pgn).m_moves ≠ [] := by
    intro md k
    rw [addMove_moves]
    simp
  have hwt' : player g (env.sideToMove g.m_board).opposite = some waiter := hwt
  unfold recordMove evalString addPgnMove playerToWait
  by_cases he : eval.isEmpty = true
  · by_cases hn : env.isNone (env.result (env.makeMove g.m_board move)) = true
    · dsimp only
      simp only [he, if_true, hundo, hn, hside, if_false, emit]
      dsimp only [player] at hwt' ⊢
      simp only [hundo, hn, if_true, hwt']
      exact ⟨waiter, _, rfl, hm _ _⟩
    · dsimp only
      simp only [he, if_true, hundo, hn, hside, if_false, emit, Bool.false_eq_true]
      dsimp only [player] at hwt' ⊢
      simp only [hundo, hn, if_false, hwt', Bool.false_eq_true]
      exact ⟨waiter, _, rfl, hm _ _⟩
  · by_cases hn : env.isNone (env.result (env.makeMove g.m_board move)) = true
    · dsimp only
      simp only [he, if_true, hundo, hn, hside, if_false, emit, Bool.false_eq_true]
      dsimp only [player] at hwt' ⊢
      simp only [hundo, hn, if_true, hwt']
      exact ⟨waiter, _, rfl, hm _ _⟩
    · dsimp only
      simp only [he, if_true, hundo, hn, hside, if_false, emit, Bool.false_eq_true]
      dsimp only [player] at hwt' ⊢
      simp only [hundo, hn, if_false, hwt', Bool.false_eq_true]
      exact ⟨waiter, _, rfl, hm _ _⟩

end Game
namespace Game

open Pgn

variable {B A M : Type}

theorem emitLastMove_frame (env : Env B A M) (g g' : ChessGame B A M)
    (h : emitLastMove env g = some g') :
    ∃ evs : List (Event M), g' = { g with log := g.log ++ evs } := by
  unfold emitLastMove at h
  simp only at h
  split at h
  · cases h
  · simp only [Option.some.injEq] at h
    exact ⟨_, h.symm⟩

theorem startTurn_frame (env : Env B A M) (g g' : ChessGame B A M)
    (h : startTurn env g = some g') :
    ∃ evs : List (Event M), g' = { g with log := g.log ++ evs } := by
  unfold startTurn at h
  by_cases hp : g.m_paused = true
  · rw [if_pos hp, Option.some.injEq] at h
    exact ⟨[], by rw [← h]; simp⟩
  · rw [if_neg hp] at h
    simp only at h
    split at h
    · rename_i mover waiter _ _
      obtain ⟨evs, he⟩ := bookMove_frame env (env.sideToMove g.m_board)
        (emit [Event.humanEnabled (env.isHuman mover)] g)
      cases hbm : bookMove env (env.sideToMove g.m_board)
          (emit [Event.humanEnabled (env.isHuman mover)] g) with
      | mk mv g2 =>
        rw [hbm] at he h
        simp only at he
        subst he
        cases mv with
        | none =>
          simp only [Option.some.injEq] at h
          exact ⟨[Event.humanEnabled (env.isHuman mover)] ++ evs ++
            [Event.playerGo mover, Event.playerStartPondering waiter], by rw [← h]; simp [emit]⟩
        | some m =>
          simp only [Option.some.injEq] at h
          exact ⟨[Event.humanEnabled (env.isHuman mover)] ++ evs ++
            [Event.playerClearPonderState waiter, Event.playerMakeBookMove mover m],
            by rw [← h]; simp [emit]⟩
    · cases h

theorem initializePgn_frame (env : Env B A M) (g g' : ChessGame B A M)
    (h : initializePgn env g = some g') :
    ∃ (i : Bool) (P : PgnGame), g' = { g with m_pgnInitialized := i, m_pgn := P } := by
  unfold initializePgn at h
  split at h
  · simp only [Option.some.injEq] at h
    exact ⟨g.m_pgnInitialized, g.m_pgn, h.symm⟩
  · split at h
    · simp only [Option.some.injEq] at h
      exact ⟨_, _, h.symm⟩
    · cases h

theorem syncPlayers_frame (env : Env B A M) (g g' : ChessGame B A M)
    (h : syncPlayers env g = some g') :
    ∃ evs : List (Event M), g' = { g with log := g.log ++ evs } := by
  unfold syncPlayers at h
  split at h
  · split at h
    · simp only [Option.some.injEq] at h
      exact ⟨_, h.symm⟩
    · simp only [Option.some.injEq] at h
      exact ⟨[], by rw [← h]; simp⟩
  · cases h

theorem stop_finished (env : Env B A M) (e : Bool) (g g' : ChessGame B A M)
    (h : stop env e g = some g') : g'.m_finished = true := by
  unfold stop at h
  by_cases hf : g.m_finished = true
  · rw [if_pos hf, Option.some.injEq] at h
    rw [← h]
    exact hf
  · rw [if_neg hf] at h
    simp only at h
    split at h
    · simp only [Option.some.injEq] at h
      rw [← h]
      rfl
    · split at h
      · cases h
      · rename_i g2 hi
        obtain ⟨i, P, hg2⟩ := initializePgn_frame env _ g2 hi
        subst hg2
        split at h
        · obtain ⟨evs, hs⟩ := syncPlayers_frame env _ g' h
          rw [hs]
          rfl
        · cases h

theorem recordMove_finished (env : Env B A M) (eval : MoveEvaluation) (move : M)
    (g g' : ChessGame B A M) (h : recordMove env eval move g = some g') :
    g'.m_finished = g.m_finished := by
  unfold recordMove at h
  simp only at h
  split at h
  · cases h
  · simp only [Option.some.injEq] at h
    rw [← h]
    unfold evalString addPgnMove emit
    dsimp only
    split <;> split <;> rfl

theorem onMoveMade_finished (env : Env B A M) (assertions canOpen streamOk : Bool)
    (sender : Nat) (eval : MoveEvaluation) (move : M) (g g' : ChessGame B A M)
    (h : onMoveMade env assertions canOpen streamOk sender eval move g = some g')
    (hf : g.m_finished = true) : g'.m_finished = true := by
  by_cases h1 : (assertions && !g.m_gameInProgress) = true
  · unfold onMoveMade at h
    rw [if_pos h1] at h
    cases h
  · by_cases h2 : (assertions && !env.isLegalMove g.m_board move) = true
    · unfold onMoveMade at h
      rw [if_neg h1, if_pos h2] at h
      cases h
    · by_cases h3 : some sender ≠ playerToMove env g
      · unfold onMoveMade at h
        rw [if_neg h1, if_neg h2, if_pos h3, Option.some.injEq] at h
        rw [← h]
        exact hf
      · have hacc : onMoveMade env assertions canOpen streamOk sender eval move g =
            match recordMove env eval move g with
            | none => none
            | some g8 =>
              match (if env.isNone g8.m_result then
                  match emitLastMove env g8 with
                  | none => none
                  | some g' => startTurn env g'
                else
                  match stop env false g8 with
                  | none => none
                  | some g' => emitLastMove env g') with
              | none => none
              | some g' => some (updateLiveFiles canOpen streamOk g') := by
          unfold onMoveMade recordMove
          rw [if_neg h1, if_neg h2, if_neg h3]
          simp only
          split <;> rfl
        rw [hacc] at h
        cases hr : recordMove env eval move g with
        | none => rw [hr] at h; cases h
        | some g8 =>
          rw [hr] at h
          simp only at h
          have h8 : g8.m_finished = true := by
            rw [recordMove_finished env eval move g g8 hr]
            exact hf
          have key : ∀ g9 : ChessGame B A M,
              (if env.isNone g8.m_result then
                  match emitLastMove env g8 with
                  | none => none
                  | some g' => startTurn env g'
                else
                  match stop env false g8 with
                  | none => none
                  | some g' => emitLastMove env g') = some g9 → g9.m_finished = true := by
            intro g9 h9
            split at h9
            · cases hA : emitLastMove env g8 with
              | none => rw [hA] at h9; cases h9
              | some gA =>
                rw [hA] at h9
                obtain ⟨evs1, e1⟩ := emitLastMove_frame env g8 gA hA
                obtain ⟨evs2, e2⟩ := startTurn_frame env gA g9 h9
                rw [e2, e1]
                exact h8
            · cases hS : stop env false g8 with
              | none => rw [hS] at h9; cases h9
              | some gA =>
                rw [hS] at h9
                obtain ⟨evs2, e2⟩ := emitLastMove_frame env gA g9 h9
                rw [e2]
                exact stop_finished env false g8 gA hS
          generalize hX : (if env.isNone g8.m_result then
                  match emitLastMove env g8 with
                  | none => none
                  | some g' => startTurn env g'
                else
                  match stop env false g8 with
                  | none => none
                  | some g' => emitLastMove env g') = X at h key
          cases X with
          | none => cases h
          | some g9 =>
            simp only [Option.some.injEq] at h
            obtain ⟨P, file, hU⟩ := updateLiveFiles_frame canOpen streamOk g9
            rw [← h, hU]
            exact key g9 rfl

theorem resetBoard_frame (env : Env B A M) (g : ChessGame B A M) :
    ∃ (b : B) (fen : QString) (lg : List (Event M)),
      (resetBoard env g).2 = { g with m_board := b, m_startingFen := fen, log := lg } := by
  unfold resetBoard emit
  dsimp only
  split_ifs <;> exact ⟨_, _, _, rfl⟩

theorem start_finished (env : Env B A M) (g g' : ChessGame B A M)
    (h : start env g = some g') : g'.m_finished = g.m_finished := by
  unfold start at h
  split at h
  · simp only [Option.some.injEq] at h
    rw [← h]
    rfl
  · simp only at h
    obtain ⟨b, fen, lg, hr⟩ := resetBoard_frame env
      (emit [Event.queuedSyncPlayers, Event.humanEnabled false]
        { g with m_result := env.noResult })
    rw [hr] at h
    split at h
    · cases h
    · rename_i g3 hi
      obtain ⟨i, P, h3⟩ := initializePgn_frame env _ g3 hi
      simp only [Option.some.injEq] at h
      rw [← h, h3]
      rfl

/-- C31: on a match whose finished flag is set, `onResultClaim`, `onAdjudication`,
`onResignation` and `stop` return at once and leave the whole state as it is, and `kill` only
calls `kill` on the players that are present: the flag stays set and the result stays what
it was.  The flag is assigned in `stop` only, where it is set: it is still set after
`onMoveMade`, `startTurn`, `start` and `startGame`, and `stop` never returns with a cleared
flag. -/
theorem C31_finished_is_terminal (env : Env B A M) (g : ChessGame B A M)
    (hf : g.m_finished = true) :
    (∀ (sender : Nat) (result : Result), onResultClaim env sender result g = some g) ∧
    (∀ result : Result, onAdjudication env result g = some g) ∧
    (∀ result : Result, onResignation env result g = some g) ∧
    (∀ e : Bool, stop env e g = some g) ∧
    kill env g =
      some { g with log := g.log ++ (killPlayer g.m_playerWhite ++ killPlayer g.m_playerBlack) } ∧
    (∀ g', kill env g = some g' → g'.m_finished = true ∧ g'.m_result = g.m_result) ∧
    (∀ (assertions canOpen streamOk : Bool) (sender : Nat) (eval : MoveEvaluation) (move : M)
      (g' : ChessGame B A M),
      onMoveMade env assertions canOpen streamOk sender eval move g = some g' →
      g'.m_finished = true) ∧
    (∀ g', startTurn env g = some g' → g'.m_finished = true) ∧
    (∀ g', start env g = some g' → g'.m_finished = true) ∧
    (∀ assertions canOpen streamOk : Bool,
      startGame env assertions canOpen streamOk g = some g) ∧
    (∀ (e : Bool) (g0 g' : ChessGame B A M), stop env e g0 = some g' → g'.m_finished = true) := by
  have hstop : ∀ e : Bool, stop env e g = some g := by
    intro e
    unfold stop
    rw [if_pos hf]
  have hkill : kill env g =
      some { g with log := g.log ++ (killPlayer g.m_playerWhite ++ killPlayer g.m_playerBlack) } := by
    unfold kill stop
    rw [if_pos (by exact hf)]
    rfl
  refine ⟨?_, ?_, ?_, hstop, hkill, ?_, ?_, ?_, ?_, ?_, ?_⟩
  · intro sender result
    unfold onResultClaim
    rw [if_pos hf]
  · intro result
    unfold onAdjudication
    rw [if_pos (by simp [hf])]
  · intro result
    unfold onResignation
    rw [if_pos (by simp [hf])]
  · intro g' hk
    rw [hkill, Option.some.injEq] at hk
    rw [← hk]
    exact ⟨hf, rfl⟩
  · intro assertions canOpen streamOk sender eval move g' h
    exact onMoveMade_finished env assertions canOpen streamOk sender eval move g g' h hf
  · intro g' h
    obtain ⟨evs, he⟩ := startTurn_frame env g g' h
    rw [he]
    exact hf
  · intro g' h
    rw [start_finished env g g' h]
    exact hf
  · intro assertions canOpen streamOk
    unfold startGame
    rw [if_pos hf]
  · intro e g0 g' h
    exact stop_finished env e g0 g' h

/-- Witness of C31: the sample game after `stop()`, with its result and its finished flag;
a resignation reported afterwards changes nothing. -/
theorem C31_finished_is_terminal_witness :
    onResignation sampleEnv
      { type := ResultType.Resignation, winner := Side.Black, description := [] }
      { sampleGame with m_finished := true, m_gameInProgress := false } =
      some { sampleGame with m_finished := true, m_gameInProgress := false } :=
  (C31_finished_is_terminal sampleEnv
    { sampleGame with m_finished := true, m_gameInProgress := false } rfl).2.2.1 _

end Game
namespace Game

open Pgn

variable {B A M : Type}

theorem initializePgn_initialized (env : Env B A M) (g g' : ChessGame B A M)
    (h : initializePgn env g = some g') : g'.m_pgnInitialized = true := by
  unfold initializePgn at h
  split at h
  · rename_i hi
    simp only [Option.some.injEq] at h
    rw [← h]
    exact hi
  · split at h
    · simp only [Option.some.injEq] at h
      rw [← h]
    · cases h

/-- The effect of `resetBoard` when the rules engine rejects the configured position. -/
theorem resetBoard_rejected (env : Env B A M) (g : ChessGame B A M)
    (hfen : g.m_startingFen.isEmpty = false)
    (hrej : (env.setFenString g.m_board g.m_startingFen).1 = false) :
    resetBoard env g =
      (false,
       { g with
         m_board := env.reset (env.setFenString g.m_board g.m_startingFen).2,
         m_startingFen :=
           if env.isRandomVariant (env.reset (env.setFenString g.m_board g.m_startingFen).2)
           then env.fenString (env.reset (env.setFenString g.m_board g.m_startingFen).2)
           else [],
         log := g.log ++ [Event.warning ("Invalid FEN string: ".toList ++ g.m_startingFen)] }) := by
  unfold resetBoard emit
  simp only [hfen, Bool.false_eq_true, if_false, false_and, hrej, Bool.not_false, if_true]
  split <;> rfl

/-- The effect of `start` when the rules engine rejects the configured position. -/
theorem start_rejected (env : Env B A M) (g : ChessGame B A M) (w b : Nat)
    (hdelay : g.m_startDelay ≤ 0) (hw : g.m_playerWhite = some w)
    (hb : g.m_playerBlack = some b) (hfen : g.m_startingFen.isEmpty = false)
    (hrej : (env.setFenString g.m_board g.m_startingFen).1 = false) :
    ∃ P : PgnGame,
      start env g =
        some { g with
          m_result := env.noResult,
          m_board := env.reset (env.setFenString g.m_board g.m_startingFen).2,
          m_startingFen :=
            if env.isRandomVariant (env.reset (env.setFenString g.m_board g.m_startingFen).2)
            then env.fenString (env.reset (env.setFenString g.m_board g.m_startingFen).2)
            else [],
          m_pgnInitialized := true,
          m_pgn := P,
          log := g.log ++ [Event.queuedSyncPlayers, Event.humanEnabled false,
            Event.warning ("Invalid FEN string: ".toList ++ g.m_startingFen),
            Event.initialized,
            Event.fenChanged (env.startingFenString
              (env.reset (env.setFenString g.m_board g.m_startingFen).2))] } := by
  unfold start
  rw [if_neg (by omega)]
  simp only
  rw [resetBoard_rejected env (emit [Event.queuedSyncPlayers, Event.humanEnabled false]
    { g with m_result := env.noResult }) hfen hrej]
  simp only
  obtain ⟨i, P, hi, _⟩ := initializePgn_shape env
    { (emit [Event.queuedSyncPlayers, Event.humanEnabled false]
        { g with m_result := env.noResult }) with
      m_board := env.reset (env.setFenString g.m_board g.m_startingFen).2,
      m_startingFen :=
        if env.isRandomVariant (env.reset (env.setFenString g.m_board g.m_startingFen).2)
        then env.fenString (env.reset (env.setFenString g.m_board g.m_startingFen).2)
        else [],
      log := (emit [Event.queuedSyncPlayers, Event.humanEnabled false]
          { g with m_result := env.noResult }).log ++
        [Event.warning ("Invalid FEN string: ".toList ++ g.m_startingFen)] } w b hw hb
  have hit := initializePgn_initialized env _ _ hi
  simp only at hit
  subst hit
  refine ⟨P, ?_⟩
  simp only [emit] at hi ⊢
  rw [hi]
  simp only [emit, List.append_assoc, List.cons_append, List.nil_append]

theorem bookMove_no_book (env : Env B A M) (side : Side) (g : ChessGame B A M)
    (h : env.bookMove side = none) : (bookMove env side g).1 = none := by
  unfold bookMove
  rw [h]

theorem bookMove_events (env : Env B A M) (side : Side) (g : ChessGame B A M) :
    ∃ evs : List (Event M), (bookMove env side g).2 = { g with log := g.log ++ evs } ∧
      (evs = [] ∨ ∃ text, evs = [Event.warning text]) := by
  unfold bookMove
  split
  · exact ⟨[], by simp, Or.inl rfl⟩
  · split
    · exact ⟨[], by simp, Or.inl rfl⟩
    · split
      · exact ⟨[], by simp, Or.inl rfl⟩
      · split
        · exact ⟨_, rfl, Or.inr ⟨_, rfl⟩⟩
        · split
          · exact ⟨[], by simp, Or.inl rfl⟩
          · exact ⟨[], by simp, Or.inl rfl⟩

/-- The turn that `startTurn` starts when the game is not paused: the side to move is told
to go or is sent a book move, and no start failure is reported. -/
theorem startTurn_events (env : Env B A M) (g : ChessGame B A M) (w b : Nat)
    (hw : g.m_playerWhite = some w) (hb : g.m_playerBlack = some b)
    (hpause : g.m_paused = false) (hside : env.sideToMove g.m_board ≠ Side.NoSide) :
    ∃ (mover : Nat) (evs : List (Event M)),
      player g (env.sideToMove g.m_board) = some mover ∧
      startTurn env g = some { g with log := g.log ++ evs } ∧
      Event.startFailed ∉ evs ∧
      (Event.playerGo mover ∈ evs ∨ ∃ move, Event.playerMakeBookMove mover move ∈ evs) ∧
      (env.bookMove (env.sideToMove g.m_board) = none → Event.playerGo mover ∈ evs) := by
  unfold startTurn
  rw [if_neg (by simp [hpause])]
  simp only
  have hpl : ∃ mover waiter, player g (env.sideToMove g.m_board) = some mover ∧
      player g (env.sideToMove g.m_board).opposite = some waiter := by
    cases hs : env.sideToMove g.m_board with
    | White => exact ⟨w, b, hw, hb⟩
    | Black => exact ⟨b, w, hb, hw⟩
    | NoSide => exact absurd hs hside
  obtain ⟨mover, waiter, h1, h2⟩ := hpl
  rw [h1, h2]
  simp only
  obtain ⟨evs, he, hev⟩ := bookMove_events env (env.sideToMove g.m_board)
    (emit [Event.humanEnabled (env.isHuman mover)] g)
  cases hbm : bookMove env (env.sideToMove g.m_board)
      (emit [Event.humanEnabled (env.isHuman mover)] g) with
  | mk mv g2 =>
    rw [hbm] at he
    simp only at he
    subst he
    cases mv with
    | none =>
      refine ⟨mover, [Event.humanEnabled (env.isHuman mover)] ++ evs ++
        [Event.playerGo mover, Event.playerStartPondering waiter], rfl, by simp [emit], ?_,
        Or.inl (by simp), fun _ => by simp⟩
      rcases hev with rfl | ⟨text, rfl⟩ <;> simp
    | some m =>
      refine ⟨mover, [Event.humanEnabled (env.isHuman mover)] ++ evs ++
        [Event.playerClearPonderState waiter, Event.playerMakeBookMove mover m], rfl,
        by simp [emit], ?_, Or.inr ⟨m, by simp⟩, ?_⟩
      · rcases hev with rfl | ⟨text, rfl⟩ <;> simp
      · intro hnb
        have := bookMove_no_book env (env.sideToMove g.m_board)
          (emit [Event.humanEnabled (env.isHuman mover)] g) hnb
        rw [hbm] at this
        cases this

/-- The run of `startGame` on a game that is not finished, has no forced opening moves and
whose players are connected and support the variant: the game is in progress from the
position of the board, and the first turn is started. -/
theorem startGame_begins (env : Env B A M) (assertions canOpen streamOk : Bool)
    (g : ChessGame B A M) (w b : Nat)
    (hf : g.m_finished = false) (hw : g.m_playerWhite = some w)
    (hb : g.m_playerBlack = some b) (hmoves : g.m_moves = [])
    (hwc : env.isDisconnected w = false) (hbc : env.isDisconnected b = false)
    (hwv : env.supportsVariant w (env.variant g.m_board) = true)
    (hbv : env.supportsVariant b (env.variant g.m_board) = true)
    (hpause : g.m_paused = false) (hside : env.sideToMove g.m_board ≠ Side.NoSide) :
    ∃ (g' : ChessGame B A M) (mover : Nat) (evs : List (Event M)),
      startGame env assertions canOpen streamOk g = some g' ∧
      player g (env.sideToMove g.m_board) = some mover ∧
      g'.m_gameInProgress = true ∧ g'.m_finished = false ∧ g'.m_board = g.m_board ∧
      g'.m_result = g.m_result ∧ g'.m_moves = [] ∧
      g'.log = g.log ++ [Event.started, Event.playerSetTimeControl w,
        Event.playerNewGame w Side.White b, Event.playerSetTimeControl b,
        Event.playerNewGame b Side.Black w] ++ evs ∧
      Event.startFailed ∉ evs ∧
      (Event.playerGo mover ∈ evs ∨ ∃ move, Event.playerMakeBookMove mover move ∈ evs) ∧
      (env.bookMove (env.sideToMove g.m_board) = none → Event.playerGo mover ∈ evs) := by
  obtain ⟨bd, adj, pw, pb, bdw, bdb, fin, prog, paused, pinit, res, mvs, scs, sfen, pgn, lout,
    lmode, pfmt, sdelay, err, lfile, lg⟩ := g
  simp only at hf hw hb hmoves hpause hside hwv hbv
  subst hf hw hb hmoves hpause
  unfold startGame
  simp only [Bool.false_eq_true, if_false, playerFails, hwc, hbc, hwv, hbv, Bool.not_true,
    Bool.or_self, emit, playForcedMoves]
  obtain ⟨P, file, hU⟩ := updateLiveFiles_frame canOpen streamOk
    ({ m_board := bd, m_adjudicator := adj, m_playerWhite := some w, m_playerBlack := some b,
       m_bookDepthWhite := bdw, m_bookDepthBlack := bdb, m_finished := false,
       m_gameInProgress := true, m_paused := false, m_pgnInitialized := pinit,
       m_result := res, m_moves := [], m_scores := scs, m_startingFen := sfen,
       m_pgn := setTag "GameStartTime".toList env.gameStartTime
         (setPlayerName Side.Black (env.name b) (setPlayerName Side.White (env.name w) pgn)),
       m_livePgnOut := lout, m_livePgnOutMode := lmode, m_pgnFormat := pfmt,
       m_startDelay := sdelay, m_error := err, liveFile := lfile,
       log := lg ++ [Event.started, Event.playerSetTimeControl w,
         Event.playerNewGame w Side.White b, Event.playerSetTimeControl b,
         Event.playerNewGame b Side.Black w] } : ChessGame B A M)
  rw [hU]
  obtain ⟨mover, evs, t1, t2, t3, t4, t5⟩ := startTurn_events env
    ({ m_board := bd, m_adjudicator := adj, m_playerWhite := some w, m_playerBlack := some b,
       m_bookDepthWhite := bdw, m_bookDepthBlack := bdb, m_finished := false,
       m_gameInProgress := true, m_paused := false, m_pgnInitialized := pinit,
       m_result := res, m_moves := [], m_scores := scs, m_startingFen := sfen,
       m_pgn := P, m_livePgnOut := lout, m_livePgnOutMode := lmode, m_pgnFormat := pfmt,
       m_startDelay := sdelay, m_error := err, liveFile := file,
       log := lg ++ [Event.started, Event.playerSetTimeControl w,
         Event.playerNewGame w Side.White b, Event.playerSetTimeControl b,
         Event.playerNewGame b Side.Black w] } : ChessGame B A M) w b rfl rfl rfl hside
  exact ⟨_, mover, evs, t2, t1, rfl, rfl, rfl, rfl, rfl, rfl, t3, t4, t5⟩

/-- C32 as stated fails: the sample game is configured with a starting position that the
rules engine rejects.  `start()` writes a warning, puts the board in its default position
(position 0, not the position 7 that the board was in) and goes on: it emits `initialized`
and `fenChanged`, reports no start failure and does not finish the match.  Once the players
are ready `startGame` runs: the game is in progress from the default position and White is
told to go. -/
theorem C32_rejected_position_still_starts :
    (sampleEnv.setFenString rejectedGame.m_board rejectedGame.m_startingFen).1 = false ∧
    ∃ g1 g2 : ChessGame Nat Nat Nat,
      start sampleEnv rejectedGame = some g1 ∧
      g1.m_board = 0 ∧ g1.m_startingFen = [] ∧ g1.m_finished = false ∧
      g1.log = [Event.queuedSyncPlayers, Event.humanEnabled false,
        Event.warning "Invalid FEN string: 8/8/8 w".toList, Event.initialized,
        Event.fenChanged "startpos".toList] ∧
      syncPlayers sampleEnv g1 = some (emit [Event.playersReady] g1) ∧
      startGame sampleEnv true true true (emit [Event.playersReady] g1) = some g2 ∧
      g2.m_gameInProgress = true ∧ g2.m_finished = false ∧ g2.m_board = 0 ∧
      Event.playerGo 1 ∈ g2.log ∧ Event.startFailed ∉ g2.log := by
  refine ⟨rfl, ?_⟩
  obtain ⟨P, hs⟩ := start_rejected sampleEnv rejectedGame 1 2 (by decide) rfl rfl rfl rfl
  obtain ⟨g2, mover, evs, h1, h2, h3, h4, h5, _, _, h8, h9, _, h11⟩ :=
    startGame_begins sampleEnv true true true
      (emit [Event.playersReady]
        { rejectedGame with
          m_result := sampleEnv.noResult,
          m_board := sampleEnv.reset
            (sampleEnv.setFenString rejectedGame.m_board rejectedGame.m_startingFen).2,
          m_startingFen := [],
          m_pgnInitialized := true,
          m_pgn := P,
          log := rejectedGame.log ++ [Event.queuedSyncPlayers, Event.humanEnabled false,
            Event.warning ("Invalid FEN string: ".toList ++ rejectedGame.m_startingFen),
            Event.initialized,
            Event.fenChanged (sampleEnv.startingFenString
              (sampleEnv.reset
                (sampleEnv.setFenString rejectedGame.m_board
                  rejectedGame.m_startingFen).2))] })
      1 2 rfl rfl rfl rfl rfl rfl rfl rfl rfl
      (by
        show (if (0 : Nat) % 2 = 0 then Side.White else Side.Black) ≠ Side.NoSide
        decide)
  have hm : mover = 1 := by
    have : some 1 = some mover := h2
    cases this
    rfl
  subst hm
  refine ⟨_, g2, hs, rfl, rfl, rfl, rfl, rfl, h1, h3, h4, h5, ?_, ?_⟩
  · rw [h8]
    exact List.mem_append_right _ (h11 rfl)
  · rw [h8]
    intro hmem
    rcases List.mem_append.1 hmem with hm1 | hm1
    · simp [emit, rejectedGame, idleGame, sampleGame] at hm1
    · exact h9 hm1

/-- C32 amended: if the rules engine rejects the configured starting position, `start()`
(run without a start delay, with both players present) reports no start failure.
`resetBoard()` writes the warning `Invalid FEN string: <fen>`, resets the board to its
default position and clears the starting FEN (for a random variant it records the FEN of the
reset board); `start()` then initialises the record and emits `initialized` and `fenChanged`,
with `syncPlayers` queued, and leaves the finished flag as it was.  When `startGame` then
runs on `playersReady` for an unfinished match without forced opening moves, with connected
players that support the variant, the game is in progress from the default position and the
first turn is started for the side to move. -/
theorem C32_rejected_position_falls_back (env : Env B A M)
    (assertions canOpen streamOk : Bool) (g : ChessGame B A M) (w b : Nat)
    (hdelay : g.m_startDelay ≤ 0) (hw : g.m_playerWhite = some w)
    (hb : g.m_playerBlack = some b) (hfen : g.m_startingFen.isEmpty = false)
    (hrej : (env.setFenString g.m_board g.m_startingFen).1 = false) :
    ∃ g1 : ChessGame B A M,
      start env g = some g1 ∧
      g1.m_board = env.reset (env.setFenString g.m_board g.m_startingFen).2 ∧
      g1.m_startingFen =
        (if env.isRandomVariant (env.reset (env.setFenString g.m_board g.m_startingFen).2)
         then env.fenString (env.reset (env.setFenString g.m_board g.m_startingFen).2)
         else []) ∧
      g1.m_result = env.noResult ∧ g1.m_finished = g.m_finished ∧
      g1.m_gameInProgress = g.m_gameInProgress ∧ g1.m_pgnInitialized = true ∧
      g1.log = g.log ++ [Event.queuedSyncPlayers, Event.humanEnabled false,
        Event.warning ("Invalid FEN string: ".toList ++ g.m_startingFen), Event.initialized,
        Event.fenChanged (env.startingFenString g1.m_board)] ∧
      (g.m_finished = false → g.m_moves = [] → g.m_paused = false →
        env.isDisconnected w = false → env.isDisconnected b = false →
        env.supportsVariant w (env.variant g1.m_board) = true →
        env.supportsVariant b (env.variant g1.m_board) = true →
        env.sideToMove g1.m_board ≠ Side.NoSide →
        ∃ (g2 : ChessGame B A M) (mover : Nat) (evs : List (Event M)),
          startGame env assertions canOpen streamOk (emit [Event.playersReady] g1) = some g2 ∧
          player g (env.sideToMove g1.m_board) = some mover ∧
          g2.m_gameInProgress = true ∧ g2.m_finished = false ∧ g2.m_board = g1.m_board ∧
          g2.log = g1.log ++ [Event.playersReady, Event.started, Event.playerSetTimeControl w,
            Event.playerNewGame w Side.White b, Event.playerSetTimeControl b,
            Event.playerNewGame b Side.Black w] ++ evs ∧
          Event.startFailed ∉ evs ∧
          (Event.playerGo mover ∈ evs ∨
            ∃ move, Event.playerMakeBookMove mover move ∈ evs)) := by
  obtain ⟨P, hs⟩ := start_rejected env g w b hdelay hw hb hfen hrej
  refine ⟨_, hs, rfl, rfl, rfl, rfl, rfl, rfl, rfl, ?_⟩
  intro hf hmoves hpause hwc hbc hwv hbv hside
  obtain ⟨g2, mover, evs, h1, h2, h3, h4, h5, _, _, h8, h9, h10, _⟩ :=
    startGame_begins env assertions canOpen streamOk
      (emit [Event.playersReady]
        { g with
          m_result := env.noResult,
          m_board := env.reset (env.setFenString g.m_board g.m_startingFen).2,
          m_startingFen :=
            if env.isRandomVariant (env.reset (env.setFenString g.m_board g.m_startingFen).2)
            then env.fenString (env.reset (env.setFenString g.m_board g.m_startingFen).2)
            else [],
          m_pgnInitialized := true,
          m_pgn := P,
          log := g.log ++ [Event.queuedSyncPlayers, Event.humanEnabled false,
            Event.warning ("Invalid FEN string: ".toList ++ g.m_startingFen),
            Event.initialized,
            Event.fenChanged (env.startingFenString
              (env.reset (env.setFenString g.m_board g.m_startingFen).2))] })
      w b hf hw hb hmoves hwc hbc hwv hbv hpause hside
  refine ⟨g2, mover, evs, h1, h2, h3, h4, h5, ?_, h9, h10⟩
  rw [h8]
  simp [emit]

/-- Witness of C32 amended: the sample game with the rejected starting position. -/
theorem C32_rejected_position_falls_back_witness :
    ∃ g1 : ChessGame Nat Nat Nat,
      start sampleEnv rejectedGame = some g1 ∧ g1.m_board = 0 ∧ g1.m_startingFen = [] ∧
      g1.m_result = unfinished ∧ g1.m_finished = false ∧ g1.m_pgnInitialized = true := by
  obtain ⟨g1, h1, h2, h3, h4, h5, _, h7, _⟩ :=
    C32_rejected_position_falls_back sampleEnv true true true rejectedGame 1 2 (by decide)
      rfl rfl rfl rfl
  exact ⟨g1, h1, h2, h3, h4, h5, h7⟩

end Game
namespace Game

open Pgn

variable {B A M : Type}

/-- The move that `bookMove` returns: the cases of the function, one by one. -/
theorem bookMove_cases (env : Env B A M) (side : Side) (g : ChessGame B A M) :
    (env.bookMove side = none ∧ bookMove env side g = (none, g)) ∨
    (∃ book, env.bookMove side = some book ∧
      ((g.m_moves.length : Int) ≥ MachineInt.wrap32 (bookDepth g side * 2) ∧
          bookMove env side g = (none, g) ∨
       (g.m_moves.length : Int) < MachineInt.wrap32 (bookDepth g side * 2) ∧
        (env.moveFromGenericMove g.m_board (book (env.key g.m_board)) = none ∧
          bookMove env side g = (none, g) ∨
         ∃ move, env.moveFromGenericMove g.m_board (book (env.key g.m_board)) = some move ∧
          (env.isLegalMove g.m_board move = false ∧
            bookMove env side g =
              (none, emit [Event.warning ("Illegal opening book move for ".toList ++
                env.sideString side ++ ": ".toList ++ env.longMoveString g.m_board move)] g) ∨
           env.isLegalMove g.m_board move = true ∧ env.isRepetition g.m_board move = true ∧
            bookMove env side g = (none, g) ∨
           env.isLegalMove g.m_board move = true ∧ env.isRepetition g.m_board move = false ∧
            bookMove env side g = (some move, g))))) := by
  unfold bookMove
  cases hb : env.bookMove side with
  | none => exact Or.inl ⟨rfl, rfl⟩
  | some book =>
    right
    refine ⟨book, rfl, ?_⟩
    simp only
    by_cases hd : (g.m_moves.length : Int) ≥ MachineInt.wrap32 (bookDepth g side * 2)
    · rw [if_pos hd]
      exact Or.inl ⟨hd, rfl⟩
    · rw [if_neg hd]
      right
      refine ⟨by omega, ?_⟩
      cases hm : env.moveFromGenericMove g.m_board (book (env.key g.m_board)) with
      | none => exact Or.inl ⟨rfl, rfl⟩
      | some move =>
        right
        refine ⟨move, rfl, ?_⟩
        simp only
        cases hl : env.isLegalMove g.m_board move with
        | false => exact Or.inl ⟨rfl, by simp⟩
        | true =>
          right
          cases hr : env.isRepetition g.m_board move with
          | true => exact Or.inl ⟨rfl, rfl, by simp⟩
          | false => exact Or.inr ⟨rfl, rfl, by simp⟩

theorem bookMove_some_frame (env : Env B A M) (side : Side) (g : ChessGame B A M) (move : M)
    (h : (bookMove env side g).1 = some move) : (bookMove env side g).2 = g := by
  rcases bookMove_cases env side g with ⟨_, h2⟩ | ⟨book, _, h2⟩
  · rw [h2]
  · rcases h2 with ⟨_, h3⟩ | ⟨_, ⟨_, h3⟩ | ⟨mv, _, ⟨_, h3⟩ | ⟨_, _, h3⟩ | ⟨_, _, h3⟩⟩⟩
    · rw [h3]
    · rw [h3]
    · rw [h3] at h; cases h
    · rw [h3]
    · rw [h3]

/-- The two ways in which `startTurn` starts a turn of a game that is not paused. -/
theorem startTurn_cases (env : Env B A M) (g : ChessGame B A M) (mover waiter : Nat)
    (hpause : g.m_paused = false)
    (hm : player g (env.sideToMove g.m_board) = some mover)
    (hwt : player g (env.sideToMove g.m_board).opposite = some waiter) :
    startTurn env g =
      match bookMove env (env.sideToMove g.m_board)
          (emit [Event.humanEnabled (env.isHuman mover)] g) with
      | (none, g2) => some (emit [Event.playerGo mover, Event.playerStartPondering waiter] g2)
      | (some move, g2) =>
        some (emit [Event.playerClearPonderState waiter,
          Event.playerMakeBookMove mover move] g2) := by
  unfold startTurn
  rw [if_neg (by simp [hpause])]
  simp only
  rw [hm, hwt]

/-- The turn that `startTurn` starts on a game that is not paused, event by event. -/
theorem startTurn_turn (env : Env B A M) (g : ChessGame B A M) (mover waiter : Nat)
    (hpause : g.m_paused = false)
    (hm : player g (env.sideToMove g.m_board) = some mover)
    (hwt : player g (env.sideToMove g.m_board).opposite = some waiter) :
    (∀ move : M,
      (bookMove env (env.sideToMove g.m_board)
        (emit [Event.humanEnabled (env.isHuman mover)] g)).1 = some move →
      startTurn env g =
        some { g with log := g.log ++ [Event.humanEnabled (env.isHuman mover),
          Event.playerClearPonderState waiter, Event.playerMakeBookMove mover move] }) ∧
    ((bookMove env (env.sideToMove g.m_board)
        (emit [Event.humanEnabled (env.isHuman mover)] g)).1 = none →
      ∃ warnings : List (Event M),
        (warnings = [] ∨ ∃ text, warnings = [Event.warning text]) ∧
        startTurn env g =
          some { g with log := g.log ++ [Event.humanEnabled (env.isHuman mover)] ++
            warnings ++ [Event.playerGo mover, Event.playerStartPondering waiter] }) := by
  have hst := startTurn_cases env g mover waiter hpause hm hwt
  obtain ⟨evs, he, hev⟩ := bookMove_events env (env.sideToMove g.m_board)
    (emit [Event.humanEnabled (env.isHuman mover)] g)
  cases hbm : bookMove env (env.sideToMove g.m_board)
      (emit [Event.humanEnabled (env.isHuman mover)] g) with
  | mk mv g2 =>
    rw [hbm] at hst he
    simp only at hst he
    constructor
    · intro move hmove
      simp only at hmove
      subst hmove
      simp only at hst
      rw [hst, he]
      have hg2 : g2 = emit [Event.humanEnabled (env.isHuman mover)] g := by
        have := bookMove_some_frame env (env.sideToMove g.m_board)
          (emit [Event.humanEnabled (env.isHuman mover)] g) move (by rw [hbm])
        rw [hbm] at this
        exact this
      rw [he] at hg2
      have hlog := congrArg ChessGame.log hg2
      simp only [emit] at hlog ⊢
      rw [hlog]
      simp
    · intro hnone
      simp only at hnone
      subst hnone
      simp only at hst
      refine ⟨evs, hev, ?_⟩
      rw [hst, he]
      simp [emit]

/-- A paused game: `startTurn` returns at once. -/
theorem startTurn_paused (env : Env B A M) (g : ChessGame B A M) (hpause : g.m_paused = true) :
    startTurn env g = some g := by
  unfold startTurn
  rw [if_pos hpause]

theorem wrap32_double (d : Int) (hlo : -(2 : Int) ^ 30 ≤ d) (hhi : d < (2 : Int) ^ 30) :
    MachineInt.wrap32 (d * 2) = d * 2 := by
  unfold MachineInt.wrap32
  omega

/-- C35 as stated fails: the sample game is paused and has no opening book, so `bookMove`
returns the null move for White, the side to move; `startTurn` returns at once and calls
neither `go()` on White nor `startPondering()` on Black: nothing is added to the log. -/
theorem C35_paused_turn_is_not_started :
    pausedGame.m_paused = true ∧
    sampleEnv.sideToMove pausedGame.m_board = Side.White ∧
    bookMove sampleEnv Side.White pausedGame = (none, pausedGame) ∧
    startTurn sampleEnv pausedGame = some pausedGame ∧
    pausedGame.log = [] :=
  ⟨rfl, rfl, rfl, rfl, rfl⟩

/-- C35 amended: for a side that is not null and a book depth whose double is an `int`,
`bookMove(side)` returns a move exactly when a book is configured for the side, fewer than
`2 * bookDepth[side]` plies have been played, and the move that the book suggests for the
current position is not null, is legal and does not repeat a position; the move returned is
that suggestion, and the game is left as it is.  Otherwise it returns the null move; for an
illegal suggestion it writes a warning.  On a game that is not paused, `startTurn` clears the
ponder state of the opponent and sends the move to the side to move when `bookMove` returns
a move, and `go()` and `startPondering()` are not called; when `bookMove` returns the null
move, it calls `go()` on the side to move and `startPondering()` on the other side.  On a
paused game `startTurn` does nothing. -/
theorem C35_book_move_or_normal_turn (env : Env B A M) (g : ChessGame B A M) :
    (∀ (side : Side) (move : M), side ≠ Side.NoSide →
      -(2 : Int) ^ 30 ≤ bookDepth g side → bookDepth g side < (2 : Int) ^ 30 →
      ((bookMove env side g).1 = some move ↔
        ∃ book, env.bookMove side = some book ∧
          (g.m_moves.length : Int) < bookDepth g side * 2 ∧
          env.moveFromGenericMove g.m_board (book (env.key g.m_board)) = some move ∧
          env.isLegalMove g.m_board move = true ∧ env.isRepetition g.m_board move = false)) ∧
    (∀ (side : Side) (move : M), side ≠ Side.NoSide → (bookMove env side g).1 = some move →
      (bookMove env side g).2 = g) ∧
    (∀ side : Side, side ≠ Side.NoSide → (bookMove env side g).1 = none →
      (bookMove env side g).2 = g ∨
      ∃ book move, env.bookMove side = some book ∧
        env.moveFromGenericMove g.m_board (book (env.key g.m_board)) = some move ∧
        env.isLegalMove g.m_board move = false ∧
        (bookMove env side g).2 =
          emit [Event.warning ("Illegal opening book move for ".toList ++
            env.sideString side ++ ": ".toList ++ env.longMoveString g.m_board move)] g) ∧
    (∀ mover waiter : Nat, g.m_paused = false →
      player g (env.sideToMove g.m_board) = some mover →
      player g (env.sideToMove g.m_board).opposite = some waiter →
      (∀ move : M,
        (bookMove env (env.sideToMove g.m_board)
          (emit [Event.humanEnabled (env.isHuman mover)] g)).1 = some move →
        startTurn env g =
          some { g with log := g.log ++ [Event.humanEnabled (env.isHuman mover),
            Event.playerClearPonderState waiter, Event.playerMakeBookMove mover move] }) ∧
      ((bookMove env (env.sideToMove g.m_board)
          (emit [Event.humanEnabled (env.isHuman mover)] g)).1 = none →
        ∃ warnings : List (Event M),
          (warnings = [] ∨ ∃ text, warnings = [Event.warning text]) ∧
          startTurn env g =
            some { g with log := g.log ++ [Event.humanEnabled (env.isHuman mover)] ++
              warnings ++ [Event.playerGo mover, Event.playerStartPondering waiter] })) ∧
    (g.m_paused = true → startTurn env g = some g) := by
  refine ⟨?_, ?_, ?_, ?_, startTurn_paused env g⟩
  · intro side move _ hlo hhi
    have hwd := wrap32_double (bookDepth g side) hlo hhi
    rcases bookMove_cases env side g with ⟨h1, h2⟩ | ⟨book, h1, h2⟩
    · rw [h2]
      constructor
      · intro h
        cases h
      · rintro ⟨book, hb, _⟩
        rw [h1] at hb
        cases hb
    · rw [hwd] at h2
      constructor
      · intro h
        rcases h2 with ⟨_, h3⟩ | ⟨hd, ⟨_, h3⟩ | ⟨mv, hmv, ⟨_, h3⟩ | ⟨_, _, h3⟩ | ⟨hl, hr, h3⟩⟩⟩
        · rw [h3] at h; cases h
        · rw [h3] at h; cases h
        · rw [h3] at h; cases h
        · rw [h3] at h; cases h
        · rw [h3] at h
          simp only [Option.some.injEq] at h
          subst h
          exact ⟨book, h1, hd, hmv, hl, hr⟩
      · rintro ⟨book', hb, hd, hmv, hl, hr⟩
        rw [h1, Option.some.injEq] at hb
        subst hb
        rcases h2 with ⟨hd', _⟩ | ⟨_, ⟨hn, _⟩ | ⟨mv, hmv', ⟨hl', _⟩ | ⟨_, hr', _⟩ | ⟨_, _, h3⟩⟩⟩
        · omega
        · rw [hn] at hmv; cases hmv
        · rw [hmv', Option.some.injEq] at hmv
          subst hmv
          rw [hl] at hl'
          cases hl'
        · rw [hmv', Option.some.injEq] at hmv
          subst hmv
          rw [hr] at hr'
          cases hr'
        · rw [hmv', Option.some.injEq] at hmv
          subst hmv
          rw [h3]
  · intro side move _ h
    exact bookMove_some_frame env side g move h
  · intro side _ _
    rcases bookMove_cases env side g with ⟨_, h2⟩ | ⟨book, hb, h2⟩
    · rw [h2]
      exact Or.inl rfl
    · rcases h2 with ⟨_, h3⟩ | ⟨_, ⟨_, h3⟩ | ⟨mv, hmv, ⟨hl, h3⟩ | ⟨_, _, h3⟩ | ⟨_, _, h3⟩⟩⟩
      · rw [h3]; exact Or.inl rfl
      · rw [h3]; exact Or.inl rfl
      · rw [h3]; exact Or.inr ⟨book, mv, hb, hmv, hl, rfl⟩
      · rw [h3]; exact Or.inl rfl
      · rw [h3]; exact Or.inl rfl
  · intro mover waiter hpause hm hwt
    exact startTurn_turn env g mover waiter hpause hm hwt

/-- Witness of C35 amended: with a book of depth one full move, White's first turn is a book
move: the book suggests the move 5 at the starting position; Black's ponder state is cleared
and White is sent the move. -/
theorem C35_book_move_or_normal_turn_witness :
    (bookMove bookEnv Side.White bookGame).1 = some 5 ∧
    startTurn bookEnv bookGame =
      some { bookGame with log := bookGame.log ++ [Event.humanEnabled (bookEnv.isHuman 1),
        Event.playerClearPonderState 2, Event.playerMakeBookMove 1 5] } := by
  have h := C35_book_move_or_normal_turn bookEnv bookGame
  have hb : (bookMove bookEnv Side.White bookGame).1 = some 5 :=
    (h.1 Side.White 5 (by decide) (by decide) (by decide)).2
      ⟨fun key => key + 5, rfl, by decide, rfl, rfl, rfl⟩
  exact ⟨hb, (h.2.2.2.1 1 2 rfl rfl rfl).1 5 rfl⟩

end Game
namespace Pgn

theorem SameButLastComment_refl (a : List MoveData) : SameButLastComment a a :=
  ⟨rfl, rfl⟩

theorem SameButLastComment_trans {a b c : List MoveData} (h1 : SameButLastComment a b)
    (h2 : SameButLastComment b c) : SameButLastComment a c :=
  ⟨h1.1.trans h2.1, h1.2.trans h2.2⟩

theorem setResultDescription_same (description : QString) (g : PgnGame) :
    SameButLastComment (setResultDescription description g).m_moves g.m_moves := by
  unfold setResultDescription
  split
  · exact SameButLastComment_refl _
  · split
    · exact SameButLastComment_refl _
    · rename_i last hl
      have hne : g.m_moves ≠ [] := by
        intro e
        rw [e] at hl
        cases hl
      have hsplit : g.m_moves = g.m_moves.dropLast ++ [last] := by
        have := List.dropLast_append_getLast hne
        rw [List.getLast?_eq_getLast _ hne, Option.some.injEq] at hl
        rw [hl] at this
        exact this.symm
      constructor
      · simp only [List.dropLast_concat]
      · simp only [List.map_append, List.map_cons, List.map_nil]
        have e := congrArg (List.map (fun d : MoveData => (d.key, d.move, d.moveString))) hsplit
        simp only [List.map_append, List.map_cons, List.map_nil] at e
        exact e.symm

/-- A move list that agrees with `old ++ [md]` up to the comment of the last entry is `old`
followed by one entry with the key, the move and the move string of `md`. -/
theorem SameButLastComment_concat {a old : List MoveData} {md : MoveData}
    (h : SameButLastComment a (old ++ [md])) :
    ∃ last : MoveData, a = old ++ [last] ∧ last.key = md.key ∧ last.move = md.move ∧
      last.moveString = md.moveString := by
  obtain ⟨h1, h2⟩ := h
  rw [List.dropLast_concat] at h1
  have hlen : a.length = old.length + 1 := by
    have := congrArg List.length h2
    simpa using this
  have hne : a ≠ [] := by
    intro e
    rw [e] at hlen
    simp at hlen
  have hsplit := List.dropLast_append_getLast hne
  rw [h1] at hsplit
  refine ⟨a.getLast hne, hsplit.symm, ?_⟩
  rw [← hsplit] at h2
  simp only [List.map_append, List.map_cons, List.map_nil] at h2
  have h3 := List.append_inj_right h2 (by simp)
  simp only [List.cons.injEq, Prod.mk.injEq, and_true] at h3
  exact h3

end Pgn

namespace Game

open Pgn

variable {B A M : Type}

theorem scoreAt_setScore_self : ∀ (s : List (Nat × Int)) (ply : Nat) (score : Int),
    scoreAt (setScore s ply score) ply = some score := by
  intro s
  induction s with
  | nil => intro ply score; simp [setScore, scoreAt]
  | cons kv rest ih =>
    intro ply score
    unfold setScore
    by_cases h1 : kv.1 = ply
    · rw [if_pos h1]
      simp [scoreAt]
    · rw [if_neg h1]
      by_cases h2 : ply < kv.1
      · rw [if_pos h2]
        simp [scoreAt]
      · rw [if_neg h2]
        unfold scoreAt
        rw [if_neg h1]
        exact ih ply score

theorem scoreAt_setScore_other : ∀ (s : List (Nat × Int)) (ply other : Nat) (score : Int),
    other ≠ ply → scoreAt (setScore s ply score) other = scoreAt s other := by
  intro s
  induction s with
  | nil =>
    intro ply other score h
    simp only [setScore, scoreAt]
    rw [if_neg (fun e => h e.symm)]
  | cons kv rest ih =>
    intro ply other score h
    have hne : ¬ ply = other := fun e => h e.symm
    unfold setScore
    by_cases h1 : kv.1 = ply
    · rw [if_pos h1]
      have e1 : scoreAt ((ply, score) :: rest) other = scoreAt rest other := by
        simp only [scoreAt]
        rw [if_neg hne]
      have e2 : scoreAt (kv :: rest) other = scoreAt rest other := by
        simp only [scoreAt]
        rw [if_neg (by rw [h1]; exact hne)]
      rw [e1, e2]
    · rw [if_neg h1]
      by_cases h2 : ply < kv.1
      · rw [if_pos h2]
        have e1 : scoreAt ((ply, score) :: kv :: rest) other = scoreAt (kv :: rest) other := by
          simp only [scoreAt]
          rw [if_neg hne]
        rw [e1]
      · rw [if_neg h2]
        by_cases h3 : kv.1 = other
        · simp only [scoreAt]
          rw [if_pos h3, if_pos h3]
        · have e1 : scoreAt (kv :: setScore rest ply score) other =
              scoreAt (setScore rest ply score) other := by
            simp only [scoreAt]
            rw [if_neg h3]
          have e2 : scoreAt (kv :: rest) other = scoreAt rest other := by
            simp only [scoreAt]
            rw [if_neg h3]
          rw [e1, e2]
          exact ih ply other score h

theorem initializePgn_same (env : Env B A M) (g g' : ChessGame B A M)
    (h : initializePgn env g = some g') :
    SameButLastComment g'.m_pgn.m_moves g.m_pgn.m_moves := by
  unfold initializePgn at h
  split at h
  · simp only [Option.some.injEq] at h
    rw [← h]
    exact SameButLastComment_refl _
  · split at h
    · simp only [Option.some.injEq] at h
      rw [← h]
      refine SameButLastComment_trans (setResultDescription_same _ _) ?_
      rw [foldl_setTag_moves, setResult_moves, setPlayerRating_moves, setPlayerRating_moves,
        setPlayerName_moves, setPlayerName_moves, setTag_moves, setStartingFenString_moves,
        setVariant_moves]
      exact SameButLastComment_refl _
    · cases h

theorem stop_same (env : Env B A M) (e : Bool) (g g' : ChessGame B A M)
    (h : stop env e g = some g') :
    SameButLastComment g'.m_pgn.m_moves g.m_pgn.m_moves := by
  unfold stop at h
  by_cases hf : g.m_finished = true
  · rw [if_pos hf, Option.some.injEq] at h
    rw [← h]
    exact SameButLastComment_refl _
  · rw [if_neg hf] at h
    simp only at h
    split at h
    · simp only [Option.some.injEq] at h
      rw [← h]
      exact SameButLastComment_refl _
    · split at h
      · cases h
      · rename_i g2 hi
        have h2 := initializePgn_same env _ g2 hi
        split at h
        · obtain ⟨evs, hs⟩ := syncPlayers_frame env _ g' h
          rw [hs]
          refine SameButLastComment_trans ?_ h2
          show SameButLastComment
            (setTag "TerminationDetails".toList (env.shortDescription g2.m_result)
              (setResultDescription g2.m_result.description
                (setResult env.toShortString g2.m_result
                  (setTag "GameDuration".toList env.gameDuration
                    (setTag "GameEndTime".toList env.gameEndTime
                      (setTag "PlyCount".toList (number g2.m_pgn.m_moves.length)
                        g2.m_pgn)))))).m_moves g2.m_pgn.m_moves
          rw [setTag_moves]
          refine SameButLastComment_trans (setResultDescription_same _ _) ?_
          rw [setResult_moves, setTag_moves, setTag_moves, setTag_moves]
          exact SameButLastComment_refl _
        · cases h

theorem recordMove_progress (env : Env B A M) (eval : MoveEvaluation) (move : M)
    (g g' : ChessGame B A M) (h : recordMove env eval move g = some g') :
    g'.m_gameInProgress = g.m_gameInProgress := by
  unfold recordMove at h
  simp only at h
  split at h
  · cases h
  · simp only [Option.some.injEq] at h
    rw [← h]
    unfold evalString addPgnMove emit
    dsimp only
    split <;> split <;> rfl

theorem stop_result (env : Env B A M) (e : Bool) (g g' : ChessGame B A M)
    (h : stop env e g = some g') (hf : g.m_finished = false)
    (hp : g.m_gameInProgress = true) : g'.m_result = g.m_result := by
  unfold stop at h
  rw [if_neg (by simp [hf])] at h
  simp only at h
  rw [if_neg (by simp [emit, hp])] at h
  split at h
  · cases h
  · rename_i g2 hi
    obtain ⟨i, P, hg2⟩ := initializePgn_frame env _ g2 hi
    subst hg2
    split at h
    · obtain ⟨evs, hs⟩ := syncPlayers_frame env _ g' h
      rw [hs]
      rfl
    · cases h

theorem stop_fields (env : Env B A M) (e : Bool) (g g' : ChessGame B A M)
    (h : stop env e g = some g') :
    g'.m_scores = g.m_scores ∧ g'.m_moves = g.m_moves ∧ g'.m_board = g.m_board := by
  unfold stop at h
  by_cases hf : g.m_finished = true
  · rw [if_pos hf, Option.some.injEq] at h
    rw [← h]
    exact ⟨rfl, rfl, rfl⟩
  · rw [if_neg hf] at h
    simp only at h
    split at h
    · simp only [Option.some.injEq] at h
      rw [← h]
      exact ⟨rfl, rfl, rfl⟩
    · split at h
      · cases h
      · rename_i g2 hi
        obtain ⟨i, P, hg2⟩ := initializePgn_frame env _ g2 hi
        subst hg2
        split at h
        · obtain ⟨evs, hs⟩ := syncPlayers_frame env _ g' h
          rw [hs]
          exact ⟨rfl, rfl, rfl⟩
        · cases h

theorem updateLiveFiles_fields (canOpen streamOk : Bool) (g : ChessGame B A M) :
    (updateLiveFiles canOpen streamOk g).m_scores = g.m_scores ∧
    (updateLiveFiles canOpen streamOk g).m_moves = g.m_moves ∧
    (updateLiveFiles canOpen streamOk g).m_board = g.m_board ∧
    (updateLiveFiles canOpen streamOk g).m_result = g.m_result ∧
    (updateLiveFiles canOpen streamOk g).m_pgn.m_moves = g.m_pgn.m_moves := by
  unfold updateLiveFiles
  split
  · exact ⟨rfl, rfl, rfl, rfl, rfl⟩
  · split
    · exact ⟨rfl, rfl, rfl, rfl, writeFile_moves _ _ _ _ _ _⟩
    · exact ⟨rfl, rfl, rfl, rfl, rfl⟩

/-- The board after the accounting of a move, as the sequence of `makeMove` and `undoMove`
calls on the rules engine, whatever these functions do. -/
theorem recordMove_board (env : Env B A M) (eval : MoveEvaluation) (move : M)
    (g g8 : ChessGame B A M) (h : recordMove env eval move g = some g8) :
    g8.m_board =
      env.makeMove
        (env.undoMove (env.makeMove
          (env.undoMove (env.makeMove
            (if eval.isEmpty then g.m_board
             else env.undoMove (env.makeMove g.m_board move)) move)) move)) move := by
  unfold recordMove at h
  simp only at h
  split at h
  · cases h
  · simp only [Option.some.injEq] at h
    rw [← h]
    unfold evalString addPgnMove emit
    dsimp only
    by_cases he : eval.isEmpty = true
    · simp only [he, if_true]
      split <;> rfl
    · simp only [he, if_false, Bool.false_eq_true]
      split <;> rfl

/-- The record and the scores after the accounting of a move, when taking back a move
restores the position. -/
theorem recordMove_record (env : Env B A M) (eval : MoveEvaluation) (move : M)
    (g g8 : ChessGame B A M)
    (hundo : ∀ (x : B) (m : M), env.undoMove (env.makeMove x m) = x)
    (h : recordMove env eval move g = some g8) :
    g8.m_pgn =
      addMove env.ecoFind
        { key := env.key g.m_board, move := env.genericMove g.m_board move,
          moveString := env.moveString g.m_board move,
          comment := (evalString env eval move g).1 }
        (env.key (env.makeMove g.m_board move)) env.addEco g.m_pgn ∧
    g8.m_scores = setScore g.m_scores g.m_moves.length eval.score ∧
    g8.m_moves = g.m_moves ++ [move] ∧
    g8.m_board = env.makeMove g.m_board move := by
  have hb := recordMove_board env eval move g g8 h
  simp only [hundo, ite_self] at hb
  refine ⟨?_, ?_, ?_, hb⟩
  · unfold recordMove at h
    simp only at h
    split at h
    · cases h
    · simp only [Option.some.injEq] at h
      rw [← h]
      unfold evalString addPgnMove emit
      dsimp only
      by_cases he : eval.isEmpty = true
      · simp only [he, if_true]
        split <;> rfl
      · simp only [he, if_false, Bool.false_eq_true, hundo]
        split <;> rfl
  · unfold recordMove at h
    simp only at h
    split at h
    · cases h
    · simp only [Option.some.injEq] at h
      rw [← h]
      unfold evalString addPgnMove emit
      dsimp only
      split <;> split <;> rfl
  · unfold recordMove at h
    simp only at h
    split at h
    · cases h
    · simp only [Option.some.injEq] at h
      rw [← h]
      unfold evalString addPgnMove emit
      dsimp only
      split <;> split <;> rfl

/-- An accepted move is processed to the end: `onMoveMade` returns, after the accounting of
the move and then either the next turn or the stop of the match. -/
theorem onMoveMade_returns (env : Env B A M) (assertions canOpen streamOk : Bool)
    (sender : Nat) (eval : MoveEvaluation) (move : M) (g : ChessGame B A M) (w b : Nat)
    (hprog : g.m_gameInProgress = true) (hlegal : env.isLegalMove g.m_board move = true)
    (hfin : g.m_finished = false) (hturn : some sender = playerToMove env g)
    (hw : g.m_playerWhite = some w) (hb : g.m_playerBlack = some b)
    (hundo : ∀ (x : B) (m : M), env.undoMove (env.makeMove x m) = x)
    (hnext : env.sideToMove (env.makeMove g.m_board move) ≠ Side.NoSide) :
    ∃ g8 gA gB : ChessGame B A M,
      recordMove env eval move g = some g8 ∧
      onMoveMade env assertions canOpen streamOk sender eval move g =
        some (updateLiveFiles canOpen streamOk gB) ∧
      ((env.isNone g8.m_result = true ∧ emitLastMove env g8 = some gA ∧
          startTurn env gA = some gB) ∨
       (env.isNone g8.m_result = false ∧ stop env false g8 = some gA ∧
          emitLastMove env gA = some gB)) := by
  have hside : env.sideToMove g.m_board ≠ Side.NoSide := by
    intro hs
    unfold playerToMove at hturn
    rw [if_pos hs] at hturn
    cases hturn
  obtain ⟨waiter, P, hrec, hPne⟩ := recordMove_shape env eval move g w b hw hb hundo hside
  rw [onMoveMade_accepted env assertions canOpen streamOk sender eval move g hprog hlegal hturn,
    hrec]
  generalize hg8 : ({ g with
      m_scores := setScore g.m_scores g.m_moves.length eval.score,
      m_moves := g.m_moves ++ [move],
      m_pgn := P,
      m_board := env.makeMove g.m_board move,
      m_result :=
        if env.isNone (env.result (env.makeMove g.m_board move)) then
          env.adjudicatorResult (env.addEval
            (if env.reversibleMoveCount (env.makeMove g.m_board move) = 0 then
              env.resetDrawMoveCount g.m_adjudicator else g.m_adjudicator)
            (env.makeMove g.m_board move) eval)
        else env.result (env.makeMove g.m_board move),
      m_adjudicator :=
        if env.isNone (env.result (env.makeMove g.m_board move)) then
          env.addEval
            (if env.reversibleMoveCount (env.makeMove g.m_board move) = 0 then
              env.resetDrawMoveCount g.m_adjudicator else g.m_adjudicator)
            (env.makeMove g.m_board move) eval
        else g.m_adjudicator,
      log := g.log ++ [Event.playerMakeMove waiter move] } : ChessGame B A M) = g8
  have e1 : g8.m_board = env.makeMove g.m_board move := by rw [← hg8]
  have e3 : g8.m_finished = false := by rw [← hg8]; exact hfin
  have e4 : g8.m_gameInProgress = true := by rw [← hg8]; exact hprog
  have e5 : g8.m_playerWhite = some w := by rw [← hg8]; exact hw
  have e6 : g8.m_playerBlack = some b := by rw [← hg8]; exact hb
  have e7 : g8.m_pgn.m_moves ≠ [] := by rw [← hg8]; exact hPne
  clear hg8
  simp only
  by_cases hR : env.isNone g8.m_result = true
  · rw [if_pos hR]
    obtain ⟨evs1, hA⟩ := emitLastMove_some env g8 e7
    obtain ⟨evs2, hB⟩ := startTurn_some env { g8 with log := g8.log ++ evs1 } w b e5 e6
      (by rw [e1] at *; exact hnext)
    rw [hA]
    simp only
    rw [hB]
    exact ⟨g8, _, _, rfl, rfl, Or.inl ⟨hR, hA, hB⟩⟩
  · rw [if_neg hR]
    have hR' : env.isNone g8.m_result = false := by simpa using hR
    obtain ⟨i, P1, evs1, hS, hlen, _⟩ := stop_running env false g8 w b e3 e4 e5 e6
    have hne1 : P1.m_moves ≠ [] := by
      intro h0
      rw [h0] at hlen
      exact e7 (List.length_eq_zero.1 hlen.symm)
    obtain ⟨evs2, hB⟩ := emitLastMove_some env
      { g8 with m_finished := true, m_gameInProgress := false, m_pgnInitialized := i,
                m_pgn := P1, log := g8.log ++ evs1 } hne1
    rw [hS]
    simp only
    rw [hB]
    exact ⟨g8, _, _, rfl, rfl, Or.inr ⟨hR', hS, hB⟩⟩

/-- C34: on an accepted move (game in progress and not finished, legal move, made by the
player to move, both players present, a side to move after the move) the accounting of
`onMoveMade` calls `makeMove` four times and `undoMove` three times, in pairs: for the
annotation in `evalString` (when the evaluation is not empty), for the record entry in
`addPgnMove` and for the result lookup, each `makeMove` is followed by its `undoMove` before
the final `makeMove`.  When taking back a move restores the position, `onMoveMade` returns
and has stored the mover's evaluation score under the key equal to the ply index of the
move, leaving the other scores as they were; the in-memory move list and the move list of
the record have each grown by exactly one entry, the move and its record entry, whose
comment is the annotation unless the match stops; and the position is the one after that
one move. -/
theorem C34_accepted_move_is_recorded (env : Env B A M) (assertions canOpen streamOk : Bool)
    (sender : Nat) (eval : MoveEvaluation) (move : M) (g : ChessGame B A M) (w b : Nat)
    (hprog : g.m_gameInProgress = true) (hlegal : env.isLegalMove g.m_board move = true)
    (hfin : g.m_finished = false) (hturn : some sender = playerToMove env g)
    (hw : g.m_playerWhite = some w) (hb : g.m_playerBlack = some b)
    (hnext : env.sideToMove (env.makeMove g.m_board move) ≠ Side.NoSide) :
    (∀ g8 : ChessGame B A M, recordMove env eval move g = some g8 →
      g8.m_board =
        env.makeMove
          (env.undoMove (env.makeMove
            (env.undoMove (env.makeMove
              (if eval.isEmpty then g.m_board
               else env.undoMove (env.makeMove g.m_board move)) move)) move)) move) ∧
    ((∀ (x : B) (m : M), env.undoMove (env.makeMove x m) = x) →
      ∃ (g' : ChessGame B A M) (last : MoveData),
        onMoveMade env assertions canOpen streamOk sender eval move g = some g' ∧
        scoreAt g'.m_scores g.m_moves.length = some eval.score ∧
        (∀ ply : Nat, ply ≠ g.m_moves.length →
          scoreAt g'.m_scores ply = scoreAt g.m_scores ply) ∧
        g'.m_moves = g.m_moves ++ [move] ∧
        g'.m_pgn.m_moves = g.m_pgn.m_moves ++ [last] ∧
        last.key = env.key g.m_board ∧ last.move = env.genericMove g.m_board move ∧
        last.moveString = env.moveString g.m_board move ∧
        (env.isNone g'.m_result = true → last.comment = (evalString env eval move g).1) ∧
        g'.m_board = env.makeMove g.m_board move) := by
  refine ⟨fun g8 h => recordMove_board env eval move g g8 h, ?_⟩
  intro hundo
  obtain ⟨g8, gA, gB, hrec, hon, hbr⟩ := onMoveMade_returns env assertions canOpen streamOk
    sender eval move g w b hprog hlegal hfin hturn hw hb hundo hnext
  obtain ⟨r1, r2, r3, r4⟩ := recordMove_record env eval move g g8 hundo hrec
  obtain ⟨u1, u2, u3, u4, u5⟩ := updateLiveFiles_fields canOpen streamOk gB
  have hP8 : g8.m_pgn.m_moves = g.m_pgn.m_moves ++
      [{ key := env.key g.m_board, move := env.genericMove g.m_board move,
         moveString := env.moveString g.m_board move,
         comment := (evalString env eval move g).1 }] := by
    rw [r1, addMove_moves]
  rcases hbr with ⟨hR, hA, hB⟩ | ⟨hR, hS, hB⟩
  · obtain ⟨evs1, eA⟩ := emitLastMove_frame env g8 gA hA
    obtain ⟨evs2, eB⟩ := startTurn_frame env gA gB hB
    have hgB : gB = { g8 with log := g8.log ++ evs1 ++ evs2 } := by
      rw [eB, eA]
    refine ⟨_, MoveData.mk (env.key g.m_board) (env.genericMove g.m_board move)
        (env.moveString g.m_board move) (evalString env eval move g).1,
      hon, ?_, ?_, ?_, ?_, rfl, rfl, rfl, fun _ => rfl, ?_⟩
    · rw [u1, hgB]
      show scoreAt g8.m_scores g.m_moves.length = some eval.score
      rw [r2]
      exact scoreAt_setScore_self _ _ _
    · intro ply hply
      rw [u1, hgB]
      show scoreAt g8.m_scores ply = scoreAt g.m_scores ply
      rw [r2]
      exact scoreAt_setScore_other _ _ _ _ hply
    · rw [u2, hgB]
      exact r3
    · rw [u5, hgB]
      exact hP8
    · rw [u3, hgB]
      exact r4
  · obtain ⟨evs2, eB⟩ := emitLastMove_frame env gA gB hB
    obtain ⟨s1, s2, s3⟩ := stop_fields env false g8 gA hS
    have hsame := stop_same env false g8 gA hS
    rw [hP8] at hsame
    obtain ⟨last, l1, l2, l3, l4⟩ := SameButLastComment_concat hsame
    refine ⟨_, last, hon, ?_, ?_, ?_, ?_, l2, l3, l4, ?_, ?_⟩
    · rw [u1, eB]
      show scoreAt gA.m_scores g.m_moves.length = some eval.score
      rw [s1, r2]
      exact scoreAt_setScore_self _ _ _
    · intro ply hply
      rw [u1, eB]
      show scoreAt gA.m_scores ply = scoreAt g.m_scores ply
      rw [s1, r2]
      exact scoreAt_setScore_other _ _ _ _ hply
    · rw [u2, eB]
      show gA.m_moves = g.m_moves ++ [move]
      rw [s2]
      exact r3
    · rw [u5, eB]
      exact l1
    · intro hnone
      rw [u4, eB] at hnone
      exfalso
      have hAres : gA.m_result = g8.m_result := stop_result env false g8 gA hS
        (by
          have := recordMove_finished env eval move g g8 hrec
          rw [this]
          exact hfin)
        (by
          have := recordMove_progress env eval move g g8 hrec
          rw [this]
          exact hprog)
      change env.isNone gA.m_result = true at hnone
      rw [hAres, hR] at hnone
      cases hnone
    · rw [u3, eB]
      show gA.m_board = env.makeMove g.m_board move
      rw [s3]
      exact r4

/-- Witness of C34: White (player 1) makes the first move of the sample game with an
evaluation of 25 centipawns; the score is stored under ply 0 and the record has one entry. -/
theorem C34_accepted_move_is_recorded_witness :
    ∃ (g' : ChessGame Nat Nat Nat) (last : MoveData),
      onMoveMade sampleEnv true true true 1 sampleEval 0 sampleGame = some g' ∧
      scoreAt g'.m_scores 0 = some 25 ∧ g'.m_moves = [0] ∧ g'.m_pgn.m_moves = [last] ∧
      last.moveString = "m0".toList ∧ g'.m_board = 1 := by
  obtain ⟨g', last, h1, h2, _, h4, h5, _, _, h8, _, h10⟩ :=
    (C34_accepted_move_is_recorded sampleEnv true true true 1 sampleEval 0 sampleGame 1 2
      rfl rfl rfl (by decide) rfl rfl (by decide)).2 (fun x m => by
        show x + 1 - 1 = x
        omega)
  exact ⟨g', last, h1, h2, h4, h5, h8, h10⟩

end Game
namespace Game

open Pgn

variable {B A M : Type}

/-- C26 as stated fails: the sample game is paused when White (player 1) makes its first
move.  The move is accepted, neither the rules engine nor the adjudicator gives a result and
the match is not finished, but no turn is started: the move is sent to Black and announced,
and neither `go()` nor `startPondering()` nor a book move follows. -/
theorem C26_paused_match_starts_no_turn :
    pausedGame.m_gameInProgress = true ∧ pausedGame.m_finished = false ∧
    sampleEnv.isLegalMove pausedGame.m_board 0 = true ∧
    some 1 = playerToMove sampleEnv pausedGame ∧
    ∃ g' : ChessGame Nat Nat Nat,
      onMoveMade sampleEnv true true true 1 sampleEval 0 pausedGame = some g' ∧
      sampleEnv.isNone g'.m_result = true ∧ g'.m_finished = false ∧
      g'.log = [Event.playerMakeMove 2 0, Event.pgnMove, Event.scoreChanged 0 25,
        Event.moveMade 0 "m0".toList "d=10".toList] :=
  ⟨rfl, rfl, rfl, rfl, _, rfl, rfl, rfl, rfl⟩

/-- C26 amended: on an accepted move (game in progress and not finished, legal move, made by
the player to move, both players present, taking back a move restores the position, and the
position after the move has a side to move), `onMoveMade` returns; the position is the one
after the move and the move is logged.  If the rules engine's result for that position is
not none, it is the match result and the adjudicator is left as it was.  If it is none, the
adjudicator, after `resetDrawMoveCount` when the reversible-move count is 0, is fed the
evaluation, and the match result is the adjudicator's result.  The match is finished, and no
longer in progress, exactly when the resulting result is not none: then `stop` is run.
Otherwise `startTurn` is run: on a match that is not paused it starts the next turn, with a
book move sent to the side to move and the ponder state of the other side cleared, or with
`go()` on the side to move and `startPondering()` on the other side; on a paused match it
starts nothing. -/
theorem C26_result_of_accepted_move (env : Env B A M) (assertions canOpen streamOk : Bool)
    (sender : Nat) (eval : MoveEvaluation) (move : M) (g : ChessGame B A M) (w b : Nat)
    (hprog : g.m_gameInProgress = true) (hlegal : env.isLegalMove g.m_board move = true)
    (hfin : g.m_finished = false) (hturn : some sender = playerToMove env g)
    (hw : g.m_playerWhite = some w) (hb : g.m_playerBlack = some b)
    (hundo : ∀ (x : B) (m : M), env.undoMove (env.makeMove x m) = x)
    (hnext : env.sideToMove (env.makeMove g.m_board move) ≠ Side.NoSide) :
    ∃ g', onMoveMade env assertions canOpen streamOk sender eval move g = some g' ∧
      g'.m_board = env.makeMove g.m_board move ∧ g'.m_moves = g.m_moves ++ [move] ∧
      (env.isNone (env.result (env.makeMove g.m_board move)) = false →
        g'.m_result = env.result (env.makeMove g.m_board move) ∧
        g'.m_adjudicator = g.m_adjudicator) ∧
      (env.isNone (env.result (env.makeMove g.m_board move)) = true →
        g'.m_adjudicator =
          env.addEval
            (if env.reversibleMoveCount (env.makeMove g.m_board move) = 0 then
              env.resetDrawMoveCount g.m_adjudicator else g.m_adjudicator)
            (env.makeMove g.m_board move) eval ∧
        g'.m_result = env.adjudicatorResult g'.m_adjudicator) ∧
      g'.m_finished = !env.isNone g'.m_result ∧
      g'.m_gameInProgress = env.isNone g'.m_result ∧
      (env.isNone g'.m_result = true →
        ∃ g8 gA gB, recordMove env eval move g = some g8 ∧ emitLastMove env g8 = some gA ∧
          startTurn env gA = some gB ∧ g' = updateLiveFiles canOpen streamOk gB ∧
          (g.m_paused = true → gB = gA) ∧
          (g.m_paused = false →
            ∃ mover waiter : Nat,
              player g (env.sideToMove (env.makeMove g.m_board move)) = some mover ∧
              player g (env.sideToMove (env.makeMove g.m_board move)).opposite =
                some waiter ∧
              ((∃ bookMove : M,
                  gB = { gA with log := gA.log ++ [Event.humanEnabled (env.isHuman mover),
                    Event.playerClearPonderState waiter,
                    Event.playerMakeBookMove mover bookMove] }) ∨
               (∃ warnings : List (Event M),
                  (warnings = [] ∨ ∃ text, warnings = [Event.warning text]) ∧
                  gB = { gA with log := gA.log ++ [Event.humanEnabled (env.isHuman mover)] ++
                    warnings ++
                    [Event.playerGo mover, Event.playerStartPondering waiter] })))) ∧
      (env.isNone g'.m_result = false →
        ∃ g8 gA gB, recordMove env eval move g = some g8 ∧ stop env false g8 = some gA ∧
          emitLastMove env gA = some gB ∧ g' = updateLiveFiles canOpen streamOk gB) := by
  have hside : env.sideToMove g.m_board ≠ Side.NoSide := by
    intro hs
    unfold playerToMove at hturn
    rw [if_pos hs] at hturn
    cases hturn
  obtain ⟨waiter, P, hrec, hPne⟩ := recordMove_shape env eval move g w b hw hb hundo hside
  rw [onMoveMade_accepted env assertions canOpen streamOk sender eval move g hprog hlegal hturn,
    hrec]
  generalize hg8 : ({ g with
      m_scores := setScore g.m_scores g.m_moves.length eval.score,
      m_moves := g.m_moves ++ [move],
      m_pgn := P,
      m_board := env.makeMove g.m_board move,
      m_result :=
        if env.isNone (env.result (env.makeMove g.m_board move)) then
          env.adjudicatorResult (env.addEval
            (if env.reversibleMoveCount (env.makeMove g.m_board move) = 0 then
              env.resetDrawMoveCount g.m_adjudicator else g.m_adjudicator)
            (env.makeMove g.m_board move) eval)
        else env.result (env.makeMove g.m_board move),
      m_adjudicator :=
        if env.isNone (env.result (env.makeMove g.m_board move)) then
          env.addEval
            (if env.reversibleMoveCount (env.makeMove g.m_board move) = 0 then
              env.resetDrawMoveCount g.m_adjudicator else g.m_adjudicator)
            (env.makeMove g.m_board move) eval
        else g.m_adjudicator,
      log := g.log ++ [Event.playerMakeMove waiter move] } : ChessGame B A M) = g8 at hrec ⊢
  have e1 : g8.m_board = env.makeMove g.m_board move := by rw [← hg8]
  have e2 : g8.m_moves = g.m_moves ++ [move] := by rw [← hg8]
  have e3 : g8.m_finished = false := by rw [← hg8]; exact hfin
  have e4 : g8.m_gameInProgress = true := by rw [← hg8]; exact hprog
  have e5 : g8.m_playerWhite = some w := by rw [← hg8]; exact hw
  have e6 : g8.m_playerBlack = some b := by rw [← hg8]; exact hb
  have e7 : g8.m_pgn.m_moves ≠ [] := by rw [← hg8]; exact hPne
  have e10 : g8.m_paused = g.m_paused := by rw [← hg8]
  have e8 : env.isNone (env.result (env.makeMove g.m_board move)) = false →
      g8.m_result = env.result (env.makeMove g.m_board move) ∧
      g8.m_adjudicator = g.m_adjudicator := by
    intro hn
    rw [← hg8]
    simp [hn]
  have e9 : env.isNone (env.result (env.makeMove g.m_board move)) = true →
      g8.m_adjudicator =
        env.addEval
          (if env.reversibleMoveCount (env.makeMove g.m_board move) = 0 then
            env.resetDrawMoveCount g.m_adjudicator else g.m_adjudicator)
          (env.makeMove g.m_board move) eval ∧
      g8.m_result = env.adjudicatorResult g8.m_adjudicator := by
    intro hn
    rw [← hg8]
    simp [hn]
  clear hg8
  simp only
  by_cases hR : env.isNone g8.m_result = true
  · rw [if_pos hR]
    obtain ⟨evs1, hA⟩ := emitLastMove_some env g8 e7
    obtain ⟨evs2, hB⟩ := startTurn_some env { g8 with log := g8.log ++ evs1 } w b e5 e6
      (by rw [e1] at *; exact hnext)
    obtain ⟨P2, file, hU⟩ := updateLiveFiles_frame canOpen streamOk
      { g8 with log := g8.log ++ evs1 ++ evs2 }
    rw [hA]
    simp only
    rw [hB]
    simp only
    refine ⟨_, rfl, ?_, ?_, ?_, ?_, ?_, ?_, ?_, ?_⟩
    · rw [hU]; exact e1
    · rw [hU]; exact e2
    · rw [hU]; exact e8
    · rw [hU]; exact e9
    · rw [hU]
      show g8.m_finished = !env.isNone g8.m_result
      rw [e3, hR]
      rfl
    · rw [hU]
      show g8.m_gameInProgress = env.isNone g8.m_result
      rw [e4, hR]
    · intro _
      refine ⟨g8, _, _, rfl, hA, hB, rfl, ?_, ?_⟩
      · intro hpz
        have hp := startTurn_paused env { g8 with log := g8.log ++ evs1 }
          (by rw [← hpz]; exact e10)
        rw [hB] at hp
        exact Option.some.inj hp
      · intro hpz
        have hpA : ({ g8 with log := g8.log ++ evs1 } : ChessGame B A M).m_paused = false := by
          rw [← hpz]
          exact e10
        have hpl : ∃ mover waiter : Nat,
            player g (env.sideToMove (env.makeMove g.m_board move)) = some mover ∧
            player g (env.sideToMove (env.makeMove g.m_board move)).opposite = some waiter ∧
            player ({ g8 with log := g8.log ++ evs1 } : ChessGame B A M)
              (env.sideToMove g8.m_board) = some mover ∧
            player ({ g8 with log := g8.log ++ evs1 } : ChessGame B A M)
              (env.sideToMove g8.m_board).opposite = some waiter := by
          rw [e1]
          cases hs : env.sideToMove (env.makeMove g.m_board move) with
          | White => exact ⟨w, b, hw, hb, e5, e6⟩
          | Black => exact ⟨b, w, hb, hw, e6, e5⟩
          | NoSide => exact absurd hs hnext
        obtain ⟨mover, waiter, p1, p2, p3, p4⟩ := hpl
        obtain ⟨t1, t2⟩ := startTurn_turn env { g8 with log := g8.log ++ evs1 } mover waiter
          hpA p3 p4
        refine ⟨mover, waiter, p1, p2, ?_⟩
        cases hbk : (bookMove env (env.sideToMove g8.m_board)
            (emit [Event.humanEnabled (env.isHuman mover)]
              { g8 with log := g8.log ++ evs1 })).1 with
        | some bm =>
          left
          have h1 := t1 bm hbk
          rw [hB] at h1
          exact ⟨bm, Option.some.inj h1⟩
        | none =>
          right
          obtain ⟨warnings, hwn, h1⟩ := t2 hbk
          rw [hB] at h1
          exact ⟨warnings, hwn, Option.some.inj h1⟩
    · intro hc
      rw [hU] at hc
      change env.isNone g8.m_result = false at hc
      rw [hR] at hc
      cases hc
  · rw [if_neg hR]
    have hR' : env.isNone g8.m_result = false := by simpa using hR
    obtain ⟨i, P1, evs1, hS, hlen, _⟩ := stop_running env false g8 w b e3 e4 e5 e6
    have hne1 : P1.m_moves ≠ [] := by
      intro h0
      rw [h0] at hlen
      exact e7 (List.length_eq_zero.1 hlen.symm)
    obtain ⟨evs2, hB⟩ := emitLastMove_some env
      { g8 with m_finished := true, m_gameInProgress := false, m_pgnInitialized := i,
                m_pgn := P1, log := g8.log ++ evs1 } hne1
    obtain ⟨P2, file, hU⟩ := updateLiveFiles_frame canOpen streamOk
      { g8 with m_finished := true, m_gameInProgress := false, m_pgnInitialized := i,
                m_pgn := P1, log := g8.log ++ evs1 ++ evs2 }
    rw [hS]
    simp only
    rw [hB]
    simp only
    refine ⟨_, rfl, ?_, ?_, ?_, ?_, ?_, ?_, ?_, ?_⟩
    · rw [hU]; exact e1
    · rw [hU]; exact e2
    · rw [hU]; exact e8
    · rw [hU]; exact e9
    · rw [hU]
      show true = !env.isNone g8.m_result
      rw [hR']
      rfl
    · rw [hU]
      show false = env.isNone g8.m_result
      rw [hR']
    · intro hc
      rw [hU] at hc
      change env.isNone g8.m_result = true at hc
      rw [hR'] at hc
      cases hc
    · intro _
      exact ⟨g8, _, _, rfl, hS, hB, rfl⟩

/-- Witness of C26 amended: White (player 1) makes the first move of the sample game; the
rules engine and the adjudicator give no result, and the game goes on. -/
theorem C26_result_of_accepted_move_witness :
    ∃ g', onMoveMade sampleEnv true true true 1 sampleEval 0 sampleGame = some g' ∧
      g'.m_board = 1 ∧ g'.m_moves = [0] ∧ g'.m_adjudicator = 1 ∧
      g'.m_finished = !sampleEnv.isNone g'.m_result := by
  obtain ⟨g', h1, h2, h3, _, h5, h6, _⟩ := C26_result_of_accepted_move sampleEnv true true true
    1 sampleEval 0 sampleGame 1 2 rfl rfl rfl (by decide) rfl rfl (fun x m => by
      show x + 1 - 1 = x
      omega) (by decide)
  exact ⟨g', h1, h2, h3, (h5 rfl).1, h6⟩

end Game
namespace Game

open Pgn

/-- The characters of the decimal digits. -/
theorem digitChar_digit (k : Nat) (h : k < 10) :
    Nat.digitChar k ∈ ['0', '1', '2', '3', '4', '5', '6', '7', '8', '9'] := by
  interval_cases k <;> decide

theorem digitChar_zero (k : Nat) (h : k < 10) (hz : Nat.digitChar k = '0') : k = 0 := by
  interval_cases k <;> first | rfl | (exfalso; revert hz; decide)

theorem toDigitsCore_mem : ∀ (f n : Nat) (ds : List Char) (c : Char),
    c ∈ Nat.toDigitsCore 10 f n ds →
    c ∈ ds ∨ c ∈ ['0', '1', '2', '3', '4', '5', '6', '7', '8', '9'] := by
  intro f
  induction f with
  | zero =>
    intro n ds c h
    exact Or.inl h
  | succ f ih =>
    intro n ds c h
    unfold Nat.toDigitsCore at h
    simp only at h
    have hd := digitChar_digit (n % 10) (Nat.mod_lt _ (by decide))
    split at h
    · rcases List.mem_cons.1 h with rfl | h'
      · exact Or.inr hd
      · exact Or.inl h'
    · rcases ih _ _ _ h with h' | h'
      · rcases List.mem_cons.1 h' with rfl | h''
        · exact Or.inr hd
        · exact Or.inl h''
      · exact Or.inr h'

theorem toDigitsCore_length_ge : ∀ (f n : Nat) (ds : List Char),
    ds.length ≤ (Nat.toDigitsCore 10 f n ds).length := by
  intro f
  induction f with
  | zero => intro n ds; exact le_refl _
  | succ f ih =>
    intro n ds
    unfold Nat.toDigitsCore
    simp only
    split
    · simp
    · have := ih (n / 10) (Nat.digitChar (n % 10) :: ds)
      simp only [List.length_cons] at this
      omega

theorem toDigitsCore_length_succ (f n : Nat) (ds : List Char) :
    ds.length + 1 ≤ (Nat.toDigitsCore 10 (f + 1) n ds).length := by
  unfold Nat.toDigitsCore
  simp only
  split
  · simp
  · have := toDigitsCore_length_ge f (n / 10) (Nat.digitChar (n % 10) :: ds)
    simp only [List.length_cons] at this
    exact this

theorem number_eq (n : Nat) : number n = Nat.toDigitsCore 10 (n + 1) n [] := rfl

theorem number_digits (n : Nat) (c : Char) (h : c ∈ number n) :
    c ∈ ['0', '1', '2', '3', '4', '5', '6', '7', '8', '9'] := by
  rw [number_eq] at h
  rcases toDigitsCore_mem _ _ _ _ h with h' | h'
  · cases h'
  · exact h'

theorem number_ne_nil (n : Nat) : number n ≠ [] := by
  intro h
  have := toDigitsCore_length_succ n n []
  rw [← number_eq, h] at this
  simp at this

theorem number_zero_text (n : Nat) (h : number n = ['0']) : n = 0 := by
  rw [number_eq] at h
  unfold Nat.toDigitsCore at h
  simp only at h
  split at h
  · rename_i hq
    have hlt : n < 10 := by omega
    simp only [List.cons.injEq, and_true] at h
    rw [Nat.mod_eq_of_lt hlt] at h
    exact digitChar_zero n hlt h
  · rename_i hq
    have hpos : 1 ≤ n := by
      by_contra hc
      have : n = 0 := by omega
      rw [this] at hq
      exact hq rfl
    obtain ⟨m, rfl⟩ : ∃ m, n = m + 1 := ⟨n - 1, by omega⟩
    have := toDigitsCore_length_succ m ((m + 1) / 10) [Nat.digitChar ((m + 1) % 10)]
    rw [h] at this
    simp at this

theorem zeroText_eq : "0.00".toList = ['0', '.', '0', '0'] := rfl

theorem fixed2_zero : fixed2 0 = "0.00".toList := by
  decide

theorem fixed2_neg (score : Int) (h : score < 0) : fixed2 score = '-' :: fixed2 (-score) := by
  unfold fixed2
  rw [if_pos h, if_neg (by omega), Int.natAbs_neg]
  rfl

theorem fixed2_head (score : Int) (h : 0 ≤ score) : (fixed2 score).head? ≠ some '-' := by
  unfold fixed2
  rw [if_neg (by omega)]
  cases hn : number (score.natAbs / 100) with
  | nil => exact absurd hn (number_ne_nil _)
  | cons c rest =>
    have hc := number_digits (score.natAbs / 100) c (by rw [hn]; exact List.mem_cons_self _ _)
    simp only [List.nil_append, List.cons_append, List.head?_cons]
    intro e
    cases e
    revert hc
    decide

theorem fixed2_ne_zero (score : Int) (h : 0 < score) : fixed2 score ≠ "0.00".toList := by
  unfold fixed2
  rw [if_neg (by omega), zeroText_eq]
  intro e
  cases hn : number (score.natAbs / 100) with
  | nil => exact absurd hn (number_ne_nil _)
  | cons c rest =>
    rw [hn] at e
    simp only [List.nil_append, List.cons_append, List.cons.injEq] at e
    obtain ⟨hc, hrest⟩ := e
    cases rest with
    | nil =>
      simp only [List.nil_append, List.cons.injEq, and_true, true_and] at hrest
      obtain ⟨h1, h0⟩ := hrest
      have hq := number_zero_text _ (by rw [hn, hc])
      have z1 := digitChar_zero _ (by omega) h1
      have z0 := digitChar_zero _ (Nat.mod_lt _ (by decide)) h0
      omega
    | cons c2 rest2 =>
      have hc2 := number_digits (score.natAbs / 100) c2 (by rw [hn]; simp)
      simp only [List.cons_append, List.cons.injEq] at hrest
      rw [hrest.1] at hc2
      revert hc2
      decide

theorem whiteView_white (t : QString) : whiteView Side.White t = t := by
  unfold whiteView
  rw [if_neg (by rintro ⟨h, _⟩; cases h)]

theorem whiteView_zero : whiteView Side.Black "0.00".toList = "0.00".toList := by
  decide

theorem whiteView_minus (rest : QString) : whiteView Side.Black ('-' :: rest) = rest := by
  unfold whiteView
  rw [if_pos ⟨rfl, by rw [zeroText_eq]; intro h; cases h⟩]
  have hh : ('-' :: rest).head? = some '-' := rfl
  rw [if_pos hh]
  have : ('-' :: rest).length - (('-' :: rest).length - 1) = 1 := by
    simp only [List.length_cons]
    omega
  rw [this]
  rfl

theorem whiteView_plus (t : QString) (hz : t ≠ "0.00".toList) (hh : t.head? ≠ some '-') :
    whiteView Side.Black t = '-' :: t := by
  unfold whiteView
  rw [if_pos ⟨rfl, hz⟩, if_neg hh]
  rfl

theorem qAbs_eq (score : Int) (hlo : -(2 : Int) ^ 31 < score) (hhi : score < (2 : Int) ^ 31) :
    qAbs score = (score.natAbs : Int) := by
  unfold qAbs MachineInt.wrap32
  by_cases h : score ≥ 0
  · rw [if_pos h]
    omega
  · rw [if_neg h]
    omega

/-- C39: for an `int` score other than the least (for which `qAbs` and the negation
overflow) and every depth, the text that `evalString` writes after `wv=` when Black is to
move is the score text of the negated score, and when White is to move it is the score text
itself.  At a depth above 0, a score with `|score| > 9900` and
`n = 1000 - (|score| mod 1000) < 100` has the score text `M<n>`, preceded by `-` when the
score is negative, and any other score has the text of `score / 100` with two decimals; at
a depth of 0 or less the score text is `0.00`. -/
theorem C39_white_view_is_negated_score (depth score : Int)
    (hlo : -(2 : Int) ^ 31 < score) (hhi : score < (2 : Int) ^ 31) :
    whiteView Side.Black (scoreText depth score) = scoreText depth (-score) ∧
    whiteView Side.White (scoreText depth score) = scoreText depth score ∧
    (0 < depth → score.natAbs > 9900 → 1000 - score.natAbs % 1000 < 100 →
      scoreText depth score =
        (if score < 0 then ['-'] else []) ++
          ('M' :: number (1000 - score.natAbs % 1000))) ∧
    (0 < depth → ¬ (score.natAbs > 9900 ∧ 1000 - score.natAbs % 1000 < 100) →
      scoreText depth score = fixed2 score) ∧
    (depth ≤ 0 → scoreText depth score = "0.00".toList) := by
  have ha := qAbs_eq score hlo hhi
  have han := qAbs_eq (-score) (by omega) (by omega)
  rw [Int.natAbs_neg] at han
  have hcond : (qAbs score > 9900 ∧ 1000 - qAbs score % 1000 < 100) ↔
      (score.natAbs > 9900 ∧ 1000 - score.natAbs % 1000 < 100) := by
    rw [ha]
    omega
  have hn : (1000 - qAbs score % 1000).toNat = 1000 - score.natAbs % 1000 := by
    rw [ha]
    omega
  have hmate : 0 < depth → score.natAbs > 9900 → 1000 - score.natAbs % 1000 < 100 →
      scoreText depth score =
        (if score < 0 then ['-'] else []) ++
          ('M' :: number (1000 - score.natAbs % 1000)) := by
    intro hd h1 h2
    unfold scoreText
    rw [if_pos hd]
    simp only
    rw [if_pos (hcond.2 ⟨h1, h2⟩), hn]
    rfl
  have hreg : 0 < depth → ¬ (score.natAbs > 9900 ∧ 1000 - score.natAbs % 1000 < 100) →
      scoreText depth score = fixed2 score := by
    intro hd hm
    unfold scoreText
    rw [if_pos hd]
    simp only
    rw [if_neg (fun h => hm (hcond.1 h))]
  have hlow : depth ≤ 0 → scoreText depth score = "0.00".toList := by
    intro hd
    unfold scoreText
    rw [if_neg (by omega)]
  refine ⟨?_, whiteView_white _, hmate, hreg, hlow⟩
  by_cases hd : 0 < depth
  · by_cases hm : score.natAbs > 9900 ∧ 1000 - score.natAbs % 1000 < 100
    · have hneg : scoreText depth (-score) =
          (if -score < 0 then ['-'] else []) ++
            ('M' :: number (1000 - score.natAbs % 1000)) := by
        unfold scoreText
        rw [if_pos hd]
        simp only
        rw [han, ← ha, if_pos (hcond.2 hm), hn]
        rfl
      rw [hmate hd hm.1 hm.2, hneg]
      by_cases hs : score < 0
      · rw [if_pos hs, if_neg (by omega)]
        exact whiteView_minus _
      · have hpos : 0 < score := by omega
        rw [if_neg hs, if_pos (by omega)]
        exact whiteView_plus _ (by rw [zeroText_eq]; intro h; cases h)
          (by intro h; cases h)
    · have hneg : scoreText depth (-score) = fixed2 (-score) := by
        unfold scoreText
        rw [if_pos hd]
        simp only
        rw [han, ← ha, if_neg (fun h => hm (hcond.1 h))]
      rw [hreg hd hm, hneg]
      rcases lt_trichotomy score 0 with hs | hs | hs
      · rw [fixed2_neg score hs]
        exact whiteView_minus _
      · subst hs
        rw [fixed2_zero]
        exact whiteView_zero
      · rw [fixed2_neg (-score) (by omega), neg_neg]
        exact whiteView_plus _ (fixed2_ne_zero score hs) (fixed2_head score (by omega))
  · have hd' : depth ≤ 0 := by omega
    have hneg : scoreText depth (-score) = "0.00".toList := by
      unfold scoreText
      rw [if_neg hd]
    rw [hlow hd', hneg]
    exact whiteView_zero

/-- Witness of C39: a mate score of 9995 at depth 12, seen by Black, and its text. -/
theorem C39_white_view_is_negated_score_witness :
    whiteView Side.Black (scoreText 12 9995) = scoreText 12 (-9995) ∧
    scoreText 12 9995 = "M5".toList ∧ scoreText 12 (-9995) = "-M5".toList ∧
    scoreText 12 (-25) = "-0.25".toList ∧ scoreText 0 (-25) = "0.00".toList := by
  refine ⟨(C39_white_view_is_negated_score 12 9995 (by decide) (by decide)).1, ?_, ?_, ?_, ?_⟩
    <;> decide

end Game
